import Mathlib

/-!
# Allocator substrate and counter service of the graph database

A shallow embedding of `src/utils/memory.cpp` (`MonotonicBufferResource`,
`impl::Pool`, `PoolResource`) and of `src/database/counters.cpp`
(`SingleNodeCounters`), followed by theorems about them.

Conventions of the embedding.

* `size_t` and `uintptr_t` are 64 bits wide (the source asserts that they are the
  same type); arithmetic on them is arithmetic on `Nat` reduced modulo `2 ^ 64`.
* A member function becomes a function that takes the object and the machine state
  and returns the outcome together with the new object and machine state, so that the
  state left behind by a thrown exception is observable.
* A C++ pointer into a `std::vector` is the index of the element; dereferencing an
  index that is not inside the vector is undefined behaviour (`Exn.Undefined`).
* The upstream `MemoryResource` is an arbitrary function of the history of requests;
  every request made to it is recorded in the machine's log.
* Storage that the containers themselves (`chunks_`, `pools_`, `unpooled_`) obtain is
  not modelled: `push_back`, `insert` and `emplace` do not throw.
-/

namespace utils

/-! ## Machine integers -/

/-- Largest value of `size_t`, `std::numeric_limits<size_t>::max()`. -/
def SIZE_MAX : Nat := 2 ^ 64 - 1

/-- Reduction of a natural number to a `size_t` / `uintptr_t` value. -/
def wrap (n : Nat) : Nat := n % 2 ^ 64

/-- Subtraction of `size_t` / pointer values, modulo `2 ^ 64`. -/
def sub64 (a b : Nat) : Nat := (a + (2 ^ 64 - b % 2 ^ 64)) % 2 ^ 64

/-- Reduction of a natural number to an `unsigned char`. -/
def to_uchar (n : Nat) : Nat := n % 256

/-! ## Exceptions, upstream resource, machine state -/

/-- The `what` of a thrown `utils::BadAlloc`. -/
inductive BadAllocReason
  /-- "Alignment greater than alignof(std::max_align_t) is unsupported" -/
  | AlignmentUnsupported
  /-- "Allocation size overflow" -/
  | AllocationSizeOverflow
  /-- "Allocation alignment overflow" -/
  | AllocationAlignmentOverflow
  /-- "Requested bytes must be a multiple of alignment" -/
  | NotMultipleOfAlignment
  /-- Thrown by the upstream resource itself. -/
  | Upstream
  deriving DecidableEq, Repr

/-- Abnormal outcomes of a call. -/
inductive Exn
  /-- A thrown `utils::BadAlloc`. -/
  | BadAlloc (why : BadAllocReason)
  /-- A failed glog `CHECK`, which aborts the process. -/
  | CheckFailed
  /-- Undefined behaviour: a dangling pointer is dereferenced or an integer is divided by zero. -/
  | Undefined
  deriving DecidableEq, Repr

/-- One request made to the upstream `MemoryResource`. -/
inductive UpEvent
  /-- `Allocate(bytes, alignment)` and what it returned (`none`: it threw). -/
  | alloc (bytes alignment : Nat) (result : Option Nat)
  /-- `Deallocate(p, bytes, alignment)`. -/
  | dealloc (p bytes alignment : Nat)
  deriving DecidableEq, Repr

/-- What the code is compiled and run against: the upstream memory resource and the
constants and helpers that are declared outside `memory.cpp`. -/
structure Env where
  /-- The upstream resource: from the requests made so far and `(bytes, alignment)` to
  the returned address, or `none` when it throws. -/
  upstream : List UpEvent → Nat → Nat → Option Nat
  /-- The value of `alignof(std::max_align_t)`. -/
  max_align : Nat
  /-- The value of `sizeof(Buffer)` of `MonotonicBufferResource::Buffer`. -/
  sizeof_Buffer : Nat
  /-- The function `utils::Ceil2` of `utils/math.hpp`. -/
  Ceil2 : Nat → Nat
  /-- The value of `impl::Pool::MaxBlocksInChunk()`. -/
  MaxBlocksInChunk : Nat

/-- The machine state outside the resource objects: the bytes the pools have written into
raw memory (most recent write first) and the log of upstream requests (oldest first). -/
structure Machine where
  mem : List (Nat × Nat)
  log : List UpEvent
  deriving DecidableEq, Repr

/-- Read of the byte at an address; a byte never written reads as `0`. -/
def Machine.read (m : Machine) (a : Nat) : Nat :=
  match m.mem.lookup a with
  | some v => v
  | none => 0

/-- Write of one byte (`unsigned char`) at an address. -/
def Machine.write (m : Machine) (a v : Nat) : Machine :=
  { m with mem := (a, to_uchar v) :: m.mem }

/-- Call of `GetUpstreamResource()->Allocate(bytes, alignment)`. -/
def Upstream.Allocate (env : Env) (bytes alignment : Nat) (m : Machine) :
    Except Exn Nat × Machine :=
  match env.upstream m.log bytes alignment with
  | some p => (.ok p, { m with log := m.log ++ [UpEvent.alloc bytes alignment (some p)] })
  | none =>
    (.error (.BadAlloc .Upstream), { m with log := m.log ++ [UpEvent.alloc bytes alignment none] })

/-- Call of `GetUpstreamResource()->Deallocate(p, bytes, alignment)`. -/
def Upstream.Deallocate (p bytes alignment : Nat) (m : Machine) : Machine :=
  { m with log := m.log ++ [UpEvent.dealloc p bytes alignment] }

/-! ## `GrowMonotonicBuffer`: IEEE 754 binary64 arithmetic on non-negative values -/

/-- Number of binary digits of `n`, computed with at most `fuel` halvings. -/
def bit_length_aux : Nat → Nat → Nat
  | 0, _ => 0
  | fuel + 1, n => if n = 0 then 0 else bit_length_aux fuel (n / 2) + 1

/-- Number of binary digits of `n` (`0` for `0`). -/
def bit_length (n : Nat) : Nat := bit_length_aux n n

/-- Rounding of a natural number to the nearest number with a 53-bit significand, ties to
even: the conversion to `double` and the rounding of a `double` product. The rounding does
not depend on a scaling by a power of two. -/
def round_to_double (n : Nat) : Nat :=
  if bit_length n ≤ 53 then n
  else
    let d := bit_length n - 53
    let q := n / 2 ^ d
    let r := n % 2 ^ d
    let half := 2 ^ (d - 1)
    let q1 := if half < r ∨ (r = half ∧ q % 2 = 1) then q + 1 else q
    q1 * 2 ^ d

/-- The `double` nearest to `1.34` is `double_1_34 / 2 ^ 52` (`0x1.570a3d70a3d71p+0`). -/
def double_1_34 : Nat := 6034823500676465

/-- Embedding of `GrowMonotonicBuffer(current_size, max_size)`; `next_size` is held scaled
by `2 ^ 52`. -/
def GrowMonotonicBuffer (current_size max_size : Nat) : Nat :=
  let next_size := round_to_double (round_to_double current_size * double_1_34)
  if round_to_double max_size * 2 ^ 52 ≤ next_size then max_size
  else (next_size + (2 ^ 52 - 1)) / 2 ^ 52

/-! ## `std::align` -/

/-- The function `std::align(alignment, size, ptr, space)` for an alignment that is a power
of two: `none` when it returns `nullptr` (and changes nothing), otherwise the new `ptr`
and `space`. For a power of two `x & -alignment` is `x - x % alignment`. -/
def std_align (alignment size ptr space : Nat) : Option (Nat × Nat) :=
  if space < size then none
  else
    let x := wrap (ptr + alignment + (2 ^ 64 - 1))
    let aligned := x - x % alignment
    let diff := sub64 aligned ptr
    if space - size < diff then none else some (aligned, space - diff)

/-! ## `MonotonicBufferResource` -/

/-- One `Buffer` header of the owned chain: its address (the pointer obtained from
upstream) and its `capacity`. The `next` link is the tail of the list that holds it. -/
structure Buffer where
  addr : Nat
  capacity : Nat
  deriving DecidableEq, Repr

/-- Embedding of `Buffer::data()`: the bytes that follow the header. -/
def Buffer.data (env : Env) (b : Buffer) : Nat := wrap (b.addr + env.sizeof_Buffer)

/-- The members of `MonotonicBufferResource`; `current_buffer_` is the chain, newest buffer
first, and the empty list is `nullptr`. -/
structure MonotonicBufferResource where
  current_buffer_ : List Buffer
  initial_buffer_ : Option Nat
  initial_size_ : Nat
  next_buffer_size_ : Nat
  allocated_ : Nat
  deriving DecidableEq, Repr

namespace MonotonicBufferResource

/-- Modelled from the spec: the default member initializer of `next_buffer_size_` is in
`utils/memory.hpp`, which is not among the sources; the chain grows geometrically from the
initial size, so the member starts at `initial_size_`. Embedding of
`MonotonicBufferResource(size_t initial_size)`. -/
def of_initial_size (initial_size : Nat) : MonotonicBufferResource :=
  { current_buffer_ := [], initial_buffer_ := none, initial_size_ := initial_size,
    next_buffer_size_ := initial_size, allocated_ := 0 }

/-- Embedding of `MonotonicBufferResource(void *buffer, size_t buffer_size, MemoryResource *)`. -/
def of_buffer (env : Env) (buffer : Option Nat) (buffer_size : Nat) : MonotonicBufferResource :=
  { current_buffer_ := [], initial_buffer_ := buffer, initial_size_ := buffer_size,
    next_buffer_size_ := GrowMonotonicBuffer buffer_size (SIZE_MAX - env.sizeof_Buffer),
    allocated_ := 0 }

/-- Embedding of `MonotonicBufferResource::Release`: walks the chain from the current buffer
and hands every buffer back to upstream. -/
def Release (env : Env) (self : MonotonicBufferResource) (m : Machine) :
    MonotonicBufferResource × Machine :=
  ({ self with current_buffer_ := [], allocated_ := 0 },
   self.current_buffer_.foldl
     (fun m1 b => Upstream.Deallocate b.addr (wrap (env.sizeof_Buffer + b.capacity)) env.max_align m1)
     m)

/-- The lambda `push_current_buffer` of `DoAllocate`; on success it also returns the buffer it
has made the current one. -/
def push_current_buffer (env : Env) (bytes next_size : Nat) (self : MonotonicBufferResource)
    (m : Machine) : Except Exn Buffer × MonotonicBufferResource × Machine :=
  let capacity := if next_size > bytes then next_size else bytes
  let alloc_size := wrap (env.sizeof_Buffer + capacity)
  if alloc_size ≤ capacity then (.error (.BadAlloc .AllocationSizeOverflow), self, m)
  else
    match Upstream.Allocate env alloc_size env.max_align m with
    | (.error e, m1) => (.error e, self, m1)
    | (.ok ptr, m1) =>
      (.ok ⟨ptr, capacity⟩,
       { self with current_buffer_ := ⟨ptr, capacity⟩ :: self.current_buffer_, allocated_ := 0 },
       m1)

/-- The two overflow checks and the final assignment at the end of `DoAllocate`. -/
def finish_allocation (bytes data buffer_head aligned_ptr : Nat) (self : MonotonicBufferResource)
    (m : Machine) : Except Exn Nat × MonotonicBufferResource × Machine :=
  if aligned_ptr < buffer_head then (.error (.BadAlloc .AllocationAlignmentOverflow), self, m)
  else if wrap (aligned_ptr + bytes) ≤ aligned_ptr then
    (.error (.BadAlloc .AllocationSizeOverflow), self, m)
  else (.ok aligned_ptr, { self with allocated_ := wrap (sub64 aligned_ptr data + bytes) }, m)

/-- The part of `DoAllocate` that follows the choice of `data` and `data_capacity`. -/
def allocate_in (env : Env) (bytes alignment data data_capacity : Nat)
    (self : MonotonicBufferResource) (m : Machine) :
    Except Exn Nat × MonotonicBufferResource × Machine :=
  let buffer_head := wrap (data + self.allocated_)
  let available := sub64 data_capacity self.allocated_
  match std_align alignment bytes buffer_head available with
  | some (aligned_ptr, _) => finish_allocation bytes data buffer_head aligned_ptr self m
  | none =>
    match push_current_buffer env bytes self.next_buffer_size_ self m with
    | (.error e, self1, m1) => (.error e, self1, m1)
    | (.ok b, self1, m1) =>
      let data1 := b.data env
      let next := GrowMonotonicBuffer self1.next_buffer_size_ (SIZE_MAX - env.sizeof_Buffer)
      let self2 := { self1 with next_buffer_size_ := next }
      finish_allocation bytes data1 data1 data1 self2 m1

/-- Embedding of `MonotonicBufferResource::DoAllocate(bytes, alignment)`. -/
def DoAllocate (env : Env) (bytes alignment : Nat) (self : MonotonicBufferResource)
    (m : Machine) : Except Exn Nat × MonotonicBufferResource × Machine :=
  if alignment > env.max_align then (.error (.BadAlloc .AlignmentUnsupported), self, m)
  else
    match self.current_buffer_ with
    | b :: _ => allocate_in env bytes alignment (b.data env) b.capacity self m
    | [] =>
      match self.initial_buffer_ with
      | some buffer => allocate_in env bytes alignment buffer self.initial_size_ self m
      | none =>
        match push_current_buffer env bytes self.initial_size_ self m with
        | (.error e, self1, m1) => (.error e, self1, m1)
        | (.ok b, self1, m1) => allocate_in env bytes alignment (b.data env) b.capacity self1 m1

/-- The requests `Release` makes to upstream for a chain of buffers: one `Deallocate` per
buffer, from the current buffer on, with the size `sizeof(Buffer) + capacity`. -/
def release_requests (env : Env) (chain : List Buffer) : List UpEvent :=
  chain.map (fun b => UpEvent.dealloc b.addr (wrap (env.sizeof_Buffer + b.capacity)) env.max_align)

/-- Every buffer of the chain has been obtained from upstream: the log holds the request of
`sizeof(Buffer) + capacity` bytes that returned its address. -/
def chain_obtained (env : Env) (self : MonotonicBufferResource) (m : Machine) : Prop :=
  ∀ b ∈ self.current_buffer_,
    UpEvent.alloc (wrap (env.sizeof_Buffer + b.capacity)) env.max_align (some b.addr) ∈ m.log

/-- The states a resource and the machine can be in: after one of the two constructors, and
after any number of calls of `DoAllocate` and `Release`, whatever their outcome. -/
inductive Reachable (env : Env) : MonotonicBufferResource → Machine → Prop
  | of_initial_size (initial_size : Nat) (m : Machine) :
      Reachable env (of_initial_size initial_size) m
  | of_buffer (buffer : Option Nat) (buffer_size : Nat) (m : Machine) :
      Reachable env (of_buffer env buffer buffer_size) m
  | DoAllocate (bytes alignment : Nat) (self : MonotonicBufferResource) (m : Machine) :
      Reachable env self m →
      Reachable env (DoAllocate env bytes alignment self m).2.1
        (DoAllocate env bytes alignment self m).2.2
  | Release (self : MonotonicBufferResource) (m : Machine) :
      Reachable env self m → Reachable env (Release env self m).1 (Release env self m).2

/-- Successive calls `Allocate(bytes, alignment)` for the sizes of a list, in the order of
the list, stopping at the first one that fails; the addresses are listed in the same order. -/
def allocate_each (env : Env) (alignment : Nat) :
    List Nat → MonotonicBufferResource → Machine →
      Except Exn (List Nat) × MonotonicBufferResource × Machine
  | [], self, m => (.ok [], self, m)
  | bytes :: rest, self, m =>
    match DoAllocate env bytes alignment self m with
    | (.error e, self1, m1) => (.error e, self1, m1)
    | (.ok p, self1, m1) =>
      match allocate_each env alignment rest self1 m1 with
      | (.error e, self2, m2) => (.error e, self2, m2)
      | (.ok ps, self2, m2) => (.ok (p :: ps), self2, m2)

end MonotonicBufferResource

/-! ## Containers -/

/-- The search loop of `std::lower_bound` over `xs[first, first + len)`; `less x` is
`comp(x, value)`. Every round at least halves `len`, so `fuel = len` rounds are enough. -/
def lower_bound_loop {α : Type} (less : α → Bool) (xs : List α) : Nat → Nat → Nat → Nat
  | 0, first, _ => first
  | fuel + 1, first, len =>
    if len = 0 then first
    else
      let half := len / 2
      let middle := first + half
      match xs[middle]? with
      | none => first
      | some x =>
        if less x then lower_bound_loop less xs fuel (middle + 1) (len - half - 1)
        else lower_bound_loop less xs fuel first half

/-- The function `std::lower_bound(xs.begin(), xs.end(), value, comp)`, as an index
(`xs.length` is `xs.end()`). -/
def lower_bound {α : Type} (less : α → Bool) (xs : List α) : Nat :=
  lower_bound_loop less xs xs.length 0 xs.length

/-- The call `xs.insert(it, x)` / `xs.emplace(it, x)` of a vector at index `it`. -/
def insert_at {α : Type} (xs : List α) (it : Nat) (x : α) : List α :=
  xs.take it ++ x :: xs.drop it

/-- A range-for loop that returns at the first element satisfying `p`: the index and the
element, searched from index `i` on. -/
def find_first {α : Type} (p : α → Bool) : List α → Nat → Option (Nat × α)
  | [], _ => none
  | x :: xs, i => if p x then some (i, x) else find_first p xs (i + 1)

/-- Dereference of a pointer into a vector: `ok none` for `nullptr`, `Undefined` for an
index outside the vector. -/
def deref {α : Type} (xs : List α) : Option Nat → Except Exn (Option (Nat × α))
  | none => .ok none
  | some i =>
    match xs[i]? with
    | some x => .ok (some (i, x))
    | none => .error .Undefined

/-! ## `impl::Pool` -/

namespace impl

/-- The struct `Chunk`: `data` is the address of the chunk, the two counters are
`unsigned char`. -/
structure Chunk where
  data : Nat
  first_available_block_ix : Nat
  blocks_available : Nat
  deriving DecidableEq, Repr

/-- The members of `impl::Pool`; the two cached pointers are indices into `chunks_`. -/
structure Pool where
  blocks_per_chunk_ : Nat
  block_size_ : Nat
  chunks_ : List Chunk
  last_alloc_chunk_ : Option Nat
  last_dealloc_chunk_ : Option Nat
  deriving DecidableEq, Repr

namespace Pool

/-- Embedding of the constructor `Pool(block_size, blocks_per_chunk, memory)`;
`blocks_per_chunk` is an `unsigned char` parameter. -/
def create (block_size blocks_per_chunk : Nat) : Pool :=
  { blocks_per_chunk_ := to_uchar blocks_per_chunk, block_size_ := block_size, chunks_ := [],
    last_alloc_chunk_ := none, last_dealloc_chunk_ := none }

/-- The lambda `allocate_block_from_chunk` of `Allocate`, applied to the chunk at index `ix`. -/
def allocate_block_from_chunk (self : Pool) (ix : Nat) (chunk : Chunk) (m : Machine) :
    Nat × Pool :=
  let available_block := wrap (chunk.data + wrap (chunk.first_available_block_ix * self.block_size_))
  let chunk1 : Chunk :=
    { chunk with first_available_block_ix := m.read available_block,
                 blocks_available := to_uchar (chunk.blocks_available + 255) }
  (available_block, { self with chunks_ := self.chunks_.set ix chunk1 })

/-- The loop of `Allocate` that forms the free list of a new chunk: the first byte of block
`i` becomes `i + 1`, for `i` from `0` to `n - 1` in this order. -/
def form_free_list (data block_size : Nat) : Nat → Machine → Machine
  | 0, m => m
  | n + 1, m => (form_free_list data block_size n m).write (wrap (data + wrap (n * block_size))) (n + 1)

/-- The part of `Allocate` that obtains a new chunk from upstream. -/
def allocate_new_chunk (env : Env) (self : Pool) (m : Machine) : Except Exn Nat × Pool × Machine :=
  if self.blocks_per_chunk_ = 0 then (.error .Undefined, self, m)
  else if self.block_size_ > SIZE_MAX / self.blocks_per_chunk_ then
    (.error (.BadAlloc .AllocationSizeOverflow), self, m)
  else
    let data_size := wrap (self.blocks_per_chunk_ * self.block_size_)
    let alignment := env.Ceil2 self.block_size_
    if alignment < self.block_size_ then (.error (.BadAlloc .AllocationAlignmentOverflow), self, m)
    else
      match Upstream.Allocate env data_size alignment m with
      | (.error e, m1) => (.error e, self, m1)
      | (.ok data, m1) =>
        let m2 := form_free_list data self.block_size_ self.blocks_per_chunk_ m1
        let chunk : Chunk := ⟨data, 0, self.blocks_per_chunk_⟩
        let back := self.chunks_.length
        let self1 := { self with chunks_ := self.chunks_ ++ [chunk], last_alloc_chunk_ := some back,
                                 last_dealloc_chunk_ := some back }
        let r := allocate_block_from_chunk self1 back chunk m2
        (.ok r.1, r.2, m2)

/-- The part of `Allocate` that follows the test of `last_alloc_chunk_`. -/
def allocate_search (env : Env) (self : Pool) (m : Machine) : Except Exn Nat × Pool × Machine :=
  match find_first (fun c => decide (c.blocks_available > 0)) self.chunks_ 0 with
  | some (i, c) =>
    let r := allocate_block_from_chunk { self with last_alloc_chunk_ := some i } i c m
    (.ok r.1, r.2, m)
  | none => allocate_new_chunk env self m

/-- Embedding of `Pool::Allocate`. -/
def Allocate (env : Env) (self : Pool) (m : Machine) : Except Exn Nat × Pool × Machine :=
  match deref self.chunks_ self.last_alloc_chunk_ with
  | .error e => (.error e, self, m)
  | .ok none => allocate_search env self m
  | .ok (some (i, c)) =>
    if c.blocks_available > 0 then
      let r := allocate_block_from_chunk self i c m
      (.ok r.1, r.2, m)
    else allocate_search env self m

/-- The lambda `is_in_chunk` of `Deallocate`. -/
def is_in_chunk (self : Pool) (p : Nat) (chunk : Chunk) : Bool :=
  let data_size := wrap (self.blocks_per_chunk_ * self.block_size_)
  decide (chunk.data ≤ p ∧ p < wrap (chunk.data + data_size))

/-- The lambda `deallocate_block_from_chunk` of `Deallocate`, applied to the chunk at index
`ix`. The division is only reached for a block inside a chunk, so `block_size_` is not zero. -/
def deallocate_block_from_chunk (self : Pool) (p ix : Nat) (chunk : Chunk) (m : Machine) :
    Pool × Machine :=
  let m1 := m.write p chunk.first_available_block_ix
  let chunk1 : Chunk :=
    { chunk with first_available_block_ix := to_uchar (sub64 p chunk.data / self.block_size_) }
  ({ self with chunks_ := self.chunks_.set ix chunk1 }, m1)

/-- Embedding of `Pool::Deallocate(p)`. -/
def Deallocate (self : Pool) (p : Nat) (m : Machine) : Except Exn Unit × Pool × Machine :=
  match self.last_dealloc_chunk_ with
  | none => (.error .CheckFailed, self, m)
  | some i =>
    if self.chunks_ = [] then (.error .CheckFailed, self, m)
    else
      match self.chunks_[i]? with
      | none => (.error .Undefined, self, m)
      | some c =>
        if is_in_chunk self p c then
          let r := deallocate_block_from_chunk self p i c m
          (.ok (), r.1, r.2)
        else
          match find_first (is_in_chunk self p) self.chunks_ 0 with
          | some (j, cj) =>
            let self1 := { self with last_alloc_chunk_ := some j, last_dealloc_chunk_ := some j }
            let r := deallocate_block_from_chunk self1 p j cj m
            (.ok (), r.1, r.2)
          | none => (.ok (), self, m)

/-- Embedding of `Pool::Release`: every chunk goes back to upstream and `chunks_` is cleared. -/
def Release (env : Env) (self : Pool) (m : Machine) : Pool × Machine :=
  ({ self with chunks_ := [] },
   self.chunks_.foldl
     (fun m1 chunk => Upstream.Deallocate chunk.data (wrap (self.blocks_per_chunk_ * self.block_size_))
        (env.Ceil2 self.block_size_) m1)
     m)

end Pool

end impl

/-! ## `PoolResource` -/

/-- The struct `BigBlock` of the list of unpooled blocks. -/
structure BigBlock where
  bytes : Nat
  alignment : Nat
  data : Nat
  deriving DecidableEq, Repr

/-- The members of `PoolResource`; the two cached pointers are indices into `pools_`. -/
structure PoolResource where
  pools_ : List impl.Pool
  unpooled_ : List BigBlock
  last_alloc_pool_ : Option Nat
  last_dealloc_pool_ : Option Nat
  max_blocks_per_chunk_ : Nat
  max_block_size_ : Nat
  deriving DecidableEq, Repr

namespace PoolResource

/-- Embedding of the constructor `PoolResource(max_blocks_per_chunk, max_block_size, memory)`
with its two `CHECK`s. -/
def create (env : Env) (max_blocks_per_chunk max_block_size : Nat) : Except Exn PoolResource :=
  let blocks := min max_blocks_per_chunk env.MaxBlocksInChunk
  if blocks = 0 then .error .CheckFailed
  else if max_block_size = 0 then .error .CheckFailed
  else .ok { pools_ := [], unpooled_ := [], last_alloc_pool_ := none, last_dealloc_pool_ := none,
             max_blocks_per_chunk_ := blocks, max_block_size_ := max_block_size }

/-- The call `pool->Allocate()` on the pool at index `i` of `pools_`. -/
def allocate_from_pool (env : Env) (self : PoolResource) (i : Nat) (pool : impl.Pool)
    (m : Machine) : Except Exn Nat × PoolResource × Machine :=
  let r := pool.Allocate env m
  (r.1, { self with pools_ := self.pools_.set i r.2.1 }, r.2.2)

/-- The part of `DoAllocate` that allocates a big block. -/
def allocate_big_block (env : Env) (bytes alignment : Nat) (self : PoolResource) (m : Machine) :
    Except Exn Nat × PoolResource × Machine :=
  match Upstream.Allocate env bytes alignment m with
  | (.error e, m1) => (.error e, self, m1)
  | (.ok data, m1) =>
    let big_block : BigBlock := ⟨bytes, alignment, data⟩
    let it := lower_bound (fun a => decide (a.data < big_block.data)) self.unpooled_
    (.ok data, { self with unpooled_ := insert_at self.unpooled_ it big_block }, m1)

/-- The part of `DoAllocate` that follows the test of `last_alloc_pool_`. -/
def allocate_find_pool (env : Env) (block_size : Nat) (self : PoolResource) (m : Machine) :
    Except Exn Nat × PoolResource × Machine :=
  let pool := impl.Pool.create block_size self.max_blocks_per_chunk_
  let it := lower_bound (fun a => decide (a.block_size_ < pool.block_size_)) self.pools_
  match self.pools_[it]? with
  | some found =>
    if found.block_size_ = block_size then
      allocate_from_pool env { self with last_alloc_pool_ := some it } it found m
    else
      allocate_from_pool env
        { self with pools_ := insert_at self.pools_ it pool, last_alloc_pool_ := some it,
                    last_dealloc_pool_ := some it } it pool m
  | none =>
    allocate_from_pool env
      { self with pools_ := insert_at self.pools_ it pool, last_alloc_pool_ := some it,
                  last_dealloc_pool_ := some it } it pool m

/-- Embedding of `PoolResource::DoAllocate(bytes, alignment)`. The remainder
`block_size % alignment` is undefined for a zero alignment. -/
def DoAllocate (env : Env) (bytes alignment : Nat) (self : PoolResource) (m : Machine) :
    Except Exn Nat × PoolResource × Machine :=
  let block_size := max bytes alignment
  if alignment = 0 then (.error .Undefined, self, m)
  else if block_size % alignment ≠ 0 then (.error (.BadAlloc .NotMultipleOfAlignment), self, m)
  else if block_size > self.max_block_size_ then allocate_big_block env bytes alignment self m
  else
    match deref self.pools_ self.last_alloc_pool_ with
    | .error e => (.error e, self, m)
    | .ok none => allocate_find_pool env block_size self m
    | .ok (some (i, pool)) =>
      if pool.block_size_ = block_size then allocate_from_pool env self i pool m
      else allocate_find_pool env block_size self m

/-- The call `pool->Deallocate(p)` on the pool at index `i` of `pools_`. -/
def deallocate_to_pool (self : PoolResource) (p i : Nat) (pool : impl.Pool) (m : Machine) :
    Except Exn Unit × PoolResource × Machine :=
  let r := pool.Deallocate p m
  (r.1, { self with pools_ := self.pools_.set i r.2.1 }, r.2.2)

/-- The part of `DoDeallocate` that deallocates a big block. -/
def deallocate_big_block (p bytes alignment : Nat) (self : PoolResource) (m : Machine) :
    Except Exn Unit × PoolResource × Machine :=
  let it := lower_bound (fun a => decide (a.data < p)) self.unpooled_
  match self.unpooled_[it]? with
  | none => (.error .CheckFailed, self, m)
  | some found =>
    if found.data = p ∧ found.bytes = bytes ∧ found.alignment = alignment then
      (.ok (), { self with unpooled_ := self.unpooled_.eraseIdx it },
       Upstream.Deallocate p bytes alignment m)
    else (.error .CheckFailed, self, m)

/-- Embedding of `PoolResource::DoDeallocate(p, bytes, alignment)`. -/
def DoDeallocate (p bytes alignment : Nat) (self : PoolResource) (m : Machine) :
    Except Exn Unit × PoolResource × Machine :=
  let block_size := max bytes alignment
  if alignment = 0 then (.error .Undefined, self, m)
  else if block_size % alignment ≠ 0 then (.error .CheckFailed, self, m)
  else if block_size > self.max_block_size_ then deallocate_big_block p bytes alignment self m
  else
    match self.last_dealloc_pool_ with
    | none => (.error .CheckFailed, self, m)
    | some i =>
      match self.pools_[i]? with
      | none => (.error .Undefined, self, m)
      | some pool =>
        if pool.block_size_ = block_size then deallocate_to_pool self p i pool m
        else
          let it := lower_bound (fun a => decide (a.block_size_ < block_size)) self.pools_
          match self.pools_[it]? with
          | none => (.error .CheckFailed, self, m)
          | some found =>
            if found.block_size_ = block_size then
              deallocate_to_pool
                { self with last_alloc_pool_ := some it, last_dealloc_pool_ := some it } p it found m
            else (.error .CheckFailed, self, m)

/-- Embedding of `PoolResource::Release`: every pool is released, `pools_` is cleared, every
big block goes back to upstream and `unpooled_` is cleared. -/
def Release (env : Env) (self : PoolResource) (m : Machine) : PoolResource × Machine :=
  let m1 := self.pools_.foldl (fun acc pool => (pool.Release env acc).2) m
  let m2 := self.unpooled_.foldl
    (fun acc big_block => Upstream.Deallocate big_block.data big_block.bytes big_block.alignment acc)
    m1
  ({ self with pools_ := [], unpooled_ := [] }, m2)

end PoolResource

/-! ## Sequences of calls and a concrete environment -/

/-- Successive calls `Allocate(bytes, alignment)`, `n` of them, stopping at the first one
that fails; the addresses are listed in the order of allocation. -/
def PoolResource.allocate_many (env : Env) (bytes alignment : Nat) :
    Nat → PoolResource → Machine → Except Exn (List Nat) × PoolResource × Machine
  | 0, self, m => (.ok [], self, m)
  | n + 1, self, m =>
    match PoolResource.DoAllocate env bytes alignment self m with
    | (.error e, self1, m1) => (.error e, self1, m1)
    | (.ok p, self1, m1) =>
      match PoolResource.allocate_many env bytes alignment n self1 m1 with
      | (.error e, self2, m2) => (.error e, self2, m2)
      | (.ok ps, self2, m2) => (.ok (p :: ps), self2, m2)

/-- Successive calls `Deallocate(p, bytes, alignment)` for the addresses of a list, in the
order of the list, stopping at the first one that fails. -/
def PoolResource.deallocate_many (bytes alignment : Nat) :
    List Nat → PoolResource → Machine → Except Exn Unit × PoolResource × Machine
  | [], self, m => (.ok (), self, m)
  | p :: ps, self, m =>
    match PoolResource.DoDeallocate p bytes alignment self m with
    | (.error e, self1, m1) => (.error e, self1, m1)
    | (.ok _, self1, m1) => PoolResource.deallocate_many bytes alignment ps self1 m1

/-- The pool roundtrip on a newly constructed resource: `n` blocks are allocated, all of
them are deallocated in the reverse order, `n` blocks are allocated again. The result is the
addresses of the first and of the second batch. -/
def PoolResource.roundtrip (env : Env) (max_blocks_per_chunk max_block_size bytes alignment n : Nat)
    (m : Machine) : Except Exn (List Nat × List Nat) :=
  match PoolResource.create env max_blocks_per_chunk max_block_size with
  | .error e => .error e
  | .ok self =>
    match PoolResource.allocate_many env bytes alignment n self m with
    | (.error e, _, _) => .error e
    | (.ok first, self1, m1) =>
      match PoolResource.deallocate_many bytes alignment first.reverse self1 m1 with
      | (.error e, _, _) => .error e
      | (.ok _, self2, m2) =>
        match PoolResource.allocate_many env bytes alignment n self2 m2 with
        | (.error e, _, _) => .error e
        | (.ok second, _, _) => .ok (first, second)

/-- The addresses of the second batch of a roundtrip that were also in the first batch. -/
def PoolResource.reused (batches : List Nat × List Nat) : List Nat :=
  batches.2.filter (fun p => batches.1.contains p)

/-- End of the highest block handed out so far by the bump allocator below. -/
def bump_top : List UpEvent → Nat
  | [] => 4096
  | UpEvent.alloc bytes _ (some p) :: rest => max (p + bytes) (bump_top rest)
  | _ :: rest => bump_top rest

/-- An upstream resource that never fails and never reuses memory: every block is placed
at the first suitably aligned address above all earlier blocks. -/
def bump_upstream (log : List UpEvent) (_bytes alignment : Nat) : Option Nat :=
  some ((bump_top log + alignment - 1) / alignment * alignment)

/-- The least power of two that is not below `val`, reduced to 64 bits: what the source
says of `Ceil2` ("the next pow2 of block_size_"). -/
def next_pow2 (val : Nat) : Nat := if val ≤ 1 then 1 else wrap (2 ^ bit_length (val - 1))

/-- A concrete environment for the scenarios: the bump allocator as upstream and the
constants of an x86-64 build. -/
def bump_env : Env :=
  { upstream := bump_upstream, max_align := 16, sizeof_Buffer := 16, Ceil2 := next_pow2,
    MaxBlocksInChunk := 255 }

/-- The machine before anything has happened. -/
def Machine.initial : Machine := ⟨[], []⟩

end utils

/-! ## `SingleNodeCounters` -/

namespace database

/-- Reduction of an integer to an `int64_t` value (two's complement, as `std::atomic`
arithmetic is defined). -/
def to_int64 (x : Int) : Int := (x + 2 ^ 63) % 2 ^ 64 - 2 ^ 63

/-- The call `counters_.access().emplace(name, ..., value)` on the map of counters: the new
map, the value of the counter the returned iterator points to, and whether a counter was
inserted. -/
def emplace (counters : List (String × Int)) (name : String) (value : Int) :
    List (String × Int) × Int × Bool :=
  match counters.lookup name with
  | some found => (counters, found, false)
  | none => ((name, value) :: counters, value, true)

/-- The atomic `store(value)` on the counter of a name. -/
def store (counters : List (String × Int)) (name : String) (value : Int) : List (String × Int) :=
  counters.map (fun entry => if entry.1 = name then (entry.1, value) else entry)

/-- The member `counters_` of `SingleNodeCounters`: a map from names to 64-bit counters. -/
structure SingleNodeCounters where
  counters_ : List (String × Int)
  deriving DecidableEq, Repr

namespace SingleNodeCounters

/-- The value stored for a name, if the counter exists. -/
def stored (self : SingleNodeCounters) (name : String) : Option Int := self.counters_.lookup name

/-- Embedding of `SingleNodeCounters::Get(name)`: the returned value and the new state. -/
def Get (name : String) (self : SingleNodeCounters) : Int × SingleNodeCounters :=
  let r := emplace self.counters_ name 0
  (r.2.1, ⟨store r.1 name (to_int64 (r.2.1 + 1))⟩)

/-- Embedding of `SingleNodeCounters::Set(name, value)`. -/
def Set (name : String) (value : Int) (self : SingleNodeCounters) : SingleNodeCounters :=
  let name_counter_pair := emplace self.counters_ name value
  if name_counter_pair.2.2 then ⟨name_counter_pair.1⟩
  else ⟨store name_counter_pair.1 name value⟩

/-- A call of the counter service. -/
inductive Call
  | Get (name : String)
  | Set (name : String) (value : Int)
  deriving DecidableEq, Repr

/-- The state after a sequence of calls, made in the order of the list. -/
def run : List Call → SingleNodeCounters → SingleNodeCounters
  | [], self => self
  | Call.Get name :: rest, self => run rest (Get name self).2
  | Call.Set name value :: rest, self => run rest (Set name value self)

end SingleNodeCounters

end database

/-! ## `SymbolGenerator`: symbols of the current scope -/

namespace query

/-- The enumerators of `Symbol::Type` that the source names. -/
inductive SymbolType
  | Any
  | Vertex
  | Edge
  | EdgeList
  | Number
  deriving DecidableEq, Repr

/-- The class `Symbol`: what its accessors `name()`, `user_declared()` and `type()` return,
and the position by which the symbol table tells its symbols apart. -/
structure Symbol where
  name_ : String
  position_ : Nat
  user_declared_ : Bool
  type_ : SymbolType
  deriving DecidableEq, Repr

/-- The exceptions of the semantic phase. -/
inductive SemanticError
  /-- `TypeMismatchError(name, TypeToString(symbol.type()), TypeToString(type))` -/
  | TypeMismatchError (name : String) (declared requested : SymbolType)
  | RedeclareVariableError (name : String)
  | UnboundVariableError (name : String)
  | SemanticException (message : String)
  deriving DecidableEq, Repr

/-- The member `scope_.symbols`, a `std::map` from names to symbols: the entries in the
order of their insertion, at most one per name. -/
abbrev Symbols := List (String × Symbol)

/-- The assignment `symbols[name] = symbol` of a `std::map`: the entry of the name is
replaced, or added when there is none. -/
def Symbols.assign (symbols : Symbols) (name : String) (symbol : Symbol) : Symbols :=
  match symbols.lookup name with
  | some _ => symbols.map (fun entry => if entry.1 = name then (entry.1, symbol) else entry)
  | none => symbols ++ [(name, symbol)]

/-- The class `Identifier` of the AST, declared outside the sources: the two members that
the source reads. -/
structure Identifier where
  name_ : String
  user_declared_ : Bool
  deriving DecidableEq, Repr

/-- What the source reads through the pointer `scope_.visiting_edge`: the members
`has_range_` and `identifier_->name_` of the edge atom it points to. -/
structure VisitingEdge where
  has_range_ : Bool
  identifier_name_ : String
  deriving DecidableEq, Repr

/-- The members of `SymbolGenerator::Scope` that the source reads and writes; the null
pointer `visiting_edge` is `none`. -/
structure Scope where
  symbols : Symbols := []
  in_pattern : Bool := false
  in_merge : Bool := false
  in_create : Bool := false
  in_create_node : Bool := false
  in_create_edge : Bool := false
  in_node_atom : Bool := false
  in_aggregation : Bool := false
  in_return : Bool := false
  in_with : Bool := false
  in_skip : Bool := false
  in_limit : Bool := false
  in_order_by : Bool := false
  in_where : Bool := false
  in_match : Bool := false
  in_pattern_identifier : Bool := false
  in_edge_range : Bool := false
  has_aggregation : Bool := false
  visiting_edge : Option VisitingEdge := none
  identifiers_in_match : List Identifier := []
  deriving DecidableEq, Repr

/-- The members `symbol_table_` and `scope_` of `SymbolGenerator`. The class `SymbolTable` is
declared outside the sources, so its state is a type parameter. -/
structure SymbolGenerator (σ : Type) where
  symbol_table_ : σ
  scope_ : Scope

/-- The member function `SymbolTable::CreateSymbol(name, user_declared, type)`, declared
outside the sources: the created symbol and the new state of the table. -/
abbrev SymbolTable.CreateSymbolFn (σ : Type) := σ → String → Bool → SymbolType → Symbol × σ

namespace SymbolGenerator

/-- Embedding of `SymbolGenerator::HasSymbol(name)`. -/
def HasSymbol {σ : Type} (name : String) (self : SymbolGenerator σ) : Bool :=
  (self.scope_.symbols.lookup name).isSome

/-- Embedding of `SymbolGenerator::CreateSymbol(name, user_declared, type)`. -/
def CreateSymbol {σ : Type} (create : SymbolTable.CreateSymbolFn σ) (name : String)
    (user_declared : Bool) (type : SymbolType) (self : SymbolGenerator σ) :
    Symbol × SymbolGenerator σ :=
  let created := create self.symbol_table_ name user_declared type
  (created.1,
   { symbol_table_ := created.2,
     scope_ := { self.scope_ with symbols := self.scope_.symbols.assign name created.1 } })

/-- Embedding of `SymbolGenerator::GetOrCreateSymbol(name, user_declared, type)`. -/
def GetOrCreateSymbol {σ : Type} (create : SymbolTable.CreateSymbolFn σ) (name : String)
    (user_declared : Bool) (type : SymbolType) (self : SymbolGenerator σ) :
    Except SemanticError Symbol × SymbolGenerator σ :=
  match self.scope_.symbols.lookup name with
  | some symbol =>
    if type ≠ SymbolType.Any ∧ symbol.type_ ≠ SymbolType.Any ∧ type ≠ symbol.type_ then
      (.error (.TypeMismatchError name symbol.type_ type), self)
    else (.ok symbol, self)
  | none =>
    let created := CreateSymbol create name user_declared type self
    (.ok created.1, created.2)

end SymbolGenerator

/-- A symbol table that numbers its symbols: the state is the next free position. -/
def counting_table : SymbolTable.CreateSymbolFn Nat :=
  fun position name user_declared type => (⟨name, position, user_declared, type⟩, position + 1)

end query

/-! ## `RecordAccessor::Visible` -/

/-- The record pointers of a `RecordAccessor<TRecord>`: `none` is `nullptr`. The members
`impl_`, `db_accessor_` and `address_` play no part in what is embedded. -/
structure RecordAccessor (TRecord : Type) where
  current_ : Option TRecord
  old_ : Option TRecord
  new_ : Option TRecord

/-- Embedding of `RecordAccessor::Visible(t, current_state)`. The member function
`is_expired_by` of the record is declared outside the sources and is a parameter; as in the
source it is only evaluated on a record that is set. -/
def RecordAccessor.Visible {TRecord Transaction : Type}
    (is_expired_by : TRecord → Transaction → Bool) (self : RecordAccessor TRecord)
    (t : Transaction) (current_state : Bool) : Bool :=
  (match self.old_ with
    | none => false
    | some old => !(current_state && is_expired_by old t)) ||
  (current_state &&
    match self.new_ with
    | none => false
    | some new => !is_expired_by new t)

/-! ## `communication::Server` -/

namespace communication

/-- Reduction of an integer to an `int` (32 bits, two's complement). -/
def to_int (x : Int) : Int := (x + 2 ^ 31) % 2 ^ 32 - 2 ^ 31

/-- The members of `Server` that `Start` and `OnConnect` use: the vector `workers_` and the
index `idx_`, an `int`. The class `Worker` is declared outside the sources, so the type `W`
of a worker is a parameter. -/
structure Server (W : Type) where
  workers_ : List W
  idx_ : Int
  deriving DecidableEq, Repr

namespace Server

/-- The loop of `Start(n)` that creates the workers: round `i` pushes a new worker onto
`workers_` and starts its thread; `worker i` stands for that worker. -/
def start_workers {W : Type} (worker : Nat → W) : Nat → List W
  | 0 => []
  | i + 1 => start_workers worker i ++ [worker i]

/-- The state of the members when `Start(n)` has created and started its `n` workers and
waits for events, which is when `OnConnect` is called: `idx_` still has its initial value
`0`. -/
def Start {W : Type} (worker : Nat → W) (n : Nat) : Server W :=
  { workers_ := start_workers worker n, idx_ := 0 }

/-- Embedding of `Server::OnConnect`. `accepted` is what `workers_[idx_]->Accept(socket_)`
returns; the result is the index of the worker the connection has been handed to, if any.
The access `workers_[idx_]` is undefined outside the vector. -/
def OnConnect {W : Type} (accepted : Bool) (self : Server W) :
    Except utils.Exn (Option Nat) × Server W :=
  if 0 ≤ self.idx_ ∧ self.idx_ < self.workers_.length then
    if accepted then
      (.ok (some self.idx_.toNat),
       { self with idx_ := if self.idx_ = to_int (to_int self.workers_.length - 1) then 0
                           else to_int (self.idx_ + 1) })
    else (.ok none, self)
  else (.error .Undefined, self)

/-- Successive calls of `OnConnect`, one per element of `accepts`, stopping at the first
that is undefined: the workers the accepted connections went to, in order, and the final
state. -/
def connect_all {W : Type} : List Bool → Server W → List Nat × Server W
  | [], self => ([], self)
  | accepted :: rest, self =>
    match OnConnect accepted self with
    | (.error _, self1) => ([], self1)
    | (.ok none, self1) => connect_all rest self1
    | (.ok (some worker), self1) =>
      let r := connect_all rest self1
      (worker :: r.1, r.2)

end Server

end communication

/-! ## The primary index and the stores of vertices and edges -/

/-- Modelled from the spec: the class `SkipList` is not among the sources. It is the primary
index, "a concurrent ordered map from gid (64-bit identifier) to version list", with point
lookup and insertion; the entries are held in ascending order of their ids. -/
structure SkipList (R : Type) where
  entries : List (Nat × R)
  deriving DecidableEq, Repr

namespace SkipList

/-- The ids that are present in the index. -/
def keys {R : Type} (self : SkipList R) : List Nat := self.entries.map Prod.fst

/-- Modelled from the spec: `find(id)`, the point lookup of the index (not among the
sources); `none` is the iterator `end()`. -/
def find {R : Type} (self : SkipList R) (id : Nat) : Option R := self.entries.lookup id

/-- Placement of a new entry before the first entry with a greater id. -/
def place {R : Type} (id : Nat) (item : R) : List (Nat × R) → List (Nat × R)
  | [] => [(id, item)]
  | entry :: rest =>
    if id < entry.1 then (id, item) :: entry :: rest else entry :: place id item rest

/-- Modelled from the spec: `insert_unique(id, payload) → (iterator, bool)` of the index (not
among the sources), which "inserts iff `id` absent; returns whether insertion occurred". The
result is the record the returned iterator points to, the flag and the new index. -/
def insert_unique {R : Type} (self : SkipList R) (id : Nat) (item : R) :
    R × Bool × SkipList R :=
  match self.find id with
  | some found => (found, false, self)
  | none => (item, true, ⟨place id item self.entries⟩)

/-- A change made through an iterator to the record stored under an id. -/
def set_at {R : Type} (self : SkipList R) (id : Nat) (item : R) : SkipList R :=
  ⟨self.entries.map (fun entry => if entry.1 = id then (entry.1, item) else entry)⟩

end SkipList

/-- Modelled from the spec: the class `AtomicCounter` is not among the sources. "The counter
that mints ids is a monotonically-increasing atomic 64-bit integer; ids are never reused".
The member of `Vertices` and of `Edges` is an `AtomicCounter<uint64_t>`, so `counter` is a
value of 64 bits. -/
structure AtomicCounter where
  counter : Nat
  deriving DecidableEq, Repr

/-- Modelled from the spec: `AtomicCounter::next` (not among the sources) returns the value
of the counter and increases it by one; the sum is reduced to the 64 bits of a `uint64_t`,
so that the greatest value is followed by `0`. -/
def AtomicCounter.next (self : AtomicCounter) : Nat × AtomicCounter :=
  (self.counter, ⟨(self.counter + 1) % 2 ^ 64⟩)

/-- The operations of a `VertexRecord` that `Vertices` calls. The class is declared outside
the sources, so they are parameters: `R` is the record, `V` a pointer to a vertex version,
`T` the transaction and `E` what they may throw. An operation returns its result and the
record as it has left it. -/
structure VertexRecordApi (R V T E : Type) where
  /-- The default-constructed record of `VertexRecord vertex_record;`. -/
  create : R
  /-- The call `record.access(transaction).find()`. -/
  find : T → R → Option V
  /-- The call `record.access(transaction).insert()`. -/
  insert : T → R → Except E V × R
  /-- The call `record.access(transaction).update()`. -/
  update : T → R → Except E (Option V) × R
  /-- The call `record.access(transaction).remove()`. -/
  remove : T → R → Except E Bool × R

/-- The members of `Vertices`. -/
structure Vertices (R : Type) where
  vertices : SkipList R
  counter : AtomicCounter
  deriving DecidableEq, Repr

namespace Vertices

/-- Embedding of `Vertices::find(transaction, id)`; `none` is `nullptr`. -/
def find {R V T E : Type} (api : VertexRecordApi R V T E) (transaction : T) (id : Nat)
    (self : Vertices R) : Option V :=
  match self.vertices.find id with
  | none => none
  | some vertex_record => api.find transaction vertex_record

/-- Embedding of `Vertices::insert(transaction)`. Next to the returned vertex and the new
state the result holds the id `next` that the call has taken from the counter. -/
def insert {R V T E : Type} (api : VertexRecordApi R V T E) (transaction : T)
    (self : Vertices R) : Nat × Except E V × Vertices R :=
  let next := self.counter.next
  let result := self.vertices.insert_unique next.1 api.create
  let vertex := api.insert transaction result.1
  (next.1, vertex.1, { vertices := result.2.2.set_at next.1 vertex.2, counter := next.2 })

/-- Embedding of `Vertices::update(transaction, id)`; `none` is `nullptr`. -/
def update {R V T E : Type} (api : VertexRecordApi R V T E) (transaction : T) (id : Nat)
    (self : Vertices R) : Except E (Option V) × Vertices R :=
  match self.vertices.find id with
  | none => (.ok none, self)
  | some vertex_record =>
    let vertex := api.update transaction vertex_record
    (vertex.1, { self with vertices := self.vertices.set_at id vertex.2 })

/-- Embedding of `Vertices::remove(transaction, id)`. -/
def remove {R V T E : Type} (api : VertexRecordApi R V T E) (transaction : T) (id : Nat)
    (self : Vertices R) : Except E Bool × Vertices R :=
  match self.vertices.find id with
  | none => (.ok false, self)
  | some vertex_record =>
    let removed := api.remove transaction vertex_record
    (removed.1, { self with vertices := self.vertices.set_at id removed.2 })

/-- A call of one of the four member functions. -/
inductive Call (T : Type)
  | insert (transaction : T)
  | find (transaction : T) (id : Nat)
  | update (transaction : T) (id : Nat)
  | remove (transaction : T) (id : Nat)

/-- The number of calls of `insert` in a sequence of calls. -/
def inserts {T : Type} : List (Call T) → Nat
  | [] => 0
  | Call.insert _ :: rest => inserts rest + 1
  | _ :: rest => inserts rest

/-- A sequence of calls, made in the order of the list whatever their outcome: the ids the
calls of `insert` have taken, in the order of the calls, and the final state. -/
def run {R V T E : Type} (api : VertexRecordApi R V T E) :
    List (Call T) → Vertices R → List Nat × Vertices R
  | [], self => ([], self)
  | Call.insert transaction :: rest, self =>
    let r := run api rest (insert api transaction self).2.2
    ((insert api transaction self).1 :: r.1, r.2)
  | Call.find _ _ :: rest, self => run api rest self
  | Call.update transaction id :: rest, self => run api rest (update api transaction id self).2
  | Call.remove transaction id :: rest, self => run api rest (remove api transaction id self).2

end Vertices

/-- The operations of an `EdgeRecord` that `Edges` calls, declared outside the sources: `F` is a
pointer to a `VertexRecord`, the other parameters are as for `VertexRecordApi`. -/
structure EdgeRecordApi (R V T E F : Type) where
  /-- The constructor `EdgeRecord(next, from, to)`. -/
  create : Nat → F → F → R
  /-- The call `record.insert(t.trans)`. -/
  insert : T → R → Except E V × R

/-- The class `Edge::Accessor`: the edge version it was given, if any, the record it points
to, which is the entry of the index under `record`, and the transaction. -/
structure Edge.Accessor (V T : Type) where
  edge : Option V
  record : Nat
  db : T

/-- The members of `Edges`. -/
structure Edges (R : Type) where
  edges : SkipList R
  counter : AtomicCounter
  deriving DecidableEq, Repr

namespace Edges

/-- Embedding of `Edges::find(t, id)`; `none` is the empty option. -/
def find {R V T : Type} (t : T) (id : Nat) (self : Edges R) : Option (Edge.Accessor V T) :=
  match self.edges.find id with
  | none => none
  | some _ => some ⟨none, id, t⟩

/-- Embedding of `Edges::insert(t, from, to)`. The insertion `edges_accessor.insert` is the
insertion of the index that the spec describes. Next to the returned accessor (or what the
record threw) and the new state the result holds the id `next` taken from the counter. -/
def insert {R V T E F : Type} (api : EdgeRecordApi R V T E F) (t : T) (from_ to_ : F)
    (self : Edges R) : Nat × Except E (Edge.Accessor V T) × Edges R :=
  let next := self.counter.next
  let edge_record := api.create next.1 from_ to_
  let result := self.edges.insert_unique next.1 edge_record
  let edge := api.insert t result.1
  (next.1,
   (match edge.1 with
    | .ok inserted => .ok ⟨some inserted, next.1, t⟩
    | .error e => .error e),
   { edges := result.2.2.set_at next.1 edge.2, counter := next.2 })

/-- A call of one of the two member functions. -/
inductive Call (T F : Type)
  | insert (t : T) (from_ to_ : F)
  | find (t : T) (id : Nat)

/-- The number of calls of `insert` in a sequence of calls. -/
def inserts {T F : Type} : List (Call T F) → Nat
  | [] => 0
  | Call.insert _ _ _ :: rest => inserts rest + 1
  | _ :: rest => inserts rest

/-- A sequence of calls: the ids the calls of `insert` have taken, in order, and the final
state. -/
def run {R V T E F : Type} (api : EdgeRecordApi R V T E F) :
    List (Call T F) → Edges R → List Nat × Edges R
  | [], self => ([], self)
  | Call.insert t a b :: rest, self =>
    let r := run api rest (insert api t a b self).2.2
    ((insert api t a b self).1 :: r.1, r.2)
  | Call.find _ _ :: rest, self => run api rest self

end Edges

/-- Records for the examples: a record is the list of the transactions that have written to
it, newest first; it is found by the transactions in it, an update needs a writer and a
removal removes the newest writer. -/
def journal_records : VertexRecordApi (List Nat) Nat Nat Unit :=
  { create := [],
    find := fun t r => if t ∈ r then some t else none,
    insert := fun t r => (.ok t, t :: r),
    update := fun t r => if r = [] then (.ok none, r) else (.ok (some t), t :: r),
    remove := fun _ r => (.ok (!r.isEmpty), r.tail) }

/-- Edge records for the examples: a record holds its id, its two ends and its writers. -/
def journal_edge_records : EdgeRecordApi (Nat × Nat × Nat × List Nat) Nat Nat Unit Nat :=
  { create := fun id a b => (id, a, b, []),
    insert := fun t r => (.ok t, (r.1, r.2.1, r.2.2.1, t :: r.2.2.2)) }

/-! ## Transactions and versions, from the specification -/

namespace tx

/-- Modelled from the spec: the transaction is not among the sources. "Attributes:
monotonically-increasing identifier `tx_id`; per-transaction command counter `cmd_id`;
snapshot = set of `tx_id` values active when this transaction began"; the visibility rule
also reads `T.committed_before_begin`, the transactions that had committed when it began. -/
structure Transaction where
  id : Nat
  cmd : Nat
  snapshot : List Nat
  committed_before_begin : List Nat
  deriving DecidableEq, Repr

/-- Modelled from the spec: the transaction engine is not among the sources. It "assigns
transaction and command identifiers; tracks active/committed/aborted sets". `counter` is the
last identifier it has assigned. -/
structure Engine where
  counter : Nat
  active : List Nat
  committed : List Nat
  aborted : List Nat
  deriving DecidableEq, Repr

namespace Engine

/-- The engine before any transaction has begun. -/
def initial : Engine := ⟨0, [], [], []⟩

/-- Modelled from the spec: `Begin() → Transaction` (not among the sources) "assigns the next
`tx_id`, snapshots the current active set (excluding self), registers self as Active". -/
def Begin (self : Engine) : Transaction × Engine :=
  let id := self.counter + 1
  (⟨id, 0, self.active, self.committed⟩,
   { self with counter := id, active := id :: self.active })

/-- Modelled from the spec: `Commit(tx_id)` (not among the sources): "state→Committed", for a
transaction that is active. -/
def Commit (id : Nat) (self : Engine) : Engine :=
  if id ∈ self.active then
    { self with active := self.active.filter (fun other => other ≠ id),
                committed := id :: self.committed }
  else self

/-- Modelled from the spec: `Abort(tx_id)` (not among the sources): "state→Aborted", for a
transaction that is active. -/
def Abort (id : Nat) (self : Engine) : Engine :=
  if id ∈ self.active then
    { self with active := self.active.filter (fun other => other ≠ id),
                aborted := id :: self.aborted }
  else self

/-- A call that changes the state of the engine; a `Commit` that fails is no `Commit`. -/
inductive Call
  | Begin
  | Commit (id : Nat)
  | Abort (id : Nat)
  deriving DecidableEq, Repr

/-- The state of the engine after a sequence of calls. -/
def run : List Call → Engine → Engine
  | [], self => self
  | Call.Begin :: rest, self => run rest self.Begin.2
  | Call.Commit id :: rest, self => run rest (self.Commit id)
  | Call.Abort id :: rest, self => run rest (self.Abort id)

/-- The identifiers an engine holds in its sets are not above its counter. -/
def bounded (self : Engine) : Prop :=
  (∀ id ∈ self.active, id ≤ self.counter) ∧ (∀ id ∈ self.committed, id ≤ self.counter)

end Engine

/-- Modelled from the spec: `Advance(tx_id)` (not among the sources) "increments this
transaction's `cmd_id`". -/
def Transaction.Advance (self : Transaction) : Transaction := { self with cmd := self.cmd + 1 }

end tx

namespace mvcc

/-- Modelled from the spec: the record version is not among the sources. "Each version
carries: `created_by` (tx_id), `created_cmd` (cmd_id), optional `expired_by` and
`expired_cmd`, payload"; `expired` holds `expired_by` and `expired_cmd`, which are set
together. The `newer` link is the order of the chain that holds the version. -/
structure Version (P : Type) where
  created_by : Nat
  created_cmd : Nat
  expired : Option (Nat × Nat)
  payload : P
  deriving DecidableEq, Repr

/-- Modelled from the spec: "`visible_for_creation(V,T)` = `V.created_by == T.id ∧
V.created_cmd ≤ T.cmd` OR (`V.created_by ∈ T.committed_before_begin` AND `V.created_by ∉
T.snapshot`)". -/
def visible_for_creation {P : Type} (v : Version P) (t : tx.Transaction) : Bool :=
  (decide (v.created_by = t.id) && decide (v.created_cmd ≤ t.cmd)) ||
  (decide (v.created_by ∈ t.committed_before_begin) && !decide (v.created_by ∈ t.snapshot))

/-- Modelled from the spec: "Expiration mirrors this", for a version that has an expirer. -/
def visible_for_expiration {P : Type} (v : Version P) (t : tx.Transaction) : Bool :=
  match v.expired with
  | none => false
  | some (expired_by, expired_cmd) =>
    (decide (expired_by = t.id) && decide (expired_cmd ≤ t.cmd)) ||
    (decide (expired_by ∈ t.committed_before_begin) && !decide (expired_by ∈ t.snapshot))

/-- Modelled from the spec: "a version V is visible to T iff `visible_for_creation(V, T) ∧
¬visible_for_expiration(V, T)`". -/
def visible {P : Type} (v : Version P) (t : tx.Transaction) : Bool :=
  visible_for_creation v t && !visible_for_expiration v t

/-- Modelled from the spec: the version list is not among the sources. It is "the head of
the chain plus the stable identifier for the logical record"; the chain is held newest
version first. -/
structure VersionList (P : Type) where
  id : Nat
  chain : List (Version P)
  deriving DecidableEq, Repr

/-- Modelled from the spec: "`find(T) → version?`: returns the visible version (may be null
...). Traverses the chain newest-first; returns the first version satisfying visibility." -/
def VersionList.find {P : Type} (self : VersionList P) (t : tx.Transaction) :
    Option (Version P) :=
  self.chain.find? (fun v => visible v t)

end mvcc

/-! ## The free list of a chunk and the states of a `PoolResource` -/

namespace utils

namespace impl

namespace Pool

/-- The blocks linked on the embedded free list of a chunk, as block indices: the walk reads
the first byte of the block at index `ix` as the index of the next block and ends at the
first index that is not below `blocks_per_chunk_` (the link that `Allocate` writes into the
last block of a new chunk), or after `fuel` blocks. -/
def free_list_from (self : Pool) (chunk : Chunk) (m : Machine) : Nat → Nat → List Nat
  | 0, _ => []
  | fuel + 1, ix =>
    if ix < self.blocks_per_chunk_ then
      ix :: free_list_from self chunk m fuel
        (m.read (wrap (chunk.data + wrap (ix * self.block_size_))))
    else []

/-- The free list of a chunk, starting at `first_available_block_ix`. The indices are
`unsigned char`, so a list without a cycle has fewer than 256 blocks. -/
def free_list (self : Pool) (chunk : Chunk) (m : Machine) : List Nat :=
  free_list_from self chunk m 256 chunk.first_available_block_ix

end Pool

end impl

namespace PoolResource

/-- The vector `pools_` is strictly increasing in block size. -/
def pools_sorted (self : PoolResource) : Prop :=
  self.pools_.Pairwise (fun a b => a.block_size_ < b.block_size_)

/-- The vector `unpooled_` is sorted by address. -/
def unpooled_sorted (self : PoolResource) : Prop :=
  self.unpooled_.Pairwise (fun a b => a.data ≤ b.data)

/-- The two cached pointers are null or point into `pools_`. -/
def hints_valid (self : PoolResource) : Prop :=
  (∀ i, self.last_alloc_pool_ = some i → i < self.pools_.length) ∧
  (∀ i, self.last_dealloc_pool_ = some i → i < self.pools_.length)

/-- What holds of `pools_`, `unpooled_` and the two cached pointers between the calls. -/
def invariant (self : PoolResource) : Prop :=
  self.pools_sorted ∧ self.unpooled_sorted ∧ self.hints_valid

/-- The states a resource and the machine can be in: after the constructor, and after any
number of calls of `DoAllocate` and `DoDeallocate`, whatever their outcome. -/
inductive Reachable (env : Env) : PoolResource → Machine → Prop
  | create (max_blocks_per_chunk max_block_size : Nat) (self : PoolResource) (m : Machine) :
      create env max_blocks_per_chunk max_block_size = .ok self → Reachable env self m
  | DoAllocate (bytes alignment : Nat) (self : PoolResource) (m : Machine) :
      Reachable env self m →
      Reachable env (DoAllocate env bytes alignment self m).2.1
        (DoAllocate env bytes alignment self m).2.2
  | DoDeallocate (p bytes alignment : Nat) (self : PoolResource) (m : Machine) :
      Reachable env self m →
      Reachable env (DoDeallocate p bytes alignment self m).2.1
        (DoDeallocate p bytes alignment self m).2.2

end PoolResource

end utils

/-! ## The region `DoAllocate` fills -/

namespace utils

namespace MonotonicBufferResource

/-- The `data` and `data_capacity` that `DoAllocate` takes when it has no new buffer to
create first: those of the current buffer, or else those of the initial buffer. -/
def data_region (env : Env) (self : MonotonicBufferResource) : Option (Nat × Nat) :=
  match self.current_buffer_ with
  | b :: _ => some (b.data env, b.capacity)
  | [] =>
    match self.initial_buffer_ with
    | some buffer => some (buffer, self.initial_size_)
    | none => none

end MonotonicBufferResource

end utils

/-! ## `InputFile` -/

namespace utils

/-- Reduction of an integer to an `ssize_t` / `off_t` value (64 bits, two's complement). -/
def to_ssize (x : Int) : Int := (x + 2 ^ 63) % 2 ^ 64 - 2 ^ 63

/-- What `file.cpp` is compiled and run against. -/
structure FileEnv where
  /-- The constant `kFileBufferSize` of `utils/file.hpp`. -/
  kFileBufferSize : Nat
  /-- How many bytes one call of `read` hands over at most, from the file offset and the
  count asked for: a call may hand over fewer bytes than asked for, but at least one unless
  the end of the file is reached. -/
  chunk : Nat → Nat → Nat

/-- The open file behind `fd_`: its bytes and the file offset of the descriptor. -/
structure Descriptor where
  content : List Nat
  offset : Nat
  deriving DecidableEq, Repr

/-- The call `read(fd_, buf, size)` when it is neither interrupted nor fails: the bytes it
hands over, none at the end of the file, and the descriptor with its offset advanced. -/
def sys_read (env : FileEnv) (fd : Descriptor) (size : Nat) : List Nat × Descriptor :=
  let available := fd.content.length - fd.offset
  let got := min (min size available) (max 1 (env.chunk fd.offset size))
  ((fd.content.drop fd.offset).take got, { fd with offset := fd.offset + got })

/-- The enumeration `InputFile::Position`. -/
inductive Position
  | SET
  | RELATIVE_TO_CURRENT
  | RELATIVE_TO_END
  deriving DecidableEq, Repr

/-- The call `lseek(fd_, offset, whence)` when it is not interrupted: `none` is the result
`-1`, for a position that would be negative. -/
def sys_lseek (fd : Descriptor) (offset : Int) (whence : Position) : Option Nat × Descriptor :=
  let pos : Int :=
    match whence with
    | .SET => offset
    | .RELATIVE_TO_CURRENT => (fd.offset : Int) + offset
    | .RELATIVE_TO_END => (fd.content.length : Int) + offset
  if pos < 0 then (none, fd) else (some pos.toNat, { fd with offset := pos.toNat })

/-- The bytes of an array after `bytes` have been written from index `offset` on. -/
def write_at (buffer : List Nat) (offset : Nat) (bytes : List Nat) : List Nat :=
  (buffer ++ List.replicate (offset - buffer.length) 0).take offset ++ bytes
    ++ buffer.drop (offset + bytes.length)

/-- The members of an open `InputFile`, apart from `fd_` and `path_`. -/
structure InputFile where
  file_size_ : Nat
  file_position_ : Nat
  buffer_start_ : Option Nat
  buffer_size_ : Nat
  buffer_position_ : Nat
  buffer_ : List Nat
  deriving DecidableEq, Repr

namespace InputFile

/-- Embedding of `InputFile::GetPosition`. -/
def GetPosition (self : InputFile) : Nat :=
  match self.buffer_start_ with
  | some buffer_start => wrap (buffer_start + self.buffer_position_)
  | none => self.file_position_

/-- Embedding of `InputFile::SetPosition(position, offset)`. -/
def SetPosition (position : Position) (offset : Int) (self : InputFile) (fd : Descriptor) :
    Option Nat × InputFile × Descriptor :=
  match sys_lseek fd offset position with
  | (none, fd1) => (none, self, fd1)
  | (some pos, fd1) =>
    (some pos,
     { self with file_position_ := pos, buffer_start_ := none, buffer_size_ := 0,
                 buffer_position_ := 0 },
     fd1)

/-- The part of `InputFile::Open` that follows the call of `open`: the size of the file is
found by a seek to its end. `none` stands for the result `false`. -/
def Open (self : InputFile) (fd : Descriptor) : Option InputFile × Descriptor :=
  match SetPosition .RELATIVE_TO_END 0 self fd with
  | (none, _, fd1) => (none, fd1)
  | (some size, self1, fd1) =>
    match SetPosition .SET 0 self1 fd1 with
    | (none, _, fd2) => (none, fd2)
    | (some _, self2, fd2) => (some { self2 with file_size_ := size }, fd2)

/-- The loop of `LoadBuffer` that calls `read` until `size` bytes are in `buffer_`: the
result of the loop (`false` when a call hands over nothing), the buffer and the descriptor.
Every round takes at least one byte off `size`; `none` is a run that is out of fuel. -/
def read_loop (env : FileEnv) :
    Nat → Nat → Nat → List Nat → Descriptor → Option (Bool × List Nat × Descriptor)
  | 0, size, _, buffer, fd => if size = 0 then some (true, buffer, fd) else none
  | fuel + 1, size, offset, buffer, fd =>
    if size = 0 then some (true, buffer, fd)
    else
      let got := sys_read env fd size
      if got.1.length = 0 then some (false, buffer, got.2)
      else
        read_loop env fuel (size - got.1.length) (offset + got.1.length)
          (write_at buffer offset got.1) got.2

/-- Embedding of `InputFile::LoadBuffer`. -/
def LoadBuffer (env : FileEnv) (self : InputFile) (fd : Descriptor) :
    Option (Bool × InputFile × Descriptor) :=
  let self1 := { self with buffer_start_ := none, buffer_size_ := 0, buffer_position_ := 0 }
  let size :=
    if wrap (self1.file_position_ + env.kFileBufferSize) ≥ self1.file_size_ then
      sub64 self1.file_size_ self1.file_position_
    else env.kFileBufferSize
  if size = 0 then some (false, self1, fd)
  else
    let self2 := { self1 with buffer_size_ := size }
    match read_loop env size size 0 self2.buffer_ fd with
    | none => none
    | some (false, buffer, fd1) => some (false, { self2 with buffer_ := buffer }, fd1)
    | some (true, buffer, fd1) =>
      some (true,
        { self2 with buffer_ := buffer, buffer_start_ := some self2.file_position_,
                     file_position_ := wrap (self2.file_position_ + size) },
        fd1)

/-- The loop of `InputFile::Read`; `data` holds the bytes copied so far, which the source
writes from `data[0]` on. `none` is a run that is out of fuel. -/
def Read_loop (env : FileEnv) :
    Nat → Nat → List Nat → InputFile → Descriptor →
      Option (Bool × List Nat × InputFile × Descriptor)
  | 0, size, data, self, fd => if size = 0 then some (true, data, self, fd) else none
  | fuel + 1, size, data, self, fd =>
    if size = 0 then some (true, data, self, fd)
    else
      let buffer_left := sub64 self.buffer_size_ self.buffer_position_
      if self.buffer_start_ = none ∨ buffer_left = 0 then
        match LoadBuffer env self fd with
        | none => none
        | some (false, self1, fd1) => some (false, data, self1, fd1)
        | some (true, self1, fd1) => Read_loop env fuel size data self1 fd1
      else
        let to_copy := if size < buffer_left then size else buffer_left
        let copied := (self.buffer_.drop self.buffer_position_).take to_copy
        Read_loop env fuel (size - to_copy) (data ++ copied)
          { self with buffer_position_ := wrap (self.buffer_position_ + to_copy) } fd

/-- Embedding of `InputFile::Read(data, size)`: the result, the bytes written to `data`, the
file and the descriptor. A round of the loop copies at least one byte or loads a buffer,
after which the next round copies, so `2 * size + 1` rounds are enough. -/
def Read (env : FileEnv) (size : Nat) (self : InputFile) (fd : Descriptor) :
    Option (Bool × List Nat × InputFile × Descriptor) :=
  Read_loop env (2 * size + 1) size [] self fd

/-- Embedding of `InputFile::Peek(data, size)`. -/
def Peek (env : FileEnv) (size : Nat) (self : InputFile) (fd : Descriptor) :
    Option (Bool × List Nat × InputFile × Descriptor) :=
  let old_buffer_start := self.buffer_start_
  let old_buffer_position := self.buffer_position_
  let real_position := self.GetPosition
  match Read env size self fd with
  | none => none
  | some (ret, data, self1, fd1) =>
    if self1.buffer_start_ = old_buffer_start then
      some (ret, data, { self1 with buffer_position_ := old_buffer_position }, fd1)
    else
      let r := SetPosition .SET (to_ssize real_position) self1 fd1
      some (ret, data, r.2.1, r.2.2)

/-- What holds of an open file between the calls when the file does not change: the file
has `file_size_` bytes, the offset of the descriptor is `file_position_`, which is not
beyond the end, and a loaded buffer holds the `buffer_size_` bytes of the file that end at
`file_position_`. -/
def consistent (self : InputFile) (fd : Descriptor) : Prop :=
  fd.content.length = self.file_size_ ∧ fd.offset = self.file_position_ ∧
  self.file_position_ ≤ self.file_size_ ∧
  ∀ buffer_start, self.buffer_start_ = some buffer_start →
    buffer_start + self.buffer_size_ = self.file_position_ ∧
    self.buffer_position_ ≤ self.buffer_size_ ∧
    self.buffer_.take self.buffer_size_
      = (fd.content.drop buffer_start).take self.buffer_size_

end InputFile

end utils

/-! ## `SymbolGenerator`: the visitor -/

namespace query

/-- How a call of the visitor ends when it does not return: with a thrown exception, or
with undefined behaviour (a null `visiting_edge` is dereferenced). -/
inductive Failure
  | Thrown (e : SemanticError)
  | Undefined
  deriving DecidableEq, Repr

/-- The class `NamedExpression` of the AST, declared outside the sources: its name and the
node itself, of a type `ε` of AST nodes. -/
structure NamedExpression (ε : Type) where
  name_ : String
  node : ε

/-- The struct `ReturnBody` of the AST, declared outside the sources: the members that the
source reads; `order_by` holds the expressions `order_pair.second`. -/
structure ReturnBody (ε : Type) where
  all_identifiers : Bool
  named_expressions : List (NamedExpression ε)
  order_by : List ε
  skip : Option ε
  limit : Option ε

/-- The enumeration `EdgeAtom::Direction`. -/
inductive Direction
  | IN
  | OUT
  | BOTH
  deriving DecidableEq, Repr

/-- The class `NodeAtom` of the AST, declared outside the sources: the members that the
source reads; `labels_` is held by its size and `properties_` by its values. -/
structure NodeAtom (ε : Type) where
  identifier_ : Identifier
  labels_size : Nat
  properties_ : List ε

/-- The class `EdgeAtom` of the AST, declared outside the sources: the members that the
source reads; `edge_types_` is held by its size and `properties_` by its values. -/
structure EdgeAtom (ε : Type) where
  identifier_ : Identifier
  direction_ : Direction
  edge_types_size : Nat
  properties_ : List ε
  has_range_ : Bool
  lower_bound_ : Option ε
  upper_bound_ : Option ε

/-- What `symbol_generator.cpp` uses of the symbol table and of `Symbol` and does not
define. -/
structure Declared (σ : Type) where
  /-- The member function `SymbolTable::CreateSymbol(name, user_declared, type)`. -/
  CreateSymbol : SymbolTable.CreateSymbolFn σ
  /-- The assignment `symbol_table_[ident] = symbol` for an identifier. -/
  assign_identifier : σ → Identifier → Symbol → σ
  /-- The default argument of the parameter `type` of `SymbolGenerator::CreateSymbol`. -/
  default_type : SymbolType
  /-- The default-constructed `Symbol`. -/
  default_symbol : Symbol

/-- What `symbol_generator.cpp` uses of the nodes of the AST, of a type `ε`, and does not
define. -/
structure Tree (σ ε : Type) where
  /-- The assignment `symbol_table_[node] = symbol` for a named expression or an
  aggregation. -/
  assign : σ → ε → Symbol → σ
  /-- The call `node->Accept(*this)` for an expression, a named expression or a `Where`:
  the traversal of the node by the visitor, with the state of the visitor after it. -/
  Accept : ε → SymbolGenerator σ → Except Failure Unit × SymbolGenerator σ

namespace SymbolGenerator

/-- Embedding of `SymbolGenerator::Visit(Identifier &)`. -/
def Visit {σ : Type} (d : Declared σ) (ident : Identifier) (self : SymbolGenerator σ) :
    Except Failure Unit × SymbolGenerator σ :=
  if self.scope_.in_skip ∨ self.scope_.in_limit then
    (.error (.Thrown (.SemanticException
      (if self.scope_.in_skip then "Variables are not allowed in SKIP"
       else "Variables are not allowed in LIMIT"))), self)
  else if self.scope_.in_pattern ∧ self.scope_.in_pattern_identifier then
    if (self.scope_.in_create_node ∨ self.scope_.in_create_edge) ∧ HasSymbol ident.name_ self then
      (.error (.Thrown (.RedeclareVariableError ident.name_)), self)
    else
      let checked : Except Failure SymbolType :=
        match self.scope_.visiting_edge with
        | none => .ok SymbolType.Vertex
        | some edge =>
          if edge.has_range_ ∧ HasSymbol ident.name_ self then
            .error (.Thrown (.RedeclareVariableError ident.name_))
          else if edge.has_range_ then .ok SymbolType.EdgeList
          else .ok SymbolType.Edge
      match checked with
      | .error e => (.error e, self)
      | .ok type =>
        match GetOrCreateSymbol d.CreateSymbol ident.name_ ident.user_declared_ type self with
        | (.error e, self1) => (.error (.Thrown e), self1)
        | (.ok symbol, self1) =>
          (.ok (),
           { self1 with
             symbol_table_ := d.assign_identifier self1.symbol_table_ ident symbol })
  else if self.scope_.in_pattern ∧ ¬ self.scope_.in_pattern_identifier ∧ self.scope_.in_match then
    let bound_by_path : Except Failure Bool :=
      if self.scope_.in_edge_range then
        match self.scope_.visiting_edge with
        | none => .error .Undefined
        | some edge => .ok (decide (edge.identifier_name_ = ident.name_))
      else .ok false
    match bound_by_path with
    | .error e => (.error e, self)
    | .ok true => (.error (.Thrown (.UnboundVariableError ident.name_)), self)
    | .ok false =>
      let scope1 :=
        { self.scope_ with identifiers_in_match := self.scope_.identifiers_in_match ++ [ident] }
      (.ok (),
       { symbol_table_ := d.assign_identifier self.symbol_table_ ident d.default_symbol,
         scope_ := scope1 })
  else
    match self.scope_.symbols.lookup ident.name_ with
    | none => (.error (.Thrown (.UnboundVariableError ident.name_)), self)
    | some symbol =>
      (.ok (), { self with symbol_table_ := d.assign_identifier self.symbol_table_ ident symbol })

/-- A loop `for (auto &node : nodes) node->Accept(*this)`. -/
def accept_all {σ ε : Type} (tree : Tree σ ε) :
    List ε → SymbolGenerator σ → Except Failure Unit × SymbolGenerator σ
  | [], self => (.ok (), self)
  | node :: rest, self =>
    match tree.Accept node self with
    | (.error e, self1) => (.error e, self1)
    | (.ok _, self1) => accept_all tree rest self1

/-- The statement `if (node) node->Accept(*this)` for a pointer that may be null. -/
def accept_opt {σ ε : Type} (tree : Tree σ ε) (node : Option ε) (self : SymbolGenerator σ) :
    Except Failure Unit × SymbolGenerator σ :=
  match node with
  | none => (.ok (), self)
  | some n => tree.Accept n self

/-- The symbols that `VisitReturnBody` carries over when `*` appeared: those of the scope
that are user declared. -/
def user_symbols {σ : Type} (self : SymbolGenerator σ) : List Symbol :=
  (self.scope_.symbols.filter (fun sym_pair => sym_pair.2.user_declared_)).map Prod.snd

/-- The loop of `VisitReturnBody` that puts the carried symbols into the scope,
`scope_.symbols[user_sym.name()] = user_sym`. -/
def carry_over (symbols : Symbols) : List Symbol → Symbols
  | [] => symbols
  | user_sym :: rest => carry_over (symbols.assign user_sym.name_ user_sym) rest

/-- The loop of `VisitReturnBody` that creates the symbols of the named expressions;
`new_names` is the set of that name, returned at the end. -/
def declare_named {σ ε : Type} (d : Declared σ) (tree : Tree σ ε) :
    List (NamedExpression ε) → List String → SymbolGenerator σ →
      Except Failure (List String) × SymbolGenerator σ
  | [], new_names, self => (.ok new_names, self)
  | named_expr :: rest, new_names, self =>
    if named_expr.name_ ∈ new_names then
      (.error (.Thrown (.SemanticException
        ("Multiple results with the same name '" ++ named_expr.name_ ++
          "' are not allowed."))), self)
    else
      let created := CreateSymbol d.CreateSymbol named_expr.name_ true d.default_type self
      let table := tree.assign created.2.symbol_table_ named_expr.node created.1
      declare_named d tree rest (named_expr.name_ :: new_names)
        { created.2 with symbol_table_ := table }

/-- The symbols that the loop `declare_named` creates, each with the name of its named
expression, from the state of the symbol table before the loop. -/
def created_symbols {σ ε : Type} (d : Declared σ) (tree : Tree σ ε) :
    List (NamedExpression ε) → σ → Symbols
  | [], _ => []
  | named_expr :: rest, table =>
    let created := d.CreateSymbol table named_expr.name_ true d.default_type
    (named_expr.name_, created.1)
      :: created_symbols d tree rest (tree.assign created.2 named_expr.node created.1)

/-- The statement of `VisitReturnBody` that visits `body.skip`, if there is one, with
`scope_.in_skip` set. -/
def accept_skip {σ ε : Type} (tree : Tree σ ε) (skip : Option ε) (self : SymbolGenerator σ) :
    Except Failure Unit × SymbolGenerator σ :=
  match skip with
  | none => (.ok (), self)
  | some node =>
    match tree.Accept node { self with scope_ := { self.scope_ with in_skip := true } } with
    | (.error e, self1) => (.error e, self1)
    | (.ok _, self1) => (.ok (), { self1 with scope_ := { self1.scope_ with in_skip := false } })

/-- The statement of `VisitReturnBody` that visits `body.limit`, if there is one, with
`scope_.in_limit` set. -/
def accept_limit {σ ε : Type} (tree : Tree σ ε) (limit : Option ε) (self : SymbolGenerator σ) :
    Except Failure Unit × SymbolGenerator σ :=
  match limit with
  | none => (.ok (), self)
  | some node =>
    match tree.Accept node { self with scope_ := { self.scope_ with in_limit := true } } with
    | (.error e, self1) => (.error e, self1)
    | (.ok _, self1) => (.ok (), { self1 with scope_ := { self1.scope_ with in_limit := false } })

/-- The part of `VisitReturnBody` that follows the creation of the symbols: ORDER BY, SKIP,
LIMIT and WHERE are visited, the old names are removed if they have not been, and
`has_aggregation` is reset. -/
def finish_return_body {σ ε : Type} (tree : Tree σ ε) (body : ReturnBody ε)
    (where_ : Option ε) (removed_old_names : Bool) (new_names : List String)
    (self : SymbolGenerator σ) : Except Failure Unit × SymbolGenerator σ :=
  match accept_all tree body.order_by
      { self with scope_ := { self.scope_ with in_order_by := true } } with
  | (.error e, self1) => (.error e, self1)
  | (.ok _, self1) =>
    match accept_skip tree body.skip
        { self1 with scope_ := { self1.scope_ with in_order_by := false } } with
    | (.error e, self2) => (.error e, self2)
    | (.ok _, self2) =>
      match accept_limit tree body.limit self2 with
      | (.error e, self3) => (.error e, self3)
      | (.ok _, self3) =>
        match accept_opt tree where_ self3 with
        | (.error e, self4) => (.error e, self4)
        | (.ok _, self4) =>
          let symbols :=
            if removed_old_names then self4.scope_.symbols
            else self4.scope_.symbols.filter (fun entry => decide (entry.1 ∈ new_names))
          (.ok (),
           { self4 with
             scope_ := { self4.scope_ with symbols := symbols, has_aggregation := false } })

/-- Embedding of `SymbolGenerator::VisitReturnBody(body, where)`; a null `where` is `none`. -/
def VisitReturnBody {σ ε : Type} (d : Declared σ) (tree : Tree σ ε) (body : ReturnBody ε)
    (where_ : Option ε)
    (self : SymbolGenerator σ) : Except Failure Unit × SymbolGenerator σ :=
  match accept_all tree (body.named_expressions.map (fun expr => expr.node)) self with
  | (.error e, self1) => (.error e, self1)
  | (.ok _, self1) =>
    let carried := if body.all_identifiers then user_symbols self1 else []
    if body.all_identifiers ∧ carried.isEmpty then
      (.error (.Thrown (.SemanticException "There are no variables in scope to use for '*'")),
       self1)
    else
      let removed_old_names :=
        ((where_.isNone && body.order_by.isEmpty) || self1.scope_.has_aggregation)
      let symbols0 := if removed_old_names then [] else self1.scope_.symbols
      let self2 : SymbolGenerator σ :=
        { self1 with scope_ := { self1.scope_ with symbols := carry_over symbols0 carried } }
      match declare_named d tree body.named_expressions (carried.map (fun sym => sym.name_)) self2 with
      | (.error e, self3) => (.error e, self3)
      | (.ok new_names, self3) =>
        finish_return_body tree body where_ removed_old_names new_names self3

/-- Embedding of `SymbolGenerator::PreVisit(Create &)`. -/
def PreVisit_Create {σ : Type} (self : SymbolGenerator σ) : SymbolGenerator σ :=
  { self with scope_ := { self.scope_ with in_create := true } }

/-- Embedding of `SymbolGenerator::PostVisit(Create &)`. -/
def PostVisit_Create {σ : Type} (self : SymbolGenerator σ) : SymbolGenerator σ :=
  { self with scope_ := { self.scope_ with in_create := false } }

/-- Embedding of `SymbolGenerator::PreVisit(Match &)`. -/
def PreVisit_Match {σ : Type} (self : SymbolGenerator σ) : SymbolGenerator σ :=
  { self with scope_ := { self.scope_ with in_match := true } }

/-- The loop of `PostVisit(Match &)` over `scope_.identifiers_in_match`. -/
def bind_identifiers_in_match {σ : Type} (d : Declared σ) :
    List Identifier → SymbolGenerator σ → Except Failure Unit × SymbolGenerator σ
  | [], self => (.ok (), self)
  | ident :: rest, self =>
    match self.scope_.symbols.lookup ident.name_ with
    | none => (.error (.Thrown (.UnboundVariableError ident.name_)), self)
    | some symbol =>
      bind_identifiers_in_match d rest
        { self with symbol_table_ := d.assign_identifier self.symbol_table_ ident symbol }

/-- Embedding of `SymbolGenerator::PostVisit(Match &)`. -/
def PostVisit_Match {σ : Type} (d : Declared σ) (self : SymbolGenerator σ) :
    Except Failure Unit × SymbolGenerator σ :=
  let self1 : SymbolGenerator σ := { self with scope_ := { self.scope_ with in_match := false } }
  match bind_identifiers_in_match d self1.scope_.identifiers_in_match self1 with
  | (.error e, self2) => (.error e, self2)
  | (.ok _, self2) =>
    (.ok (), { self2 with scope_ := { self2.scope_ with identifiers_in_match := [] } })

/-- Embedding of `SymbolGenerator::PreVisit(Pattern &)`; of the pattern it reads
`atoms_.size()`. The `debug_assert` is left out. -/
def PreVisit_Pattern {σ : Type} (atoms_size : Nat) (self : SymbolGenerator σ) :
    SymbolGenerator σ :=
  let scope1 := { self.scope_ with in_pattern := true }
  if (scope1.in_create ∨ scope1.in_merge) ∧ atoms_size = 1 then
    { self with scope_ := { scope1 with in_create_node := true } }
  else { self with scope_ := scope1 }

/-- Embedding of `SymbolGenerator::PostVisit(Pattern &)`. -/
def PostVisit_Pattern {σ : Type} (self : SymbolGenerator σ) : SymbolGenerator σ :=
  { self with scope_ := { self.scope_ with in_pattern := false, in_create_node := false } }

/-- Embedding of `SymbolGenerator::PreVisit(NodeAtom &)`, which returns `false` when it
does not throw. -/
def PreVisit_NodeAtom {σ ε : Type} (d : Declared σ) (tree : Tree σ ε) (node_atom : NodeAtom ε)
    (self : SymbolGenerator σ) : Except Failure Unit × SymbolGenerator σ :=
  let self1 : SymbolGenerator σ := { self with scope_ := { self.scope_ with in_node_atom := true } }
  let props_or_labels := !node_atom.properties_.isEmpty || decide (node_atom.labels_size ≠ 0)
  if (self1.scope_.in_create ∨ self1.scope_.in_merge) ∧ props_or_labels ∧
      HasSymbol node_atom.identifier_.name_ self1 then
    (.error (.Thrown (.SemanticException
      ("Cannot create node '" ++ node_atom.identifier_.name_ ++
        "' with labels or properties, because it is already declared."))), self1)
  else
    match accept_all tree node_atom.properties_ self1 with
    | (.error e, self2) => (.error e, self2)
    | (.ok _, self2) =>
      match Visit d node_atom.identifier_
          { self2 with scope_ := { self2.scope_ with in_pattern_identifier := true } } with
      | (.error e, self3) => (.error e, self3)
      | (.ok _, self3) =>
        (.ok (), { self3 with scope_ := { self3.scope_ with in_pattern_identifier := false } })

/-- Embedding of `SymbolGenerator::PostVisit(NodeAtom &)`. -/
def PostVisit_NodeAtom {σ : Type} (self : SymbolGenerator σ) : SymbolGenerator σ :=
  { self with scope_ := { self.scope_ with in_node_atom := false } }

/-- The part of `PreVisit(EdgeAtom &)` that follows the three checks of an edge that is
created. -/
def visit_edge_atom {σ ε : Type} (d : Declared σ) (tree : Tree σ ε) (edge_atom : EdgeAtom ε)
    (self : SymbolGenerator σ) : Except Failure Unit × SymbolGenerator σ :=
  match accept_all tree edge_atom.properties_ self with
  | (.error e, self1) => (.error e, self1)
  | (.ok _, self1) =>
    let ranged : Except Failure Unit × SymbolGenerator σ :=
      if edge_atom.has_range_ then
        match accept_opt tree edge_atom.lower_bound_
            { self1 with scope_ := { self1.scope_ with in_edge_range := true } } with
        | (.error e, self2) => (.error e, self2)
        | (.ok _, self2) =>
          match accept_opt tree edge_atom.upper_bound_ self2 with
          | (.error e, self3) => (.error e, self3)
          | (.ok _, self3) =>
            (.ok (), { self3 with scope_ := { self3.scope_ with in_edge_range := false } })
      else (.ok (), self1)
    match ranged with
    | (.error e, self4) => (.error e, self4)
    | (.ok _, self4) =>
      match Visit d edge_atom.identifier_
          { self4 with scope_ := { self4.scope_ with in_pattern_identifier := true } } with
      | (.error e, self5) => (.error e, self5)
      | (.ok _, self5) =>
        (.ok (), { self5 with scope_ := { self5.scope_ with in_pattern_identifier := false } })

/-- Embedding of `SymbolGenerator::PreVisit(EdgeAtom &)`, which returns `false` when it
does not throw. -/
def PreVisit_EdgeAtom {σ ε : Type} (d : Declared σ) (tree : Tree σ ε) (edge_atom : EdgeAtom ε)
    (self : SymbolGenerator σ) : Except Failure Unit × SymbolGenerator σ :=
  let visiting : VisitingEdge := ⟨edge_atom.has_range_, edge_atom.identifier_.name_⟩
  let self1 : SymbolGenerator σ :=
    { self with scope_ := { self.scope_ with visiting_edge := some visiting } }
  if self1.scope_.in_create ∨ self1.scope_.in_merge then
    let self2 : SymbolGenerator σ :=
      { self1 with scope_ := { self1.scope_ with in_create_edge := true } }
    if edge_atom.edge_types_size ≠ 1 then
      (.error (.Thrown (.SemanticException
        "A single relationship type must be specified when creating an edge.")), self2)
    else if self2.scope_.in_create ∧ edge_atom.direction_ = Direction.BOTH then
      (.error (.Thrown (.SemanticException
        "Bidirectional relationship are not supported when creating an edge")), self2)
    else if edge_atom.has_range_ then
      (.error (.Thrown (.SemanticException
        "Variable length relationships are not supported when creating an edge.")), self2)
    else visit_edge_atom d tree edge_atom self2
  else visit_edge_atom d tree edge_atom self1

/-- Embedding of `SymbolGenerator::PostVisit(EdgeAtom &)`. -/
def PostVisit_EdgeAtom {σ : Type} (self : SymbolGenerator σ) : SymbolGenerator σ :=
  { self with scope_ := { self.scope_ with visiting_edge := none, in_create_edge := false } }

/-- One call that the traversal of a clause makes on the visitor. -/
inductive Call (ε : Type)
  | PreVisit_Create
  | PostVisit_Create
  | PreVisit_Match
  | PostVisit_Match
  | PreVisit_Pattern (atoms_size : Nat)
  | PostVisit_Pattern
  | PreVisit_NodeAtom (node_atom : NodeAtom ε)
  | PostVisit_NodeAtom
  | PreVisit_EdgeAtom (edge_atom : EdgeAtom ε)
  | PostVisit_EdgeAtom

/-- The state of the visitor after a sequence of calls, which ends at the first call that
does not return. -/
def run {σ ε : Type} (d : Declared σ) (tree : Tree σ ε) :
    List (Call ε) → SymbolGenerator σ → Except Failure Unit × SymbolGenerator σ
  | [], self => (.ok (), self)
  | call :: rest, self =>
    let step : Except Failure Unit × SymbolGenerator σ :=
      match call with
      | .PreVisit_Create => (.ok (), PreVisit_Create self)
      | .PostVisit_Create => (.ok (), PostVisit_Create self)
      | .PreVisit_Match => (.ok (), PreVisit_Match self)
      | .PostVisit_Match => PostVisit_Match d self
      | .PreVisit_Pattern atoms_size => (.ok (), PreVisit_Pattern atoms_size self)
      | .PostVisit_Pattern => (.ok (), PostVisit_Pattern self)
      | .PreVisit_NodeAtom node_atom => PreVisit_NodeAtom d tree node_atom self
      | .PostVisit_NodeAtom => (.ok (), PostVisit_NodeAtom self)
      | .PreVisit_EdgeAtom edge_atom => PreVisit_EdgeAtom d tree edge_atom self
      | .PostVisit_EdgeAtom => (.ok (), PostVisit_EdgeAtom self)
    match step with
    | (.error e, self1) => (.error e, self1)
    | (.ok _, self1) => run d tree rest self1

end SymbolGenerator

/-- A symbol table for the scenarios: it numbers its symbols and records what is assigned
to identifiers and to other nodes, the latest assignment first. -/
structure RecordingTable (ε : Type) where
  next_position : Nat
  identifiers : List (Identifier × Symbol)
  nodes : List (ε × Symbol)

/-- The functions of the recording table. -/
def recording_declared (ε : Type) : Declared (RecordingTable ε) :=
  { CreateSymbol := fun table name user_declared type =>
      (⟨name, table.next_position, user_declared, type⟩,
       { table with next_position := table.next_position + 1 }),
    assign_identifier := fun table ident symbol =>
      { table with identifiers := (ident, symbol) :: table.identifiers },
    default_type := SymbolType.Any,
    default_symbol := ⟨"", 0, false, SymbolType.Any⟩ }

/-- An AST for the scenarios, whose only expressions are identifiers: `Accept` of an
identifier is `Visit(Identifier &)`. -/
def identifier_tree : Tree (RecordingTable Identifier) Identifier :=
  { assign := fun table node symbol => { table with nodes := (node, symbol) :: table.nodes },
    Accept := fun ident self => SymbolGenerator.Visit (recording_declared Identifier) ident self }

end query

/-! ## Ranges of addresses and the regions of a `MonotonicBufferResource` -/

namespace utils

/-- Two ranges of addresses, each given by its start and its length, do not overlap. -/
def ranges_disjoint (a b : Nat × Nat) : Prop := a.1 + a.2 ≤ b.1 ∨ b.1 + b.2 ≤ a.1

instance ranges_disjoint_decidable (a b : Nat × Nat) : Decidable (ranges_disjoint a b) :=
  inferInstanceAs (Decidable (a.1 + a.2 ≤ b.1 ∨ b.1 + b.2 ≤ a.1))

/-- The range `a` lies inside the range `b`. -/
def range_inside (a b : Nat × Nat) : Prop := b.1 ≤ a.1 ∧ a.1 + a.2 ≤ b.1 + b.2

instance range_inside_decidable (a b : Nat × Nat) : Decidable (range_inside a b) :=
  inferInstanceAs (Decidable (b.1 ≤ a.1 ∧ a.1 + a.2 ≤ b.1 + b.2))

/-- The blocks that upstream has handed out and has not been given back, after the requests
of a log: each as its address and its size. -/
def live_blocks (log : List UpEvent) : List (Nat × Nat) :=
  log.foldl
    (fun live event =>
      match event with
      | UpEvent.alloc bytes _ (some p) => live ++ [(p, bytes)]
      | UpEvent.alloc _ _ none => live
      | UpEvent.dealloc p bytes _ => live.erase (p, bytes))
    []

/-- The bump allocator over a bounded address space: it throws when the block would not end
below `2 ^ 64`. -/
def bounded_bump_upstream (log : List UpEvent) (bytes alignment : Nat) : Option Nat :=
  let p := (bump_top log + alignment - 1) / alignment * alignment
  if p + bytes < 2 ^ 64 then some p else none

/-- The environment `bump_env` with the bounded bump allocator as upstream. -/
def bounded_bump_env : Env := { bump_env with upstream := bounded_bump_upstream }

namespace MonotonicBufferResource

/-- The regions of memory that the resource hands out from: the data of every buffer of the
chain, newest first, followed by the initial buffer if there is one. The first of them is
the region being filled. -/
def owned_regions (env : Env) (self : MonotonicBufferResource) : List (Nat × Nat) :=
  self.current_buffer_.map (fun b => (b.data env, b.capacity)) ++
    (match self.initial_buffer_ with
     | some buffer => [(buffer, self.initial_size_)]
     | none => [])

/-- The part of the owned regions that allocations may have been made from: the first
`allocated_` bytes of the region being filled, and the older regions. -/
def used_ranges (env : Env) (self : MonotonicBufferResource) : List (Nat × Nat) :=
  match owned_regions env self with
  | [] => []
  | region :: older => (region.1, self.allocated_) :: older

/-- The state of a resource is sound with respect to the ranges it has returned: every
buffer of the chain is a live block of upstream of `sizeof(Buffer) + capacity` bytes that
ends inside the address space, as does the initial buffer; the owned regions do not
overlap; `allocated_` does not exceed the capacity of the region being filled; and the
returned ranges do not overlap and lie in the used part of the owned regions. -/
def sound (env : Env) (self : MonotonicBufferResource) (m : Machine)
    (returned : List (Nat × Nat)) : Prop :=
  (∀ b ∈ self.current_buffer_,
      (b.addr, env.sizeof_Buffer + b.capacity) ∈ live_blocks m.log ∧
        b.addr + (env.sizeof_Buffer + b.capacity) < 2 ^ 64) ∧
    (∀ buffer, self.initial_buffer_ = some buffer → buffer + self.initial_size_ < 2 ^ 64) ∧
    (owned_regions env self).Pairwise ranges_disjoint ∧
    (∀ data capacity, data_region env self = some (data, capacity) →
      self.allocated_ ≤ capacity) ∧
    returned.Pairwise ranges_disjoint ∧
    (∀ r ∈ returned, ∃ u ∈ used_ranges env self, range_inside r u)

/-- Successive calls `Allocate(bytes, alignment)`, one for each request `(bytes,
alignment)` of a list, stopping at the first one that fails; the returned addresses are
listed in the order of the requests. -/
def allocate_all (env : Env) :
    List (Nat × Nat) → MonotonicBufferResource → Machine →
      Except Exn (List Nat) × MonotonicBufferResource × Machine
  | [], self, m => (.ok [], self, m)
  | request :: rest, self, m =>
    match DoAllocate env request.1 request.2 self m with
    | (.error e, self1, m1) => (.error e, self1, m1)
    | (.ok p, self1, m1) =>
      match allocate_all env rest self1 m1 with
      | (.error e, self2, m2) => (.error e, self2, m2)
      | (.ok ps, self2, m2) => (.ok (p :: ps), self2, m2)

end MonotonicBufferResource

end utils

/-! ## `FloydWarshall` of `tests/unit/bfs_common.hpp` -/

namespace bfs_common

/-- The value of `std::numeric_limits<int>::max()`. -/
def INT_MAX : Int := 2 ^ 31 - 1

/-- A `std::vector<std::vector<int>>`: the list of its rows. -/
abbrev Matrix := List (List Int)

/-- The read `dist[i][j]`, for indices inside the matrix. -/
def entry (dist : Matrix) (i j : Nat) : Int := (dist.getD i []).getD j 0

/-- The write `dist[i][j] = value`, for indices inside the matrix. -/
def assign (dist : Matrix) (i j : Nat) (value : Int) : Matrix :=
  List.set dist i (List.set (dist.getD i []) j value)

/-- The body of the innermost loop of `FloydWarshall`, for given `k`, `i` and `j`; the sum
is an `int`. -/
def relax (k i j : Nat) (dist : Matrix) : Matrix :=
  if entry dist i k = INT_MAX ∨ entry dist k j = INT_MAX then dist
  else
    assign dist i j
      (min (entry dist i j) (communication.to_int (entry dist i k + entry dist k j)))

/-- The three nested loops of `FloydWarshall` over `k`, `i` and `j`. -/
def relax_all (num_vertices : Nat) (dist : Matrix) : Matrix :=
  (List.range num_vertices).foldl
    (fun dist k =>
      (List.range num_vertices).foldl
        (fun dist i => (List.range num_vertices).foldl (fun dist j => relax k i j dist) dist)
        dist)
    dist

/-- The last two nested loops of `FloydWarshall`, which replace `inf` by `-1`. -/
def mark_unreachable (num_vertices : Nat) (dist : Matrix) : Matrix :=
  (List.range num_vertices).foldl
    (fun dist i =>
      (List.range num_vertices).foldl
        (fun dist j => if entry dist i j = INT_MAX then assign dist i j (-1) else dist)
        dist)
    dist

/-- Embedding of `FloydWarshall(num_vertices, edges)` for a `num_vertices` that is not
negative and edges between vertices that are not negative. -/
def FloydWarshall (num_vertices : Nat) (edges : List (Nat × Nat)) : Matrix :=
  let inf := INT_MAX
  let dist0 : Matrix := List.replicate num_vertices (List.replicate num_vertices inf)
  let dist1 := edges.foldl (fun dist e => assign dist e.1 e.2 1) dist0
  let dist2 := (List.range num_vertices).foldl (fun dist i => assign dist i i 0) dist1
  mark_unreachable num_vertices (relax_all num_vertices dist2)

/-- A directed path from `i` to `j` along the edges, of at least one edge: `mids` are the
vertices between `i` and `j` in the order of the path, which has `mids.length + 1` edges. -/
def is_path (edges : List (Nat × Nat)) (i j : Nat) (mids : List Nat) : Prop :=
  List.Chain (fun a b => (a, b) ∈ edges) i (mids ++ [j])

/-- The matrix has `n` rows of `n` entries. -/
def shape (n : Nat) (dist : Matrix) : Prop :=
  dist.length = n ∧ ∀ row ∈ dist, row.length = n

/-- The entry `dist[a][b]` is not `inf` and is at most the number of edges of every path
from `a` to `b` whose intermediate vertices are all below `bound`. -/
def complete_at (edges : List (Nat × Nat)) (bound : Nat) (dist : Matrix) (a b : Nat) : Prop :=
  ∀ mids, is_path edges a b mids → (∀ v ∈ mids, v < bound) →
    entry dist a b ≠ INT_MAX ∧ entry dist a b ≤ (mids.length : Int) + 1

/-- The invariant of the loops of `FloydWarshall` over a graph of `n` vertices: off the
diagonal an entry that is not `inf` is the number of edges of some path with intermediate
vertices below `reached`; every entry is complete for the paths with intermediate vertices
below `bound`; the diagonal is zero; and an entry is `inf` or between `0` and `n - 1`. -/
def invariant (n : Nat) (edges : List (Nat × Nat)) (reached bound : Nat) (dist : Matrix) :
    Prop :=
  shape n dist ∧
    (∀ a b, a < n → b < n → a ≠ b → entry dist a b ≠ INT_MAX →
      ∃ mids, is_path edges a b mids ∧ (∀ v ∈ mids, v < reached) ∧
        entry dist a b = (mids.length : Int) + 1) ∧
    (∀ a b, a < n → b < n → complete_at edges bound dist a b) ∧
    (∀ a, a < n → entry dist a a = 0) ∧
    (∀ a b, a < n → b < n →
      entry dist a b = INT_MAX ∨ (0 ≤ entry dist a b ∧ entry dist a b ≤ (n : Int) - 1))

end bfs_common

/-! ## The free lists of a pool and the blocks that are live -/

namespace utils

namespace impl

namespace Pool

/-- The free list of a chunk as it is laid out in memory: `free` lists the indices of the
blocks that are reached from the index `ix` along the links in the first bytes of the
blocks, up to the first index that is not below `blocks_per_chunk`; the indices are
`unsigned char`. -/
def links (m : Machine) (data block_size blocks_per_chunk : Nat) : Nat → List Nat → Prop
  | ix, [] => blocks_per_chunk ≤ ix ∧ ix < 256
  | ix, x :: rest =>
    x = ix ∧ ix < blocks_per_chunk ∧
      links m data block_size blocks_per_chunk (m.read (data + ix * block_size)) rest

/-- A chunk of a pool is in order with respect to the addresses of the live blocks: it lies
inside the address space, and its free list holds no block twice, has at least
`blocks_available` blocks, and none of them is live. -/
def chunk_ok (block_size blocks_per_chunk : Nat) (m : Machine) (live : List Nat)
    (chunk : Chunk) : Prop :=
  chunk.data + blocks_per_chunk * block_size < 2 ^ 64 ∧
    ∃ free, links m chunk.data block_size blocks_per_chunk chunk.first_available_block_ix free ∧
      free.Nodup ∧ chunk.blocks_available ≤ free.length ∧
      ∀ x ∈ free, chunk.data + x * block_size ∉ live

/-- A pool is in order with respect to the addresses of the live blocks: blocks are not
empty, a chunk has between 1 and 255 blocks, the chunks are at different addresses and do
not overlap, and every chunk is in order. -/
def ok (self : Pool) (m : Machine) (live : List Nat) : Prop :=
  0 < self.block_size_ ∧ 0 < self.blocks_per_chunk_ ∧ self.blocks_per_chunk_ ≤ 255 ∧
    (self.chunks_.map (fun chunk => chunk.data)).Nodup ∧
    (∀ c1 ∈ self.chunks_, ∀ c2 ∈ self.chunks_, c1.data = c2.data ∨
      ranges_disjoint (c1.data, self.blocks_per_chunk_ * self.block_size_)
        (c2.data, self.blocks_per_chunk_ * self.block_size_)) ∧
    ∀ chunk ∈ self.chunks_, chunk_ok self.block_size_ self.blocks_per_chunk_ m live chunk

end Pool

end impl

/-- Two ranges of addresses, each given by its start and its length, share no address:
one of them is empty, or they do not overlap. -/
def no_overlap (a b : Nat × Nat) : Prop := a.2 = 0 ∨ b.2 = 0 ∨ ranges_disjoint a b

instance no_overlap_decidable (a b : Nat × Nat) : Decidable (no_overlap a b) :=
  inferInstanceAs (Decidable (a.2 = 0 ∨ b.2 = 0 ∨ ranges_disjoint a b))

namespace PoolResource

/-- A block that has been handed out: its address and the `bytes` and `alignment` of the
request. -/
abbrev Block := Nat × Nat × Nat

/-- The block size of a request, `std::max(bytes, alignment)`. -/
def block_size (block : Block) : Nat := max block.2.1 block.2.2

/-- The memory that a block occupies: a block of a pool has the block size of the request,
a big block has `bytes` bytes. -/
def occupied (max_block_size : Nat) (block : Block) : Nat × Nat :=
  (block.1, if block_size block ≤ max_block_size then block_size block else block.2.1)

/-- The addresses of the live blocks that come from the pools. -/
def pooled_addresses (max_block_size : Nat) (live : List Block) : List Nat :=
  (live.filter (fun block => decide (block_size block ≤ max_block_size))).map
    (fun block => block.1)

/-- The pools are sound with respect to the live blocks: the pools are in order, their
chunks are live blocks of upstream that do not overlap, every live block of a pool is a
block of a chunk of the pool of its block size, no two live blocks share an address, and
every live big block that is not empty is a live block of upstream that overlaps no
chunk. -/
def safe_pools (pools : List impl.Pool) (max_block_size : Nat) (m : Machine)
    (live : List Block) : Prop :=
  (∀ pool ∈ pools, pool.ok m (pooled_addresses max_block_size live) ∧
      pool.block_size_ ≤ max_block_size ∧
      ∀ chunk ∈ pool.chunks_,
        (chunk.data, pool.blocks_per_chunk_ * pool.block_size_) ∈ live_blocks m.log) ∧
    (∀ pool1 ∈ pools, ∀ pool2 ∈ pools, ∀ c1 ∈ pool1.chunks_, ∀ c2 ∈ pool2.chunks_,
      (pool1.block_size_ = pool2.block_size_ ∧ c1.data = c2.data) ∨
        ranges_disjoint (c1.data, pool1.blocks_per_chunk_ * pool1.block_size_)
          (c2.data, pool2.blocks_per_chunk_ * pool2.block_size_)) ∧
    (∀ block ∈ live, block_size block ≤ max_block_size →
      ∃ pool ∈ pools, pool.block_size_ = block_size block ∧
        ∃ chunk ∈ pool.chunks_, ∃ x, x < pool.blocks_per_chunk_ ∧
          block.1 = chunk.data + x * pool.block_size_) ∧
    live.Pairwise
      (fun a b => no_overlap (occupied max_block_size a) (occupied max_block_size b)) ∧
    (∀ block ∈ live, ¬ block_size block ≤ max_block_size → 0 < block.2.1 →
      (block.1, block.2.1) ∈ live_blocks m.log ∧
        ∀ pool ∈ pools, ∀ chunk ∈ pool.chunks_,
          ranges_disjoint (block.1, block.2.1)
            (chunk.data, pool.blocks_per_chunk_ * pool.block_size_))

/-- The state of a resource is sound with respect to the live blocks: the vectors are
sorted, the cached pointers are valid, a chunk holds between 1 and 255 blocks, and the
pools are sound. -/
def safe (self : PoolResource) (m : Machine) (live : List Block) : Prop :=
  self.invariant ∧ 0 < self.max_blocks_per_chunk_ ∧ self.max_blocks_per_chunk_ ≤ 255 ∧
    safe_pools self.pools_ self.max_block_size_ m live

/-- One call on the resource. -/
inductive Call
  | Allocate (bytes alignment : Nat)
  | Deallocate (p bytes alignment : Nat)
  deriving DecidableEq, Repr

/-- The live blocks after a call of `Allocate`: a returned block is live, and a call that
throws adds none. -/
def allocated (live : List Block) (bytes alignment : Nat) : Except Exn Nat → List Block
  | .ok p => (p, bytes, alignment) :: live
  | .error _ => live

/-- A sequence of calls of `Allocate` and `Deallocate`, where every `Deallocate` is given a
live block with the `bytes` and `alignment` of its request: the state after the calls and
the blocks that are live then, the latest first. A call of `Allocate` that throws
`std::bad_alloc` leaves the live blocks as they are. The result is `none` when a `CHECK`
fails, when the behaviour is undefined, or when a `Deallocate` is given anything else. -/
def run (env : Env) :
    List Call → PoolResource → Machine → List Block →
      Option (PoolResource × Machine × List Block)
  | [], self, m, live => some (self, m, live)
  | .Allocate bytes alignment :: rest, self, m, live =>
    match DoAllocate env bytes alignment self m with
    | (.ok p, self1, m1) => run env rest self1 m1 ((p, bytes, alignment) :: live)
    | (.error (.BadAlloc _), self1, m1) => run env rest self1 m1 live
    | (.error _, _, _) => none
  | .Deallocate p bytes alignment :: rest, self, m, live =>
    if (p, bytes, alignment) ∈ live then
      match DoDeallocate p bytes alignment self m with
      | (.ok _, self1, m1) => run env rest self1 m1 (live.erase (p, bytes, alignment))
      | (.error _, _, _) => none
    else none

end PoolResource

end utils

/-! # Theorems -/

namespace utils

/-! ## Helper lemmas -/

theorem find_first_eq_none {α : Type} (p : α → Bool) (xs : List α) (i : Nat)
    (h : ∀ x ∈ xs, p x = false) : find_first p xs i = none := by
  induction xs generalizing i with
  | nil => rfl
  | cons x xs ih =>
    have hx : p x = false := h x (List.mem_cons_self x xs)
    have hxs : ∀ y ∈ xs, p y = false := fun y hy => h y (List.mem_cons_of_mem x hy)
    simp [find_first, hx, ih (i + 1) hxs]

theorem bump_upstream_aligned (log : List UpEvent) (bytes alignment p : Nat)
    (h : bump_upstream log bytes alignment = some p) : p % alignment = 0 := by
  unfold bump_upstream at h
  simp only [Option.some.injEq] at h
  rw [← h]
  exact Nat.mul_mod_left _ _

theorem sub64_of_le (a b : Nat) (hb : b ≤ a) (ha : a < 2 ^ 64) : sub64 a b = a - b := by
  unfold sub64
  have h1 : b % 2 ^ 64 = b := Nat.mod_eq_of_lt (by omega)
  rw [h1]
  have h2 : a + (2 ^ 64 - b) = (a - b) + 2 ^ 64 := by omega
  rw [h2, Nat.add_mod_right]
  exact Nat.mod_eq_of_lt (by omega)

/-! ## C1: a request whose size is not a multiple of the alignment -/

/-- C1 (as stated, refuted): on a newly constructed resource the request of 3 bytes aligned
to 8 has a size that is not a multiple of its alignment, and yet `DoAllocate` returns a block
and changes the resource (it creates a pool) instead of throwing `BadAlloc`. -/
theorem PoolResource.DoAllocate_serves_size_below_alignment :
    ∃ r p, PoolResource.create bump_env 2 64 = .ok r ∧ 3 % 8 ≠ 0 ∧
      (PoolResource.DoAllocate bump_env 3 8 r Machine.initial).1 = .ok p ∧
      (PoolResource.DoAllocate bump_env 3 8 r Machine.initial).2.1 ≠ r :=
  ⟨_, 4096, rfl, by decide, rfl, by decide⟩

/-- C1 (amended): for every resource, machine state and upstream, a request whose size is
greater than its (non-zero) alignment and not a multiple of it makes `DoAllocate` throw
`BadAlloc` ("Requested bytes must be a multiple of alignment") and leaves the resource and
the machine, hence the pools, the list of big blocks and the hints, unchanged. -/
theorem PoolResource.DoAllocate_not_multiple_of_alignment (env : Env) (self : PoolResource)
    (m : Machine) (bytes alignment : Nat) (h0 : 0 < alignment) (hlt : alignment < bytes)
    (h : bytes % alignment ≠ 0) :
    PoolResource.DoAllocate env bytes alignment self m
      = (.error (.BadAlloc .NotMultipleOfAlignment), self, m) := by
  have hmax : max bytes alignment = bytes := max_eq_left (Nat.le_of_lt hlt)
  have hne : alignment ≠ 0 := Nat.pos_iff_ne_zero.mp h0
  simp [PoolResource.DoAllocate, hmax, hne, h]

/-- Witness of C1 (amended): 63 bytes aligned to 8 on a resource that already has a pool. -/
theorem PoolResource.DoAllocate_not_multiple_of_alignment_witness :
    0 < 8 ∧ 8 < 63 ∧ 63 % 8 ≠ 0 ∧
      PoolResource.DoAllocate bump_env 63 8
          (PoolResource.DoAllocate bump_env 24 8 ⟨[], [], none, none, 2, 64⟩ Machine.initial).2.1
          (PoolResource.DoAllocate bump_env 24 8 ⟨[], [], none, none, 2, 64⟩ Machine.initial).2.2
        = (.error (.BadAlloc .NotMultipleOfAlignment),
          (PoolResource.DoAllocate bump_env 24 8 ⟨[], [], none, none, 2, 64⟩ Machine.initial).2.1,
          (PoolResource.DoAllocate bump_env 24 8 ⟨[], [], none, none, 2, 64⟩ Machine.initial).2.2) :=
  ⟨by decide, by decide, by decide,
    PoolResource.DoAllocate_not_multiple_of_alignment bump_env _ _ 63 8 (by decide) (by decide)
      (by decide)⟩

/-! ## C2: allocation after `Release` -/

/-- C2 (the code at the failing input): on a new resource `Allocate(24, 8)` succeeds; after a
following `Release` the pools are gone, but `last_alloc_pool_` and `last_dealloc_pool_` still
point to the released pool, and the next `Allocate(24, 8)` dereferences that pointer. -/
theorem PoolResource.DoAllocate_after_Release_uses_released_pool :
    ∃ r, PoolResource.create bump_env 2 64 = .ok r ∧
      (PoolResource.DoAllocate bump_env 24 8 r Machine.initial).1 = .ok 4096 ∧
      (PoolResource.Release bump_env
          (PoolResource.DoAllocate bump_env 24 8 r Machine.initial).2.1
          (PoolResource.DoAllocate bump_env 24 8 r Machine.initial).2.2).1
        = { r with last_alloc_pool_ := some 0, last_dealloc_pool_ := some 0 } ∧
      r.pools_ = [] ∧
      (PoolResource.DoAllocate bump_env 24 8
          (PoolResource.Release bump_env
            (PoolResource.DoAllocate bump_env 24 8 r Machine.initial).2.1
            (PoolResource.DoAllocate bump_env 24 8 r Machine.initial).2.2).1
          (PoolResource.Release bump_env
            (PoolResource.DoAllocate bump_env 24 8 r Machine.initial).2.1
            (PoolResource.DoAllocate bump_env 24 8 r Machine.initial).2.2).2).1
        = .error .Undefined :=
  ⟨_, rfl, rfl, rfl, rfl, rfl⟩

/-! ## C3: the pool roundtrip -/

/-- C3 (the code at the failing inputs): with one block per chunk, the block allocated after
the only block has been deallocated is a new one; and with 128 blocks per chunk, of the 100
blocks of 24 bytes allocated after 100 such blocks have been deallocated in reverse order,
only 28 are blocks of the first batch. -/
theorem PoolResource.roundtrip_does_not_reuse_blocks :
    (PoolResource.roundtrip bump_env 1 64 24 8 1 Machine.initial).toOption
        = some ([4096], [4128]) ∧
      (PoolResource.roundtrip bump_env 128 64 24 8 100 Machine.initial).toOption.map
          (fun batches => (batches.1.length, batches.2.length, (PoolResource.reused batches).length))
        = some (100, 100, 28) := by
  constructor
  · decide
  · decide!

/-! ## C4: unsupported alignment -/

/-- C4: for every state of the resource and of the machine and every size, `DoAllocate` with an
alignment greater than `alignof(std::max_align_t)` throws `BadAlloc` and changes neither the
resource (no buffer, `allocated_` and `next_buffer_size_` as before) nor the machine (nothing
is requested from upstream). -/
theorem MonotonicBufferResource.DoAllocate_alignment_unsupported (env : Env)
    (self : MonotonicBufferResource) (m : Machine) (bytes alignment : Nat)
    (h : env.max_align < alignment) :
    MonotonicBufferResource.DoAllocate env bytes alignment self m
      = (.error (.BadAlloc .AlignmentUnsupported), self, m) := by
  simp [MonotonicBufferResource.DoAllocate, h]

/-- Witness of C4: 8 bytes aligned to 32 on a resource with an initial size of 64. -/
theorem MonotonicBufferResource.DoAllocate_alignment_unsupported_witness :
    bump_env.max_align < 32 ∧
      MonotonicBufferResource.DoAllocate bump_env 8 32
          (MonotonicBufferResource.of_initial_size 64) Machine.initial
        = (.error (.BadAlloc .AlignmentUnsupported),
          MonotonicBufferResource.of_initial_size 64, Machine.initial) :=
  ⟨by decide,
    MonotonicBufferResource.DoAllocate_alignment_unsupported bump_env _ _ 8 32 (by decide)⟩

/-! ## Lemmas on the steps of `MonotonicBufferResource::DoAllocate` -/

theorem std_align_aligned (alignment size ptr space aligned space1 : Nat)
    (h : std_align alignment size ptr space = some (aligned, space1)) : aligned % alignment = 0 := by
  unfold std_align at h
  simp only at h
  split_ifs at h
  simp only [Option.some.injEq, Prod.mk.injEq] at h
  rw [← h.1]
  exact Nat.sub_mod_eq_zero_of_mod_eq (Nat.mod_mod _ _).symm

theorem finish_allocation_result (bytes data buffer_head aligned_ptr : Nat)
    (self : MonotonicBufferResource) (m : Machine) (p : Nat)
    (h : (MonotonicBufferResource.finish_allocation bytes data buffer_head aligned_ptr self m).1
      = .ok p) :
    p = aligned_ptr := by
  unfold MonotonicBufferResource.finish_allocation at h
  by_cases h1 : aligned_ptr < buffer_head
  · simp [h1] at h
  · by_cases h2 : wrap (aligned_ptr + bytes) ≤ aligned_ptr
    · simp [h1, h2] at h
    · simp [h1, h2] at h; exact h.symm

theorem push_current_buffer_ok (env : Env) (bytes next_size : Nat)
    (self self1 : MonotonicBufferResource) (m m1 : Machine) (b : Buffer)
    (h : MonotonicBufferResource.push_current_buffer env bytes next_size self m = (.ok b, self1, m1)) :
    b.capacity = (if next_size > bytes then next_size else bytes) ∧
    env.upstream m.log (wrap (env.sizeof_Buffer + b.capacity)) env.max_align = some b.addr ∧
    self1 = { self with current_buffer_ := b :: self.current_buffer_, allocated_ := 0 } ∧
    m1 = { m with log := m.log ++
      [UpEvent.alloc (wrap (env.sizeof_Buffer + b.capacity)) env.max_align (some b.addr)] } := by
  unfold MonotonicBufferResource.push_current_buffer Upstream.Allocate at h
  generalize (if next_size > bytes then next_size else bytes) = cap at h ⊢
  by_cases hc : wrap (env.sizeof_Buffer + cap) ≤ cap
  · simp [hc] at h
  · cases hu : env.upstream m.log (wrap (env.sizeof_Buffer + cap)) env.max_align with
    | none => simp [hc, hu] at h
    | some p =>
      simp [hc, hu] at h
      obtain ⟨hb, hs, hm⟩ := h
      subst hb
      exact ⟨rfl, hu, hs.symm, hm.symm⟩

theorem push_current_buffer_error (env : Env) (bytes next_size : Nat)
    (self self1 : MonotonicBufferResource) (m m1 : Machine) (e : Exn)
    (h : MonotonicBufferResource.push_current_buffer env bytes next_size self m
      = (.error e, self1, m1)) :
    self1 = self ∧ ∃ evs, m1.log = m.log ++ evs := by
  unfold MonotonicBufferResource.push_current_buffer Upstream.Allocate at h
  generalize (if next_size > bytes then next_size else bytes) = cap at h ⊢
  by_cases hc : wrap (env.sizeof_Buffer + cap) ≤ cap
  · simp [hc] at h
    exact ⟨h.2.1.symm, [], by simp [← h.2.2]⟩
  · cases hu : env.upstream m.log (wrap (env.sizeof_Buffer + cap)) env.max_align with
    | none =>
      simp [hc, hu] at h
      exact ⟨h.2.1.symm, _, by rw [← h.2.2]⟩
    | some p => simp [hc, hu] at h

theorem Buffer.data_aligned (env : Env) (b : Buffer) (alignment k j : Nat)
    (hmax : env.max_align = 2 ^ j) (hj : j ≤ 64) (hbuf : env.sizeof_Buffer % env.max_align = 0)
    (halign : alignment = 2 ^ k) (hle : alignment ≤ env.max_align)
    (hb : b.addr % env.max_align = 0) : b.data env % alignment = 0 := by
  have hkj : k ≤ j := by
    rw [halign, hmax] at hle
    exact (Nat.pow_le_pow_iff_right (by norm_num)).mp hle
  have hd1 : alignment ∣ env.max_align := by
    rw [halign, hmax]; exact Nat.pow_dvd_pow 2 hkj
  have hd2 : alignment ∣ 2 ^ 64 := by
    rw [halign]; exact Nat.pow_dvd_pow 2 (le_trans hkj hj)
  have h1 : alignment ∣ b.addr := Dvd.dvd.trans hd1 (Nat.dvd_of_mod_eq_zero hb)
  have h2 : alignment ∣ env.sizeof_Buffer := Dvd.dvd.trans hd1 (Nat.dvd_of_mod_eq_zero hbuf)
  unfold Buffer.data wrap
  exact Nat.mod_eq_zero_of_dvd ((Nat.dvd_mod_iff hd2).mpr (Nat.dvd_add h1 h2))

theorem allocate_in_aligned (env : Env) (k j : Nat)
    (hmax : env.max_align = 2 ^ j) (hj : j ≤ 64)
    (hbuf : env.sizeof_Buffer % env.max_align = 0)
    (hup : ∀ log bytes p, env.upstream log bytes env.max_align = some p → p % env.max_align = 0)
    (self : MonotonicBufferResource) (m : Machine) (bytes alignment data data_capacity p : Nat)
    (halign : alignment = 2 ^ k) (hle : alignment ≤ env.max_align)
    (hok : (MonotonicBufferResource.allocate_in env bytes alignment data data_capacity self m).1
      = .ok p) :
    p % alignment = 0 := by
  unfold MonotonicBufferResource.allocate_in at hok
  simp only at hok
  cases hal : std_align alignment bytes (wrap (data + self.allocated_))
      (sub64 data_capacity self.allocated_) with
  | some r =>
    obtain ⟨aligned_ptr, space1⟩ := r
    rw [hal] at hok
    simp only at hok
    rw [finish_allocation_result _ _ _ _ _ _ _ hok]
    exact std_align_aligned _ _ _ _ _ _ hal
  | none =>
    rw [hal] at hok
    simp only at hok
    rcases hpush : MonotonicBufferResource.push_current_buffer env bytes self.next_buffer_size_
      self m with ⟨r, self1, m1⟩
    rw [hpush] at hok
    cases r with
    | error e => simp at hok
    | ok b =>
      simp only at hok
      rw [finish_allocation_result _ _ _ _ _ _ _ hok]
      have hb := (push_current_buffer_ok _ _ _ _ _ _ _ _ hpush).2.1
      exact Buffer.data_aligned env b alignment k j hmax hj hbuf halign hle (hup _ _ _ hb)

/-! ## C5: alignment of the returned address -/

/-- C5: let `alignof(std::max_align_t)` be a power of two (at most `2 ^ 64`) that divides
`sizeof(Buffer)` (the `static_assert` of the source), and let upstream return addresses that
are multiples of `alignof(std::max_align_t)` when asked for that alignment. Then for every
state, every size and every alignment that is a power of two not above
`alignof(std::max_align_t)`, an address returned by `DoAllocate` is a multiple of the
alignment, whether it lies in the initial buffer, in the current buffer or in a new buffer. -/
theorem MonotonicBufferResource.DoAllocate_aligned (env : Env) (k j : Nat)
    (hmax : env.max_align = 2 ^ j) (hj : j ≤ 64)
    (hbuf : env.sizeof_Buffer % env.max_align = 0)
    (hup : ∀ log bytes p, env.upstream log bytes env.max_align = some p → p % env.max_align = 0)
    (self : MonotonicBufferResource) (m : Machine) (bytes alignment p : Nat)
    (halign : alignment = 2 ^ k) (hle : alignment ≤ env.max_align)
    (hok : (MonotonicBufferResource.DoAllocate env bytes alignment self m).1 = .ok p) :
    p % alignment = 0 := by
  unfold MonotonicBufferResource.DoAllocate at hok
  have hng : ¬ alignment > env.max_align := Nat.not_lt.mpr hle
  simp only [hng, if_false] at hok
  cases hcur : self.current_buffer_ with
  | cons b rest =>
    rw [hcur] at hok
    exact allocate_in_aligned env k j hmax hj hbuf hup _ _ _ _ _ _ _ halign hle hok
  | nil =>
    rw [hcur] at hok
    simp only at hok
    cases hinit : self.initial_buffer_ with
    | some buffer =>
      rw [hinit] at hok
      exact allocate_in_aligned env k j hmax hj hbuf hup _ _ _ _ _ _ _ halign hle hok
    | none =>
      rw [hinit] at hok
      simp only at hok
      rcases hpush : MonotonicBufferResource.push_current_buffer env bytes self.initial_size_
        self m with ⟨r, self1, m1⟩
      rw [hpush] at hok
      cases r with
      | error e => simp at hok
      | ok b => exact allocate_in_aligned env k j hmax hj hbuf hup _ _ _ _ _ _ _ halign hle hok

/-- Witness of C5: 10 bytes aligned to 8 from a user buffer of 100 bytes at address 1001 are
placed at address 1008. -/
theorem MonotonicBufferResource.DoAllocate_aligned_witness :
    (MonotonicBufferResource.DoAllocate bump_env 10 8
        (MonotonicBufferResource.of_buffer bump_env (some 1001) 100) Machine.initial).1 = .ok 1008 ∧
      1008 % 8 = 0 :=
  ⟨rfl,
    MonotonicBufferResource.DoAllocate_aligned bump_env 3 4 rfl (by decide) (by decide)
      (fun log bytes p h => bump_upstream_aligned log bytes _ p h)
      (MonotonicBufferResource.of_buffer bump_env (some 1001) 100) Machine.initial 10 8 1008
      rfl (by decide) rfl⟩

theorem push_current_buffer_served (env : Env) (hbuf : env.sizeof_Buffer = 16)
    (bytes next_size : Nat) (self : MonotonicBufferResource) (m : Machine) (cap p : Nat)
    (hcap : cap = if next_size > bytes then next_size else bytes)
    (hp : env.upstream m.log (16 + cap) env.max_align = some p) (hfit : 16 + cap < 2 ^ 64) :
    MonotonicBufferResource.push_current_buffer env bytes next_size self m
      = (.ok ⟨p, cap⟩,
         { self with current_buffer_ := ⟨p, cap⟩ :: self.current_buffer_, allocated_ := 0 },
         { m with log := m.log ++ [UpEvent.alloc (16 + cap) env.max_align (some p)] }) := by
  have hw : wrap (16 + cap) = 16 + cap := Nat.mod_eq_of_lt hfit
  unfold MonotonicBufferResource.push_current_buffer Upstream.Allocate
  rw [← hcap, hbuf]
  simp only [hw, hp]
  have : ¬ (16 + cap ≤ cap) := by omega
  simp [this]

theorem finish_allocation_at (bytes data : Nat) (self : MonotonicBufferResource) (m : Machine)
    (hpos : 0 < bytes) (hfit : data + bytes < 2 ^ 64) :
    MonotonicBufferResource.finish_allocation bytes data data data self m
      = (.ok data, { self with allocated_ := bytes }, m) := by
  unfold MonotonicBufferResource.finish_allocation
  have h1 : wrap (data + bytes) = data + bytes := Nat.mod_eq_of_lt hfit
  have h2 : sub64 data data = 0 := by
    rw [sub64_of_le data data (Nat.le_refl _) (by omega)]
    exact Nat.sub_self _
  have h3 : wrap bytes = bytes := Nat.mod_eq_of_lt (by omega)
  have h4 : ¬ (data + bytes ≤ data) := by omega
  simp [h1, h2, h3, h4]

theorem std_align_at_aligned (alignment size ptr space : Nat)
    (halign : alignment ∈ [1, 2, 4, 8, 16]) (hptr : ptr % 16 = 0) (hfit : ptr + 16 ≤ 2 ^ 64)
    (hsize : size ≤ space) : std_align alignment size ptr space = some (ptr, space) := by
  unfold std_align sub64 wrap
  have h1 : ¬ space < size := by omega
  simp only [h1, if_false]
  simp only [List.mem_cons, List.mem_singleton, List.not_mem_nil, or_false] at halign
  have hx : (ptr + alignment + (2 ^ 64 - 1)) % 2 ^ 64 = ptr + alignment - 1 := by
    rcases halign with h | h | h | h | h <;> subst h <;> omega
  have ha : ptr + alignment - 1 - (ptr + alignment - 1) % alignment = ptr := by
    rcases halign with h | h | h | h | h <;> subst h <;> omega
  have hd : (ptr + (2 ^ 64 - ptr % 2 ^ 64)) % 2 ^ 64 = 0 := by omega
  rw [hx, ha, hd]
  simp

theorem allocate_in_at_start (env : Env) (bytes alignment data cap : Nat)
    (self : MonotonicBufferResource) (m : Machine)
    (halign : alignment ∈ [1, 2, 4, 8, 16]) (hzero : self.allocated_ = 0)
    (hptr : data % 16 = 0) (hfit : data + 16 ≤ 2 ^ 64) (hcap : cap < 2 ^ 64)
    (hpos : 0 < bytes) (hsize : bytes ≤ cap) (hend : data + bytes < 2 ^ 64) :
    MonotonicBufferResource.allocate_in env bytes alignment data cap self m
      = (.ok data, { self with allocated_ := bytes }, m) := by
  unfold MonotonicBufferResource.allocate_in
  have h1 : wrap (data + self.allocated_) = data := by
    rw [hzero]; exact Nat.mod_eq_of_lt (by omega)
  have h2 : sub64 cap self.allocated_ = cap := by
    rw [hzero, sub64_of_le _ _ (Nat.zero_le _) hcap]; rfl
  simp only [h1, h2, std_align_at_aligned alignment bytes data cap halign hptr hfit hsize]
  exact finish_allocation_at bytes data self m hpos hend

theorem allocate_in_no_room (env : Env) (hbuf : env.sizeof_Buffer = 16)
    (bytes alignment data cap : Nat)
    (self : MonotonicBufferResource) (m : Machine) (cap1 p : Nat)
    (hroom : sub64 cap self.allocated_ < bytes)
    (hcap1 : cap1 = if self.next_buffer_size_ > bytes then self.next_buffer_size_ else bytes)
    (hp : env.upstream m.log (16 + cap1) env.max_align = some p)
    (hpos : 0 < bytes) (hle : p + (16 + cap1) < 2 ^ 64) :
    MonotonicBufferResource.allocate_in env bytes alignment data cap self m
      = (.ok (p + 16),
         { self with current_buffer_ := ⟨p, cap1⟩ :: self.current_buffer_, allocated_ := bytes,
                     next_buffer_size_ := GrowMonotonicBuffer self.next_buffer_size_ (SIZE_MAX - 16) },
         { m with log := m.log ++ [UpEvent.alloc (16 + cap1) env.max_align (some p)] }) := by
  have hpush := push_current_buffer_served env hbuf bytes self.next_buffer_size_ self m cap1 p hcap1
    hp (by omega)
  have hb : cap1 ≥ bytes := by rw [hcap1]; split_ifs <;> omega
  have hdata : Buffer.data env ⟨p, cap1⟩ = p + 16 := by
    unfold Buffer.data wrap
    rw [hbuf]
    show (p + 16) % 2 ^ 64 = p + 16
    exact Nat.mod_eq_of_lt (by omega)
  unfold MonotonicBufferResource.allocate_in
  have hnone : std_align alignment bytes (wrap (data + self.allocated_)) (sub64 cap self.allocated_)
      = none := by
    unfold std_align
    simp [hroom]
  simp only [hnone, hpush, hdata, hbuf]
  rw [finish_allocation_at bytes (p + 16) _ _ hpos (by omega)]

theorem not_gt_of_mem (alignment : Nat) (halign : alignment ∈ [1, 2, 4, 8, 16]) :
    ¬ alignment > 16 := by
  simp only [List.mem_cons, List.mem_singleton, List.not_mem_nil, or_false] at halign
  omega

theorem DoAllocate_first (env : Env) (hmax : env.max_align = 16) (hbuf : env.sizeof_Buffer = 16)
    (bytes alignment : Nat) (self : MonotonicBufferResource) (m : Machine)
    (cap p : Nat) (halign : alignment ∈ [1, 2, 4, 8, 16])
    (hcur : self.current_buffer_ = []) (hinit : self.initial_buffer_ = none)
    (hcap : cap = if self.initial_size_ > bytes then self.initial_size_ else bytes)
    (hp : env.upstream m.log (16 + cap) 16 = some p) (hmod : p % 16 = 0)
    (hpos : 0 < bytes) (hle : p + (16 + cap) < 2 ^ 64) :
    MonotonicBufferResource.DoAllocate env bytes alignment self m
      = (.ok (p + 16),
         { self with current_buffer_ := [⟨p, cap⟩], allocated_ := bytes },
         { m with log := m.log ++ [UpEvent.alloc (16 + cap) 16 (some p)] }) := by
  have hpush := push_current_buffer_served env hbuf bytes self.initial_size_ self m cap p hcap
    (by rw [hmax]; exact hp) (by omega)
  have hb : cap ≥ bytes := by rw [hcap]; split_ifs <;> omega
  have hdata : Buffer.data env ⟨p, cap⟩ = p + 16 := by
    unfold Buffer.data wrap
    rw [hbuf]
    show (p + 16) % 2 ^ 64 = p + 16
    exact Nat.mod_eq_of_lt (by omega)
  unfold MonotonicBufferResource.DoAllocate
  simp only [hmax, not_gt_of_mem alignment halign, if_false, hcur, hinit, hpush, hdata]
  rw [allocate_in_at_start env bytes alignment (p + 16) cap _ _ halign rfl (by omega) (by omega)
    (by omega) hpos hb (by omega)]

theorem DoAllocate_no_room (env : Env) (hmax : env.max_align = 16) (hbuf : env.sizeof_Buffer = 16)
    (bytes alignment : Nat) (self : MonotonicBufferResource) (m : Machine)
    (b : Buffer) (rest : List Buffer) (cap1 p : Nat) (halign : alignment ∈ [1, 2, 4, 8, 16])
    (hcur : self.current_buffer_ = b :: rest)
    (hroom : sub64 b.capacity self.allocated_ < bytes)
    (hcap1 : cap1 = if self.next_buffer_size_ > bytes then self.next_buffer_size_ else bytes)
    (hp : env.upstream m.log (16 + cap1) 16 = some p)
    (hpos : 0 < bytes) (hle : p + (16 + cap1) < 2 ^ 64) :
    MonotonicBufferResource.DoAllocate env bytes alignment self m
      = (.ok (p + 16),
         { self with current_buffer_ := ⟨p, cap1⟩ :: b :: rest, allocated_ := bytes,
                     next_buffer_size_ := GrowMonotonicBuffer self.next_buffer_size_ (SIZE_MAX - 16) },
         { m with log := m.log ++ [UpEvent.alloc (16 + cap1) 16 (some p)] }) := by
  have h := allocate_in_no_room env hbuf bytes alignment (b.data env) b.capacity
    self m cap1 p hroom hcap1 (by rw [hmax]; exact hp) hpos hle
  unfold MonotonicBufferResource.DoAllocate
  simp only [hmax, not_gt_of_mem alignment halign, if_false, hcur]
  rw [h, hmax, hcur]

/-! ## C6: the growth scenario -/

/-- C6 (as stated, refuted): with the bump allocator as upstream, a resource constructed with
initial size 64 owns three buffers after `Allocate(50)`, `Allocate(50)`, `Allocate(200)`, not
two: the second call has already obtained a buffer of its own, because only 14 bytes of the
first are left. `Release` then makes three requests to upstream. -/
theorem MonotonicBufferResource.growth_scenario_owns_three_buffers :
    MonotonicBufferResource.allocate_each bump_env 16 [50, 50, 200]
        (MonotonicBufferResource.of_initial_size 64) Machine.initial
      = (.ok [4112, 4192, 4272],
         ⟨[⟨4256, 200⟩, ⟨4176, 64⟩, ⟨4096, 64⟩], none, 64, 116, 200⟩,
         ⟨[], [UpEvent.alloc 80 16 (some 4096), UpEvent.alloc 80 16 (some 4176),
               UpEvent.alloc 216 16 (some 4256)]⟩) ∧
      [(⟨4256, 200⟩ : Buffer), ⟨4176, 64⟩, ⟨4096, 64⟩].length ≠ 2 ∧
      (MonotonicBufferResource.Release bump_env
          ⟨[⟨4256, 200⟩, ⟨4176, 64⟩, ⟨4096, 64⟩], none, 64, 116, 200⟩
          ⟨[], [UpEvent.alloc 80 16 (some 4096), UpEvent.alloc 80 16 (some 4176),
                UpEvent.alloc 216 16 (some 4256)]⟩).2.log
        = [UpEvent.alloc 80 16 (some 4096), UpEvent.alloc 80 16 (some 4176),
           UpEvent.alloc 216 16 (some 4256), UpEvent.dealloc 4256 216 16,
           UpEvent.dealloc 4176 80 16, UpEvent.dealloc 4096 80 16] :=
  ⟨rfl, by decide, rfl⟩

/-- C6 (amended): take `alignof(std::max_align_t) = sizeof(Buffer) = 16`, any alignment in
1, 2, 4, 8, 16, and an upstream that answers the three requests of the scenario with blocks
`p1`, `p2`, `p3` inside the address space, the first one a multiple of 16. For a resource
constructed with initial size 64 and no user buffer, `Allocate(50)`, `Allocate(50)` succeed
and leave two buffers of capacity 64; `Allocate(200)` then succeeds and is served from the
start of a buffer of capacity 200 that this call obtains from upstream; the resource then
owns exactly three buffers, and `Release` returns all three to upstream, each with the size
it was obtained with. -/
theorem MonotonicBufferResource.growth_scenario (env : Env) (m : Machine)
    (alignment p1 p2 p3 : Nat)
    (hmax : env.max_align = 16) (hbuf : env.sizeof_Buffer = 16)
    (halign : alignment ∈ [1, 2, 4, 8, 16])
    (h1 : env.upstream m.log 80 16 = some p1)
    (h2 : env.upstream (m.log ++ [UpEvent.alloc 80 16 (some p1)]) 80 16 = some p2)
    (h3 : env.upstream (m.log ++ [UpEvent.alloc 80 16 (some p1)] ++ [UpEvent.alloc 80 16 (some p2)])
      216 16 = some p3)
    (hp1 : p1 % 16 = 0 ∧ p1 + 80 < 2 ^ 64) (hp2 : p2 + 80 < 2 ^ 64) (hp3 : p3 + 216 < 2 ^ 64) :
    ∃ s2 m2 s3 m3,
      MonotonicBufferResource.allocate_each env alignment [50, 50]
          (MonotonicBufferResource.of_initial_size 64) m = (.ok [p1 + 16, p2 + 16], s2, m2) ∧
      MonotonicBufferResource.DoAllocate env 200 alignment s2 m2 = (.ok (p3 + 16), s3, m3) ∧
      s2.current_buffer_ = [⟨p2, 64⟩, ⟨p1, 64⟩] ∧
      s3.current_buffer_ = [⟨p3, 200⟩, ⟨p2, 64⟩, ⟨p1, 64⟩] ∧
      m3.log = m.log ++ [UpEvent.alloc 80 16 (some p1), UpEvent.alloc 80 16 (some p2),
        UpEvent.alloc 216 16 (some p3)] ∧
      (MonotonicBufferResource.Release env s3 m3).1.current_buffer_ = [] ∧
      (MonotonicBufferResource.Release env s3 m3).2.log = m3.log ++
        [UpEvent.dealloc p3 216 16, UpEvent.dealloc p2 80 16, UpEvent.dealloc p1 80 16] := by
  have e1 := DoAllocate_first env hmax hbuf 50 alignment
    (MonotonicBufferResource.of_initial_size 64) m 64 p1 halign rfl rfl (by decide) h1 hp1.1
    (by decide) hp1.2
  have e2 := DoAllocate_no_room env hmax hbuf 50 alignment
    ⟨[⟨p1, 64⟩], none, 64, 64, 50⟩
    { m with log := m.log ++ [UpEvent.alloc (16 + 64) 16 (some p1)] } ⟨p1, 64⟩ [] 64 p2 halign rfl
    (by show sub64 64 50 < 50; decide) (by simp) h2 (by decide) hp2
  have e3 := DoAllocate_no_room env hmax hbuf 200 alignment
    ⟨[⟨p2, 64⟩, ⟨p1, 64⟩], none, 64, GrowMonotonicBuffer 64 (SIZE_MAX - 16), 50⟩
    { m with log := m.log ++ [UpEvent.alloc (16 + 64) 16 (some p1)] ++
        [UpEvent.alloc (16 + 64) 16 (some p2)] } ⟨p2, 64⟩ [⟨p1, 64⟩] 200 p3 halign rfl
    (by show sub64 64 50 < 200; decide)
    (by
      show 200 = if GrowMonotonicBuffer 64 (SIZE_MAX - 16) > 200 then
        GrowMonotonicBuffer 64 (SIZE_MAX - 16) else 200
      decide)
    h3 (by decide) hp3
  refine ⟨_, _, _, _, ?_, e3, rfl, rfl, ?_, rfl, ?_⟩
  · simp only [MonotonicBufferResource.allocate_each, e1]
    simp only [MonotonicBufferResource.of_initial_size, e2]
  · simp
  · simp [MonotonicBufferResource.Release, Upstream.Deallocate, hmax, hbuf, wrap]

/-- Witness of C6 (amended): the bump allocator answers the three requests with the blocks
at 4096, 4176 and 4256. -/
theorem MonotonicBufferResource.growth_scenario_witness :
    ∃ s2 m2 s3 m3,
      MonotonicBufferResource.allocate_each bump_env 16 [50, 50]
          (MonotonicBufferResource.of_initial_size 64) Machine.initial
        = (.ok [4096 + 16, 4176 + 16], s2, m2) ∧
      MonotonicBufferResource.DoAllocate bump_env 200 16 s2 m2 = (.ok (4256 + 16), s3, m3) ∧
      s2.current_buffer_ = [⟨4176, 64⟩, ⟨4096, 64⟩] ∧
      s3.current_buffer_ = [⟨4256, 200⟩, ⟨4176, 64⟩, ⟨4096, 64⟩] ∧
      m3.log = Machine.initial.log ++ [UpEvent.alloc 80 16 (some 4096),
        UpEvent.alloc 80 16 (some 4176), UpEvent.alloc 216 16 (some 4256)] ∧
      (MonotonicBufferResource.Release bump_env s3 m3).1.current_buffer_ = [] ∧
      (MonotonicBufferResource.Release bump_env s3 m3).2.log = m3.log ++
        [UpEvent.dealloc 4256 216 16, UpEvent.dealloc 4176 80 16, UpEvent.dealloc 4096 80 16] :=
  MonotonicBufferResource.growth_scenario bump_env Machine.initial 16 4096 4176 4256 rfl rfl
    (by decide) rfl rfl rfl (by decide) (by decide) (by decide)

/-! ## C7: `Release` of the monotonic resource -/

theorem push_current_buffer_chain_obtained (env : Env) (bytes next_size : Nat)
    (self : MonotonicBufferResource) (m : Machine) (h : self.chain_obtained env m) :
    (MonotonicBufferResource.push_current_buffer env bytes next_size self m).2.1.chain_obtained env
      (MonotonicBufferResource.push_current_buffer env bytes next_size self m).2.2 := by
  rcases hpush : MonotonicBufferResource.push_current_buffer env bytes next_size self m with
    ⟨r, self1, m1⟩
  cases r with
  | error e =>
    obtain ⟨hs, evs, hm⟩ := push_current_buffer_error _ _ _ _ _ _ _ _ hpush
    intro b hb
    simp only [hs] at hb
    simp only [hm]
    exact List.mem_append_left _ (h b hb)
  | ok b0 =>
    obtain ⟨_, _, hs, hm⟩ := push_current_buffer_ok _ _ _ _ _ _ _ _ hpush
    intro b hb
    simp only [hs, List.mem_cons] at hb
    simp only [hm]
    rcases hb with rfl | hb
    · exact List.mem_append_right _ (List.mem_singleton_self _)
    · exact List.mem_append_left _ (h b hb)

theorem finish_allocation_chain_obtained (env : Env) (bytes data buffer_head aligned_ptr : Nat)
    (self : MonotonicBufferResource) (m : Machine) (h : self.chain_obtained env m) :
    (MonotonicBufferResource.finish_allocation bytes data buffer_head aligned_ptr
        self m).2.1.chain_obtained env
      (MonotonicBufferResource.finish_allocation bytes data buffer_head aligned_ptr self m).2.2 := by
  unfold MonotonicBufferResource.finish_allocation
  split_ifs
  · exact h
  · exact h
  · exact h

theorem allocate_in_chain_obtained (env : Env) (bytes alignment data data_capacity : Nat)
    (self : MonotonicBufferResource) (m : Machine) (h : self.chain_obtained env m) :
    (MonotonicBufferResource.allocate_in env bytes alignment data data_capacity
        self m).2.1.chain_obtained env
      (MonotonicBufferResource.allocate_in env bytes alignment data data_capacity self m).2.2 := by
  unfold MonotonicBufferResource.allocate_in
  simp only
  cases std_align alignment bytes (wrap (data + self.allocated_))
      (sub64 data_capacity self.allocated_) with
  | some r => exact finish_allocation_chain_obtained env _ _ _ _ _ _ h
  | none =>
    have hp := push_current_buffer_chain_obtained env bytes self.next_buffer_size_ self m h
    rcases hpush : MonotonicBufferResource.push_current_buffer env bytes self.next_buffer_size_
      self m with ⟨r, self1, m1⟩
    rw [hpush] at hp
    cases r with
    | error e => exact hp
    | ok b => exact finish_allocation_chain_obtained env _ _ _ _ _ _ hp

theorem DoAllocate_chain_obtained (env : Env) (bytes alignment : Nat)
    (self : MonotonicBufferResource) (m : Machine) (h : self.chain_obtained env m) :
    (MonotonicBufferResource.DoAllocate env bytes alignment self m).2.1.chain_obtained env
      (MonotonicBufferResource.DoAllocate env bytes alignment self m).2.2 := by
  unfold MonotonicBufferResource.DoAllocate
  split_ifs
  · exact h
  · cases hcur : self.current_buffer_ with
    | cons b rest => exact allocate_in_chain_obtained env _ _ _ _ _ _ h
    | nil =>
      cases hinit : self.initial_buffer_ with
      | some buffer => exact allocate_in_chain_obtained env _ _ _ _ _ _ h
      | none =>
        have hp := push_current_buffer_chain_obtained env bytes self.initial_size_ self m h
        rcases hpush : MonotonicBufferResource.push_current_buffer env bytes self.initial_size_
          self m with ⟨r, self1, m1⟩
        rw [hpush] at hp
        cases r with
        | error e => exact hp
        | ok b => exact allocate_in_chain_obtained env _ _ _ _ _ _ hp

theorem Reachable_chain_obtained (env : Env) (self : MonotonicBufferResource) (m : Machine)
    (h : MonotonicBufferResource.Reachable env self m) : self.chain_obtained env m := by
  induction h with
  | of_initial_size n m => intro b hb; simp [MonotonicBufferResource.of_initial_size] at hb
  | of_buffer buffer n m => intro b hb; simp [MonotonicBufferResource.of_buffer] at hb
  | DoAllocate bytes alignment self m _ ih => exact DoAllocate_chain_obtained env _ _ _ _ ih
  | Release self m _ _ => intro b hb; simp [MonotonicBufferResource.Release] at hb

theorem Release_requests_of_chain (env : Env) (chain : List Buffer) (m : Machine) :
    (chain.foldl
      (fun m1 b => Upstream.Deallocate b.addr (wrap (env.sizeof_Buffer + b.capacity)) env.max_align m1)
      m)
    = { m with log := m.log ++ MonotonicBufferResource.release_requests env chain } := by
  induction chain generalizing m with
  | nil => simp [MonotonicBufferResource.release_requests]
  | cons b rest ih =>
    rw [List.foldl_cons, ih]
    simp [Upstream.Deallocate, MonotonicBufferResource.release_requests]

/-- C7: in every reachable state, `Release` leaves the resource with no current buffer and
`allocated_ = 0` and changes nothing else of it (the user-supplied initial buffer stays where
it is); the requests it makes to upstream are exactly one `Deallocate` per buffer of the
chain, with the size `sizeof(Buffer) + capacity`; each of these buffers came from an upstream
`Allocate` of that very size, so no other address (such as the user's buffer) is handed to
upstream; and a second `Release` returns nothing more. -/
theorem MonotonicBufferResource.Release_returns_chain (env : Env)
    (self : MonotonicBufferResource) (m : Machine)
    (h : MonotonicBufferResource.Reachable env self m) :
    (MonotonicBufferResource.Release env self m).1
        = { self with current_buffer_ := [], allocated_ := 0 } ∧
      (MonotonicBufferResource.Release env self m).2
        = { m with log := m.log ++
              MonotonicBufferResource.release_requests env self.current_buffer_ } ∧
      (∀ b ∈ self.current_buffer_,
        UpEvent.dealloc b.addr (wrap (env.sizeof_Buffer + b.capacity)) env.max_align
            ∈ MonotonicBufferResource.release_requests env self.current_buffer_ ∧
          UpEvent.alloc (wrap (env.sizeof_Buffer + b.capacity)) env.max_align (some b.addr)
            ∈ m.log) ∧
      (MonotonicBufferResource.release_requests env self.current_buffer_).length
        = self.current_buffer_.length ∧
      MonotonicBufferResource.Release env (MonotonicBufferResource.Release env self m).1
          (MonotonicBufferResource.Release env self m).2
        = MonotonicBufferResource.Release env self m := by
  refine ⟨rfl, Release_requests_of_chain env _ m, ?_, ?_, ?_⟩
  · intro b hb
    exact ⟨List.mem_map.mpr ⟨b, hb, rfl⟩, Reachable_chain_obtained env self m h b hb⟩
  · simp [MonotonicBufferResource.release_requests]
  · simp [MonotonicBufferResource.Release]

/-- Witness of C7: the state reached by `Allocate(50)` on a resource of initial size 64. -/
theorem MonotonicBufferResource.Release_returns_chain_witness :
    MonotonicBufferResource.Reachable bump_env
        (MonotonicBufferResource.DoAllocate bump_env 50 16
          (MonotonicBufferResource.of_initial_size 64) Machine.initial).2.1
        (MonotonicBufferResource.DoAllocate bump_env 50 16
          (MonotonicBufferResource.of_initial_size 64) Machine.initial).2.2 ∧
      (MonotonicBufferResource.Release bump_env
        (MonotonicBufferResource.DoAllocate bump_env 50 16
          (MonotonicBufferResource.of_initial_size 64) Machine.initial).2.1
        (MonotonicBufferResource.DoAllocate bump_env 50 16
          (MonotonicBufferResource.of_initial_size 64) Machine.initial).2.2).2.log
        = [UpEvent.alloc 80 16 (some 4096), UpEvent.dealloc 4096 80 16] :=
  ⟨MonotonicBufferResource.Reachable.DoAllocate 50 16 _ _
      (MonotonicBufferResource.Reachable.of_initial_size 64 Machine.initial),
    (congrArg Machine.log
      (MonotonicBufferResource.Release_returns_chain bump_env _ _
        (MonotonicBufferResource.Reachable.DoAllocate 50 16 _ _
          (MonotonicBufferResource.Reachable.of_initial_size 64 Machine.initial))).2.1).trans rfl⟩

/-! ## C8: overflow of the size of a chunk -/

theorem allocate_new_chunk_overflow (env : Env) (self : impl.Pool) (m : Machine)
    (hover : SIZE_MAX < self.block_size_ * self.blocks_per_chunk_) :
    impl.Pool.allocate_new_chunk env self m
      = (.error (.BadAlloc .AllocationSizeOverflow), self, m) := by
  have hne : self.blocks_per_chunk_ ≠ 0 := by
    intro h0
    rw [h0] at hover
    simp at hover
  have hdiv : SIZE_MAX / self.blocks_per_chunk_ < self.block_size_ :=
    (Nat.div_lt_iff_lt_mul (Nat.pos_of_ne_zero hne)).mpr hover
  simp [impl.Pool.allocate_new_chunk, hne, hdiv]

theorem allocate_search_overflow (env : Env) (self : impl.Pool) (m : Machine)
    (hfull : ∀ c ∈ self.chunks_, c.blocks_available = 0)
    (hover : SIZE_MAX < self.block_size_ * self.blocks_per_chunk_) :
    impl.Pool.allocate_search env self m
      = (.error (.BadAlloc .AllocationSizeOverflow), self, m) := by
  have hnone : find_first (fun c : impl.Chunk => decide (c.blocks_available > 0)) self.chunks_ 0
      = none :=
    find_first_eq_none _ _ _ (fun c hc => by simp [hfull c hc])
  simp [impl.Pool.allocate_search, hnone, allocate_new_chunk_overflow env self m hover]

/-- C8: for every pool whose `last_alloc_chunk_` is null or points into `chunks_`, whose chunks
all have `blocks_available = 0`, and for which `block_size_ * blocks_per_chunk_` exceeds the
largest `size_t`, `Allocate` throws `BadAlloc` ("Allocation size overflow") and leaves the pool
(no chunk is added) and the machine (nothing is requested from upstream) unchanged. -/
theorem Pool.Allocate_size_overflow (env : Env) (self : impl.Pool) (m : Machine)
    (hhint : ∀ i, self.last_alloc_chunk_ = some i → i < self.chunks_.length)
    (hfull : ∀ c ∈ self.chunks_, c.blocks_available = 0)
    (hover : SIZE_MAX < self.block_size_ * self.blocks_per_chunk_) :
    self.Allocate env m = (.error (.BadAlloc .AllocationSizeOverflow), self, m) := by
  have hs := allocate_search_overflow env self m hfull hover
  cases hl : self.last_alloc_chunk_ with
  | none => simp [impl.Pool.Allocate, deref, hl, hs]
  | some i =>
    have hi := hhint i hl
    have hget : self.chunks_[i]? = some self.chunks_[i] := List.getElem?_eq_getElem hi
    have h0 : self.chunks_[i].blocks_available = 0 := hfull _ (List.getElem_mem hi)
    simp [impl.Pool.Allocate, deref, hl, hget, h0, hs]

/-- Witness of C8: a pool of 2 blocks of `2 ^ 63` bytes per chunk, whose only chunk is full. -/
theorem Pool.Allocate_size_overflow_witness :
    SIZE_MAX < 2 ^ 63 * 2 ∧
      impl.Pool.Allocate bump_env ⟨2, 2 ^ 63, [⟨4096, 2, 0⟩], some 0, some 0⟩ Machine.initial
        = (.error (.BadAlloc .AllocationSizeOverflow),
           ⟨2, 2 ^ 63, [⟨4096, 2, 0⟩], some 0, some 0⟩, Machine.initial) :=
  ⟨by decide,
    Pool.Allocate_size_overflow bump_env ⟨2, 2 ^ 63, [⟨4096, 2, 0⟩], some 0, some 0⟩
      Machine.initial (by simp) (by simp) (by decide)⟩

end utils

namespace database

/-! ## Lemmas on the map of counters -/

theorem to_int64_succ (x : Int) : to_int64 (to_int64 x + 1) = to_int64 (x + 1) := by
  unfold to_int64
  omega

theorem to_int64_of_range (x : Int) (h1 : -2 ^ 63 ≤ x) (h2 : x < 2 ^ 63) : to_int64 x = x := by
  unfold to_int64
  omega

theorem store_cons_same (rest : List (String × Int)) (name : String) (x v : Int) :
    store ((name, x) :: rest) name v = (name, v) :: store rest name v := by
  simp [store]

theorem store_cons_other (rest : List (String × Int)) (k name : String) (x v : Int)
    (h : k ≠ name) : store ((k, x) :: rest) name v = (k, x) :: store rest name v := by
  simp [store, h]

theorem lookup_store_same (cs : List (String × Int)) (name : String) (v : Int) :
    (store cs name v).lookup name = (cs.lookup name).map (fun _ => v) := by
  induction cs with
  | nil => rfl
  | cons e rest ih =>
    obtain ⟨k, x⟩ := e
    by_cases hk : k = name
    · subst hk
      rw [store_cons_same]
      simp [List.lookup_cons]
    · have hne : (name == k) = false := by simpa using fun h => hk h.symm
      rw [store_cons_other _ _ _ _ _ hk]
      simp only [List.lookup_cons, hne]
      exact ih

theorem lookup_store_other (cs : List (String × Int)) (name other : String) (v : Int)
    (h : other ≠ name) : (store cs name v).lookup other = cs.lookup other := by
  induction cs with
  | nil => rfl
  | cons e rest ih =>
    obtain ⟨k, x⟩ := e
    by_cases hk : k = name
    · subst hk
      have hne : (other == k) = false := by simpa using h
      rw [store_cons_same]
      simp only [List.lookup_cons, hne]
      exact ih
    · rw [store_cons_other _ _ _ _ _ hk]
      cases hb : (other == k) with
      | true => simp [List.lookup_cons, hb]
      | false => simp only [List.lookup_cons, hb]; exact ih

theorem Get_returns_stored (name : String) (self : SingleNodeCounters) :
    (SingleNodeCounters.Get name self).1 = (self.stored name).getD 0 := by
  unfold SingleNodeCounters.Get emplace SingleNodeCounters.stored
  cases h : self.counters_.lookup name <;> simp

theorem Get_stored_same (name : String) (self : SingleNodeCounters) :
    (SingleNodeCounters.Get name self).2.stored name
      = some (to_int64 ((self.stored name).getD 0 + 1)) := by
  unfold SingleNodeCounters.Get emplace SingleNodeCounters.stored
  cases h : self.counters_.lookup name with
  | none => simp [store_cons_same, List.lookup_cons]
  | some x => simp [lookup_store_same, h]

theorem Get_stored_other (name other : String) (self : SingleNodeCounters) (hne : other ≠ name) :
    (SingleNodeCounters.Get name self).2.stored other = self.stored other := by
  unfold SingleNodeCounters.Get emplace SingleNodeCounters.stored
  have hb : (other == name) = false := by simpa using hne
  cases h : self.counters_.lookup name with
  | none => simp [store_cons_same, lookup_store_other _ _ _ _ hne, List.lookup_cons, hb]
  | some x => simp [lookup_store_other _ _ _ _ hne]

theorem Set_stored_same (name : String) (v : Int) (self : SingleNodeCounters) :
    (SingleNodeCounters.Set name v self).stored name = some v := by
  unfold SingleNodeCounters.Set emplace SingleNodeCounters.stored
  cases h : self.counters_.lookup name with
  | none => simp [List.lookup_cons]
  | some x => simp [lookup_store_same, h]

theorem Set_stored_other (name other : String) (v : Int) (self : SingleNodeCounters)
    (hne : other ≠ name) :
    (SingleNodeCounters.Set name v self).stored other = self.stored other := by
  unfold SingleNodeCounters.Set emplace SingleNodeCounters.stored
  have hb : (other == name) = false := by simpa using hne
  cases h : self.counters_.lookup name with
  | none => simp [List.lookup_cons, hb]
  | some x => simp [lookup_store_other _ _ _ _ hne]

theorem run_stored (name : String) (ops : List SingleNodeCounters.Call)
    (hset : ∀ v, SingleNodeCounters.Call.Set name v ∉ ops) (self : SingleNodeCounters) (x : Int)
    (hx : (self.stored name).getD 0 = to_int64 x) :
    ((SingleNodeCounters.run ops self).stored name).getD 0
      = to_int64 (x + ops.count (SingleNodeCounters.Call.Get name)) := by
  induction ops generalizing self x with
  | nil => simpa [SingleNodeCounters.run] using hx
  | cons op rest ih =>
    have hrest : ∀ v, SingleNodeCounters.Call.Set name v ∉ rest :=
      fun v hv => hset v (List.mem_cons_of_mem _ hv)
    cases op with
    | Get n =>
      by_cases hn : n = name
      · subst hn
        have h1 := ih hrest (SingleNodeCounters.Get n self).2 (x + 1)
          (by rw [Get_stored_same, hx]; simp [to_int64_succ])
        simp only [SingleNodeCounters.run, h1, List.count_cons_self]
        push_cast
        congr 1
        ring
      · have hne : name ≠ n := fun h => hn h.symm
        have h1 := ih hrest (SingleNodeCounters.Get n self).2 x
          (by rw [Get_stored_other _ _ _ hne, hx])
        have hc : (SingleNodeCounters.Call.Get n == SingleNodeCounters.Call.Get name) = false := by
          simpa using hn
        simp only [SingleNodeCounters.run, h1, List.count_cons, hc]
        simp
    | Set n v =>
      have hn : name ≠ n := by
        intro h
        subst h
        exact hset v (List.mem_cons_self _ _)
      have h1 := ih hrest (SingleNodeCounters.Set n v self) x
        (by rw [Set_stored_other _ _ _ _ hn, hx])
      have hc : (SingleNodeCounters.Call.Set n v == SingleNodeCounters.Call.Get name) = false := by
        simp
      simp only [SingleNodeCounters.run, h1, List.count_cons, hc]
      simp

theorem Get_after_run (name : String) (ops : List SingleNodeCounters.Call)
    (self : SingleNodeCounters) (huntouched : self.stored name = none)
    (hset : ∀ v, SingleNodeCounters.Call.Set name v ∉ ops) :
    (SingleNodeCounters.Get name (SingleNodeCounters.run ops self)).1
        = to_int64 (ops.count (SingleNodeCounters.Call.Get name)) ∧
      (SingleNodeCounters.Get name (SingleNodeCounters.run ops self)).2.stored name
        = some (to_int64 (ops.count (SingleNodeCounters.Call.Get name) + 1)) := by
  have h := run_stored name ops hset self 0 (by rw [huntouched]; rfl)
  rw [zero_add] at h
  exact ⟨by rw [Get_returns_stored, h], by rw [Get_stored_same, h, to_int64_succ]⟩

/-! ## C9: successive calls of `Get` -/

/-- C9 (as stated, refuted): for `k = 2 ^ 63` the claim fails. After `2 ^ 63 - 1` calls of
`Get("c")` on an empty service the next call, the `2 ^ 63`-th, returns `2 ^ 63 - 1`, but the
value it leaves stored is `-2 ^ 63` and not `2 ^ 63`: the counter is an `int64_t` and the
atomic addition wraps. -/
theorem SingleNodeCounters.Get_wraps_at_int64_max :
    (SingleNodeCounters.Get "c" (SingleNodeCounters.run
        (List.replicate (2 ^ 63 - 1) (SingleNodeCounters.Call.Get "c")) ⟨[]⟩)).1 = 2 ^ 63 - 1 ∧
      (SingleNodeCounters.Get "c" (SingleNodeCounters.run
        (List.replicate (2 ^ 63 - 1) (SingleNodeCounters.Call.Get "c")) ⟨[]⟩)).2.stored "c"
        = some (-2 ^ 63) ∧
      (-2 ^ 63 : Int) ≠ 2 ^ 63 := by
  have h := Get_after_run "c" (List.replicate (2 ^ 63 - 1) (SingleNodeCounters.Call.Get "c")) ⟨[]⟩
    rfl (fun v hv => by simpa using List.eq_of_mem_replicate hv)
  rw [List.count_replicate_self] at h
  refine ⟨by rw [h.1]; decide, by rw [h.2]; decide, by decide⟩

/-- C9 (amended): let `name` be a counter that does not exist yet and let `ops` be any calls
of the service without a `Set` of `name`. If the `Get(name)` that follows `ops` is the `k`-th
one (`ops` holds `k - 1` of them) and `k < 2 ^ 63`, it returns `k - 1` and leaves `k` stored;
for `k = 1` it returns `0` and leaves `1`. -/
theorem SingleNodeCounters.Get_kth (name : String) (self : SingleNodeCounters)
    (ops : List SingleNodeCounters.Call) (k : Nat) (huntouched : self.stored name = none)
    (hset : ∀ v, SingleNodeCounters.Call.Set name v ∉ ops)
    (hk : ops.count (SingleNodeCounters.Call.Get name) + 1 = k) (hlt : k < 2 ^ 63) :
    (SingleNodeCounters.Get name (SingleNodeCounters.run ops self)).1 = (k : Int) - 1 ∧
      (SingleNodeCounters.Get name (SingleNodeCounters.run ops self)).2.stored name
        = some (k : Int) := by
  obtain ⟨h1, h2⟩ := Get_after_run name ops self huntouched hset
  subst hk
  have hc : ((ops.count (SingleNodeCounters.Call.Get name) : Nat) : Int) + 1 < 2 ^ 63 := by
    exact_mod_cast hlt
  have hc0 : (0 : Int) ≤ ((ops.count (SingleNodeCounters.Call.Get name) : Nat) : Int) :=
    Int.ofNat_nonneg _
  constructor
  · rw [h1, to_int64_of_range _ (by omega) (by omega)]
    push_cast
    ring
  · rw [h2, to_int64_of_range _ (by omega) (by omega)]
    push_cast
    rfl

/-- Witness of C9 (amended): the third `Get("c")`, with calls on another counter in between,
returns 2 and leaves 3 stored. -/
theorem SingleNodeCounters.Get_kth_witness :
    (SingleNodeCounters.Get "c" (SingleNodeCounters.run
        [.Get "d", .Get "c", .Set "d" 5, .Get "c"] ⟨[("e", 7)]⟩)).1 = ((3 : Nat) : Int) - 1 ∧
      (SingleNodeCounters.Get "c" (SingleNodeCounters.run
        [.Get "d", .Get "c", .Set "d" 5, .Get "c"] ⟨[("e", 7)]⟩)).2.stored "c"
        = some ((3 : Nat) : Int) :=
  SingleNodeCounters.Get_kth "c" ⟨[("e", 7)]⟩ [.Get "d", .Get "c", .Set "d" 5, .Get "c"] 3
    (by decide) (by simp) (by decide) (by decide)

/-! ## C10: `Set` followed by `Get` -/

/-- C10 (as stated, refuted): after `Set("c", 2 ^ 63 - 1)`, a legal `int64_t` value, the next
`Get("c")` returns `2 ^ 63 - 1`, but the following one returns `-2 ^ 63` and not
`(2 ^ 63 - 1) + 1`. -/
theorem SingleNodeCounters.Get_after_Set_of_int64_max :
    (-2 ^ 63 : Int) ≤ 2 ^ 63 - 1 ∧ (2 ^ 63 - 1 : Int) < 2 ^ 63 ∧
      (SingleNodeCounters.Get "c" (SingleNodeCounters.Set "c" (2 ^ 63 - 1) ⟨[]⟩)).1
        = 2 ^ 63 - 1 ∧
      (SingleNodeCounters.Get "c"
          (SingleNodeCounters.Get "c" (SingleNodeCounters.Set "c" (2 ^ 63 - 1) ⟨[]⟩)).2).1
        = -2 ^ 63 ∧
      (-2 ^ 63 : Int) ≠ (2 ^ 63 - 1) + 1 := by
  decide

/-- C10 (amended): for every name, every state and every `int64_t` value `v`, after
`Set(name, v)`, whether the counter existed or not, the next `Get(name)` returns `v` and the
following one returns `v + 1` if `v` is less than `2 ^ 63 - 1` and `-2 ^ 63` if `v` is
`2 ^ 63 - 1`; the values of all other counters are the same after the `Set`, and after the
two `Get`s, as before. -/
theorem SingleNodeCounters.Get_after_Set (name : String) (v : Int) (self : SingleNodeCounters)
    (h1 : -2 ^ 63 ≤ v) (h2 : v < 2 ^ 63) :
    (SingleNodeCounters.Get name (SingleNodeCounters.Set name v self)).1 = v ∧
      (SingleNodeCounters.Get name
          (SingleNodeCounters.Get name (SingleNodeCounters.Set name v self)).2).1
        = (if v = 2 ^ 63 - 1 then -2 ^ 63 else v + 1) ∧
      ∀ other, other ≠ name →
        (SingleNodeCounters.Set name v self).stored other = self.stored other ∧
        (SingleNodeCounters.Get name
          (SingleNodeCounters.Get name (SingleNodeCounters.Set name v self)).2).2.stored other
            = self.stored other := by
  refine ⟨by rw [Get_returns_stored, Set_stored_same]; rfl, ?_, ?_⟩
  · rw [Get_returns_stored, Get_stored_same, Set_stored_same]
    simp only [Option.getD_some]
    unfold to_int64
    split_ifs <;> omega
  · intro other hne
    exact ⟨Set_stored_other _ _ _ _ hne, by
      rw [Get_stored_other _ _ _ hne, Get_stored_other _ _ _ hne, Set_stored_other _ _ _ _ hne]⟩

/-- Witness of C10 (amended): `Set("c", 41)` on a service where "c" holds 7 and "d" holds 1. -/
theorem SingleNodeCounters.Get_after_Set_witness :
    (SingleNodeCounters.Get "c" (SingleNodeCounters.Set "c" 41 ⟨[("c", 7), ("d", 1)]⟩)).1 = 41 ∧
      (SingleNodeCounters.Get "c" (SingleNodeCounters.Get "c"
          (SingleNodeCounters.Set "c" 41 ⟨[("c", 7), ("d", 1)]⟩)).2).1
        = (if (41 : Int) = 2 ^ 63 - 1 then -2 ^ 63 else 41 + 1) ∧
      ∀ other, other ≠ "c" →
        (SingleNodeCounters.Set "c" 41 ⟨[("c", 7), ("d", 1)]⟩).stored other
            = (SingleNodeCounters.mk [("c", 7), ("d", 1)]).stored other ∧
        (SingleNodeCounters.Get "c" (SingleNodeCounters.Get "c"
          (SingleNodeCounters.Set "c" 41 ⟨[("c", 7), ("d", 1)]⟩)).2).2.stored other
            = (SingleNodeCounters.mk [("c", 7), ("d", 1)]).stored other :=
  SingleNodeCounters.Get_after_Set "c" 41 ⟨[("c", 7), ("d", 1)]⟩ (by decide) (by decide)

end database

/-! ## C11: `GetOrCreateSymbol` -/

namespace query

theorem Symbols.lookup_assign_of_absent (symbols : Symbols) (name : String) (symbol : Symbol)
    (h : symbols.lookup name = none) : (symbols.assign name symbol).lookup name = some symbol := by
  unfold Symbols.assign
  rw [h]
  simp only
  induction symbols with
  | nil => simp [List.lookup_cons]
  | cons e rest ih =>
    obtain ⟨k, x⟩ := e
    rw [List.lookup_cons] at h
    cases hb : (name == k) with
    | true => rw [hb] at h; simp at h
    | false =>
      rw [hb] at h
      simp only [List.cons_append, List.lookup_cons, hb]
      exact ih h

/-- C11: for every symbol table, generator state, name, flag and type,
`GetOrCreateSymbol` throws if and only if the name is bound in the scope to a symbol whose
type differs from the requested one while neither type is `Any`, and what it throws is
`TypeMismatchError`; when the name is bound to a symbol of a compatible type it returns that
symbol and leaves the symbol table and the scope as they are; when the name is not bound it
returns the symbol that `symbol_table_.CreateSymbol` creates and binds the name to it in the
scope, next to the bindings that were there. -/
theorem SymbolGenerator.GetOrCreateSymbol_outcomes {σ : Type}
    (create : SymbolTable.CreateSymbolFn σ) (self : SymbolGenerator σ) (name : String)
    (user_declared : Bool) (type : SymbolType) :
    ((∃ e, (SymbolGenerator.GetOrCreateSymbol create name user_declared type self).1 = .error e) ↔
      ∃ symbol, self.scope_.symbols.lookup name = some symbol ∧ symbol.type_ ≠ type ∧
        type ≠ SymbolType.Any ∧ symbol.type_ ≠ SymbolType.Any) ∧
    (∀ e, (SymbolGenerator.GetOrCreateSymbol create name user_declared type self).1 = .error e →
      ∃ symbol, self.scope_.symbols.lookup name = some symbol ∧
        e = SemanticError.TypeMismatchError name symbol.type_ type) ∧
    (∀ symbol, self.scope_.symbols.lookup name = some symbol →
      (symbol.type_ = type ∨ type = SymbolType.Any ∨ symbol.type_ = SymbolType.Any) →
      SymbolGenerator.GetOrCreateSymbol create name user_declared type self = (.ok symbol, self)) ∧
    (self.scope_.symbols.lookup name = none →
      (SymbolGenerator.GetOrCreateSymbol create name user_declared type self).1
          = .ok (create self.symbol_table_ name user_declared type).1 ∧
        (SymbolGenerator.GetOrCreateSymbol create name user_declared type self).2.symbol_table_
          = (create self.symbol_table_ name user_declared type).2 ∧
        (SymbolGenerator.GetOrCreateSymbol create name user_declared type self).2.scope_.symbols
          = self.scope_.symbols ++ [(name, (create self.symbol_table_ name user_declared type).1)] ∧
        (SymbolGenerator.GetOrCreateSymbol create name user_declared type self).2.scope_.symbols.lookup
            name = some (create self.symbol_table_ name user_declared type).1) := by
  cases hl : self.scope_.symbols.lookup name with
  | none =>
    refine ⟨?_, ?_, ?_, ?_⟩
    · simp [SymbolGenerator.GetOrCreateSymbol, hl]
    · simp [SymbolGenerator.GetOrCreateSymbol, hl]
    · intro symbol h; simp at h
    · intro _
      have ha := Symbols.lookup_assign_of_absent self.scope_.symbols name
        (create self.symbol_table_ name user_declared type).1 hl
      refine ⟨?_, ?_, ?_, ?_⟩
      · simp [SymbolGenerator.GetOrCreateSymbol, hl, SymbolGenerator.CreateSymbol]
      · simp [SymbolGenerator.GetOrCreateSymbol, hl, SymbolGenerator.CreateSymbol]
      · simp [SymbolGenerator.GetOrCreateSymbol, hl, SymbolGenerator.CreateSymbol,
          Symbols.assign]
      · simpa [SymbolGenerator.GetOrCreateSymbol, hl, SymbolGenerator.CreateSymbol] using ha
  | some found =>
    by_cases hm : type ≠ SymbolType.Any ∧ found.type_ ≠ SymbolType.Any ∧ type ≠ found.type_
    · refine ⟨?_, ?_, ?_, ?_⟩
      · constructor
        · intro _
          exact ⟨found, rfl, fun h => hm.2.2 h.symm, hm.1, hm.2.1⟩
        · intro _
          exact ⟨SemanticError.TypeMismatchError name found.type_ type,
            by simp [SymbolGenerator.GetOrCreateSymbol, hl, hm]⟩
      · intro e he
        refine ⟨found, rfl, ?_⟩
        simp [SymbolGenerator.GetOrCreateSymbol, hl, hm] at he
        exact he.symm
      · intro symbol hs hc
        simp only [Option.some.injEq] at hs
        subst hs
        rcases hc with h | h | h
        · exact absurd h.symm hm.2.2
        · exact absurd h hm.1
        · exact absurd h hm.2.1
      · intro h; simp at h
    · refine ⟨?_, ?_, ?_, ?_⟩
      · constructor
        · intro ⟨e, he⟩
          simp [SymbolGenerator.GetOrCreateSymbol, hl, hm] at he
        · intro ⟨symbol, hs, h1, h2, h3⟩
          simp only [Option.some.injEq] at hs
          subst hs
          exact absurd ⟨h2, h3, fun h => h1 h.symm⟩ hm
      · intro e he
        simp [SymbolGenerator.GetOrCreateSymbol, hl, hm] at he
      · intro symbol hs _
        simp only [Option.some.injEq] at hs
        subst hs
        simp [SymbolGenerator.GetOrCreateSymbol, hl, hm]
      · intro h; simp at h

/-- Witness of C11: in a scope that binds "n" to a vertex, "n" is found again as a vertex,
and "m" is created. -/
theorem SymbolGenerator.GetOrCreateSymbol_outcomes_witness :
    SymbolGenerator.GetOrCreateSymbol counting_table "n" true SymbolType.Vertex
        ⟨1, { symbols := [("n", ⟨"n", 0, true, SymbolType.Vertex⟩)] }⟩
      = (.ok ⟨"n", 0, true, SymbolType.Vertex⟩,
         ⟨1, { symbols := [("n", ⟨"n", 0, true, SymbolType.Vertex⟩)] }⟩) ∧
    (SymbolGenerator.GetOrCreateSymbol counting_table "m" true SymbolType.Edge
        ⟨1, { symbols := [("n", ⟨"n", 0, true, SymbolType.Vertex⟩)] }⟩).2.scope_.symbols.lookup "m"
      = some (counting_table 1 "m" true SymbolType.Edge).1 :=
  ⟨(SymbolGenerator.GetOrCreateSymbol_outcomes counting_table
      ⟨1, { symbols := [("n", ⟨"n", 0, true, SymbolType.Vertex⟩)] }⟩ "n" true
      SymbolType.Vertex).2.2.1 ⟨"n", 0, true, SymbolType.Vertex⟩ (by decide) (Or.inl rfl),
    ((SymbolGenerator.GetOrCreateSymbol_outcomes counting_table
      ⟨1, { symbols := [("n", ⟨"n", 0, true, SymbolType.Vertex⟩)] }⟩ "m" true
      SymbolType.Edge).2.2.2 (by decide)).2.2.2⟩

end query

/-! ## C12: `RecordAccessor::Visible` -/

/-- C12: for every accessor, transaction and `is_expired_by`: `Visible(t, false)` holds
exactly when `old_` is set; `Visible(t, true)` holds exactly when `old_` is set and not
expired by `t`, or `new_` is set and not expired by `t`. Hence a record created by `t`
(`old_` null, `new_` set and not expired by `t`) is visible in the current state and not in
the old one, and a record deleted by `t` (`old_` set and expired by `t`, `new_` null or
expired by `t` as well) is visible in the old state and not in the current one. -/
theorem RecordAccessor.Visible_iff {TRecord Transaction : Type}
    (is_expired_by : TRecord → Transaction → Bool) (self : RecordAccessor TRecord)
    (t : Transaction) :
    (self.Visible is_expired_by t false = true ↔ self.old_.isSome = true) ∧
    (self.Visible is_expired_by t true = true ↔
      (∃ old, self.old_ = some old ∧ is_expired_by old t = false) ∨
      (∃ new, self.new_ = some new ∧ is_expired_by new t = false)) ∧
    (∀ new, self.old_ = none → self.new_ = some new → is_expired_by new t = false →
      self.Visible is_expired_by t true = true ∧ self.Visible is_expired_by t false = false) ∧
    (∀ old, self.old_ = some old → is_expired_by old t = true →
      (∀ new, self.new_ = some new → is_expired_by new t = true) →
      self.Visible is_expired_by t false = true ∧ self.Visible is_expired_by t true = false) := by
  unfold RecordAccessor.Visible
  refine ⟨?_, ?_, ?_, ?_⟩
  · cases self.old_ <;> simp
  · cases self.old_ <;> cases self.new_ <;> simp
  · intro new ho hn he
    simp [ho, hn, he]
  · intro old ho he hn
    cases hnew : self.new_ with
    | none => simp [ho, he]
    | some new => simp [ho, he, hn new hnew]

/-- Witness of C12: records are numbers and a transaction expires the records in its list;
transaction `[7]` has created record 9 and has deleted record 7. -/
theorem RecordAccessor.Visible_iff_witness :
    (RecordAccessor.Visible (fun (r : Nat) (t : List Nat) => t.contains r) ⟨none, none, some 9⟩
        [7] true = true ∧
      RecordAccessor.Visible (fun (r : Nat) (t : List Nat) => t.contains r) ⟨none, none, some 9⟩
        [7] false = false) ∧
    (RecordAccessor.Visible (fun (r : Nat) (t : List Nat) => t.contains r) ⟨none, some 7, none⟩
        [7] false = true ∧
      RecordAccessor.Visible (fun (r : Nat) (t : List Nat) => t.contains r) ⟨none, some 7, none⟩
        [7] true = false) :=
  ⟨(RecordAccessor.Visible_iff (fun (r : Nat) (t : List Nat) => t.contains r)
      ⟨none, none, some 9⟩ [7]).2.2.1 9 rfl rfl (by decide),
    (RecordAccessor.Visible_iff (fun (r : Nat) (t : List Nat) => t.contains r)
      ⟨none, some 7, none⟩ [7]).2.2.2 7 rfl (by decide) (by simp)⟩

/-! ## Lemmas on the primary index -/

theorem SkipList.keys_set_at {R : Type} (self : SkipList R) (id : Nat) (item : R) :
    (self.set_at id item).keys = self.keys := by
  unfold SkipList.set_at SkipList.keys
  simp only [List.map_map]
  apply List.map_congr_left
  intro entry _
  simp only [Function.comp_apply]
  split_ifs <;> rfl

theorem SkipList.find_eq_none_of_not_mem {R : Type} (self : SkipList R) (id : Nat)
    (h : id ∉ self.keys) : self.find id = none := by
  obtain ⟨entries⟩ := self
  simp only [SkipList.find, SkipList.keys] at h ⊢
  induction entries with
  | nil => rfl
  | cons entry rest ih =>
    simp only [List.map_cons, List.mem_cons, not_or] at h
    have hb : (id == entry.1) = false := by simpa using h.1
    rw [List.lookup_cons, hb]
    exact ih h.2

theorem SkipList.not_mem_of_find_eq_none {R : Type} (self : SkipList R) (id : Nat)
    (h : self.find id = none) : id ∉ self.keys := by
  obtain ⟨entries⟩ := self
  simp only [SkipList.find, SkipList.keys] at h ⊢
  induction entries with
  | nil => simp
  | cons entry rest ih =>
    rw [List.lookup_cons] at h
    cases hb : (id == entry.1) with
    | true => rw [hb] at h; simp at h
    | false =>
      rw [hb] at h
      simp only [List.map_cons, List.mem_cons, not_or]
      exact ⟨by simpa using hb, ih h⟩

theorem SkipList.place_of_lt {R : Type} (id : Nat) (item : R) (entries : List (Nat × R))
    (h : ∀ k ∈ entries.map Prod.fst, k < id) :
    SkipList.place id item entries = entries ++ [(id, item)] := by
  induction entries with
  | nil => rfl
  | cons entry rest ih =>
    have h1 : entry.1 < id := h entry.1 (by simp)
    have h2 : ∀ k ∈ rest.map Prod.fst, k < id := fun k hk => h k (by simp [hk])
    have h3 : ¬ id < entry.1 := by omega
    simp only [SkipList.place, h3, if_false, ih h2, List.cons_append]

theorem SkipList.insert_unique_of_lt {R : Type} (self : SkipList R) (id : Nat) (item : R)
    (h : ∀ k ∈ self.keys, k < id) :
    self.insert_unique id item = (item, true, ⟨self.entries ++ [(id, item)]⟩) := by
  have hn : id ∉ self.keys := fun hm => Nat.lt_irrefl _ (h id hm)
  unfold SkipList.insert_unique
  rw [SkipList.find_eq_none_of_not_mem self id hn]
  simp only
  rw [SkipList.place_of_lt id item self.entries h]

/-! ## C13: the ids taken by `insert` -/

theorem Vertices.insert_of_lt {R V T E : Type} (api : VertexRecordApi R V T E) (t : T)
    (self : Vertices R) (h : ∀ k ∈ self.vertices.keys, k < self.counter.counter) :
    (Vertices.insert api t self).1 = self.counter.counter ∧
      (Vertices.insert api t self).2.2.counter.counter = (self.counter.counter + 1) % 2 ^ 64 ∧
      (Vertices.insert api t self).2.2.vertices.keys
        = self.vertices.keys ++ [self.counter.counter] := by
  unfold Vertices.insert AtomicCounter.next
  simp only [SkipList.insert_unique_of_lt self.vertices self.counter.counter api.create h,
    SkipList.keys_set_at]
  simp [SkipList.keys]

theorem Vertices.update_keys {R V T E : Type} (api : VertexRecordApi R V T E) (t : T) (id : Nat)
    (self : Vertices R) :
    (Vertices.update api t id self).2.vertices.keys = self.vertices.keys ∧
      (Vertices.update api t id self).2.counter = self.counter := by
  unfold Vertices.update
  cases self.vertices.find id with
  | none => exact ⟨rfl, rfl⟩
  | some r => exact ⟨SkipList.keys_set_at _ _ _, rfl⟩

theorem Vertices.remove_keys {R V T E : Type} (api : VertexRecordApi R V T E) (t : T) (id : Nat)
    (self : Vertices R) :
    (Vertices.remove api t id self).2.vertices.keys = self.vertices.keys ∧
      (Vertices.remove api t id self).2.counter = self.counter := by
  unfold Vertices.remove
  cases self.vertices.find id with
  | none => exact ⟨rfl, rfl⟩
  | some r => exact ⟨SkipList.keys_set_at _ _ _, rfl⟩

theorem Vertices.run_ids {R V T E : Type} (api : VertexRecordApi R V T E)
    (calls : List (Vertices.Call T)) (self : Vertices R)
    (h : ∀ k ∈ self.vertices.keys, k < self.counter.counter)
    (hb : self.counter.counter + Vertices.inserts calls < 2 ^ 64) :
    (∀ k ∈ (Vertices.run api calls self).2.vertices.keys,
        k < (Vertices.run api calls self).2.counter.counter) ∧
      (Vertices.run api calls self).2.counter.counter
        = self.counter.counter + Vertices.inserts calls ∧
      (∀ id ∈ (Vertices.run api calls self).1,
        self.counter.counter ≤ id ∧ id ∈ (Vertices.run api calls self).2.vertices.keys) ∧
      (∀ k ∈ self.vertices.keys, k ∈ (Vertices.run api calls self).2.vertices.keys) ∧
      (Vertices.run api calls self).1.Pairwise (· < ·) := by
  induction calls generalizing self with
  | nil =>
    exact ⟨h, by simp [Vertices.run, Vertices.inserts], by simp [Vertices.run],
      fun k hk => hk, by simp [Vertices.run]⟩
  | cons call rest ih =>
    cases call with
    | insert t =>
      simp only [Vertices.inserts] at hb
      obtain ⟨e1, e2, e3⟩ := Vertices.insert_of_lt api t self h
      rw [Nat.mod_eq_of_lt (by omega)] at e2
      have h1 : ∀ k ∈ (Vertices.insert api t self).2.2.vertices.keys,
          k < (Vertices.insert api t self).2.2.counter.counter := by
        intro k hk
        rw [e3] at hk
        rw [e2]
        rcases List.mem_append.mp hk with hk | hk
        · exact Nat.lt_succ_of_lt (h k hk)
        · simp only [List.mem_singleton] at hk
          omega
      obtain ⟨i1, i0, i2, i3, i4⟩ := ih (Vertices.insert api t self).2.2 h1
        (by rw [e2]; omega)
      simp only [Vertices.run, Vertices.inserts]
      refine ⟨i1, by rw [i0, e2]; omega, ?_, ?_, ?_⟩
      · intro id hid
        rcases List.mem_cons.mp hid with hid | hid
        · rw [hid, e1]
          exact ⟨Nat.le_refl _, i3 _ (by rw [e3]; simp)⟩
        · have := i2 id hid
          rw [e2] at this
          exact ⟨by omega, this.2⟩
      · intro k hk
        exact i3 k (by rw [e3]; simp [hk])
      · rw [List.pairwise_cons]
        refine ⟨?_, i4⟩
        intro id hid
        have := (i2 id hid).1
        rw [e2] at this
        rw [e1]
        omega
    | find t id =>
      simp only [Vertices.inserts] at hb
      simpa [Vertices.run, Vertices.inserts] using ih self h hb
    | update t id =>
      simp only [Vertices.inserts] at hb
      obtain ⟨e1, e2⟩ := Vertices.update_keys api t id self
      have h1 : ∀ k ∈ (Vertices.update api t id self).2.vertices.keys,
          k < (Vertices.update api t id self).2.counter.counter := by
        rw [e1, e2]; exact h
      have := ih (Vertices.update api t id self).2 h1 (by rw [e2]; exact hb)
      rw [e1, e2] at this
      simpa [Vertices.run, Vertices.inserts] using this
    | remove t id =>
      simp only [Vertices.inserts] at hb
      obtain ⟨e1, e2⟩ := Vertices.remove_keys api t id self
      have h1 : ∀ k ∈ (Vertices.remove api t id self).2.vertices.keys,
          k < (Vertices.remove api t id self).2.counter.counter := by
        rw [e1, e2]; exact h
      have := ih (Vertices.remove api t id self).2 h1 (by rw [e2]; exact hb)
      rw [e1, e2] at this
      simpa [Vertices.run, Vertices.inserts] using this

theorem Edges.insert_edge_of_lt {R V T E F : Type} (api : EdgeRecordApi R V T E F) (t : T) (a b : F)
    (self : Edges R) (h : ∀ k ∈ self.edges.keys, k < self.counter.counter) :
    (Edges.insert api t a b self).1 = self.counter.counter ∧
      (Edges.insert api t a b self).2.2.counter.counter = (self.counter.counter + 1) % 2 ^ 64 ∧
      (Edges.insert api t a b self).2.2.edges.keys = self.edges.keys ++ [self.counter.counter] := by
  unfold Edges.insert AtomicCounter.next
  simp only [SkipList.insert_unique_of_lt self.edges self.counter.counter _ h,
    SkipList.keys_set_at]
  simp [SkipList.keys]

theorem Edges.run_edge_ids {R V T E F : Type} (api : EdgeRecordApi R V T E F)
    (calls : List (Edges.Call T F)) (self : Edges R)
    (h : ∀ k ∈ self.edges.keys, k < self.counter.counter)
    (hb : self.counter.counter + Edges.inserts calls < 2 ^ 64) :
    (∀ k ∈ (Edges.run api calls self).2.edges.keys,
        k < (Edges.run api calls self).2.counter.counter) ∧
      (Edges.run api calls self).2.counter.counter
        = self.counter.counter + Edges.inserts calls ∧
      (∀ id ∈ (Edges.run api calls self).1,
        self.counter.counter ≤ id ∧ id ∈ (Edges.run api calls self).2.edges.keys) ∧
      (∀ k ∈ self.edges.keys, k ∈ (Edges.run api calls self).2.edges.keys) ∧
      (Edges.run api calls self).1.Pairwise (· < ·) := by
  induction calls generalizing self with
  | nil =>
    exact ⟨h, by simp [Edges.run, Edges.inserts], by simp [Edges.run], fun k hk => hk,
      by simp [Edges.run]⟩
  | cons call rest ih =>
    cases call with
    | insert t a b =>
      simp only [Edges.inserts] at hb
      obtain ⟨e1, e2, e3⟩ := Edges.insert_edge_of_lt api t a b self h
      rw [Nat.mod_eq_of_lt (by omega)] at e2
      have h1 : ∀ k ∈ (Edges.insert api t a b self).2.2.edges.keys,
          k < (Edges.insert api t a b self).2.2.counter.counter := by
        intro k hk
        rw [e3] at hk
        rw [e2]
        rcases List.mem_append.mp hk with hk | hk
        · exact Nat.lt_succ_of_lt (h k hk)
        · simp only [List.mem_singleton] at hk
          omega
      obtain ⟨i1, i0, i2, i3, i4⟩ := ih (Edges.insert api t a b self).2.2 h1
        (by rw [e2]; omega)
      simp only [Edges.run, Edges.inserts]
      refine ⟨i1, by rw [i0, e2]; omega, ?_, ?_, ?_⟩
      · intro id hid
        rcases List.mem_cons.mp hid with hid | hid
        · rw [hid, e1]
          exact ⟨Nat.le_refl _, i3 _ (by rw [e3]; simp)⟩
        · have := i2 id hid
          rw [e2] at this
          exact ⟨by omega, this.2⟩
      · intro k hk
        exact i3 k (by rw [e3]; simp [hk])
      · rw [List.pairwise_cons]
        refine ⟨?_, i4⟩
        intro id hid
        have := (i2 id hid).1
        rw [e2] at this
        rw [e1]
        omega
    | find t id =>
      simp only [Edges.inserts] at hb
      simpa [Edges.run, Edges.inserts] using ih self h hb


/-- C13: start from an empty store whose 64-bit counter holds any value and make any calls
of `insert`, `find`, `update` and `remove`, whatever the records do, as long as the counter
does not pass its greatest value: the value at the start plus the number of calls of
`insert` is below `2 ^ 64`. The ids taken by the calls of `insert` are strictly increasing in
the order of the calls, hence pairwise distinct, and every one of them is still in the index
at the end, also after a `remove`. A further `insert` takes an id that is not in the index
and is greater than all ids taken before, and the index after it holds the ids it held and
this one more. The same holds for `Edges` with its calls of `insert` and `find`. -/
theorem Vertices.inserted_ids_increasing {R V T E RE VE F : Type}
    (api : VertexRecordApi R V T E) (edge_api : EdgeRecordApi RE VE T E F) (c0 d0 : Nat)
    (calls : List (Vertices.Call T)) (edge_calls : List (Edges.Call T F)) (t : T) (a b : F)
    (hc : c0 + Vertices.inserts calls < 2 ^ 64)
    (hd : d0 + Edges.inserts edge_calls < 2 ^ 64) :
    ((Vertices.run api calls ⟨⟨[]⟩, ⟨c0⟩⟩).1.Pairwise (· < ·) ∧
      (∀ id ∈ (Vertices.run api calls ⟨⟨[]⟩, ⟨c0⟩⟩).1,
        id ∈ (Vertices.run api calls ⟨⟨[]⟩, ⟨c0⟩⟩).2.vertices.keys ∧
        id < (Vertices.insert api t (Vertices.run api calls ⟨⟨[]⟩, ⟨c0⟩⟩).2).1) ∧
      (Vertices.insert api t (Vertices.run api calls ⟨⟨[]⟩, ⟨c0⟩⟩).2).1
        ∉ (Vertices.run api calls ⟨⟨[]⟩, ⟨c0⟩⟩).2.vertices.keys ∧
      (Vertices.insert api t (Vertices.run api calls ⟨⟨[]⟩, ⟨c0⟩⟩).2).2.2.vertices.keys
        = (Vertices.run api calls ⟨⟨[]⟩, ⟨c0⟩⟩).2.vertices.keys
          ++ [(Vertices.insert api t (Vertices.run api calls ⟨⟨[]⟩, ⟨c0⟩⟩).2).1]) ∧
    ((Edges.run edge_api edge_calls ⟨⟨[]⟩, ⟨d0⟩⟩).1.Pairwise (· < ·) ∧
      (∀ id ∈ (Edges.run edge_api edge_calls ⟨⟨[]⟩, ⟨d0⟩⟩).1,
        id ∈ (Edges.run edge_api edge_calls ⟨⟨[]⟩, ⟨d0⟩⟩).2.edges.keys ∧
        id < (Edges.insert edge_api t a b (Edges.run edge_api edge_calls ⟨⟨[]⟩, ⟨d0⟩⟩).2).1) ∧
      (Edges.insert edge_api t a b (Edges.run edge_api edge_calls ⟨⟨[]⟩, ⟨d0⟩⟩).2).1
        ∉ (Edges.run edge_api edge_calls ⟨⟨[]⟩, ⟨d0⟩⟩).2.edges.keys ∧
      (Edges.insert edge_api t a b (Edges.run edge_api edge_calls ⟨⟨[]⟩, ⟨d0⟩⟩).2).2.2.edges.keys
        = (Edges.run edge_api edge_calls ⟨⟨[]⟩, ⟨d0⟩⟩).2.edges.keys
          ++ [(Edges.insert edge_api t a b (Edges.run edge_api edge_calls ⟨⟨[]⟩, ⟨d0⟩⟩).2).1]) := by
  constructor
  · obtain ⟨h1, _, h2, _, h4⟩ := Vertices.run_ids api calls ⟨⟨[]⟩, ⟨c0⟩⟩
      (by simp [SkipList.keys]) hc
    obtain ⟨e1, _, e3⟩ := Vertices.insert_of_lt api t (Vertices.run api calls ⟨⟨[]⟩, ⟨c0⟩⟩).2 h1
    refine ⟨h4, ?_, ?_, ?_⟩
    · intro id hid
      exact ⟨(h2 id hid).2, by rw [e1]; exact h1 id (h2 id hid).2⟩
    · rw [e1]
      exact fun hm => Nat.lt_irrefl _ (h1 _ hm)
    · rw [e3, e1]
  · obtain ⟨h1, _, h2, _, h4⟩ := Edges.run_edge_ids edge_api edge_calls ⟨⟨[]⟩, ⟨d0⟩⟩
      (by simp [SkipList.keys]) hd
    obtain ⟨e1, _, e3⟩ := Edges.insert_edge_of_lt edge_api t a b
      (Edges.run edge_api edge_calls ⟨⟨[]⟩, ⟨d0⟩⟩).2 h1
    refine ⟨h4, ?_, ?_, ?_⟩
    · intro id hid
      exact ⟨(h2 id hid).2, by rw [e1]; exact h1 id (h2 id hid).2⟩
    · rw [e1]
      exact fun hm => Nat.lt_irrefl _ (h1 _ hm)
    · rw [e3, e1]

/-- Witness of C13: three inserts with a removal in between take the ids 5, 6 and 7. -/
theorem Vertices.inserted_ids_increasing_witness :
    5 + Vertices.inserts
        ([.insert 1, .insert 2, .remove 2 5, .insert 3] : List (Vertices.Call Nat)) < 2 ^ 64 ∧
      0 + Edges.inserts ([] : List (Edges.Call Nat Nat)) < 2 ^ 64 ∧
      (Vertices.run journal_records [.insert 1, .insert 2, .remove 2 5, .insert 3]
        ⟨⟨[]⟩, ⟨5⟩⟩).1 = [5, 6, 7] ∧
      (Vertices.run journal_records [.insert 1, .insert 2, .remove 2 5, .insert 3]
        ⟨⟨[]⟩, ⟨5⟩⟩).1.Pairwise (· < ·) :=
  ⟨by decide, by decide, rfl,
    (Vertices.inserted_ids_increasing journal_records journal_edge_records 5 0
      [.insert 1, .insert 2, .remove 2 5, .insert 3] [] 4 0 0 (by decide) (by decide)).1.1⟩

/-! ## C14: calls with an id that is not in the index -/

/-- C14: for every store of vertices, store of edges, transaction and records, and every id
that is in neither index: `Vertices::find` and `Vertices::update` return null,
`Vertices::remove` returns false and `Edges::find` returns the empty option; `update` and
`remove` leave the store, its index, records and counter, exactly as it was, and the two
`find`s have no access to change it. -/
theorem Vertices.calls_with_absent_id {R V T E RE VE : Type}
    (api : VertexRecordApi R V T E) (self : Vertices R) (edges : Edges RE) (t : T) (id : Nat)
    (hv : id ∉ self.vertices.keys) (he : id ∉ edges.edges.keys) :
    Vertices.find api t id self = none ∧
      Vertices.update api t id self = (.ok none, self) ∧
      Vertices.remove api t id self = (.ok false, self) ∧
      (Edges.find t id edges : Option (Edge.Accessor VE T)) = none := by
  have h1 := SkipList.find_eq_none_of_not_mem self.vertices id hv
  have h2 := SkipList.find_eq_none_of_not_mem edges.edges id he
  simp [Vertices.find, Vertices.update, Vertices.remove, Edges.find, h1, h2]

/-- Witness of C14: the id 9 in stores that hold the ids 5, 6 and 0. -/
theorem Vertices.calls_with_absent_id_witness :
    Vertices.find journal_records 1 9 ⟨⟨[(5, [1]), (6, [2])]⟩, ⟨7⟩⟩ = none ∧
      Vertices.update journal_records 1 9 ⟨⟨[(5, [1]), (6, [2])]⟩, ⟨7⟩⟩
        = (.ok none, ⟨⟨[(5, [1]), (6, [2])]⟩, ⟨7⟩⟩) ∧
      Vertices.remove journal_records 1 9 ⟨⟨[(5, [1]), (6, [2])]⟩, ⟨7⟩⟩
        = (.ok false, ⟨⟨[(5, [1]), (6, [2])]⟩, ⟨7⟩⟩) ∧
      (Edges.find 1 9 (⟨⟨[(0, (0, 10, 11, [1]))]⟩, ⟨1⟩⟩ : Edges (Nat × Nat × Nat × List Nat))
        : Option (Edge.Accessor Nat Nat)) = none :=
  Vertices.calls_with_absent_id journal_records ⟨⟨[(5, [1]), (6, [2])]⟩, ⟨7⟩⟩
    ⟨⟨[(0, (0, 10, 11, [1]))]⟩, ⟨1⟩⟩ 1 9 (by decide) (by decide)

/-! ## C15: snapshot isolation -/

namespace tx

theorem Engine.Commit_counter (id : Nat) (self : Engine) :
    (self.Commit id).counter = self.counter := by
  unfold Engine.Commit; split_ifs <;> rfl

theorem Engine.Abort_counter (id : Nat) (self : Engine) :
    (self.Abort id).counter = self.counter := by
  unfold Engine.Abort; split_ifs <;> rfl

theorem Engine.run_counter_le (calls : List Engine.Call) (self : Engine) :
    self.counter ≤ (Engine.run calls self).counter := by
  induction calls generalizing self with
  | nil => exact Nat.le_refl _
  | cons call rest ih =>
    cases call with
    | Begin => exact Nat.le_trans (Nat.le_succ _) (ih self.Begin.2)
    | Commit id => exact Engine.Commit_counter id self ▸ ih (self.Commit id)
    | Abort id => exact Engine.Abort_counter id self ▸ ih (self.Abort id)

theorem Engine.Begin_bounded (self : Engine) (h : self.bounded) : self.Begin.2.bounded := by
  constructor
  · intro id hid
    simp only [Engine.Begin, List.mem_cons] at hid ⊢
    rcases hid with rfl | hid
    · exact Nat.le_refl _
    · exact Nat.le_succ_of_le (h.1 id hid)
  · intro id hid
    exact Nat.le_succ_of_le (h.2 id hid)

theorem Engine.Commit_bounded (x : Nat) (self : Engine) (h : self.bounded) :
    (self.Commit x).bounded := by
  unfold Engine.Commit
  split_ifs with hx
  · constructor
    · intro id hid
      exact h.1 id (List.mem_of_mem_filter hid)
    · intro id hid
      simp only [List.mem_cons] at hid
      rcases hid with rfl | hid
      · exact h.1 _ hx
      · exact h.2 id hid
  · exact h

theorem Engine.Abort_bounded (x : Nat) (self : Engine) (h : self.bounded) :
    (self.Abort x).bounded := by
  unfold Engine.Abort
  split_ifs with hx
  · exact ⟨fun id hid => h.1 id (List.mem_of_mem_filter hid), h.2⟩
  · exact h

theorem Engine.run_bounded (calls : List Engine.Call) (self : Engine) (h : self.bounded) :
    (Engine.run calls self).bounded := by
  induction calls generalizing self with
  | nil => exact h
  | cons call rest ih =>
    cases call with
    | Begin => exact ih _ (Engine.Begin_bounded self h)
    | Commit id => exact ih _ (Engine.Commit_bounded id self h)
    | Abort id => exact ih _ (Engine.Abort_bounded id self h)

theorem Engine.run_not_committed (calls : List Engine.Call) (self : Engine) (x : Nat)
    (hx : x ∉ self.committed) (hc : Engine.Call.Commit x ∉ calls) :
    x ∉ (Engine.run calls self).committed := by
  induction calls generalizing self with
  | nil => exact hx
  | cons call rest ih =>
    have hrest : Engine.Call.Commit x ∉ rest := fun h => hc (List.mem_cons_of_mem _ h)
    cases call with
    | Begin => exact ih self.Begin.2 hx hrest
    | Commit id =>
      have hne : x ≠ id := by
        intro h
        subst h
        exact hc (List.mem_cons_self _ _)
      refine ih (self.Commit id) ?_ hrest
      unfold Engine.Commit
      split_ifs
      · simp only [List.mem_cons, not_or]
        exact ⟨hne, hx⟩
      · exact hx
    | Abort id =>
      refine ih (self.Abort id) ?_ hrest
      unfold Engine.Abort
      split_ifs <;> exact hx

/-- C15: let transaction `T1` begin after any calls of the engine, and let `T2` begin after
further calls among which there is no `Commit` of `T1`, so that `T1` commits, if at all,
after `T2` has begun. Then `T1` began before `T2`, and at every command of `T2` no version
created by `T1` is visible to `T2`, and `find` of `T2` on any version list never returns a
version created by `T1`, whatever the engine does afterwards. -/
theorem snapshot_isolation {P : Type} (calls1 calls2 : List Engine.Call) (cmd : Nat)
    (versions : mvcc.VersionList P) (v : mvcc.Version P)
    (h : Engine.Call.Commit (Engine.run calls1 Engine.initial).Begin.1.id ∉ calls2) :
    (Engine.run calls1 Engine.initial).Begin.1.id
        < (Engine.run calls2 (Engine.run calls1 Engine.initial).Begin.2).Begin.1.id ∧
      (v.created_by = (Engine.run calls1 Engine.initial).Begin.1.id →
        mvcc.visible v
          { (Engine.run calls2 (Engine.run calls1 Engine.initial).Begin.2).Begin.1 with
            cmd := cmd } = false) ∧
      (versions.find
          { (Engine.run calls2 (Engine.run calls1 Engine.initial).Begin.2).Begin.1 with
            cmd := cmd } = some v →
        v.created_by ≠ (Engine.run calls1 Engine.initial).Begin.1.id) := by
  have hb1 : (Engine.run calls1 Engine.initial).bounded :=
    Engine.run_bounded calls1 _ ⟨by simp [Engine.initial], by simp [Engine.initial]⟩
  have hlt : (Engine.run calls1 Engine.initial).Begin.1.id
      < (Engine.run calls2 (Engine.run calls1 Engine.initial).Begin.2).Begin.1.id := by
    have := Engine.run_counter_le calls2 (Engine.run calls1 Engine.initial).Begin.2
    simp only [Engine.Begin] at this ⊢
    omega
  have hnc : (Engine.run calls1 Engine.initial).Begin.1.id
      ∉ (Engine.run calls2 (Engine.run calls1 Engine.initial).Begin.2).committed := by
    apply Engine.run_not_committed _ _ _ _ h
    intro hm
    have := hb1.2 _ hm
    simp only [Engine.Begin] at this
    omega
  have hinv : v.created_by = (Engine.run calls1 Engine.initial).Begin.1.id →
      mvcc.visible v
        { (Engine.run calls2 (Engine.run calls1 Engine.initial).Begin.2).Begin.1 with
          cmd := cmd } = false := by
    intro hv
    have h1 : ¬ v.created_by
        = (Engine.run calls2 (Engine.run calls1 Engine.initial).Begin.2).Begin.1.id := by
      rw [hv]; omega
    have h2 : v.created_by
        ∉ (Engine.run calls2 (Engine.run calls1 Engine.initial).Begin.2).Begin.1.committed_before_begin := by
      rw [hv]; exact hnc
    simp [mvcc.visible, mvcc.visible_for_creation, h1, h2]
  refine ⟨hlt, hinv, ?_⟩
  intro hf hv
  have hvis := List.find?_some hf
  rw [hinv hv] at hvis
  exact absurd hvis (by simp)

/-- Witness of C15: transaction 1 creates a record and commits, `T1` (id 2) begins, `T2`
(id 3) begins, then `T1` replaces the record; at its command 5 `T2` does not see the version
of `T1`, and its `find` returns the version of transaction 1. -/
theorem snapshot_isolation_witness :
    Engine.Call.Commit
          (Engine.run [Engine.Call.Begin, Engine.Call.Commit 1] Engine.initial).Begin.1.id
        ∉ [Engine.Call.Abort 9] ∧
      ((2 : Nat) = (Engine.run [Engine.Call.Begin, Engine.Call.Commit 1]
          Engine.initial).Begin.1.id →
        mvcc.visible (⟨2, 0, none, "new"⟩ : mvcc.Version String)
          { (Engine.run [Engine.Call.Abort 9]
              (Engine.run [Engine.Call.Begin, Engine.Call.Commit 1]
                Engine.initial).Begin.2).Begin.1 with cmd := 5 } = false) ∧
      mvcc.VersionList.find ⟨7, [⟨2, 0, none, "new"⟩, ⟨1, 0, some (2, 0), "old"⟩]⟩
          { (Engine.run [Engine.Call.Abort 9]
              (Engine.run [Engine.Call.Begin, Engine.Call.Commit 1]
                Engine.initial).Begin.2).Begin.1 with cmd := 5 }
        = some ⟨1, 0, some (2, 0), "old"⟩ :=
  ⟨by decide,
    (snapshot_isolation [Engine.Call.Begin, Engine.Call.Commit 1] [Engine.Call.Abort 9] 5
      ⟨7, [⟨2, 0, none, "new"⟩, ⟨1, 0, some (2, 0), "old"⟩]⟩ ⟨2, 0, none, "new"⟩
      (by decide)).2.1,
    by decide⟩

end tx

/-! ## C17: round-robin assignment of connections -/

namespace communication

theorem to_int_of_range (x : Int) (h1 : -2 ^ 31 ≤ x) (h2 : x < 2 ^ 31) : to_int x = x := by
  unfold to_int
  omega

theorem Server.start_workers_length {W : Type} (worker : Nat → W) (n : Nat) :
    (Server.start_workers worker n).length = n := by
  induction n with
  | zero => rfl
  | succ i ih => simp [Server.start_workers, ih]

theorem Server.start_workers_get {W : Type} (worker : Nat → W) (n i : Nat) (hi : i < n) :
    (Server.start_workers worker n)[i]? = some (worker i) := by
  induction n with
  | zero => omega
  | succ k ih =>
    have hlen := Server.start_workers_length worker k
    unfold Server.start_workers
    by_cases hik : i < k
    · rw [List.getElem?_append_left (by omega)]
      exact ih hik
    · have hk : i = k := by omega
      subst hk
      rw [List.getElem?_append_right (by omega), hlen]
      simp

theorem Server.OnConnect_accepted {W : Type} (workers : List W) (i : Nat)
    (hi : i < workers.length) (hn : workers.length < 2 ^ 31) :
    Server.OnConnect true ⟨workers, i⟩
      = (.ok (some i), ⟨workers, ((i + 1) % workers.length : Nat)⟩) := by
  generalize hlen : workers.length = n at hi hn
  have h1 : to_int (n : Int) = n := to_int_of_range _ (by omega) (by omega)
  have h2 : to_int ((n : Int) - 1) = n - 1 := to_int_of_range _ (by omega) (by omega)
  have h3 : to_int ((i : Int) + 1) = i + 1 := to_int_of_range _ (by omega) (by omega)
  have hc : (0 : Int) ≤ (i : Int) ∧ (i : Int) < (n : Int) := ⟨by omega, by omega⟩
  unfold Server.OnConnect
  simp only [hlen, hc, and_self, if_true, h1, h2, h3, Int.toNat_ofNat]
  by_cases hlast : i + 1 = n
  · have e1 : (i : Int) = (n : Int) - 1 := by omega
    have e2 : (i + 1) % n = 0 := by rw [hlast]; exact Nat.mod_self n
    simp [e1, e2]
  · have e1 : ¬ (i : Int) = (n : Int) - 1 := by omega
    have e2 : (i + 1) % n = i + 1 := Nat.mod_eq_of_lt (by omega)
    simp [e1, e2]

theorem Server.OnConnect_refused {W : Type} (workers : List W) (i : Nat)
    (hi : i < workers.length) :
    Server.OnConnect false ⟨workers, i⟩ = (.ok none, ⟨workers, i⟩) := by
  have hc : (0 : Int) ≤ (i : Int) ∧ (i : Int) < (workers.length : Int) :=
    ⟨by omega, by omega⟩
  unfold Server.OnConnect
  simp [hc]

theorem Server.connect_all_from {W : Type} (workers : List W) (hn : workers.length < 2 ^ 31)
    (accepts : List Bool) (i : Nat) (hi : i < workers.length) :
    Server.connect_all accepts ⟨workers, i⟩
      = ((List.range (accepts.count true)).map (fun k => (i + k) % workers.length),
         ⟨workers, ((i + accepts.count true) % workers.length : Nat)⟩) := by
  induction accepts generalizing i with
  | nil => simp [Server.connect_all, Nat.mod_eq_of_lt hi]
  | cons a rest ih =>
    cases a with
    | false =>
      simp only [Server.connect_all, Server.OnConnect_refused workers i hi, ih i hi]
      simp
    | true =>
      have hlt : (i + 1) % workers.length < workers.length := Nat.mod_lt _ (by omega)
      simp only [Server.connect_all, Server.OnConnect_accepted workers i hi hn, ih _ hlt,
        List.count_cons_self, List.range_succ_eq_map, List.map_cons, List.map_map]
      have e0 : (i + 0) % workers.length = i := by simpa using Nat.mod_eq_of_lt hi
      have e1 : ∀ k, ((i + 1) % workers.length + k) % workers.length
          = (i + (k + 1)) % workers.length := by
        intro k
        rw [Nat.add_mod, Nat.mod_mod, ← Nat.add_mod]
        congr 1
        omega
      simp only [e0, Function.comp_def, e1]

/-- C17: for a `Server` whose `Start(n)` has created its `n` workers, `1 ≤ n ≤ INT_MAX`, and
any sequence of calls of `OnConnect`, the `k`-th accepted connection is handed to the worker
at index `k mod n` of `workers_`, which is the worker that round `k mod n` of `Start` has
created; afterwards `workers_` is as `Start` left it and `idx_` is the number of accepted
connections modulo `n`, so that `0 ≤ idx_ < n`, and an `OnConnect` whose `Accept` fails hands
the connection to no worker and leaves `idx_` unchanged. -/
theorem Server.round_robin {W : Type} (worker : Nat → W) (n : Nat) (h1 : 1 ≤ n)
    (hn : n < 2 ^ 31) (accepts : List Bool) :
    (Server.connect_all accepts (Server.Start worker n)).1
        = (List.range (accepts.count true)).map (fun k => k % n) ∧
      (∀ i, i < n → (Server.Start worker n).workers_[i]? = some (worker i)) ∧
      (Server.connect_all accepts (Server.Start worker n)).2
        = ⟨(Server.Start worker n).workers_, ((accepts.count true % n : Nat) : Int)⟩ ∧
      (0 ≤ (Server.connect_all accepts (Server.Start worker n)).2.idx_ ∧
        (Server.connect_all accepts (Server.Start worker n)).2.idx_ < n) ∧
      Server.OnConnect false (Server.connect_all accepts (Server.Start worker n)).2
        = (.ok none, (Server.connect_all accepts (Server.Start worker n)).2) := by
  have hlen : (Server.start_workers worker n).length = n :=
    Server.start_workers_length worker n
  have h := Server.connect_all_from (Server.start_workers worker n) (by omega) accepts 0
    (by omega)
  simp only [Nat.zero_add, hlen] at h
  have hs : Server.Start worker n = ⟨Server.start_workers worker n, ((0 : Nat) : Int)⟩ := rfl
  rw [hs, h]
  have hlt : accepts.count true % n < n := Nat.mod_lt _ (by omega)
  refine ⟨rfl, fun i hi => Server.start_workers_get worker n i hi, rfl,
    ⟨by simp; omega, by simp; omega⟩, ?_⟩
  exact Server.OnConnect_refused _ _ (by omega)

/-- Witness of C17: three workers and five connections, the third of which is refused. -/
theorem Server.round_robin_witness :
    1 ≤ 3 ∧ 3 < 2 ^ 31 ∧
      (Server.connect_all [true, true, false, true, true]
          (Server.Start (fun i : Nat => i) 3)).1 = [0, 1, 2, 0] ∧
      (Server.connect_all [true, true, false, true, true]
          (Server.Start (fun i : Nat => i) 3)).1
        = (List.range ([true, true, false, true, true].count true)).map (fun k => k % 3) ∧
      (Server.connect_all [true, true, false, true, true]
          (Server.Start (fun i : Nat => i) 3)).2
        = ⟨(Server.Start (fun i : Nat => i) 3).workers_,
           (([true, true, false, true, true].count true % 3 : Nat) : Int)⟩ :=
  ⟨by decide, by decide, by decide,
    (Server.round_robin (fun i : Nat => i) 3 (by decide) (by decide)
      [true, true, false, true, true]).1,
    (Server.round_robin (fun i : Nat => i) 3 (by decide) (by decide)
      [true, true, false, true, true]).2.2.1⟩

end communication

/-! ## C18: the count of available blocks and the free list -/

namespace utils

/-- C18 (the code at the failing input): a pool of blocks of 24 bytes, two per chunk. After
`Allocate`, which returns block 0 of a new chunk, the chunk has `blocks_available = 1` and
its free list holds block 1 alone. After `Deallocate` of that block, the block is the head of
the free list, which holds blocks 0 and 1, while `blocks_available` is still 1. -/
theorem Pool.Deallocate_leaves_blocks_available :
    ∃ pool1 m1 pool2 m2,
      impl.Pool.Allocate bump_env (impl.Pool.create 24 2) Machine.initial = (.ok 4096, pool1, m1) ∧
      pool1.chunks_ = [⟨4096, 1, 1⟩] ∧
      impl.Pool.free_list pool1 ⟨4096, 1, 1⟩ m1 = [1] ∧
      impl.Pool.Deallocate pool1 4096 m1 = (.ok (), pool2, m2) ∧
      pool2.chunks_ = [⟨4096, 0, 1⟩] ∧
      impl.Pool.free_list pool2 ⟨4096, 0, 1⟩ m2 = [0, 1] :=
  ⟨_, _, _, _, rfl, by decide, by decide, rfl, by decide, by decide⟩

end utils

/-! ## Binary search in a sorted vector -/

namespace utils

theorem lower_bound_loop_spec {α : Type} (less : α → Bool) (xs : List α)
    (hpart : ∀ (i j : Nat) (x y : α), i ≤ j → xs[i]? = some x → xs[j]? = some y → less y = true →
      less x = true)
    (fuel first len : Nat) (hfuel : len ≤ fuel) (hlen : first + len ≤ xs.length)
    (hlow : ∀ i x, xs[i]? = some x → i < first → less x = true)
    (hhigh : ∀ i x, xs[i]? = some x → first + len ≤ i → less x = false) :
    lower_bound_loop less xs fuel first len ≤ xs.length ∧
      (∀ i x, xs[i]? = some x → i < lower_bound_loop less xs fuel first len → less x = true) ∧
      (∀ i x, xs[i]? = some x → lower_bound_loop less xs fuel first len ≤ i →
        less x = false) := by
  induction fuel generalizing first len with
  | zero =>
    have h0 : len = 0 := by omega
    subst h0
    simp only [lower_bound_loop]
    exact ⟨by omega, hlow, fun i x hx hi => hhigh i x hx (by omega)⟩
  | succ fuel ih =>
    unfold lower_bound_loop
    by_cases h0 : len = 0
    · subst h0
      simp only [if_true]
      exact ⟨by omega, hlow, fun i x hx hi => hhigh i x hx (by omega)⟩
    · simp only [h0, if_false]
      have hmid : first + len / 2 < xs.length := by
        have : len / 2 < len := Nat.div_lt_self (by omega) (by decide)
        omega
      have hget : xs[first + len / 2]? = some xs[first + len / 2] :=
        List.getElem?_eq_getElem hmid
      rw [hget]
      simp only []
      by_cases hless : less xs[first + len / 2] = true
      · simp only [hless, if_true]
        have hdiv : len / 2 < len := Nat.div_lt_self (by omega) (by decide)
        refine ih (first + len / 2 + 1) (len - len / 2 - 1) (by omega) (by omega) ?_ ?_
        · intro i x hx hi
          exact hpart i (first + len / 2) x _ (by omega) hx hget hless
        · intro i x hx hi
          exact hhigh i x hx (by omega)
      · simp only [hless, if_false]
        have hdiv : len / 2 < len := Nat.div_lt_self (by omega) (by decide)
        refine ih first (len / 2) (by omega) (by omega) hlow ?_
        intro i x hx hi
        cases hlx : less x with
        | false => rfl
        | true =>
          exact absurd (hpart (first + len / 2) i _ x hi hget hx hlx) hless

theorem lower_bound_spec {α : Type} (less : α → Bool) (xs : List α)
    (hpart : ∀ (i j : Nat) (x y : α), i ≤ j → xs[i]? = some x → xs[j]? = some y → less y = true →
      less x = true) :
    lower_bound less xs ≤ xs.length ∧
      (∀ i x, xs[i]? = some x → i < lower_bound less xs → less x = true) ∧
      (∀ i x, xs[i]? = some x → lower_bound less xs ≤ i → less x = false) := by
  unfold lower_bound
  refine lower_bound_loop_spec less xs hpart xs.length 0 xs.length (Nat.le_refl _) (by omega)
    (fun i x _ hi => absurd hi (Nat.not_lt_zero _)) ?_
  intro i x hx hi
  have : i < xs.length := (List.getElem?_eq_some_iff.mp hx).1
  omega

end utils

namespace utils

theorem pairwise_at {α : Type} {R : α → α → Prop} {xs : List α} (h : xs.Pairwise R)
    (i j : Nat) (x y : α) (hij : i < j) (hx : xs[i]? = some x) (hy : xs[j]? = some y) :
    R x y := by
  obtain ⟨hi, rfl⟩ := List.getElem?_eq_some_iff.mp hx
  obtain ⟨hj, rfl⟩ := List.getElem?_eq_some_iff.mp hy
  exact List.pairwise_iff_getElem.mp h i j hi hj hij

theorem mem_take_at {α : Type} (xs : List α) (it : Nat) (a : α) (h : a ∈ xs.take it) :
    ∃ i, i < it ∧ xs[i]? = some a := by
  obtain ⟨i, hi⟩ := List.mem_iff_getElem?.mp h
  have hlt : i < (xs.take it).length := (List.getElem?_eq_some_iff.mp hi).1
  have hit : i < it := by
    rw [List.length_take] at hlt
    omega
  refine ⟨i, hit, ?_⟩
  rw [List.getElem?_take_of_lt hit] at hi
  exact hi

theorem mem_drop_at {α : Type} (xs : List α) (it : Nat) (a : α) (h : a ∈ xs.drop it) :
    ∃ i, it ≤ i ∧ xs[i]? = some a := by
  obtain ⟨i, hi⟩ := List.mem_iff_getElem?.mp h
  rw [List.getElem?_drop] at hi
  exact ⟨it + i, by omega, hi⟩

theorem insert_at_pairwise {α : Type} (R : α → α → Prop) (xs : List α) (it : Nat) (x : α)
    (h : xs.Pairwise R) (hlow : ∀ a ∈ xs.take it, R a x) (hhigh : ∀ b ∈ xs.drop it, R x b) :
    (insert_at xs it x).Pairwise R := by
  have hsplit : (xs.take it ++ xs.drop it).Pairwise R := by
    rw [List.take_append_drop]
    exact h
  obtain ⟨h1, h2, h3⟩ := List.pairwise_append.mp hsplit
  unfold insert_at
  refine List.pairwise_append.mpr ⟨h1, List.pairwise_cons.mpr ⟨hhigh, h2⟩, ?_⟩
  intro a ha b hb
  rcases List.mem_cons.mp hb with rfl | hb
  · exact hlow a ha
  · exact h3 a ha b hb

theorem insert_at_length {α : Type} (xs : List α) (it : Nat) (x : α) (h : it ≤ xs.length) :
    (insert_at xs it x).length = xs.length + 1 := by
  simp [insert_at]
  omega

theorem insert_at_self {α : Type} (xs : List α) (it : Nat) (x : α) (h : it ≤ xs.length) :
    (insert_at xs it x)[it]? = some x := by
  unfold insert_at
  have hl : (xs.take it).length = it := by simp [h]
  rw [List.getElem?_append_right (by omega)]
  simp [hl]

end utils

/-! ## The pools of a `PoolResource` -/

namespace utils

theorem allocate_new_chunk_block_size (env : Env) (self : impl.Pool) (m : Machine) :
    (impl.Pool.allocate_new_chunk env self m).2.1.block_size_ = self.block_size_ := by
  unfold impl.Pool.allocate_new_chunk
  split_ifs
  · rfl
  · rfl
  · simp only []
    split_ifs
    · rfl
    · split <;> rfl

theorem allocate_search_block_size (env : Env) (self : impl.Pool) (m : Machine) :
    (impl.Pool.allocate_search env self m).2.1.block_size_ = self.block_size_ := by
  unfold impl.Pool.allocate_search
  split
  · rfl
  · exact allocate_new_chunk_block_size env self m

theorem Pool.Allocate_block_size (env : Env) (self : impl.Pool) (m : Machine) :
    (impl.Pool.Allocate env self m).2.1.block_size_ = self.block_size_ := by
  unfold impl.Pool.Allocate
  split
  · rfl
  · exact allocate_search_block_size env self m
  · split_ifs
    · rfl
    · exact allocate_search_block_size env self m

theorem Pool.Deallocate_block_size (self : impl.Pool) (p : Nat) (m : Machine) :
    (impl.Pool.Deallocate self p m).2.1.block_size_ = self.block_size_ := by
  unfold impl.Pool.Deallocate
  split
  · rfl
  · split_ifs
    · rfl
    · split
      · rfl
      · split_ifs
        · rfl
        · split <;> rfl

end utils

namespace utils

theorem set_map_block_size (pools : List impl.Pool) (i : Nat) (pool q : impl.Pool)
    (hget : pools[i]? = some pool) (hq : q.block_size_ = pool.block_size_) :
    (pools.set i q).map (fun a => a.block_size_) = pools.map (fun a => a.block_size_) := by
  apply List.ext_getElem?
  intro n
  rw [List.getElem?_map, List.getElem?_map, List.getElem?_set]
  by_cases h : i = n
  · subst h
    have hlt : i < pools.length := (List.getElem?_eq_some_iff.mp hget).1
    simp [hlt, hget, hq]
  · simp [h]

theorem pools_sorted_set (pools : List impl.Pool) (i : Nat) (pool q : impl.Pool)
    (hget : pools[i]? = some pool) (hq : q.block_size_ = pool.block_size_)
    (h : pools.Pairwise (fun a b => a.block_size_ < b.block_size_)) :
    (pools.set i q).Pairwise (fun a b => a.block_size_ < b.block_size_) := by
  have h1 : (pools.map (fun a => a.block_size_)).Pairwise (· < ·) := List.pairwise_map.mpr h
  rw [← set_map_block_size pools i pool q hget hq] at h1
  exact List.pairwise_map.mp h1

theorem allocate_from_pool_invariant (env : Env) (self : PoolResource) (i : Nat)
    (pool : impl.Pool) (m : Machine) (h : self.invariant) (hget : self.pools_[i]? = some pool) :
    (PoolResource.allocate_from_pool env self i pool m).2.1.invariant := by
  obtain ⟨h1, h2, h3, h4⟩ := h
  refine ⟨?_, h2, ?_, ?_⟩
  · exact pools_sorted_set self.pools_ i pool _ hget (Pool.Allocate_block_size env pool m) h1
  · intro j hj
    simpa [PoolResource.allocate_from_pool] using h3 j hj
  · intro j hj
    simpa [PoolResource.allocate_from_pool] using h4 j hj

theorem deallocate_to_pool_invariant (self : PoolResource) (p i : Nat)
    (pool : impl.Pool) (m : Machine) (h : self.invariant) (hget : self.pools_[i]? = some pool) :
    (PoolResource.deallocate_to_pool self p i pool m).2.1.invariant := by
  obtain ⟨h1, h2, h3, h4⟩ := h
  refine ⟨?_, h2, ?_, ?_⟩
  · exact pools_sorted_set self.pools_ i pool _ hget (Pool.Deallocate_block_size pool p m) h1
  · intro j hj
    simpa [PoolResource.deallocate_to_pool] using h3 j hj
  · intro j hj
    simpa [PoolResource.deallocate_to_pool] using h4 j hj

theorem pools_partitioned (pools : List impl.Pool) (block_size : Nat)
    (h : pools.Pairwise (fun a b => a.block_size_ < b.block_size_)) :
    ∀ (i j : Nat) (x y : impl.Pool), i ≤ j → pools[i]? = some x → pools[j]? = some y →
      decide (y.block_size_ < block_size) = true → decide (x.block_size_ < block_size) = true := by
  intro i j x y hij hx hy hless
  rcases Nat.lt_or_eq_of_le hij with hlt | heq
  · have := pairwise_at h i j x y hlt hx hy
    simp only [decide_eq_true_eq] at hless ⊢
    omega
  · subst heq
    rw [hx] at hy
    cases hy
    exact hless

theorem pools_lower_bound (pools : List impl.Pool) (block_size : Nat)
    (h : pools.Pairwise (fun a b => a.block_size_ < b.block_size_)) :
    lower_bound (fun a : impl.Pool => decide (a.block_size_ < block_size)) pools ≤ pools.length ∧
      (∀ (i : Nat) (x : impl.Pool), pools[i]? = some x →
        i < lower_bound (fun a : impl.Pool => decide (a.block_size_ < block_size)) pools →
        x.block_size_ < block_size) ∧
      (∀ (i : Nat) (x : impl.Pool), pools[i]? = some x →
        lower_bound (fun a : impl.Pool => decide (a.block_size_ < block_size)) pools ≤ i →
        block_size ≤ x.block_size_) := by
  obtain ⟨h1, h2, h3⟩ := lower_bound_spec (fun a : impl.Pool => decide (a.block_size_ < block_size))
    pools (pools_partitioned pools block_size h)
  refine ⟨h1, ?_, ?_⟩
  · intro i x hx hi
    simpa using h2 i x hx hi
  · intro i x hx hi
    simpa using h3 i x hx hi

/-- When the binary search of `DoAllocate` does not end on a pool of the requested block
size, no pool has that block size, and the new pool goes between the smaller and the larger
ones. -/
theorem pools_insert_sorted (pools : List impl.Pool) (pool : impl.Pool)
    (h : pools.Pairwise (fun a b => a.block_size_ < b.block_size_))
    (habsent : ∀ found,
      pools[lower_bound (fun a : impl.Pool => decide (a.block_size_ < pool.block_size_)) pools]?
        = some found → found.block_size_ ≠ pool.block_size_) :
    (∀ q ∈ pools, q.block_size_ ≠ pool.block_size_) ∧
      (insert_at pools
        (lower_bound (fun a : impl.Pool => decide (a.block_size_ < pool.block_size_)) pools)
        pool).Pairwise (fun a b => a.block_size_ < b.block_size_) := by
  obtain ⟨h1, h2, h3⟩ := pools_lower_bound pools pool.block_size_ h
  generalize lower_bound (fun a : impl.Pool => decide (a.block_size_ < pool.block_size_)) pools
    = it at h1 h2 h3 habsent
  have hhigh : ∀ (j : Nat) (q : impl.Pool), pools[j]? = some q → it ≤ j →
      pool.block_size_ < q.block_size_ := by
    intro j q hq hj
    have hj1 : j < pools.length := (List.getElem?_eq_some_iff.mp hq).1
    have hit : it < pools.length := by omega
    have hfound : pools[it]? = some pools[it] := List.getElem?_eq_getElem hit
    have hne := habsent _ hfound
    have hge := h3 it _ hfound (Nat.le_refl _)
    rcases Nat.lt_or_eq_of_le hj with hlt | heq
    · have := pairwise_at h it j _ q hlt hfound hq
      omega
    · subst heq
      rw [hfound] at hq
      cases hq
      omega
  constructor
  · intro q hq
    obtain ⟨j, hj⟩ := List.mem_iff_getElem?.mp hq
    by_cases hlt : j < it
    · have := h2 j q hj hlt
      omega
    · have := hhigh j q hj (by omega)
      omega
  · apply insert_at_pairwise _ _ _ _ h
    · intro a ha
      obtain ⟨i, hi, hget⟩ := mem_take_at pools it a ha
      exact h2 i a hget hi
    · intro b hb
      obtain ⟨i, hi, hget⟩ := mem_drop_at pools it b hb
      exact hhigh i b hget hi

end utils

namespace utils

theorem create_invariant (env : Env) (max_blocks_per_chunk max_block_size : Nat)
    (self : PoolResource)
    (h : PoolResource.create env max_blocks_per_chunk max_block_size = .ok self) :
    self.invariant := by
  unfold PoolResource.create at h
  simp only [] at h
  split_ifs at h
  cases h
  refine ⟨List.Pairwise.nil, List.Pairwise.nil, ?_, ?_⟩ <;> intro i hi <;> cases hi

/-- The part of `DoAllocate` that follows the test of `last_alloc_pool_` hands the request
to a pool of the requested block size: one found by the binary search, or a new one at its
sorted position when there is none. -/
theorem allocate_find_pool_served (env : Env) (block_size : Nat) (self : PoolResource)
    (m : Machine) (h : self.invariant) :
    ∃ (i : Nat) (pool : impl.Pool) (self1 : PoolResource),
      pool.block_size_ = block_size ∧ self1.pools_[i]? = some pool ∧
      self1.last_alloc_pool_ = some i ∧ self1.unpooled_ = self.unpooled_ ∧
      (self1.pools_ = self.pools_ ∨
        ((∀ q ∈ self.pools_, q.block_size_ ≠ block_size) ∧
          self1.pools_ = insert_at self.pools_ i
            (impl.Pool.create block_size self.max_blocks_per_chunk_))) ∧
      self1.invariant ∧
      PoolResource.allocate_find_pool env block_size self m
        = PoolResource.allocate_from_pool env self1 i pool m := by
  obtain ⟨h1, h2, h3, h4⟩ := h
  have hbs : (impl.Pool.create block_size self.max_blocks_per_chunk_).block_size_ = block_size :=
    rfl
  have hlb := pools_lower_bound self.pools_ block_size h1
  have hins := pools_insert_sorted self.pools_
    (impl.Pool.create block_size self.max_blocks_per_chunk_) h1
  rw [hbs] at hins
  unfold PoolResource.allocate_find_pool
  simp only [hbs]
  generalize lower_bound (fun a : impl.Pool => decide (a.block_size_ < block_size)) self.pools_
    = it at hlb hins
  have hinsert : (∀ found, self.pools_[it]? = some found → found.block_size_ ≠ block_size) →
      ∃ (i : Nat) (pool : impl.Pool) (self1 : PoolResource),
        pool.block_size_ = block_size ∧ self1.pools_[i]? = some pool ∧
        self1.last_alloc_pool_ = some i ∧ self1.unpooled_ = self.unpooled_ ∧
        (self1.pools_ = self.pools_ ∨
          ((∀ q ∈ self.pools_, q.block_size_ ≠ block_size) ∧
            self1.pools_ = insert_at self.pools_ i
              (impl.Pool.create block_size self.max_blocks_per_chunk_))) ∧
        self1.invariant ∧
        PoolResource.allocate_from_pool env
            { self with pools_ := insert_at self.pools_ it
                          (impl.Pool.create block_size self.max_blocks_per_chunk_),
                        last_alloc_pool_ := some it, last_dealloc_pool_ := some it }
            it (impl.Pool.create block_size self.max_blocks_per_chunk_) m
          = PoolResource.allocate_from_pool env self1 i pool m := by
    intro habsent
    obtain ⟨ha, hs⟩ := hins habsent
    have hlen := insert_at_length self.pools_ it
      (impl.Pool.create block_size self.max_blocks_per_chunk_) hlb.1
    refine ⟨it, impl.Pool.create block_size self.max_blocks_per_chunk_,
      { self with pools_ := insert_at self.pools_ it
                    (impl.Pool.create block_size self.max_blocks_per_chunk_),
                  last_alloc_pool_ := some it, last_dealloc_pool_ := some it },
      hbs, insert_at_self self.pools_ it _ hlb.1, rfl, rfl, Or.inr ⟨ha, rfl⟩,
      ⟨hs, h2, ?_, ?_⟩, rfl⟩
    · intro j hj
      cases hj
      show it < (insert_at self.pools_ it _).length
      omega
    · intro j hj
      cases hj
      show it < (insert_at self.pools_ it _).length
      omega
  cases hget : self.pools_[it]? with
  | none =>
    simp only []
    exact hinsert (fun found hf => by rw [hget] at hf; cases hf)
  | some found =>
    simp only []
    by_cases heq : found.block_size_ = block_size
    · simp only [heq, if_true]
      refine ⟨it, found, { self with last_alloc_pool_ := some it }, heq, hget, rfl, rfl,
        Or.inl rfl, ⟨h1, h2, ?_, h4⟩, rfl⟩
      intro j hj
      cases hj
      exact (List.getElem?_eq_some_iff.mp hget).1
    · simp only [heq, if_false]
      exact hinsert (fun f hf => by rw [hget] at hf; cases hf; exact heq)

theorem allocate_find_pool_invariant (env : Env) (block_size : Nat) (self : PoolResource)
    (m : Machine) (h : self.invariant) :
    (PoolResource.allocate_find_pool env block_size self m).2.1.invariant := by
  obtain ⟨i, pool, self1, _, hget, _, _, _, hinv, heq⟩ :=
    allocate_find_pool_served env block_size self m h
  rw [heq]
  exact allocate_from_pool_invariant env self1 i pool m hinv hget

theorem unpooled_partitioned (unpooled : List BigBlock) (p : Nat)
    (h : unpooled.Pairwise (fun a b => a.data ≤ b.data)) :
    ∀ (i j : Nat) (x y : BigBlock), i ≤ j → unpooled[i]? = some x → unpooled[j]? = some y →
      decide (y.data < p) = true → decide (x.data < p) = true := by
  intro i j x y hij hx hy hless
  rcases Nat.lt_or_eq_of_le hij with hlt | heq
  · have := pairwise_at h i j x y hlt hx hy
    simp only [decide_eq_true_eq] at hless ⊢
    omega
  · subst heq
    rw [hx] at hy
    cases hy
    exact hless

theorem unpooled_lower_bound (unpooled : List BigBlock) (p : Nat)
    (h : unpooled.Pairwise (fun a b => a.data ≤ b.data)) :
    lower_bound (fun a : BigBlock => decide (a.data < p)) unpooled ≤ unpooled.length ∧
      (∀ (i : Nat) (x : BigBlock), unpooled[i]? = some x →
        i < lower_bound (fun a : BigBlock => decide (a.data < p)) unpooled → x.data < p) ∧
      (∀ (i : Nat) (x : BigBlock), unpooled[i]? = some x →
        lower_bound (fun a : BigBlock => decide (a.data < p)) unpooled ≤ i → p ≤ x.data) := by
  obtain ⟨h1, h2, h3⟩ := lower_bound_spec (fun a : BigBlock => decide (a.data < p))
    unpooled (unpooled_partitioned unpooled p h)
  refine ⟨h1, ?_, ?_⟩
  · intro i x hx hi
    simpa using h2 i x hx hi
  · intro i x hx hi
    simpa using h3 i x hx hi

theorem unpooled_insert_sorted (unpooled : List BigBlock) (big_block : BigBlock)
    (h : unpooled.Pairwise (fun a b => a.data ≤ b.data)) :
    (insert_at unpooled
      (lower_bound (fun a : BigBlock => decide (a.data < big_block.data)) unpooled)
      big_block).Pairwise (fun a b => a.data ≤ b.data) := by
  obtain ⟨_, h2, h3⟩ := unpooled_lower_bound unpooled big_block.data h
  apply insert_at_pairwise _ _ _ _ h
  · intro a ha
    obtain ⟨i, hi, hget⟩ := mem_take_at unpooled _ a ha
    exact Nat.le_of_lt (h2 i a hget hi)
  · intro b hb
    obtain ⟨i, hi, hget⟩ := mem_drop_at unpooled _ b hb
    exact h3 i b hget hi

theorem allocate_big_block_invariant (env : Env) (bytes alignment : Nat) (self : PoolResource)
    (m : Machine) (h : self.invariant) :
    (PoolResource.allocate_big_block env bytes alignment self m).2.1.invariant := by
  unfold PoolResource.allocate_big_block
  split
  · exact h
  · obtain ⟨h1, h2, h3, h4⟩ := h
    exact ⟨h1, unpooled_insert_sorted self.unpooled_ _ h2, h3, h4⟩

theorem deallocate_big_block_invariant (p bytes alignment : Nat) (self : PoolResource)
    (m : Machine) (h : self.invariant) :
    (PoolResource.deallocate_big_block p bytes alignment self m).2.1.invariant := by
  unfold PoolResource.deallocate_big_block
  simp only []
  split
  · exact h
  · split_ifs
    · obtain ⟨h1, h2, h3, h4⟩ := h
      exact ⟨h1, List.Pairwise.sublist (List.eraseIdx_sublist _ _) h2, h3, h4⟩
    · exact h

theorem PoolResource.DoAllocate_invariant (env : Env) (bytes alignment : Nat)
    (self : PoolResource) (m : Machine) (h : self.invariant) :
    (PoolResource.DoAllocate env bytes alignment self m).2.1.invariant := by
  unfold PoolResource.DoAllocate
  simp only []
  split_ifs
  · exact h
  · exact h
  · exact allocate_big_block_invariant env bytes alignment self m h
  · split
    · exact h
    · exact allocate_find_pool_invariant env _ self m h
    · rename_i i pool hd
      split_ifs
      · have hget : self.pools_[i]? = some pool := by
          unfold deref at hd
          split at hd
          · cases hd
          · split at hd
            · rename_i j x hx
              cases hd
              exact hx
            · cases hd
        exact allocate_from_pool_invariant env self i pool m h hget
      · exact allocate_find_pool_invariant env _ self m h

theorem PoolResource.DoDeallocate_invariant (p bytes alignment : Nat)
    (self : PoolResource) (m : Machine) (h : self.invariant) :
    (PoolResource.DoDeallocate p bytes alignment self m).2.1.invariant := by
  unfold PoolResource.DoDeallocate
  simp only []
  split_ifs
  · exact h
  · exact h
  · exact deallocate_big_block_invariant p bytes alignment self m h
  · split
    · exact h
    · split
      · exact h
      · rename_i i hi o pool hget
        split_ifs
        · exact deallocate_to_pool_invariant self p i pool m h hget
        · split
          · exact h
          · rename_i found hfound
            split_ifs
            · refine deallocate_to_pool_invariant _ p _ found m ?_ hfound
              obtain ⟨h1, h2, _, _⟩ := h
              have hlt := (List.getElem?_eq_some_iff.mp hfound).1
              refine ⟨h1, h2, ?_, ?_⟩ <;> intro j hj <;> cases hj <;> exact hlt
            · exact h

theorem PoolResource.Reachable_invariant (env : Env) (self : PoolResource) (m : Machine)
    (h : PoolResource.Reachable env self m) : self.invariant := by
  induction h with
  | create a b self m hc => exact create_invariant env a b self hc
  | DoAllocate bytes alignment self m _ ih =>
    exact PoolResource.DoAllocate_invariant env bytes alignment self m ih
  | DoDeallocate p bytes alignment self m _ ih =>
    exact PoolResource.DoDeallocate_invariant p bytes alignment self m ih

end utils

namespace utils

theorem deref_ok_some {α : Type} (xs : List α) (o : Option Nat) (i : Nat) (x : α)
    (h : deref xs o = .ok (some (i, x))) : o = some i ∧ xs[i]? = some x := by
  unfold deref at h
  split at h
  · cases h
  · split at h
    · rename_i j y hy
      cases h
      exact ⟨rfl, hy⟩
    · cases h

theorem deref_error {α : Type} (xs : List α) (o : Option Nat) (e : Exn)
    (h : deref xs o = .error e) : ∃ i, o = some i ∧ xs.length ≤ i := by
  cases o with
  | none => simp [deref] at h
  | some i =>
    refine ⟨i, rfl, ?_⟩
    by_contra hcon
    have hlt : i < xs.length := by omega
    simp [deref, List.getElem?_eq_getElem hlt] at h

/-! ## C19: the pools are sorted and a request goes to the pool of its block size -/

/-- C19: in every state that the constructor and calls of `Allocate` and `Deallocate` lead
to, `pools_` is strictly increasing in block size, so that no two pools have the same block
size. A request with a non-zero alignment whose block size `max(bytes, alignment)` is a
multiple of the alignment and not above `max_block_size_` is handed to `Allocate` of a pool
whose block size is `max(bytes, alignment)` and to which `last_alloc_pool_` is set: `pools_`
is either left as it is (the pool was found through the hint or by the binary search), or no
pool had that block size and a new pool has been inserted, after which `pools_` is strictly
increasing again. It is so after the call, whatever the pool answers. -/
theorem PoolResource.DoAllocate_served_by_pool (env : Env) (self : PoolResource) (m : Machine)
    (hreach : PoolResource.Reachable env self m) (bytes alignment : Nat)
    (ha : alignment ≠ 0) (hmul : max bytes alignment % alignment = 0)
    (hsmall : max bytes alignment ≤ self.max_block_size_) :
    self.pools_sorted ∧ (self.pools_.map (fun a => a.block_size_)).Nodup ∧
      (∃ (i : Nat) (pool : impl.Pool) (self1 : PoolResource),
        pool.block_size_ = max bytes alignment ∧ self1.pools_[i]? = some pool ∧
        self1.last_alloc_pool_ = some i ∧ self1.unpooled_ = self.unpooled_ ∧
        (self1.pools_ = self.pools_ ∨
          ((∀ q ∈ self.pools_, q.block_size_ ≠ max bytes alignment) ∧
            self1.pools_ = insert_at self.pools_ i
              (impl.Pool.create (max bytes alignment) self.max_blocks_per_chunk_))) ∧
        self1.pools_sorted ∧
        PoolResource.DoAllocate env bytes alignment self m
          = PoolResource.allocate_from_pool env self1 i pool m) ∧
      (PoolResource.DoAllocate env bytes alignment self m).2.1.pools_sorted := by
  have hinv := PoolResource.Reachable_invariant env self m hreach
  have hafter := (PoolResource.DoAllocate_invariant env bytes alignment self m hinv).1
  have hnodup : (self.pools_.map (fun a => a.block_size_)).Nodup :=
    List.pairwise_map.mpr (List.Pairwise.imp (fun h => Nat.ne_of_lt h) hinv.1)
  refine ⟨hinv.1, hnodup, ?_, hafter⟩
  have hfind : ∃ (i : Nat) (pool : impl.Pool) (self1 : PoolResource),
      pool.block_size_ = max bytes alignment ∧ self1.pools_[i]? = some pool ∧
      self1.last_alloc_pool_ = some i ∧ self1.unpooled_ = self.unpooled_ ∧
      (self1.pools_ = self.pools_ ∨
        ((∀ q ∈ self.pools_, q.block_size_ ≠ max bytes alignment) ∧
          self1.pools_ = insert_at self.pools_ i
            (impl.Pool.create (max bytes alignment) self.max_blocks_per_chunk_))) ∧
      self1.pools_sorted ∧
      PoolResource.allocate_find_pool env (max bytes alignment) self m
        = PoolResource.allocate_from_pool env self1 i pool m := by
    obtain ⟨i, pool, self1, h1, h2, h3, h4, h5, h6, h7⟩ :=
      allocate_find_pool_served env (max bytes alignment) self m hinv
    exact ⟨i, pool, self1, h1, h2, h3, h4, h5, h6.1, h7⟩
  have hnot : ¬ max bytes alignment > self.max_block_size_ := Nat.not_lt.mpr hsmall
  unfold PoolResource.DoAllocate
  simp only [ha, hmul, hnot, if_false, ne_eq, not_true_eq_false]
  split
  · rename_i e he
    obtain ⟨i, hi, hlen⟩ := deref_error _ _ _ he
    exact absurd (hinv.2.2.1 i hi) (Nat.not_lt.mpr hlen)
  · exact hfind
  · rename_i i pool hd
    obtain ⟨hhint, hget⟩ := deref_ok_some _ _ _ _ hd
    split_ifs with hbs
    · exact ⟨i, pool, self, hbs, hget, hhint, rfl, Or.inl rfl, hinv.1, rfl⟩
    · exact hfind

/-- Witness of C19: a resource with `max_block_size = 64` that has served a request of 32
bytes serves a request of 24 bytes aligned to 8: the pool of block size 24 is created before
the one of block size 32. -/
theorem PoolResource.DoAllocate_served_by_pool_witness :
    ((8 : Nat) ≠ 0 ∧ max 24 8 % 8 = 0 ∧
      max 24 8 ≤ (PoolResource.DoAllocate bump_env 32 8 ⟨[], [], none, none, 2, 64⟩
        Machine.initial).2.1.max_block_size_) ∧
      (PoolResource.DoAllocate bump_env 24 8
        (PoolResource.DoAllocate bump_env 32 8 ⟨[], [], none, none, 2, 64⟩ Machine.initial).2.1
        (PoolResource.DoAllocate bump_env 32 8 ⟨[], [], none, none, 2, 64⟩
          Machine.initial).2.2).2.1.pools_sorted ∧
      (PoolResource.DoAllocate bump_env 24 8
        (PoolResource.DoAllocate bump_env 32 8 ⟨[], [], none, none, 2, 64⟩ Machine.initial).2.1
        (PoolResource.DoAllocate bump_env 32 8 ⟨[], [], none, none, 2, 64⟩
          Machine.initial).2.2).2.1.pools_.map (fun a => a.block_size_) = [24, 32] :=
  ⟨⟨by decide, by decide, by decide⟩,
    (PoolResource.DoAllocate_served_by_pool bump_env _ _
      (PoolResource.Reachable.DoAllocate 32 8 _ _
        (PoolResource.Reachable.create 2 64 ⟨[], [], none, none, 2, 64⟩ Machine.initial rfl))
      24 8 (by decide) (by decide) (by decide)).2.2.2,
    by decide⟩

/-! ## C20: the big blocks -/

theorem allocate_find_pool_unpooled (env : Env) (block_size : Nat) (self : PoolResource)
    (m : Machine) :
    (PoolResource.allocate_find_pool env block_size self m).2.1.unpooled_ = self.unpooled_ := by
  unfold PoolResource.allocate_find_pool
  simp only []
  split
  · split_ifs <;> rfl
  · rfl

theorem PoolResource.DoAllocate_unpooled_sorted (env : Env) (bytes alignment : Nat)
    (self : PoolResource) (m : Machine) (h : self.unpooled_sorted) :
    (PoolResource.DoAllocate env bytes alignment self m).2.1.unpooled_sorted := by
  unfold PoolResource.DoAllocate
  simp only []
  split_ifs
  · exact h
  · exact h
  · unfold PoolResource.allocate_big_block
    split
    · exact h
    · exact unpooled_insert_sorted self.unpooled_ _ h
  · split
    · exact h
    · unfold PoolResource.unpooled_sorted
      rw [allocate_find_pool_unpooled]
      exact h
    · split_ifs
      · exact h
      · unfold PoolResource.unpooled_sorted
        rw [allocate_find_pool_unpooled]
        exact h

theorem PoolResource.DoDeallocate_unpooled_sorted (p bytes alignment : Nat)
    (self : PoolResource) (m : Machine) (h : self.unpooled_sorted) :
    (PoolResource.DoDeallocate p bytes alignment self m).2.1.unpooled_sorted := by
  unfold PoolResource.DoDeallocate
  simp only []
  split_ifs
  · exact h
  · exact h
  · unfold PoolResource.deallocate_big_block
    simp only []
    split
    · exact h
    · split_ifs
      · exact List.Pairwise.sublist (List.eraseIdx_sublist _ _) h
      · exact h
  · split
    · exact h
    · split
      · exact h
      · split_ifs
        · exact h
        · split
          · exact h
          · split_ifs
            · exact h
            · exact h

/-- C20: let `unpooled_` be sorted by address, as it is after the constructor. It is sorted
after every `Allocate`, every `Deallocate` and `Release`, whatever the arguments and the
outcome. For a request with a non-zero alignment whose block size `max(bytes, alignment)` is
a multiple of the alignment and above `max_block_size_`: `Allocate`, when upstream returns
`p`, has asked upstream for exactly `(bytes, alignment)` and for nothing else, returns `p`,
and inserts the record `(bytes, alignment, p)` into `unpooled_`, changing nothing else;
`Deallocate(p, bytes, alignment)` of a recorded block, the only record at its address,
removes that one record, leaves the others in their order, and hands `(p, bytes, alignment)`
to upstream and nothing else. -/
theorem PoolResource.big_block_roundtrip (env : Env) (self : PoolResource) (m : Machine)
    (hsorted : self.unpooled_sorted) (bytes alignment : Nat)
    (ha : alignment ≠ 0) (hmul : max bytes alignment % alignment = 0)
    (hbig : self.max_block_size_ < max bytes alignment) :
    (∀ p, env.upstream m.log bytes alignment = some p →
        ∃ it, it ≤ self.unpooled_.length ∧
          PoolResource.DoAllocate env bytes alignment self m
            = (.ok p, { self with unpooled_ := insert_at self.unpooled_ it ⟨bytes, alignment, p⟩ },
               { m with log := m.log ++ [UpEvent.alloc bytes alignment (some p)] }) ∧
          (insert_at self.unpooled_ it ⟨bytes, alignment, p⟩).Pairwise
            (fun a b => a.data ≤ b.data)) ∧
      (∀ p, (⟨bytes, alignment, p⟩ : BigBlock) ∈ self.unpooled_ →
        (∀ c ∈ self.unpooled_, c.data = p → c = ⟨bytes, alignment, p⟩) →
        ∃ it, self.unpooled_[it]? = some ⟨bytes, alignment, p⟩ ∧
          PoolResource.DoDeallocate p bytes alignment self m
            = (.ok (), { self with unpooled_ := self.unpooled_.eraseIdx it },
               { m with log := m.log ++ [UpEvent.dealloc p bytes alignment] }) ∧
          (self.unpooled_.eraseIdx it).Pairwise (fun a b => a.data ≤ b.data)) ∧
      (∀ size align p,
        (PoolResource.DoAllocate env size align self m).2.1.unpooled_sorted ∧
        (PoolResource.DoDeallocate p size align self m).2.1.unpooled_sorted ∧
        (PoolResource.Release env self m).1.unpooled_sorted) ∧
      (∀ max_blocks_per_chunk max_block_size created,
        PoolResource.create env max_blocks_per_chunk max_block_size = .ok created →
        created.unpooled_sorted) := by
  have hgt : max bytes alignment > self.max_block_size_ := hbig
  refine ⟨?_, ?_, ?_, ?_⟩
  · intro p hp
    refine ⟨lower_bound (fun a : BigBlock => decide (a.data < p)) self.unpooled_,
      (unpooled_lower_bound self.unpooled_ p hsorted).1, ?_,
      unpooled_insert_sorted self.unpooled_ ⟨bytes, alignment, p⟩ hsorted⟩
    unfold PoolResource.DoAllocate
    simp only [ha, hmul, hgt, if_true, if_false, ne_eq, not_true_eq_false]
    simp only [PoolResource.allocate_big_block, Upstream.Allocate, hp]
  · intro p hmem huniq
    obtain ⟨hle, hlow, hhigh⟩ := unpooled_lower_bound self.unpooled_ p hsorted
    obtain ⟨j, hj⟩ := List.mem_iff_getElem?.mp hmem
    have hjlen : j < self.unpooled_.length := (List.getElem?_eq_some_iff.mp hj).1
    have hitj : lower_bound (fun a : BigBlock => decide (a.data < p)) self.unpooled_ ≤ j := by
      by_contra hcon
      have := hlow j _ hj (by omega)
      simp at this
    have hitlen : lower_bound (fun a : BigBlock => decide (a.data < p)) self.unpooled_
        < self.unpooled_.length := by omega
    have hfound := List.getElem?_eq_getElem hitlen
    have hge := hhigh _ _ hfound (Nat.le_refl _)
    have hle2 : (self.unpooled_[lower_bound (fun a : BigBlock => decide (a.data < p))
        self.unpooled_]).data ≤ p := by
      rcases Nat.lt_or_eq_of_le hitj with hlt | heq
      · exact pairwise_at hsorted _ j _ _ hlt hfound hj
      · have h2 : self.unpooled_[lower_bound (fun a : BigBlock => decide (a.data < p))
            self.unpooled_]? = some ⟨bytes, alignment, p⟩ := by
          rw [heq]
          exact hj
        have h3 := Option.some.inj (hfound.symm.trans h2)
        rw [h3]
    have hrec := huniq _ (List.getElem_mem hitlen) (by omega)
    rw [hrec] at hfound
    refine ⟨_, hfound, ?_, List.Pairwise.sublist (List.eraseIdx_sublist _ _) hsorted⟩
    unfold PoolResource.DoDeallocate
    simp only [ha, hmul, hgt, if_true, if_false, ne_eq, not_true_eq_false]
    simp only [PoolResource.deallocate_big_block, hfound, and_self, if_true, Upstream.Deallocate]
  · intro size align p
    exact ⟨PoolResource.DoAllocate_unpooled_sorted env size align self m hsorted,
      PoolResource.DoDeallocate_unpooled_sorted p size align self m hsorted,
      List.Pairwise.nil⟩
  · intro a b created hc
    exact (create_invariant env a b created hc).2.1

/-- Witness of C20: a resource with `max_block_size = 64` that has served a request of 128
bytes aligned to 8 at address 4096 takes the block back. -/
theorem PoolResource.big_block_roundtrip_witness :
    ((PoolResource.DoAllocate bump_env 128 8 ⟨[], [], none, none, 2, 64⟩
        Machine.initial).2.1.unpooled_sorted ∧ (8 : Nat) ≠ 0 ∧ max 128 8 % 8 = 0 ∧
      (PoolResource.DoAllocate bump_env 128 8 ⟨[], [], none, none, 2, 64⟩
        Machine.initial).2.1.max_block_size_ < max 128 8) ∧
      (PoolResource.DoAllocate bump_env 128 8 ⟨[], [], none, none, 2, 64⟩
        Machine.initial).2.1.unpooled_ = [⟨128, 8, 4096⟩] ∧
      ∃ it,
        (PoolResource.DoAllocate bump_env 128 8 ⟨[], [], none, none, 2, 64⟩
          Machine.initial).2.1.unpooled_[it]? = some ⟨128, 8, 4096⟩ ∧
        PoolResource.DoDeallocate 4096 128 8
            (PoolResource.DoAllocate bump_env 128 8 ⟨[], [], none, none, 2, 64⟩
              Machine.initial).2.1
            (PoolResource.DoAllocate bump_env 128 8 ⟨[], [], none, none, 2, 64⟩
              Machine.initial).2.2
          = (.ok (),
             { (PoolResource.DoAllocate bump_env 128 8 ⟨[], [], none, none, 2, 64⟩
                 Machine.initial).2.1 with
               unpooled_ := (PoolResource.DoAllocate bump_env 128 8 ⟨[], [], none, none, 2, 64⟩
                 Machine.initial).2.1.unpooled_.eraseIdx it },
             { (PoolResource.DoAllocate bump_env 128 8 ⟨[], [], none, none, 2, 64⟩
                 Machine.initial).2.2 with
               log := (PoolResource.DoAllocate bump_env 128 8 ⟨[], [], none, none, 2, 64⟩
                 Machine.initial).2.2.log ++ [UpEvent.dealloc 4096 128 8] }) ∧
        ((PoolResource.DoAllocate bump_env 128 8 ⟨[], [], none, none, 2, 64⟩
          Machine.initial).2.1.unpooled_.eraseIdx it).Pairwise (fun a b => a.data ≤ b.data) :=
  ⟨⟨PoolResource.DoAllocate_unpooled_sorted bump_env 128 8 ⟨[], [], none, none, 2, 64⟩
        Machine.initial List.Pairwise.nil,
      by decide, by decide, by decide⟩, by decide,
    (PoolResource.big_block_roundtrip bump_env _ _
      (PoolResource.DoAllocate_unpooled_sorted bump_env 128 8 ⟨[], [], none, none, 2, 64⟩
        Machine.initial List.Pairwise.nil)
      128 8 (by decide) (by decide) (by decide)).2.1 4096 (by decide) (by decide)⟩

end utils

/-! ## C27: a request of zero bytes -/

namespace utils

theorem finish_allocation_zero (data buffer_head aligned_ptr : Nat)
    (self : MonotonicBufferResource) (m : Machine) (h : buffer_head ≤ aligned_ptr) :
    MonotonicBufferResource.finish_allocation 0 data buffer_head aligned_ptr self m
      = (.error (.BadAlloc .AllocationSizeOverflow), self, m) := by
  unfold MonotonicBufferResource.finish_allocation
  have h1 : ¬ aligned_ptr < buffer_head := Nat.not_lt.mpr h
  have h2 : wrap (aligned_ptr + 0) ≤ aligned_ptr := Nat.mod_le _ _
  simp only [h1, h2, if_true, if_false]

theorem finish_allocation_zero_not_ok (data buffer_head aligned_ptr p : Nat)
    (self : MonotonicBufferResource) (m : Machine) :
    (MonotonicBufferResource.finish_allocation 0 data buffer_head aligned_ptr self m).1
      ≠ .ok p := by
  unfold MonotonicBufferResource.finish_allocation
  have h2 : wrap (aligned_ptr + 0) ≤ aligned_ptr := Nat.mod_le _ _
  split_ifs <;> simp

theorem std_align_zero_ge (alignment ptr space aligned space1 : Nat) (ha : 0 < alignment)
    (h : std_align alignment 0 ptr space = some (aligned, space1))
    (hsane : ptr + space < 2 ^ 64) : ptr ≤ aligned := by
  unfold std_align at h
  simp only [Nat.not_lt_zero, if_false, Nat.sub_zero] at h
  split_ifs at h with hd
  simp only [Option.some.injEq, Prod.mk.injEq] at h
  obtain ⟨h1, _⟩ := h
  have hr : wrap (ptr + alignment + (2 ^ 64 - 1)) % alignment < alignment := Nat.mod_lt _ ha
  have hr2 : wrap (ptr + alignment + (2 ^ 64 - 1)) % alignment
      ≤ wrap (ptr + alignment + (2 ^ 64 - 1)) := Nat.mod_le _ _
  rw [h1] at hd
  generalize wrap (ptr + alignment + (2 ^ 64 - 1)) % alignment = r at h1 hr hr2
  unfold wrap at h1 hr2
  unfold sub64 at hd
  omega

theorem std_align_zero_of_aligned (alignment ptr space aligned space1 : Nat)
    (ha : 0 < alignment) (hdvd : alignment ∣ 2 ^ 64) (hptr : ptr % alignment = 0)
    (hlt : ptr < 2 ^ 64)
    (h : std_align alignment 0 ptr space = some (aligned, space1)) : ptr ≤ aligned := by
  unfold std_align at h
  simp only [Nat.not_lt_zero, if_false, Nat.sub_zero] at h
  split_ifs at h with hd
  simp only [Option.some.injEq, Prod.mk.injEq] at h
  obtain ⟨h1, _⟩ := h
  obtain ⟨q, hq⟩ := Nat.dvd_of_mod_eq_zero hptr
  obtain ⟨t, ht⟩ := hdvd
  have hqt : q < t := by
    by_contra hcon
    have : alignment * t ≤ alignment * q := Nat.mul_le_mul_left _ (Nat.not_lt.mp hcon)
    omega
  have hfit : ptr + alignment ≤ 2 ^ 64 := by
    have : alignment * (q + 1) ≤ alignment * t := Nat.mul_le_mul_left _ hqt
    rw [Nat.mul_add, Nat.mul_one] at this
    omega
  have hx : wrap (ptr + alignment + (2 ^ 64 - 1)) = ptr + (alignment - 1) := by
    unfold wrap
    omega
  have hmod : (ptr + (alignment - 1)) % alignment = alignment - 1 := by
    rw [hq, Nat.mul_add_mod]
    exact Nat.mod_eq_of_lt (by omega)
  rw [hx, hmod] at h1
  omega

theorem push_current_buffer_served_error (env : Env) (bytes next_size : Nat)
    (self : MonotonicBufferResource) (m : Machine) (e : Exn)
    (hup : ∀ log size, env.upstream log size env.max_align ≠ none)
    (h : (MonotonicBufferResource.push_current_buffer env bytes next_size self m).1
      = .error e) :
    e = .BadAlloc .AllocationSizeOverflow := by
  unfold MonotonicBufferResource.push_current_buffer Upstream.Allocate at h
  generalize (if next_size > bytes then next_size else bytes) = cap at h
  by_cases hc : wrap (env.sizeof_Buffer + cap) ≤ cap
  · simp only [hc, if_true] at h
    cases h
    rfl
  · cases hu : env.upstream m.log (wrap (env.sizeof_Buffer + cap)) env.max_align with
    | none => exact absurd hu (hup _ _)
    | some p => simp [hc, hu] at h

theorem allocate_in_zero (env : Env) (alignment data data_capacity : Nat)
    (self : MonotonicBufferResource) (m : Machine)
    (hup : ∀ log size, env.upstream log size env.max_align ≠ none)
    (hhead : ∀ aligned space1,
      std_align alignment 0 (wrap (data + self.allocated_))
        (sub64 data_capacity self.allocated_) = some (aligned, space1) →
      wrap (data + self.allocated_) ≤ aligned) :
    (MonotonicBufferResource.allocate_in env 0 alignment data data_capacity self m).1
      = .error (.BadAlloc .AllocationSizeOverflow) := by
  unfold MonotonicBufferResource.allocate_in
  simp only []
  cases hal : std_align alignment 0 (wrap (data + self.allocated_))
      (sub64 data_capacity self.allocated_) with
  | some r =>
    obtain ⟨aligned_ptr, space1⟩ := r
    simp only []
    rw [finish_allocation_zero _ _ _ _ _ (hhead _ _ hal)]
  | none =>
    simp only []
    rcases hpush : MonotonicBufferResource.push_current_buffer env 0 self.next_buffer_size_
      self m with ⟨r, self1, m1⟩
    cases r with
    | error e =>
      simp only []
      have := push_current_buffer_served_error env 0 _ self m e hup (by rw [hpush])
      rw [this]
    | ok b =>
      simp only []
      rw [finish_allocation_zero _ _ _ _ _ (Nat.le_refl _)]

theorem allocate_in_zero_not_ok (env : Env) (alignment data data_capacity p : Nat)
    (self : MonotonicBufferResource) (m : Machine) :
    (MonotonicBufferResource.allocate_in env 0 alignment data data_capacity self m).1
      ≠ .ok p := by
  unfold MonotonicBufferResource.allocate_in
  simp only []
  split
  · exact finish_allocation_zero_not_ok _ _ _ _ _ _
  · split
    · simp
    · exact finish_allocation_zero_not_ok _ _ _ _ _ _

theorem DoAllocate_zero_not_ok (env : Env) (alignment p : Nat)
    (self : MonotonicBufferResource) (m : Machine) :
    (MonotonicBufferResource.DoAllocate env 0 alignment self m).1 ≠ .ok p := by
  unfold MonotonicBufferResource.DoAllocate
  split_ifs
  · simp
  · split
    · exact allocate_in_zero_not_ok _ _ _ _ _ _ _
    · split
      · exact allocate_in_zero_not_ok _ _ _ _ _ _ _
      · split
        · simp
        · exact allocate_in_zero_not_ok _ _ _ _ _ _ _

/-- C27: `DoAllocate(0, alignment)` never returns an address, in any state, for any
alignment and whatever upstream does. Let moreover `alignof(std::max_align_t)` be a power of
two that divides `sizeof(Buffer)`, let upstream never throw and return addresses that are
multiples of `alignof(std::max_align_t)`, and let the region that is being filled end below
the end of the address space with `allocated_` not above its capacity. Then for every
alignment that is a power of two not above `alignof(std::max_align_t)` what `DoAllocate(0,
alignment)` throws is `BadAlloc` with "Allocation size overflow", whether or not it has
obtained a new buffer first. -/
theorem MonotonicBufferResource.DoAllocate_zero_bytes (env : Env) (k j : Nat)
    (hmax : env.max_align = 2 ^ j) (hj : j ≤ 64)
    (hbuf : env.sizeof_Buffer % env.max_align = 0)
    (hup : ∀ log size, ∃ p, env.upstream log size env.max_align = some p ∧
      p % env.max_align = 0)
    (self : MonotonicBufferResource) (m : Machine) (alignment : Nat)
    (halign : alignment = 2 ^ k) (hle : alignment ≤ env.max_align)
    (hregion : ∀ data capacity, self.data_region env = some (data, capacity) →
      data + capacity < 2 ^ 64 ∧ self.allocated_ ≤ capacity) :
    (MonotonicBufferResource.DoAllocate env 0 alignment self m).1
        = .error (.BadAlloc .AllocationSizeOverflow) ∧
      ∀ (env1 : Env) (self1 : MonotonicBufferResource) (m1 : Machine) (alignment1 p : Nat),
        (MonotonicBufferResource.DoAllocate env1 0 alignment1 self1 m1).1 ≠ .ok p := by
  refine ⟨?_, fun env1 self1 m1 alignment1 p => DoAllocate_zero_not_ok env1 alignment1 p self1 m1⟩
  have hserve : ∀ log size, env.upstream log size env.max_align ≠ none := by
    intro log size hnone
    obtain ⟨p, hp, _⟩ := hup log size
    rw [hnone] at hp
    cases hp
  have hupa : ∀ log bytes p, env.upstream log bytes env.max_align = some p →
      p % env.max_align = 0 := by
    intro log bytes p hp
    obtain ⟨q, hq, hqa⟩ := hup log bytes
    rw [hp] at hq
    cases hq
    exact hqa
  have hpos : 0 < alignment := by rw [halign]; exact Nat.pow_pos (by decide)
  have hkj : k ≤ j := by
    rw [halign, hmax] at hle
    exact (Nat.pow_le_pow_iff_right (by norm_num)).mp hle
  have hdvd : alignment ∣ 2 ^ 64 := by
    rw [halign]; exact Nat.pow_dvd_pow 2 (le_trans hkj hj)
  have hsane : ∀ data capacity, data + capacity < 2 ^ 64 → self.allocated_ ≤ capacity →
      (MonotonicBufferResource.allocate_in env 0 alignment data capacity self m).1
        = .error (.BadAlloc .AllocationSizeOverflow) := by
    intro data capacity h1 h2
    apply allocate_in_zero env alignment data capacity self m hserve
    intro aligned space1 hal
    have e1 : sub64 capacity self.allocated_ = capacity - self.allocated_ :=
      sub64_of_le _ _ h2 (by omega)
    have e2 : wrap (data + self.allocated_) = data + self.allocated_ :=
      Nat.mod_eq_of_lt (by omega)
    rw [e1, e2] at hal
    rw [e2]
    exact std_align_zero_ge alignment _ _ aligned space1 hpos hal (by omega)
  unfold MonotonicBufferResource.DoAllocate
  have hng : ¬ alignment > env.max_align := Nat.not_lt.mpr hle
  simp only [hng, if_false]
  cases hcur : self.current_buffer_ with
  | cons b rest =>
    simp only []
    have hr := hregion (b.data env) b.capacity (by simp [data_region, hcur])
    exact hsane _ _ hr.1 hr.2
  | nil =>
    simp only []
    cases hinit : self.initial_buffer_ with
    | some buffer =>
      simp only []
      have hr := hregion buffer self.initial_size_ (by simp [data_region, hcur, hinit])
      exact hsane _ _ hr.1 hr.2
    | none =>
      simp only []
      rcases hpush : MonotonicBufferResource.push_current_buffer env 0 self.initial_size_
        self m with ⟨r, self1, m1⟩
      cases r with
      | error e =>
        simp only []
        have := push_current_buffer_served_error env 0 _ self m e hserve (by rw [hpush])
        rw [this]
      | ok b =>
        simp only []
        obtain ⟨_, hb, hs, _⟩ := push_current_buffer_ok _ _ _ _ _ _ _ _ hpush
        apply allocate_in_zero env alignment _ _ self1 m1 hserve
        intro aligned space1 hal
        have hz : self1.allocated_ = 0 := by rw [hs]
        have hdata : b.data env < 2 ^ 64 := Nat.mod_lt _ (by decide)
        have e2 : wrap (b.data env + self1.allocated_) = b.data env := by
          rw [hz]; exact Nat.mod_eq_of_lt (by omega)
        rw [e2] at hal ⊢
        exact std_align_zero_of_aligned alignment _ _ aligned space1 hpos hdvd
          (Buffer.data_aligned env b alignment k j hmax hj hbuf halign hle (hupa _ _ _ hb))
          hdata hal

/-- Witness of C27: a request of zero bytes aligned to 8 to a resource that fills a user
buffer of 100 bytes at address 1001. -/
theorem MonotonicBufferResource.DoAllocate_zero_bytes_witness :
    (∀ data capacity,
        (MonotonicBufferResource.of_buffer bump_env (some 1001) 100).data_region bump_env
          = some (data, capacity) →
        data + capacity < 2 ^ 64 ∧
          (MonotonicBufferResource.of_buffer bump_env (some 1001) 100).allocated_ ≤ capacity) ∧
      (MonotonicBufferResource.DoAllocate bump_env 0 8
        (MonotonicBufferResource.of_buffer bump_env (some 1001) 100) Machine.initial).1
        = .error (.BadAlloc .AllocationSizeOverflow) :=
  ⟨by
      intro data capacity h
      simp [MonotonicBufferResource.data_region, MonotonicBufferResource.of_buffer] at h
      obtain ⟨rfl, rfl⟩ := h
      exact ⟨by decide, by decide⟩,
    (MonotonicBufferResource.DoAllocate_zero_bytes bump_env 3 4 rfl (by decide) (by decide)
      (fun log size => ⟨_, rfl, bump_upstream_aligned log size _ _ rfl⟩)
      (MonotonicBufferResource.of_buffer bump_env (some 1001) 100) Machine.initial 8
      rfl (by decide)
      (by
        intro data capacity h
        simp [MonotonicBufferResource.data_region, MonotonicBufferResource.of_buffer] at h
        obtain ⟨rfl, rfl⟩ := h
        exact ⟨by decide, by decide⟩)).1⟩

end utils

/-! ## C28: `Peek` and the position -/

namespace utils

/-- C28 (the code at the failing input): a file of 10 bytes is opened with a buffer size of
16 bytes, so that no buffer is loaded and the position is 0. `Read` of 20 bytes fails, and
`Peek` of 20 bytes fails as well and gives the same bytes, but it leaves the position at 10:
the failed load has reset `buffer_start_` to the empty value it had before the call, so
`Peek` takes the buffer for unchanged and does not seek back. A `Peek` of 8 bytes from the
same state leaves the position at 0. -/
theorem InputFile.Peek_moves_position_at_end_of_file :
    InputFile.Open ⟨0, 0, none, 0, 0, []⟩ ⟨[10, 11, 12, 13, 14, 15, 16, 17, 18, 19], 0⟩
        = (some ⟨10, 0, none, 0, 0, []⟩, ⟨[10, 11, 12, 13, 14, 15, 16, 17, 18, 19], 0⟩) ∧
      InputFile.GetPosition ⟨10, 0, none, 0, 0, []⟩ = 0 ∧
      (InputFile.Read ⟨16, fun _ size => size⟩ 20 ⟨10, 0, none, 0, 0, []⟩
          ⟨[10, 11, 12, 13, 14, 15, 16, 17, 18, 19], 0⟩).map
          (fun r => (r.1, r.2.1))
        = some (false, [10, 11, 12, 13, 14, 15, 16, 17, 18, 19]) ∧
      (InputFile.Peek ⟨16, fun _ size => size⟩ 20 ⟨10, 0, none, 0, 0, []⟩
          ⟨[10, 11, 12, 13, 14, 15, 16, 17, 18, 19], 0⟩).map
          (fun r => (r.1, r.2.1, r.2.2.1.GetPosition))
        = some (false, [10, 11, 12, 13, 14, 15, 16, 17, 18, 19], 10) ∧
      (InputFile.Peek ⟨16, fun _ size => size⟩ 8 ⟨10, 0, none, 0, 0, []⟩
          ⟨[10, 11, 12, 13, 14, 15, 16, 17, 18, 19], 0⟩).map
          (fun r => (r.1, r.2.1, r.2.2.1.GetPosition))
        = some (true, [10, 11, 12, 13, 14, 15, 16, 17], 0) := by
  refine ⟨?_, ?_, ?_, ?_, ?_⟩ <;> decide

end utils

/-! ## Lemmas on the loops of `InputFile` -/

namespace utils

theorem slice_append {α : Type} (c : List α) (a g n : Nat) (h : g ≤ n) :
    (c.drop a).take g ++ (c.drop (a + g)).take (n - g) = (c.drop a).take n := by
  have h1 : n = g + (n - g) := by omega
  conv_rhs => rw [h1, List.take_add]
  rw [List.drop_drop]

theorem slice_length {α : Type} (c : List α) (a g : Nat) (h : a + g ≤ c.length) :
    ((c.drop a).take g).length = g := by
  rw [List.length_take, List.length_drop]
  omega

theorem write_at_take (buffer : List Nat) (offset : Nat) (bytes : List Nat)
    (h : offset ≤ buffer.length) :
    (write_at buffer offset bytes).take (offset + bytes.length) = buffer.take offset ++ bytes ∧
      offset + bytes.length ≤ (write_at buffer offset bytes).length := by
  unfold write_at
  have h0 : offset - buffer.length = 0 := by omega
  rw [h0]
  simp only [List.replicate_zero, List.append_nil]
  have hl : (buffer.take offset ++ bytes).length = offset + bytes.length := by
    simp [List.length_take, Nat.min_eq_left h]
  constructor
  · rw [← hl, List.take_left]
  · rw [List.length_append, hl]
    omega

theorem sys_read_spec (env : FileEnv) (fd : Descriptor) (size : Nat) (hsize : 0 < size)
    (h : fd.offset + size ≤ fd.content.length) :
    ∃ g, 0 < g ∧ g ≤ size ∧ (sys_read env fd size).1 = (fd.content.drop fd.offset).take g ∧
      (sys_read env fd size).1.length = g ∧
      (sys_read env fd size).2 = { fd with offset := fd.offset + g } := by
  refine ⟨min (min size (fd.content.length - fd.offset)) (max 1 (env.chunk fd.offset size)),
    ?_, ?_, rfl, ?_, rfl⟩
  · omega
  · omega
  · show ((fd.content.drop fd.offset).take _).length = _
    rw [List.length_take, List.length_drop]
    omega

theorem read_loop_spec (env : FileEnv) (fuel size offset : Nat) (buffer : List Nat)
    (fd : Descriptor) (hfuel : size ≤ fuel) (hfile : fd.offset + size ≤ fd.content.length)
    (hbuf : offset ≤ buffer.length) :
    ∃ buffer1, InputFile.read_loop env fuel size offset buffer fd
        = some (true, buffer1, { fd with offset := fd.offset + size }) ∧
      buffer1.take (offset + size) = buffer.take offset ++ (fd.content.drop fd.offset).take size := by
  induction fuel generalizing size offset buffer fd with
  | zero =>
    have h0 : size = 0 := by omega
    subst h0
    exact ⟨buffer, by simp [InputFile.read_loop], by simp⟩
  | succ fuel ih =>
    by_cases h0 : size = 0
    · subst h0
      exact ⟨buffer, by simp [InputFile.read_loop], by simp⟩
    · obtain ⟨g, hg1, hg2, hbytes, hlen, hfd⟩ := sys_read_spec env fd size (by omega) hfile
      have hw := write_at_take buffer offset (sys_read env fd size).1 hbuf
      rw [hlen] at hw
      obtain ⟨buffer1, hrun, htake⟩ := ih (size - g) (offset + g)
        (write_at buffer offset (sys_read env fd size).1) (sys_read env fd size).2
        (by omega) (by rw [hfd]; show fd.offset + g + (size - g) ≤ fd.content.length; omega)
        hw.2
      refine ⟨buffer1, ?_, ?_⟩
      · unfold InputFile.read_loop
        have hne : ¬ g = 0 := by omega
        simp only [h0, if_false, hne, hlen]
        rw [hrun, hfd]
        have : fd.offset + g + (size - g) = fd.offset + size := by omega
        simp [this]
      · have e1 : offset + g + (size - g) = offset + size := by omega
        rw [e1, hw.1, hfd, hbytes] at htake
        rw [htake, List.append_assoc]
        congr 1
        exact slice_append fd.content fd.offset g size hg2

end utils

namespace utils

theorem LoadBuffer_at_end (env : FileEnv) (self : InputFile) (fd : Descriptor)
    (hbound : self.file_size_ + env.kFileBufferSize < 2 ^ 64)
    (hend : self.file_position_ = self.file_size_) :
    InputFile.LoadBuffer env self fd
      = some (false, ⟨self.file_size_, self.file_position_, none, 0, 0, self.buffer_⟩, fd) := by
  unfold InputFile.LoadBuffer
  have h1 : wrap (self.file_position_ + env.kFileBufferSize) ≥ self.file_size_ := by
    unfold wrap
    omega
  have h2 : sub64 self.file_size_ self.file_position_ = 0 := by
    unfold sub64
    omega
  simp only [h1, h2, if_true]

theorem LoadBuffer_spec (env : FileEnv) (self : InputFile) (fd : Descriptor)
    (hbound : self.file_size_ + env.kFileBufferSize < 2 ^ 64)
    (hlen : fd.content.length = self.file_size_) (hoff : fd.offset = self.file_position_)
    (hlt : self.file_position_ < self.file_size_) (hK : 0 < env.kFileBufferSize) :
    ∃ buffer1,
      InputFile.LoadBuffer env self fd
        = some (true,
            ⟨self.file_size_,
             self.file_position_
               + min env.kFileBufferSize (self.file_size_ - self.file_position_),
             some self.file_position_,
             min env.kFileBufferSize (self.file_size_ - self.file_position_), 0, buffer1⟩,
            ⟨fd.content,
             self.file_position_
               + min env.kFileBufferSize (self.file_size_ - self.file_position_)⟩) ∧
      buffer1.take (min env.kFileBufferSize (self.file_size_ - self.file_position_))
        = (fd.content.drop self.file_position_).take
            (min env.kFileBufferSize (self.file_size_ - self.file_position_)) := by
  have hsize : (if wrap (self.file_position_ + env.kFileBufferSize) ≥ self.file_size_ then
        sub64 self.file_size_ self.file_position_ else env.kFileBufferSize)
      = min env.kFileBufferSize (self.file_size_ - self.file_position_) := by
    have e1 : wrap (self.file_position_ + env.kFileBufferSize)
        = self.file_position_ + env.kFileBufferSize := Nat.mod_eq_of_lt (by omega)
    have e2 : sub64 self.file_size_ self.file_position_
        = self.file_size_ - self.file_position_ := sub64_of_le _ _ (by omega) (by omega)
    rw [e1, e2]
    split_ifs <;> omega
  generalize hsz : min env.kFileBufferSize (self.file_size_ - self.file_position_) = sz
    at hsize ⊢
  have hpos : sz ≠ 0 := by omega
  obtain ⟨buffer1, hrun, htake⟩ := read_loop_spec env sz sz 0 self.buffer_ fd (Nat.le_refl _)
    (by omega) (Nat.zero_le _)
  refine ⟨buffer1, ?_, ?_⟩
  · unfold InputFile.LoadBuffer
    simp only [hsize, hpos, if_false, hrun, hoff]
    have e3 : wrap (self.file_position_ + sz) = self.file_position_ + sz :=
      Nat.mod_eq_of_lt (by omega)
    rw [e3]
  · simpa [hoff] using htake

theorem buffer_slice (buffer content : List Nat) (start size position count : Nat)
    (h : buffer.take size = (content.drop start).take size) (hfit : position + count ≤ size) :
    (buffer.drop position).take count = (content.drop (start + position)).take count := by
  have key : ∀ l : List Nat, (l.drop position).take count
      = (((l.take size).drop position).take count) := by
    intro l
    rw [List.drop_take, List.take_take]
    congr 1
    omega
  rw [key buffer, h, ← key (content.drop start), List.drop_drop]

theorem consistent_position (self : InputFile) (fd : Descriptor) (h : self.consistent fd)
    (hbound : self.file_size_ < 2 ^ 64) :
    self.GetPosition ≤ self.file_position_ ∧ self.file_position_ ≤ self.file_size_ ∧
      (∀ start, self.buffer_start_ = some start →
        self.GetPosition = start + self.buffer_position_) ∧
      (self.buffer_start_ = none → self.GetPosition = self.file_position_) := by
  obtain ⟨h1, h2, h3, h4⟩ := h
  unfold InputFile.GetPosition
  cases hs : self.buffer_start_ with
  | none => exact ⟨Nat.le_refl _, h3, (fun s hs1 => by cases hs1), (fun _ => rfl)⟩
  | some start =>
    obtain ⟨h5, h6, _⟩ := h4 start hs
    have e : wrap (start + self.buffer_position_) = start + self.buffer_position_ :=
      Nat.mod_eq_of_lt (by omega)
    simp only [e]
    refine ⟨by omega, h3, (fun s hs1 => by cases hs1; rfl), (fun hn => by cases hn)⟩

end utils

namespace utils

theorem Read_loop_zero (env : FileEnv) (fuel : Nat) (data : List Nat) (self : InputFile)
    (fd : Descriptor) :
    InputFile.Read_loop env fuel 0 data self fd = some (true, data, self, fd) := by
  cases fuel <;> simp [InputFile.Read_loop]

theorem Read_loop_spec (env : FileEnv) (hK : 0 < env.kFileBufferSize) (fuel size : Nat)
    (data : List Nat) (self : InputFile) (fd : Descriptor) (hcons : self.consistent fd)
    (hbound : self.file_size_ + env.kFileBufferSize < 2 ^ 64)
    (hfuel : 2 * size ≤ fuel +
      (if self.buffer_start_ = none ∨ sub64 self.buffer_size_ self.buffer_position_ = 0 then 0
       else 1)) :
    (self.GetPosition + size ≤ self.file_size_ →
      ∃ self1 fd1,
        InputFile.Read_loop env fuel size data self fd
          = some (true, data ++ (fd.content.drop self.GetPosition).take size, self1, fd1) ∧
        self1.consistent fd1 ∧ self1.GetPosition = self.GetPosition + size ∧
        self1.file_size_ = self.file_size_ ∧ fd1.content = fd.content) ∧
    (self.file_size_ < self.GetPosition + size →
      ∃ d self1 fd1,
        InputFile.Read_loop env fuel size data self fd = some (false, d, self1, fd1)) := by
  induction fuel generalizing size data self fd with
  | zero =>
    have h0 : size = 0 := by
      split_ifs at hfuel <;> omega
    subst h0
    have hp := consistent_position self fd hcons (by omega)
    refine ⟨fun _ => ⟨self, fd, ?_, hcons, rfl, rfl, rfl⟩, fun h => ?_⟩
    · simp [Read_loop_zero]
    · omega
  | succ fuel ih =>
    have hp := consistent_position self fd hcons (by omega)
    by_cases h0 : size = 0
    · subst h0
      refine ⟨fun _ => ⟨self, fd, ?_, hcons, rfl, rfl, rfl⟩, fun h => ?_⟩
      · simp [Read_loop_zero]
      · omega
    · obtain ⟨hc1, hc2, hc3, hc4⟩ := hcons
      by_cases hav : self.buffer_start_ = none ∨
          sub64 self.buffer_size_ self.buffer_position_ = 0
      · -- no byte is left in the buffer: the position is `file_position_`
        have hpos : self.GetPosition = self.file_position_ := by
          cases hs : self.buffer_start_ with
          | none => exact hp.2.2.2 hs
          | some start =>
            obtain ⟨h5, h6, _⟩ := hc4 start hs
            have hleft : sub64 self.buffer_size_ self.buffer_position_ = 0 := by
              rcases hav with h | h
              · rw [hs] at h; cases h
              · exact h
            rw [sub64_of_le _ _ h6 (by omega)] at hleft
            rw [hp.2.2.1 start hs]
            omega
        by_cases hend : self.file_position_ = self.file_size_
        · have hload := LoadBuffer_at_end env self fd hbound hend
          have hrun : InputFile.Read_loop env (fuel + 1) size data self fd
              = some (false, data,
                  ⟨self.file_size_, self.file_position_, none, 0, 0, self.buffer_⟩, fd) := by
            simp only [InputFile.Read_loop, h0, if_false, hav, if_true, hload]
          refine ⟨fun h => ?_, fun _ => ⟨_, _, _, hrun⟩⟩
          have : 0 < size := Nat.pos_of_ne_zero h0
          omega
        · have hlt : self.file_position_ < self.file_size_ := by omega
          obtain ⟨buffer1, hload, htake⟩ := LoadBuffer_spec env self fd hbound hc1 hc2 hlt hK
          generalize hsz : min env.kFileBufferSize (self.file_size_ - self.file_position_)
            = sz at hload htake
          have hszpos : 0 < sz := by omega
          have hszle : self.file_position_ + sz ≤ self.file_size_ := by omega
          have hrun : InputFile.Read_loop env (fuel + 1) size data self fd
              = InputFile.Read_loop env fuel size data
                  ⟨self.file_size_, self.file_position_ + sz, some self.file_position_, sz, 0,
                    buffer1⟩
                  ⟨fd.content, self.file_position_ + sz⟩ := by
            simp only [InputFile.Read_loop, h0, if_false, hav, if_true, hload]
          have hcons1 : InputFile.consistent
              ⟨self.file_size_, self.file_position_ + sz, some self.file_position_, sz, 0,
                buffer1⟩
              ⟨fd.content, self.file_position_ + sz⟩ := by
            refine ⟨hc1, rfl, hszle, ?_⟩
            intro start hstart
            cases hstart
            exact ⟨rfl, Nat.zero_le _, htake⟩
          have hpos1 : InputFile.GetPosition
              ⟨self.file_size_, self.file_position_ + sz, some self.file_position_, sz, 0,
                buffer1⟩ = self.file_position_ := by
            show wrap (self.file_position_ + 0) = self.file_position_
            exact Nat.mod_eq_of_lt (by omega)
          have hleft1 : ¬ ((some self.file_position_ : Option Nat) = none ∨ sub64 sz 0 = 0) := by
            rw [sub64_of_le _ _ (Nat.zero_le _) (by omega)]
            simp
            omega
          have hfuel1 : 2 * size ≤ fuel +
              (if (some self.file_position_ : Option Nat) = none ∨ sub64 sz 0 = 0 then 0
               else 1) := by
            rw [if_neg hleft1]
            rw [if_pos hav] at hfuel
            omega
          obtain ⟨ih1, ih2⟩ := ih size data _ _ hcons1 hbound hfuel1
          rw [hpos1] at ih1 ih2
          rw [hrun, hpos]
          exact ⟨ih1, ih2⟩
      · -- bytes are left in the buffer
        have hsome : ∃ start, self.buffer_start_ = some start := by
          cases hs : self.buffer_start_ with
          | none => exact absurd (Or.inl hs) hav
          | some start => exact ⟨start, rfl⟩
        obtain ⟨start, hs⟩ := hsome
        obtain ⟨h5, h6, h7⟩ := hc4 start hs
        have hleft : sub64 self.buffer_size_ self.buffer_position_
            = self.buffer_size_ - self.buffer_position_ := sub64_of_le _ _ h6 (by omega)
        have hleftpos : 0 < self.buffer_size_ - self.buffer_position_ := by
          have : ¬ sub64 self.buffer_size_ self.buffer_position_ = 0 :=
            fun h => hav (Or.inr h)
          omega
        have hpos : self.GetPosition = start + self.buffer_position_ := hp.2.2.1 start hs
        generalize htc : (if size < self.buffer_size_ - self.buffer_position_ then size
          else self.buffer_size_ - self.buffer_position_) = to_copy
        have htc1 : 0 < to_copy := by
          have : 0 < size := Nat.pos_of_ne_zero h0
          rw [← htc]; split_ifs <;> omega
        have htc2 : to_copy ≤ size := by rw [← htc]; split_ifs <;> omega
        have htc3 : self.buffer_position_ + to_copy ≤ self.buffer_size_ := by
          rw [← htc]; split_ifs <;> omega
        have hwrap : wrap (self.buffer_position_ + to_copy) = self.buffer_position_ + to_copy :=
          Nat.mod_eq_of_lt (by omega)
        have hrun : InputFile.Read_loop env (fuel + 1) size data self fd
            = InputFile.Read_loop env fuel (size - to_copy)
                (data ++ (self.buffer_.drop self.buffer_position_).take to_copy)
                { self with buffer_position_ := self.buffer_position_ + to_copy } fd := by
          have hav1 : ¬ (self.buffer_start_ = none ∨
              self.buffer_size_ - self.buffer_position_ = 0) := by
            rw [← hleft]; exact hav
          simp only [InputFile.Read_loop, h0, if_false, hleft, hav1, htc, hwrap]
        have hcopied := buffer_slice self.buffer_ fd.content start self.buffer_size_
          self.buffer_position_ to_copy h7 htc3
        have hcons1 : InputFile.consistent
            { self with buffer_position_ := self.buffer_position_ + to_copy } fd := by
          refine ⟨hc1, hc2, hc3, ?_⟩
          intro start1 hstart1
          have : start1 = start := by
            have : self.buffer_start_ = some start1 := hstart1
            rw [hs] at this
            exact (Option.some.inj this).symm
          subst this
          exact ⟨h5, htc3, h7⟩
        have hpos1 : InputFile.GetPosition
            { self with buffer_position_ := self.buffer_position_ + to_copy }
            = self.GetPosition + to_copy := by
          have := (consistent_position _ fd hcons1 (by show self.file_size_ < 2 ^ 64; omega)).2.2.1
            start hs
          rw [this, hpos]
          show start + (self.buffer_position_ + to_copy) = _
          omega
        have hfuel1 : 2 * (size - to_copy) ≤ fuel +
            (if self.buffer_start_ = none ∨
                sub64 self.buffer_size_ (self.buffer_position_ + to_copy) = 0 then 0
             else 1) := by
          rw [if_neg hav] at hfuel
          split_ifs <;> omega
        obtain ⟨ih1, ih2⟩ := ih (size - to_copy)
          (data ++ (self.buffer_.drop self.buffer_position_).take to_copy)
          { self with buffer_position_ := self.buffer_position_ + to_copy } fd hcons1 hbound
          hfuel1
        rw [hpos1] at ih1 ih2
        rw [hrun]
        constructor
        · intro hfit
          have hfit1 : self.GetPosition + to_copy + (size - to_copy) ≤ self.file_size_ := by
            clear ih ih1 ih2
            omega
          obtain ⟨self1, fd1, hr, hcs, hps, hfs, hct⟩ := ih1 hfit1
          refine ⟨self1, fd1, ?_, hcs, ?_, hfs, hct⟩
          · rw [hr, hcopied, List.append_assoc, ← hpos,
              slice_append fd.content self.GetPosition to_copy size htc2]
          · rw [hps]
            clear ih ih1 ih2 hr hcs
            omega
        · intro hover
          have hover1 : self.file_size_ < self.GetPosition + to_copy + (size - to_copy) := by
            clear ih ih1 ih2
            omega
          exact ih2 hover1

end utils

/-! ## C29: `Read` at a position -/

namespace utils

theorem Open_consistent (self : InputFile) (content : List Nat) (offset : Nat) :
    InputFile.Open self ⟨content, offset⟩
        = (some ⟨content.length, 0, none, 0, 0, self.buffer_⟩, ⟨content, 0⟩) ∧
      InputFile.consistent ⟨content.length, 0, none, 0, 0, self.buffer_⟩ ⟨content, 0⟩ := by
  constructor
  · have hneg : ¬ ((content.length : Int) < 0) := by omega
    simp [InputFile.Open, InputFile.SetPosition, sys_lseek, hneg]
  · exact ⟨rfl, rfl, Nat.zero_le _, fun s h => by cases h⟩

/-- C29: let the buffer size be positive, let the file have `file_size_` bytes, with
`file_size_ + kFileBufferSize` below `2 ^ 64`, and let the `InputFile` be in a state it is in
after `Open` and successful reads: the offset of the descriptor is `file_position_`, not
beyond the end, and a loaded buffer holds the bytes of the file that end there. Then, however
many bytes a call of `read` hands over and whatever the buffer size, `Read(data, n)` returns;
it returns `true` exactly when the position `p` satisfies `p + n ≤ file_size_`, and then
`data` holds the `n` bytes of the file from `p` on, `GetPosition()` is `p + n`, and the file
is again in such a state. `Open` leads to such a state with position 0. -/
theorem InputFile.Read_at_position (env : FileEnv) (hK : 0 < env.kFileBufferSize)
    (self : InputFile) (fd : Descriptor) (hcons : self.consistent fd)
    (hbound : self.file_size_ + env.kFileBufferSize < 2 ^ 64) (n : Nat) :
    (∃ ret data self1 fd1,
      InputFile.Read env n self fd = some (ret, data, self1, fd1) ∧
      (ret = true ↔ self.GetPosition + n ≤ self.file_size_) ∧
      (ret = true →
        data = (fd.content.drop self.GetPosition).take n ∧ data.length = n ∧
        self1.GetPosition = self.GetPosition + n ∧ self1.consistent fd1 ∧
        self1.file_size_ = self.file_size_ ∧ fd1.content = fd.content)) ∧
      ∀ (closed : InputFile) (content : List Nat) (offset : Nat),
        InputFile.Open closed ⟨content, offset⟩
          = (some ⟨content.length, 0, none, 0, 0, closed.buffer_⟩, ⟨content, 0⟩) ∧
        InputFile.consistent ⟨content.length, 0, none, 0, 0, closed.buffer_⟩ ⟨content, 0⟩ ∧
        InputFile.GetPosition ⟨content.length, 0, none, 0, 0, closed.buffer_⟩ = 0 := by
  refine ⟨?_, fun closed content offset =>
    ⟨(Open_consistent closed content offset).1, (Open_consistent closed content offset).2, rfl⟩⟩
  have hfuel : 2 * n ≤ 2 * n + 1 +
      (if self.buffer_start_ = none ∨ sub64 self.buffer_size_ self.buffer_position_ = 0 then 0
       else 1) := by omega
  obtain ⟨h1, h2⟩ := Read_loop_spec env hK (2 * n + 1) n [] self fd hcons hbound hfuel
  have hlen : fd.content.length = self.file_size_ := hcons.1
  by_cases hfit : self.GetPosition + n ≤ self.file_size_
  · obtain ⟨self1, fd1, hr, hcs, hps, hfs, hct⟩ := h1 hfit
    refine ⟨true, _, self1, fd1, hr, ⟨(fun _ => hfit), (fun _ => rfl)⟩, (fun _ =>
      ⟨by simp, ?_, hps, hcs, hfs, hct⟩)⟩
    simp only [List.nil_append]
    exact slice_length _ _ _ (by omega)
  · obtain ⟨d, self1, fd1, hr⟩ := h2 (by omega)
    exact ⟨false, d, self1, fd1, hr, ⟨(fun h => by cases h), (fun h => absurd h hfit)⟩,
      (fun h => by cases h)⟩

/-- Witness of C29: a file of 10 bytes, a buffer of 4 bytes and calls of `read` that hand
over at most 3 bytes; 7 bytes are read from position 0. -/
theorem InputFile.Read_at_position_witness :
    ((0 : Nat) < 4 ∧ InputFile.consistent ⟨10, 0, none, 0, 0, []⟩
        ⟨[10, 11, 12, 13, 14, 15, 16, 17, 18, 19], 0⟩ ∧ 10 + 4 < 2 ^ 64) ∧
      (InputFile.Read ⟨4, fun _ _ => 3⟩ 7 ⟨10, 0, none, 0, 0, []⟩
          ⟨[10, 11, 12, 13, 14, 15, 16, 17, 18, 19], 0⟩).map
          (fun r => (r.1, r.2.1, r.2.2.1.GetPosition))
        = some (true, [10, 11, 12, 13, 14, 15, 16], 7) ∧
      ∃ ret data self1 fd1,
        InputFile.Read ⟨4, fun _ _ => 3⟩ 7 ⟨10, 0, none, 0, 0, []⟩
            ⟨[10, 11, 12, 13, 14, 15, 16, 17, 18, 19], 0⟩ = some (ret, data, self1, fd1) ∧
        (ret = true ↔ InputFile.GetPosition ⟨10, 0, none, 0, 0, []⟩ + 7
          ≤ InputFile.file_size_ ⟨10, 0, none, 0, 0, []⟩) ∧
        (ret = true →
          data = (List.drop (InputFile.GetPosition ⟨10, 0, none, 0, 0, []⟩)
            [10, 11, 12, 13, 14, 15, 16, 17, 18, 19]).take 7 ∧ data.length = 7 ∧
          self1.GetPosition = InputFile.GetPosition ⟨10, 0, none, 0, 0, []⟩ + 7 ∧
          self1.consistent fd1 ∧
          self1.file_size_ = InputFile.file_size_ ⟨10, 0, none, 0, 0, []⟩ ∧
          fd1.content = [10, 11, 12, 13, 14, 15, 16, 17, 18, 19]) :=
  ⟨⟨by decide, ⟨rfl, rfl, by decide, (fun s h => by cases h)⟩, by decide⟩, by decide,
    (InputFile.Read_at_position ⟨4, fun _ _ => 3⟩ (by decide) ⟨10, 0, none, 0, 0, []⟩
      ⟨[10, 11, 12, 13, 14, 15, 16, 17, 18, 19], 0⟩
      ⟨rfl, rfl, by decide, (fun s h => by cases h)⟩ (by decide) 7).1⟩

end utils

/-! ## Lemmas on the rounding to `double` -/

namespace utils

theorem bit_length_aux_zero (fuel : Nat) : bit_length_aux fuel 0 = 0 := by
  cases fuel <;> simp [bit_length_aux]

theorem bit_length_aux_bounds (fuel n : Nat) (h : n ≤ fuel) :
    n < 2 ^ bit_length_aux fuel n ∧ (n ≠ 0 → 2 ^ (bit_length_aux fuel n - 1) ≤ n) := by
  induction fuel generalizing n with
  | zero =>
    have h0 : n = 0 := by omega
    subst h0
    simp [bit_length_aux]
  | succ fuel ih =>
    by_cases h0 : n = 0
    · subst h0
      simp [bit_length_aux]
    · have hhalf : n / 2 ≤ fuel := by omega
      obtain ⟨h1, h2⟩ := ih (n / 2) hhalf
      simp only [bit_length_aux, h0, if_false, Nat.add_sub_cancel]
      generalize hk : bit_length_aux fuel (n / 2) = k at h1 h2
      constructor
      · rw [Nat.pow_succ]
        omega
      · intro _
        by_cases hz : n / 2 = 0
        · have hk0 : k = 0 := by
            rw [← hk, hz]
            exact bit_length_aux_zero fuel
          subst hk0
          simp
          omega
        · have h3 := h2 hz
          have hkpos : 0 < k := by
            by_contra hcon
            have : k = 0 := by omega
            subst this
            simp at h1
            exact hz h1
          have : 2 ^ k = 2 * 2 ^ (k - 1) := by
            conv_lhs => rw [show k = (k - 1) + 1 from by omega]
            rw [Nat.pow_succ]
            omega
          omega

theorem bit_length_bounds (n : Nat) :
    n < 2 ^ bit_length n ∧ (n ≠ 0 → 2 ^ (bit_length n - 1) ≤ n) :=
  bit_length_aux_bounds n n (Nat.le_refl n)

/-- The rounding leaves a number below `2 ^ 53` as it is; a larger number lies between two
neighbouring multiples `q * 2 ^ (d + 1)` and `(q + 1) * 2 ^ (d + 1)` with a significand `q`
of 53 bits and is rounded to one of them, to the lower one only when it is not more than
`2 ^ d` above it. -/
theorem round_to_double_cases (n : Nat) :
    (n < 2 ^ 53 ∧ round_to_double n = n) ∨
    ∃ q d, 2 ^ 52 ≤ q ∧ q < 2 ^ 53 ∧ q * 2 ^ (d + 1) ≤ n ∧ n < (q + 1) * 2 ^ (d + 1) ∧
      ((round_to_double n = q * 2 ^ (d + 1) ∧ n - q * 2 ^ (d + 1) ≤ 2 ^ d) ∨
        round_to_double n = (q + 1) * 2 ^ (d + 1)) := by
  obtain ⟨hb1, hb2⟩ := bit_length_bounds n
  by_cases hsmall : bit_length n ≤ 53
  · left
    refine ⟨lt_of_lt_of_le hb1 (Nat.pow_le_pow_right (by decide) hsmall), ?_⟩
    simp [round_to_double, hsmall]
  · right
    have hn0 : n ≠ 0 := by
      intro h
      subst h
      simp [bit_length, bit_length_aux_zero] at hsmall
    have hb3 := hb2 hn0
    obtain ⟨d, hd⟩ : ∃ d, bit_length n = d + 1 + 53 := ⟨bit_length n - 54, by omega⟩
    rw [hd] at hb1 hb3
    have e1 : d + 1 + 53 - 1 = 52 + (d + 1) := by omega
    have e2 : d + 1 + 53 = 53 + (d + 1) := by omega
    rw [e1, Nat.pow_add] at hb3
    rw [e2, Nat.pow_add] at hb1
    have hpos : 0 < 2 ^ (d + 1) := Nat.pow_pos (by decide)
    have hq1 : 2 ^ 52 ≤ n / 2 ^ (d + 1) := (Nat.le_div_iff_mul_le hpos).mpr hb3
    have hq2 : n / 2 ^ (d + 1) < 2 ^ 53 := (Nat.div_lt_iff_lt_mul hpos).mpr hb1
    have hdm := Nat.div_add_mod n (2 ^ (d + 1))
    have hr : n % 2 ^ (d + 1) < 2 ^ (d + 1) := Nat.mod_lt _ hpos
    have hmul : n / 2 ^ (d + 1) * 2 ^ (d + 1) = 2 ^ (d + 1) * (n / 2 ^ (d + 1)) :=
      Nat.mul_comm _ _
    refine ⟨n / 2 ^ (d + 1), d, hq1, hq2, by omega, ?_, ?_⟩
    · rw [Nat.add_mul, Nat.one_mul]
      omega
    · have hshift : bit_length n - 53 = d + 1 := by omega
      have hhalf : d + 1 - 1 = d := by omega
      unfold round_to_double
      simp only [hsmall, if_false, hshift, hhalf]
      split_ifs with hup
      · right
        rfl
      · left
        refine ⟨rfl, ?_⟩
        have : n % 2 ^ (d + 1) ≤ 2 ^ d := by
          by_contra hcon
          exact hup (Or.inl (by omega))
        omega

/-- The rounding to `double` loses at most one part in `2 ^ 53`. -/
theorem round_to_double_lower (n : Nat) : (2 ^ 53 - 1) * n ≤ 2 ^ 53 * round_to_double n := by
  rcases round_to_double_cases n with ⟨_, h⟩ | ⟨q, d, hq1, hq2, hlo, hhi, hr⟩
  · rw [h]
    exact Nat.mul_le_mul_right _ (by decide)
  · have hT : 2 ^ 52 * 2 ^ d ≤ q * 2 ^ d := Nat.mul_le_mul_right _ hq1
    have e : ∀ x : Nat, x * 2 ^ (d + 1) = 2 * (x * 2 ^ d) := by
      intro x
      rw [Nat.pow_succ]
      ring
    rw [e] at hlo hhi
    rw [e q, e (q + 1)] at hr
    rw [Nat.add_mul, Nat.one_mul] at hhi hr
    generalize q * 2 ^ d = T at *
    generalize 2 ^ d = P at *
    generalize round_to_double n = r at *
    rcases hr with ⟨h1, h2⟩ | h1
    · omega
    · omega

end utils

namespace utils

/-- A `double` that is below the `double` nearest to `max_size` is not above `max_size`:
no `double` lies strictly between a number and the `double` nearest to it. -/
theorem round_to_double_gap (z m : Nat)
    (h : round_to_double z < round_to_double m * 2 ^ 52) :
    round_to_double z ≤ m * 2 ^ 52 := by
  by_contra hcon
  have hgt : m * 2 ^ 52 < round_to_double z := Nat.lt_of_not_le hcon
  rcases round_to_double_cases m with ⟨_, hm⟩ | ⟨q, d, hq1, hq2, hlo, hhi, hr⟩
  · rw [hm] at h
    omega
  · have hRm : round_to_double m ≤ (q + 1) * 2 ^ (d + 1) := by
      rcases hr with ⟨h1, _⟩ | h1
      · rw [h1]
        exact Nat.mul_le_mul_right _ (Nat.le_succ q)
      · rw [h1]
    have hup : round_to_double z < (q + 1) * 2 ^ (d + 1 + 52) := by
      calc round_to_double z < round_to_double m * 2 ^ 52 := h
        _ ≤ (q + 1) * 2 ^ (d + 1) * 2 ^ 52 := Nat.mul_le_mul_right _ hRm
        _ = (q + 1) * 2 ^ (d + 1 + 52) := by rw [Nat.mul_assoc, ← Nat.pow_add]
    have hdown : q * 2 ^ (d + 1 + 52) < round_to_double z := by
      calc q * 2 ^ (d + 1 + 52) = q * 2 ^ (d + 1) * 2 ^ 52 := by
            rw [Nat.mul_assoc, ← Nat.pow_add]
        _ ≤ m * 2 ^ 52 := Nat.mul_le_mul_right _ hlo
        _ < round_to_double z := hgt
    have hbig : 2 ^ 53 ≤ q * 2 ^ (d + 1 + 52) := by
      calc 2 ^ 53 = 1 * 2 ^ 53 := (Nat.one_mul _).symm
        _ ≤ q * 2 ^ (d + 1 + 52) :=
          Nat.mul_le_mul (by omega) (Nat.pow_le_pow_right (by decide) (by omega))
    rcases round_to_double_cases z with ⟨hz1, hz2⟩ | ⟨q1, d1, hp1, hp2, _, _, hr1⟩
    · rw [hz2] at hdown
      omega
    · obtain ⟨Q, hQ1, hQ2, hQ⟩ : ∃ Q, 2 ^ 52 ≤ Q ∧ Q ≤ 2 ^ 53 ∧
          round_to_double z = Q * 2 ^ (d1 + 1) := by
        rcases hr1 with ⟨h1, _⟩ | h1
        · exact ⟨q1, hp1, by omega, h1⟩
        · exact ⟨q1 + 1, by omega, by omega, h1⟩
      rw [hQ] at hup hdown
      generalize he : d + 1 + 52 = e at hup hdown
      generalize hf : d1 + 1 = f at hup hdown
      by_cases hs : e ≤ f
      · obtain ⟨t, ht⟩ : ∃ t, f = t + e := ⟨f - e, by omega⟩
        rw [ht, Nat.pow_add, ← Nat.mul_assoc] at hup hdown
        have h1 : Q * 2 ^ t < q + 1 := Nat.lt_of_mul_lt_mul_right hup
        have h2 : q < Q * 2 ^ t := Nat.lt_of_mul_lt_mul_right hdown
        omega
      · obtain ⟨t, ht⟩ : ∃ t, e = (t + 1) + f := ⟨e - f - 1, by omega⟩
        rw [ht, Nat.pow_add, ← Nat.mul_assoc] at hdown
        have h2 : q * 2 ^ (t + 1) < Q := Nat.lt_of_mul_lt_mul_right hdown
        have h3 : 2 ^ 52 * 2 ≤ q * 2 ^ (t + 1) :=
          Nat.mul_le_mul hq1 (by
            calc 2 = 2 ^ 1 := rfl
              _ ≤ 2 ^ (t + 1) := Nat.pow_le_pow_right (by decide) (by omega))
        omega

theorem div_ceil_le (a b : Nat) (h : a ≤ b * 2 ^ 52) : (a + (2 ^ 52 - 1)) / 2 ^ 52 ≤ b := by
  have : (a + (2 ^ 52 - 1)) / 2 ^ 52 < b + 1 :=
    (Nat.div_lt_iff_lt_mul (Nat.pow_pos (by decide))).mpr (by omega)
  omega

theorem le_div_ceil (a c : Nat) (h : c * 2 ^ 52 ≤ a) : c ≤ (a + (2 ^ 52 - 1)) / 2 ^ 52 :=
  (Nat.le_div_iff_mul_le (Nat.pow_pos (by decide))).mpr (by omega)

theorem lt_div_ceil (a c : Nat) (h : c * 2 ^ 52 < a) : c < (a + (2 ^ 52 - 1)) / 2 ^ 52 :=
  (Nat.le_div_iff_mul_le (Nat.pow_pos (by decide))).mpr (by omega)

/-- The product `current_size * 1.34`, computed in `double`, is not below `current_size`,
and above it when `current_size` is not zero. -/
theorem next_size_ge (c : Nat) :
    c * 2 ^ 52 ≤ round_to_double (round_to_double c * double_1_34) ∧
      (1 ≤ c → c * 2 ^ 52 < round_to_double (round_to_double c * double_1_34)) := by
  have h1 := round_to_double_lower (round_to_double c * double_1_34)
  have h2 := round_to_double_lower c
  have h3 : (2 ^ 53 - 1) * c * double_1_34 ≤ 2 ^ 53 * (round_to_double c * double_1_34) := by
    rw [← Nat.mul_assoc]
    exact Nat.mul_le_mul_right _ h2
  have h4 : (2 ^ 53 - 1) * c * double_1_34 = (2 ^ 53 - 1) * 6034823500676465 * c := by
    unfold double_1_34
    ring
  rw [h4] at h3
  generalize round_to_double (round_to_double c * double_1_34) = next at h1 ⊢
  generalize round_to_double c * double_1_34 = z at h1 h3
  constructor <;> omega

end utils

/-! ## C21: growth of the buffer size -/

namespace utils

/-- Counterexample to C21 as stated: for `current_size = 750` and the `max_size` that
`DoAllocate` passes, `1.34 * current_size` is `1005`, which is below `max_size` and its own
ceiling, but `GrowMonotonicBuffer` returns `1006`: the product that the code computes in
`double` is `1005.0000000000001`. -/
theorem GrowMonotonicBuffer_differs_from_exact_ceiling :
    GrowMonotonicBuffer 750 (SIZE_MAX - 16) = 1006 ∧ 134 * 750 = 100 * 1005 ∧
      1005 < SIZE_MAX - 16 := by
  decide

/-- C21, amended: let `next_size` be the product `current_size * 1.34` as the code computes
it, in `double` (held scaled by `2 ^ 52`). `GrowMonotonicBuffer(current_size, max_size)`
returns `max_size` when `next_size` is not below `max_size` converted to `double`, and
otherwise the ceiling of `next_size`: the least integer that is not below it. In both cases
the result does not exceed `max_size`; whenever `current_size ≤ max_size` it is not smaller
than `current_size`, and it is greater when `0 < current_size < max_size`. -/
theorem GrowMonotonicBuffer_capped (current_size max_size : Nat) :
    (round_to_double max_size * 2 ^ 52
          ≤ round_to_double (round_to_double current_size * double_1_34) →
        GrowMonotonicBuffer current_size max_size = max_size) ∧
      (round_to_double (round_to_double current_size * double_1_34)
          < round_to_double max_size * 2 ^ 52 →
        round_to_double (round_to_double current_size * double_1_34)
            ≤ GrowMonotonicBuffer current_size max_size * 2 ^ 52 ∧
          GrowMonotonicBuffer current_size max_size * 2 ^ 52
            < round_to_double (round_to_double current_size * double_1_34) + 2 ^ 52) ∧
      GrowMonotonicBuffer current_size max_size ≤ max_size ∧
      (current_size ≤ max_size → current_size ≤ GrowMonotonicBuffer current_size max_size) ∧
      (1 ≤ current_size → current_size < max_size →
        current_size < GrowMonotonicBuffer current_size max_size) := by
  obtain ⟨hge, hgt⟩ := next_size_ge current_size
  have hgap := round_to_double_gap (round_to_double current_size * double_1_34) max_size
  unfold GrowMonotonicBuffer
  simp only []
  generalize round_to_double (round_to_double current_size * double_1_34) = next at *
  by_cases hclamp : round_to_double max_size * 2 ^ 52 ≤ next
  · rw [if_pos hclamp]
    refine ⟨fun _ => rfl, fun h => absurd hclamp (Nat.not_le.mpr h), Nat.le_refl _,
      fun h => h, fun _ h => h⟩
  · rw [if_neg hclamp]
    have hlt : next < round_to_double max_size * 2 ^ 52 := Nat.lt_of_not_le hclamp
    have hdm := Nat.div_add_mod (next + (2 ^ 52 - 1)) (2 ^ 52)
    have hmod : (next + (2 ^ 52 - 1)) % 2 ^ 52 < 2 ^ 52 := Nat.mod_lt _ (Nat.pow_pos (by decide))
    refine ⟨fun h => absurd h hclamp, fun _ => ⟨by omega, by omega⟩,
      div_ceil_le next max_size (hgap hlt), fun _ => le_div_ceil next current_size hge,
      fun h1 _ => lt_div_ceil next current_size (hgt h1)⟩

/-- Witness of C21: the size that follows 750 is 1006, between 750 and the maximum. -/
theorem GrowMonotonicBuffer_capped_witness :
    GrowMonotonicBuffer 750 (SIZE_MAX - 16) ≤ SIZE_MAX - 16 ∧
      (750 ≤ SIZE_MAX - 16 → 750 ≤ GrowMonotonicBuffer 750 (SIZE_MAX - 16)) :=
  ⟨(GrowMonotonicBuffer_capped 750 (SIZE_MAX - 16)).2.2.1,
    (GrowMonotonicBuffer_capped 750 (SIZE_MAX - 16)).2.2.2.1⟩

end utils

/-! ## Lemmas on the scope as a map -/

namespace query

theorem Symbols.lookup_append (a b : Symbols) (name : String) :
    (a ++ b).lookup name = (match a.lookup name with
      | some symbol => some symbol
      | none => b.lookup name) := by
  induction a with
  | nil => rfl
  | cons entry tail ih =>
    obtain ⟨k, v⟩ := entry
    rw [List.cons_append, List.lookup_cons, List.lookup_cons]
    cases hk : (name == k) with
    | true => rfl
    | false => exact ih

theorem Symbols.lookup_replace (symbols : Symbols) (name other : String) (symbol : Symbol) :
    (symbols.map (fun entry => if entry.1 = name then (entry.1, symbol) else entry)).lookup other
      = if other = name then (symbols.lookup other).map (fun _ => symbol)
        else symbols.lookup other := by
  induction symbols with
  | nil => simp
  | cons entry tail ih =>
    obtain ⟨k, v⟩ := entry
    rw [List.map_cons]
    by_cases hk : k = name
    · subst hk
      simp only [if_true, List.lookup_cons]
      by_cases ho : other = k
      · subst ho
        simp
      · have hb : (other == k) = false := by simpa using ho
        rw [hb]
        simp only [ho, if_false] at ih ⊢
        exact ih
    · simp only [hk, if_false, List.lookup_cons]
      by_cases ho : other = k
      · subst ho
        simp [hk]
      · have hb : (other == k) = false := by simpa using ho
        rw [hb]
        exact ih

theorem Symbols.lookup_assign (symbols : Symbols) (name other : String) (symbol : Symbol) :
    (symbols.assign name symbol).lookup other
      = if other = name then some symbol else symbols.lookup other := by
  unfold Symbols.assign
  cases h : symbols.lookup name with
  | none =>
    simp only []
    rw [Symbols.lookup_append]
    by_cases ho : other = name
    · subst ho
      simp [h]
    · have hb : (other == name) = false := by simpa using ho
      simp only [ho, if_false]
      cases symbols.lookup other with
      | some s => rfl
      | none => simp [List.lookup, hb]
  | some found =>
    simp only []
    rw [Symbols.lookup_replace]
    by_cases ho : other = name
    · subst ho
      simp [h]
    · simp [ho]

theorem Symbols.lookup_filter_keys (symbols : Symbols) (names : List String) (name : String) :
    (symbols.filter (fun entry => decide (entry.1 ∈ names))).lookup name
      = if name ∈ names then symbols.lookup name else none := by
  induction symbols with
  | nil => simp
  | cons entry tail ih =>
    obtain ⟨k, v⟩ := entry
    by_cases hk : k ∈ names
    · rw [List.filter_cons_of_pos (by simpa using hk), List.lookup_cons, List.lookup_cons]
      cases hb : (name == k) with
      | true =>
        have : name = k := by simpa using hb
        subst this
        simp [hk]
      | false => exact ih
    · rw [List.filter_cons_of_neg (by simpa using hk), List.lookup_cons]
      cases hb : (name == k) with
      | true =>
        have : name = k := by simpa using hb
        subst this
        simp only [hk, if_false] at ih ⊢
        exact ih
      | false => exact ih

theorem Symbols.lookup_of_mem (symbols : Symbols) (name : String) (symbol : Symbol)
    (hnodup : (symbols.map Prod.fst).Nodup) (h : (name, symbol) ∈ symbols) :
    symbols.lookup name = some symbol := by
  induction symbols with
  | nil => cases h
  | cons entry tail ih =>
    obtain ⟨k, v⟩ := entry
    rw [List.map_cons, List.nodup_cons] at hnodup
    rw [List.lookup_cons]
    rcases List.mem_cons.mp h with heq | hmem
    · cases heq
      simp
    · have hne : name ≠ k := by
        intro hk
        subst hk
        exact hnodup.1 (List.mem_map.mpr ⟨(name, symbol), hmem, rfl⟩)
      have hb : (name == k) = false := by simpa using hne
      rw [hb]
      exact ih hnodup.2 hmem

theorem Symbols.mem_of_lookup (symbols : Symbols) (name : String) (symbol : Symbol)
    (h : symbols.lookup name = some symbol) : (name, symbol) ∈ symbols := by
  induction symbols with
  | nil => simp at h
  | cons entry tail ih =>
    obtain ⟨k, v⟩ := entry
    rw [List.lookup_cons] at h
    cases hb : (name == k) with
    | true =>
      rw [hb] at h
      have : name = k := by simpa using hb
      subst this
      cases h
      exact List.mem_cons_self _ _
    | false =>
      rw [hb] at h
      exact List.mem_cons_of_mem _ (ih h)

end query

namespace query

theorem accept_all_symbols {σ ε : Type} (tree : Tree σ ε)
    (haccept : ∀ node (g : SymbolGenerator σ), g.scope_.in_pattern_identifier = false →
      (tree.Accept node g).2.scope_.symbols = g.scope_.symbols ∧
      (tree.Accept node g).2.scope_.in_pattern_identifier = false)
    (nodes : List ε) (g : SymbolGenerator σ) (hg : g.scope_.in_pattern_identifier = false) :
    (SymbolGenerator.accept_all tree nodes g).2.scope_.symbols = g.scope_.symbols ∧
      (SymbolGenerator.accept_all tree nodes g).2.scope_.in_pattern_identifier = false := by
  induction nodes generalizing g with
  | nil => exact ⟨rfl, hg⟩
  | cons node rest ih =>
    obtain ⟨h1, h2⟩ := haccept node g hg
    unfold SymbolGenerator.accept_all
    rcases hr : tree.Accept node g with ⟨r, g1⟩
    rw [hr] at h1 h2
    cases r with
    | error e => exact ⟨h1, h2⟩
    | ok u =>
      obtain ⟨h3, h4⟩ := ih g1 h2
      exact ⟨h3.trans h1, h4⟩

theorem accept_opt_symbols {σ ε : Type} (tree : Tree σ ε)
    (haccept : ∀ node (g : SymbolGenerator σ), g.scope_.in_pattern_identifier = false →
      (tree.Accept node g).2.scope_.symbols = g.scope_.symbols ∧
      (tree.Accept node g).2.scope_.in_pattern_identifier = false)
    (node : Option ε) (g : SymbolGenerator σ) (hg : g.scope_.in_pattern_identifier = false) :
    (SymbolGenerator.accept_opt tree node g).2.scope_.symbols = g.scope_.symbols ∧
      (SymbolGenerator.accept_opt tree node g).2.scope_.in_pattern_identifier = false := by
  cases node with
  | none => exact ⟨rfl, hg⟩
  | some n => exact haccept n g hg

theorem carry_over_lookup (symbols : Symbols) (carried : List Symbol) (name : String)
    (hnodup : (carried.map (fun sym => sym.name_)).Nodup) :
    (SymbolGenerator.carry_over symbols carried).lookup name
      = (match carried.find? (fun sym => decide (sym.name_ = name)) with
        | some sym => some sym
        | none => symbols.lookup name) := by
  induction carried generalizing symbols with
  | nil => rfl
  | cons sym rest ih =>
    rw [List.map_cons, List.nodup_cons] at hnodup
    rw [SymbolGenerator.carry_over, ih _ hnodup.2, List.find?_cons]
    by_cases hn : sym.name_ = name
    · subst hn
      have hrest : rest.find? (fun s => decide (s.name_ = sym.name_)) = none := by
        rw [List.find?_eq_none]
        intro s hs hd
        have : s.name_ = sym.name_ := by simpa using hd
        exact hnodup.1 (List.mem_map.mpr ⟨s, hs, this⟩)
      simp [hrest, Symbols.lookup_assign]
    · have hne : name ≠ sym.name_ := fun h => hn h.symm
      simp [hn, Symbols.lookup_assign, hne]

theorem user_symbols_find (symbols : Symbols) (name : String)
    (hkeys : ∀ entry ∈ symbols, entry.2.name_ = entry.1)
    (hnodup : (symbols.map Prod.fst).Nodup) :
    ((symbols.filter (fun sym_pair => sym_pair.2.user_declared_)).map Prod.snd).find?
        (fun sym => decide (sym.name_ = name))
      = (symbols.lookup name).filter (fun sym => sym.user_declared_) := by
  induction symbols with
  | nil => rfl
  | cons entry tail ih =>
    obtain ⟨k, v⟩ := entry
    have hk : v.name_ = k := hkeys (k, v) (List.mem_cons_self _ _)
    have htail : ∀ e ∈ tail, e.2.name_ = e.1 := fun e he => hkeys e (List.mem_cons_of_mem _ he)
    rw [List.map_cons, List.nodup_cons] at hnodup
    have ih1 := ih htail hnodup.2
    rw [List.lookup_cons]
    by_cases hname : name = k
    · subst hname
      have hnone : tail.lookup name = none := by
        cases hl : tail.lookup name with
        | none => rfl
        | some s =>
          exact absurd (List.mem_map.mpr ⟨(name, s), Symbols.mem_of_lookup _ _ _ hl, rfl⟩)
            hnodup.1
      rw [hnone] at ih1
      by_cases hu : v.user_declared_ = true
      · simp [List.filter_cons, hu, hk, Option.filter]
      · have hu1 : v.user_declared_ = false := by simpa using hu
        simp only [List.filter_cons, hu1, Bool.false_eq_true, if_false, beq_self_eq_true]
        rw [ih1]
        simp [Option.filter, hu1]
    · have hb : (name == k) = false := by simpa using hname
      have hvn : ¬ v.name_ = name := by rw [hk]; exact fun h => hname h.symm
      rw [hb]
      by_cases hu : v.user_declared_ = true
      · simp only [List.filter_cons, hu, if_true, List.map_cons, List.find?_cons]
        simp only [hvn, decide_False]
        exact ih1
      · have hu1 : v.user_declared_ = false := by simpa using hu
        simp only [List.filter_cons, hu1, Bool.false_eq_true, if_false]
        exact ih1

theorem user_symbols_nodup (symbols : Symbols)
    (hkeys : ∀ entry ∈ symbols, entry.2.name_ = entry.1)
    (hnodup : (symbols.map Prod.fst).Nodup) :
    (((symbols.filter (fun sym_pair => sym_pair.2.user_declared_)).map Prod.snd).map
      (fun sym => sym.name_)).Nodup := by
  have heq : ((symbols.filter (fun sym_pair => sym_pair.2.user_declared_)).map Prod.snd).map
      (fun sym => sym.name_)
      = (symbols.filter (fun sym_pair => sym_pair.2.user_declared_)).map Prod.fst := by
    rw [List.map_map]
    apply List.map_congr_left
    intro entry hentry
    exact hkeys entry (List.mem_of_mem_filter hentry)
  rw [heq]
  exact List.Nodup.sublist (List.Sublist.map _ (List.filter_sublist _)) hnodup

end query

namespace query

theorem created_symbols_keys {σ ε : Type} (d : Declared σ) (tree : Tree σ ε)
    (exprs : List (NamedExpression ε)) (table : σ) :
    (SymbolGenerator.created_symbols d tree exprs table).map Prod.fst
      = exprs.map (fun expr => expr.name_) := by
  induction exprs generalizing table with
  | nil => rfl
  | cons expr rest ih =>
    simp only [SymbolGenerator.created_symbols, List.map_cons]
    rw [ih]

theorem Symbols.lookup_eq_none_of_not_mem (symbols : Symbols) (name : String)
    (h : name ∉ symbols.map Prod.fst) : symbols.lookup name = none := by
  cases hl : symbols.lookup name with
  | none => rfl
  | some s => exact absurd (List.mem_map.mpr ⟨(name, s), Symbols.mem_of_lookup _ _ _ hl, rfl⟩) h

theorem declare_named_spec {σ ε : Type} (d : Declared σ) (tree : Tree σ ε)
    (exprs : List (NamedExpression ε)) (names : List String) (g result : SymbolGenerator σ)
    (new_names : List String)
    (hreturn : SymbolGenerator.declare_named d tree exprs names g = (.ok new_names, result)) :
    (exprs.map (fun expr => expr.name_)).Nodup ∧
      (∀ name, name ∈ exprs.map (fun expr => expr.name_) → name ∉ names) ∧
      (∀ name, name ∈ new_names ↔ name ∈ names ∨ name ∈ exprs.map (fun expr => expr.name_)) ∧
      (∀ name, result.scope_.symbols.lookup name
        = (match (SymbolGenerator.created_symbols d tree exprs g.symbol_table_).lookup name with
          | some symbol => some symbol
          | none => g.scope_.symbols.lookup name)) ∧
      result.scope_.in_pattern_identifier = g.scope_.in_pattern_identifier := by
  induction exprs generalizing names g with
  | nil =>
    simp only [SymbolGenerator.declare_named, Prod.mk.injEq, Except.ok.injEq] at hreturn
    obtain ⟨h1, h2⟩ := hreturn
    subst h1 h2
    simp [SymbolGenerator.created_symbols]
  | cons expr rest ih =>
    rw [SymbolGenerator.declare_named] at hreturn
    by_cases hmem : expr.name_ ∈ names
    · rw [if_pos hmem] at hreturn
      simp at hreturn
    · rw [if_neg hmem] at hreturn
      obtain ⟨i1, i2, i3, i4, i5⟩ := ih _ _ hreturn
      have hfresh : expr.name_ ∉ rest.map (fun e => e.name_) := fun h =>
        i2 _ h (List.mem_cons_self _ _)
      refine ⟨?_, ?_, ?_, ?_, ?_⟩
      · rw [List.map_cons, List.nodup_cons]
        exact ⟨hfresh, i1⟩
      · intro name hname
        rw [List.map_cons, List.mem_cons] at hname
        rcases hname with h | h
        · rw [h]; exact hmem
        · exact fun hn => i2 name h (List.mem_cons_of_mem _ hn)
      · intro name
        rw [i3 name, List.map_cons, List.mem_cons, List.mem_cons]
        tauto
      · intro name
        rw [i4 name]
        simp only [SymbolGenerator.CreateSymbol, SymbolGenerator.created_symbols,
          List.lookup_cons, Symbols.lookup_assign]
        by_cases hn : name = expr.name_
        · subst hn
          have hnone := Symbols.lookup_eq_none_of_not_mem
            (SymbolGenerator.created_symbols d tree rest
              (tree.assign (d.CreateSymbol g.symbol_table_ expr.name_ true d.default_type).2
                expr.node (d.CreateSymbol g.symbol_table_ expr.name_ true d.default_type).1))
            expr.name_ (by rw [created_symbols_keys]; exact hfresh)
          rw [hnone]
          simp
        · have hb : (name == expr.name_) = false := by simpa using hn
          rw [hb]
          simp only [hn, if_false]
      · rw [i5]
        rfl

theorem accept_skip_symbols {σ ε : Type} (tree : Tree σ ε)
    (haccept : ∀ node (g : SymbolGenerator σ), g.scope_.in_pattern_identifier = false →
      (tree.Accept node g).2.scope_.symbols = g.scope_.symbols ∧
      (tree.Accept node g).2.scope_.in_pattern_identifier = false)
    (node : Option ε) (g : SymbolGenerator σ) (hg : g.scope_.in_pattern_identifier = false) :
    (SymbolGenerator.accept_skip tree node g).2.scope_.symbols = g.scope_.symbols ∧
      (SymbolGenerator.accept_skip tree node g).2.scope_.in_pattern_identifier = false := by
  cases node with
  | none => exact ⟨rfl, hg⟩
  | some n =>
    have h := haccept n { g with scope_ := { g.scope_ with in_skip := true } } hg
    unfold SymbolGenerator.accept_skip
    simp only []
    rcases hr : tree.Accept n { g with scope_ := { g.scope_ with in_skip := true } } with ⟨r, g1⟩
    rw [hr] at h
    cases r with
    | error e => exact h
    | ok u => exact h

theorem accept_limit_symbols {σ ε : Type} (tree : Tree σ ε)
    (haccept : ∀ node (g : SymbolGenerator σ), g.scope_.in_pattern_identifier = false →
      (tree.Accept node g).2.scope_.symbols = g.scope_.symbols ∧
      (tree.Accept node g).2.scope_.in_pattern_identifier = false)
    (node : Option ε) (g : SymbolGenerator σ) (hg : g.scope_.in_pattern_identifier = false) :
    (SymbolGenerator.accept_limit tree node g).2.scope_.symbols = g.scope_.symbols ∧
      (SymbolGenerator.accept_limit tree node g).2.scope_.in_pattern_identifier = false := by
  cases node with
  | none => exact ⟨rfl, hg⟩
  | some n =>
    have h := haccept n { g with scope_ := { g.scope_ with in_limit := true } } hg
    unfold SymbolGenerator.accept_limit
    simp only []
    rcases hr : tree.Accept n { g with scope_ := { g.scope_ with in_limit := true } } with ⟨r, g1⟩
    rw [hr] at h
    cases r with
    | error e => exact h
    | ok u => exact h

theorem finish_return_body_symbols {σ ε : Type} (tree : Tree σ ε)
    (haccept : ∀ node (g : SymbolGenerator σ), g.scope_.in_pattern_identifier = false →
      (tree.Accept node g).2.scope_.symbols = g.scope_.symbols ∧
      (tree.Accept node g).2.scope_.in_pattern_identifier = false)
    (body : ReturnBody ε) (where_ : Option ε) (removed_old_names : Bool)
    (new_names : List String) (g result : SymbolGenerator σ)
    (hg : g.scope_.in_pattern_identifier = false)
    (hreturn : SymbolGenerator.finish_return_body tree body where_ removed_old_names new_names g
      = (.ok (), result)) :
    result.scope_.symbols
        = (if removed_old_names then g.scope_.symbols
          else g.scope_.symbols.filter (fun entry => decide (entry.1 ∈ new_names))) ∧
      result.scope_.has_aggregation = false := by
  unfold SymbolGenerator.finish_return_body at hreturn
  have h1 := accept_all_symbols tree haccept body.order_by
    { g with scope_ := { g.scope_ with in_order_by := true } } hg
  rcases ho : SymbolGenerator.accept_all tree body.order_by
    { g with scope_ := { g.scope_ with in_order_by := true } } with ⟨r1, g1⟩
  rw [ho] at h1 hreturn
  cases r1 with
  | error e => simp at hreturn
  | ok u1 =>
    simp only [] at hreturn h1
    have h2 := accept_skip_symbols tree haccept body.skip
      { g1 with scope_ := { g1.scope_ with in_order_by := false } } h1.2
    rcases hs : SymbolGenerator.accept_skip tree body.skip
      { g1 with scope_ := { g1.scope_ with in_order_by := false } } with ⟨r2, g2⟩
    rw [hs] at h2 hreturn
    cases r2 with
    | error e => simp at hreturn
    | ok u2 =>
      simp only [] at hreturn h2
      have h3 := accept_limit_symbols tree haccept body.limit g2 h2.2
      rcases hl : SymbolGenerator.accept_limit tree body.limit g2 with ⟨r3, g3⟩
      rw [hl] at h3 hreturn
      cases r3 with
      | error e => simp at hreturn
      | ok u3 =>
        simp only [] at hreturn h3
        have h4 := accept_opt_symbols tree haccept where_ g3 h3.2
        rcases hw : SymbolGenerator.accept_opt tree where_ g3 with ⟨r4, g4⟩
        rw [hw] at h4 hreturn
        cases r4 with
        | error e => simp at hreturn
        | ok u4 =>
          simp only [Prod.mk.injEq, true_and] at hreturn h4
          have hsym : g4.scope_.symbols = g.scope_.symbols :=
            h4.1.trans (h3.1.trans (h2.1.trans h1.1))
          rw [← hreturn]
          simp only [hsym]
          exact ⟨trivial, trivial⟩

end query

namespace query

theorem Symbols.lookup_isSome_iff (symbols : Symbols) (name : String) :
    (symbols.lookup name).isSome = true ↔ name ∈ symbols.map Prod.fst := by
  constructor
  · intro h
    cases hl : symbols.lookup name with
    | none => rw [hl] at h; cases h
    | some s => exact List.mem_map.mpr ⟨(name, s), Symbols.mem_of_lookup _ _ _ hl, rfl⟩
  · intro h
    cases hl : symbols.lookup name with
    | some s => rfl
    | none =>
      exfalso
      induction symbols with
      | nil => cases h
      | cons entry tail ih =>
        obtain ⟨k, v⟩ := entry
        rw [List.lookup_cons] at hl
        by_cases hk : name = k
        · subst hk
          simp at hl
        · have hb : (name == k) = false := by simpa using hk
          rw [hb] at hl
          rw [List.map_cons, List.mem_cons] at h
          rcases h with h | h
          · exact hk h
          · exact ih h hl

theorem find_name_isSome_iff (carried : List Symbol) (name : String) :
    (carried.find? (fun sym => decide (sym.name_ = name))).isSome = true
      ↔ name ∈ carried.map (fun sym => sym.name_) := by
  rw [List.find?_isSome]
  constructor
  · rintro ⟨s, hs, hd⟩
    have : s.name_ = name := by simpa using hd
    exact List.mem_map.mpr ⟨s, hs, this⟩
  · intro h
    obtain ⟨s, hs, hn⟩ := List.mem_map.mp h
    exact ⟨s, hs, by simpa using hn⟩

theorem Visit_symbols {σ : Type} (d : Declared σ) (ident : Identifier) (g : SymbolGenerator σ)
    (hg : g.scope_.in_pattern_identifier = false) :
    (SymbolGenerator.Visit d ident g).2.scope_.symbols = g.scope_.symbols ∧
      (SymbolGenerator.Visit d ident g).2.scope_.in_pattern_identifier = false := by
  unfold SymbolGenerator.Visit
  by_cases h1 : g.scope_.in_skip = true ∨ g.scope_.in_limit = true
  · rw [if_pos h1]
    exact ⟨rfl, hg⟩
  · rw [if_neg h1]
    have h2 : ¬ (g.scope_.in_pattern = true ∧ g.scope_.in_pattern_identifier = true) := by
      rw [hg]
      exact fun h => Bool.noConfusion h.2
    rw [if_neg h2]
    by_cases h3 : g.scope_.in_pattern = true ∧ ¬ g.scope_.in_pattern_identifier = true ∧
        g.scope_.in_match = true
    · rw [if_pos h3]
      simp only []
      by_cases h4 : g.scope_.in_edge_range = true
      · rw [if_pos h4]
        cases hv : g.scope_.visiting_edge with
        | none => exact ⟨rfl, hg⟩
        | some edge =>
          simp only []
          cases decide (edge.identifier_name_ = ident.name_) with
          | true => exact ⟨rfl, hg⟩
          | false => exact ⟨rfl, hg⟩
      · rw [if_neg h4]
        exact ⟨rfl, hg⟩
    · rw [if_neg h3]
      cases hl : g.scope_.symbols.lookup ident.name_ with
      | none => exact ⟨rfl, hg⟩
      | some symbol => exact ⟨rfl, hg⟩

end query

/-! ## C22: the scope after `VisitReturnBody` -/

namespace query

/-- C22: let `VisitReturnBody` return from a scope whose entries are keyed by the names of
their symbols, each name once, where the visit of an expression neither changes the symbols
of the scope nor sets `in_pattern_identifier`. Then in the final scope a name is bound to the
symbol created for the named expression of that name, if there is one; otherwise, if `*` was
used, to the user-declared symbol it was bound to before, if any; otherwise it is unbound.
This description does not depend on whether the old symbols were cleared up front or
filtered at the end. The created symbols are one per named expression, under names that are
all distinct; the bound names are exactly those names and, with `*`, the names bound before
to user-declared symbols; `has_aggregation` is false; and each named expression is visited
with the symbols that the scope had at the start. -/
theorem SymbolGenerator.VisitReturnBody_scope {σ ε : Type} (d : Declared σ) (tree : Tree σ ε)
    (body : ReturnBody ε) (where_ : Option ε) (self result : SymbolGenerator σ)
    (hkeys : ∀ entry ∈ self.scope_.symbols, entry.2.name_ = entry.1)
    (hnodup : (self.scope_.symbols.map Prod.fst).Nodup)
    (hflag : self.scope_.in_pattern_identifier = false)
    (haccept : ∀ node (g : SymbolGenerator σ), g.scope_.in_pattern_identifier = false →
      (tree.Accept node g).2.scope_.symbols = g.scope_.symbols ∧
      (tree.Accept node g).2.scope_.in_pattern_identifier = false)
    (hreturn : SymbolGenerator.VisitReturnBody d tree body where_ self = (.ok (), result)) :
    (∀ name, result.scope_.symbols.lookup name
        = (match (SymbolGenerator.created_symbols d tree body.named_expressions
              (SymbolGenerator.accept_all tree
                (body.named_expressions.map (fun expr => expr.node)) self).2.symbol_table_).lookup
              name with
          | some symbol => some symbol
          | none =>
            if body.all_identifiers then
              (self.scope_.symbols.lookup name).filter (fun symbol => symbol.user_declared_)
            else none)) ∧
      (SymbolGenerator.created_symbols d tree body.named_expressions
          (SymbolGenerator.accept_all tree
            (body.named_expressions.map (fun expr => expr.node)) self).2.symbol_table_).map Prod.fst
        = body.named_expressions.map (fun expr => expr.name_) ∧
      (body.named_expressions.map (fun expr => expr.name_)).Nodup ∧
      (∀ name, (result.scope_.symbols.lookup name).isSome = true ↔
        (name ∈ body.named_expressions.map (fun expr => expr.name_) ∨
          (body.all_identifiers = true ∧
            ∃ symbol, self.scope_.symbols.lookup name = some symbol ∧
              symbol.user_declared_ = true))) ∧
      result.scope_.has_aggregation = false ∧
      (∀ k, (SymbolGenerator.accept_all tree
          ((body.named_expressions.take k).map (fun expr => expr.node)) self).2.scope_.symbols
        = self.scope_.symbols) := by
  have hvisit := accept_all_symbols tree haccept
    (body.named_expressions.map (fun expr => expr.node)) self hflag
  unfold SymbolGenerator.VisitReturnBody at hreturn
  rcases ha : SymbolGenerator.accept_all tree
    (body.named_expressions.map (fun expr => expr.node)) self with ⟨r1, g1⟩
  rw [ha] at hreturn hvisit
  simp only [] at hvisit
  obtain ⟨hsym1, hflag1⟩ := hvisit
  cases r1 with
  | error e => simp at hreturn
  | ok u1 =>
    simp only [] at hreturn
    by_cases hstar : body.all_identifiers = true ∧
        (if body.all_identifiers = true then SymbolGenerator.user_symbols g1 else []).isEmpty = true
    · rw [if_pos hstar] at hreturn
      simp at hreturn
    · rw [if_neg hstar] at hreturn
      split at hreturn
      · simp at hreturn
      · rename_i new_names g3 hd
        obtain ⟨hdistinct, hfresh, hnew, hlook3, hflag3⟩ := declare_named_spec d tree _ _ _ _ _ hd
        obtain ⟨hfinal, hagg⟩ := finish_return_body_symbols tree haccept body where_ _ _ _ _
          (hflag3.trans hflag1) hreturn
        rw [ha]
        simp only [] at hlook3 hfresh hnew ⊢
        generalize hcarried :
          (if body.all_identifiers = true then SymbolGenerator.user_symbols g1 else []) = carried
          at hlook3 hfresh hnew hstar
        generalize hremoved :
          (where_.isNone && body.order_by.isEmpty || g1.scope_.has_aggregation) = removed
          at hlook3 hfinal
        have hkeys_created :=
          created_symbols_keys d tree body.named_expressions g1.symbol_table_
        generalize hcr :
          SymbolGenerator.created_symbols d tree body.named_expressions g1.symbol_table_ = created
          at hlook3 hkeys_created ⊢
        have hcn : (carried.map (fun sym => sym.name_)).Nodup := by
          rw [← hcarried]
          by_cases hall : body.all_identifiers = true
          · rw [if_pos hall]
            unfold SymbolGenerator.user_symbols
            rw [hsym1]
            exact user_symbols_nodup _ hkeys hnodup
          · rw [if_neg hall]
            exact List.nodup_nil
        have hfind : ∀ name, carried.find? (fun sym => decide (sym.name_ = name))
            = if body.all_identifiers = true then
                (self.scope_.symbols.lookup name).filter (fun symbol => symbol.user_declared_)
              else none := by
          intro name
          rw [← hcarried]
          by_cases hall : body.all_identifiers = true
          · rw [if_pos hall, if_pos hall]
            unfold SymbolGenerator.user_symbols
            rw [hsym1]
            exact user_symbols_find _ name hkeys hnodup
          · rw [if_neg hall, if_neg hall]
            rfl
        have hmain : ∀ name, result.scope_.symbols.lookup name
            = (match created.lookup name with
              | some symbol => some symbol
              | none =>
                if body.all_identifiers = true then
                  (self.scope_.symbols.lookup name).filter (fun symbol => symbol.user_declared_)
                else none) := by
          intro name
          rw [← hfind name, hfinal]
          have h3 := hlook3 name
          rw [carry_over_lookup _ carried name hcn] at h3
          have hin := find_name_isSome_iff carried name
          cases removed with
          | true =>
            simp only [if_true]
            rw [h3]
            cases created.lookup name with
            | some s => rfl
            | none =>
              simp only []
              cases carried.find? (fun sym => decide (sym.name_ = name)) with
              | some s => rfl
              | none => rfl
          | false =>
            simp only [Bool.false_eq_true, if_false]
            rw [Symbols.lookup_filter_keys, h3]
            cases hc : created.lookup name with
            | some s =>
              have hmem : name ∈ body.named_expressions.map (fun expr => expr.name_) := by
                rw [← hkeys_created]
                exact (Symbols.lookup_isSome_iff created name).mp (by rw [hc]; rfl)
              rw [if_pos ((hnew name).mpr (Or.inr hmem))]
            | none =>
              have hmem : name ∉ body.named_expressions.map (fun expr => expr.name_) := by
                rw [← hkeys_created]
                intro h
                have := (Symbols.lookup_isSome_iff created name).mpr h
                rw [hc] at this
                cases this
              simp only []
              cases hF : carried.find? (fun sym => decide (sym.name_ = name)) with
              | some s =>
                rw [hF] at hin
                rw [if_pos ((hnew name).mpr (Or.inl (hin.mp rfl)))]
              | none =>
                rw [hF] at hin
                have hnot : name ∉ carried.map (fun sym => sym.name_) := fun h => by
                  have := hin.mpr h
                  cases this
                rw [if_neg (fun h => ((hnew name).mp h).elim hnot hmem)]
        refine ⟨hmain, hkeys_created, hdistinct, ?_, hagg, ?_⟩
        · intro name
          rw [hmain name, ← hkeys_created, ← Symbols.lookup_isSome_iff created name]
          cases hc : created.lookup name with
          | some s => simp
          | none =>
            simp only []
            by_cases hall : body.all_identifiers = true
            · rw [if_pos hall]
              cases hl : self.scope_.symbols.lookup name with
              | none => simp [Option.filter]
              | some s =>
                cases hu : s.user_declared_ with
                | true => simp [Option.filter, hu, hall]
                | false => simp [Option.filter, hu]
            · rw [if_neg hall]
              simp [hall]
        · intro k
          exact (accept_all_symbols tree haccept _ self hflag).1

end query

namespace query

theorem SymbolGenerator.VisitReturnBody_scope_witness :
    (SymbolGenerator.VisitReturnBody (recording_declared Identifier) identifier_tree
        ⟨true, [⟨"x", ⟨"n", true⟩⟩], [⟨"x", true⟩], none, none⟩ none
        ⟨⟨1, [], []⟩,
          { symbols := [("n", ⟨"n", 0, true, SymbolType.Vertex⟩),
              ("anon", ⟨"anon", 1, false, SymbolType.Edge⟩)] }⟩).1 = .ok () ∧
      (∀ name,
        ((SymbolGenerator.VisitReturnBody (recording_declared Identifier) identifier_tree
          ⟨true, [⟨"x", ⟨"n", true⟩⟩], [⟨"x", true⟩], none, none⟩ none
          ⟨⟨1, [], []⟩,
            { symbols := [("n", ⟨"n", 0, true, SymbolType.Vertex⟩),
                ("anon", ⟨"anon", 1, false, SymbolType.Edge⟩)] }⟩).2.scope_.symbols.lookup
            name).isSome = true ↔
        (name ∈ ["x"] ∨
          (true = true ∧
            ∃ symbol,
              List.lookup name [("n", (⟨"n", 0, true, SymbolType.Vertex⟩ : Symbol)),
                ("anon", ⟨"anon", 1, false, SymbolType.Edge⟩)] = some symbol ∧
              symbol.user_declared_ = true))) :=
  ⟨rfl,
   (SymbolGenerator.VisitReturnBody_scope (recording_declared Identifier) identifier_tree
      ⟨true, [⟨"x", ⟨"n", true⟩⟩], [⟨"x", true⟩], none, none⟩ none
      ⟨⟨1, [], []⟩,
        { symbols := [("n", ⟨"n", 0, true, SymbolType.Vertex⟩),
            ("anon", ⟨"anon", 1, false, SymbolType.Edge⟩)] }⟩
      _
      (by decide) (by decide) rfl
      (fun node g hg => Visit_symbols (recording_declared Identifier) node g hg)
      rfl).2.2.2.1⟩

end query


/-! ## C23: identifiers in a pattern that creates -/

namespace query

theorem Symbols.lookup_append_of_some (symbols rest : Symbols) (name : String) (symbol : Symbol)
    (h : symbols.lookup name = some symbol) : (symbols ++ rest).lookup name = some symbol := by
  induction symbols with
  | nil => simp at h
  | cons entry tail ih =>
    obtain ⟨k, v⟩ := entry
    rw [List.cons_append, List.lookup_cons]
    rw [List.lookup_cons] at h
    cases hk : (name == k) with
    | true =>
      rw [hk] at h
      exact h
    | false =>
      rw [hk] at h
      exact ih h

/-- C23: let the name of an identifier be bound in the scope, outside SKIP and LIMIT. When
`Visit(Identifier &)` is called for it as the identifier of a pattern while `in_create_node`
is set, it throws `RedeclareVariableError`; when it is called with `in_create_node` and
`in_create_edge` not set and outside an edge atom, and the bound symbol is a vertex or of
type `Any`, it returns, having assigned the bound symbol to the identifier and left the
scope as it was. `PreVisit(Pattern &)` in a CREATE sets `in_create_node` exactly for a
pattern of one atom. Hence from a scope between clauses the calls of the traversal of
`CREATE (n)` end in `RedeclareVariableError` for a bound `n`, and those of
`CREATE (n)-[r:R]->(n)` with an unbound `r` return, both occurrences of `n` being assigned
the bound symbol and `r` a new symbol. -/
theorem SymbolGenerator.Visit_in_create_pattern {σ ε : Type} (d : Declared σ) (tree : Tree σ ε)
    (ident : Identifier) (symbol : Symbol) (symbols : Symbols) (table : σ)
    (hbound : symbols.lookup ident.name_ = some symbol) :
    (∀ self : SymbolGenerator σ, self.scope_.symbols = symbols →
        self.scope_.in_skip = false → self.scope_.in_limit = false →
        self.scope_.in_pattern = true → self.scope_.in_pattern_identifier = true →
        (self.scope_.in_create_node = true →
          SymbolGenerator.Visit d ident self
            = (.error (.Thrown (.RedeclareVariableError ident.name_)), self)) ∧
        (self.scope_.in_create_node = false → self.scope_.in_create_edge = false →
          self.scope_.visiting_edge = none →
          symbol.type_ = SymbolType.Vertex ∨ symbol.type_ = SymbolType.Any →
          SymbolGenerator.Visit d ident self
            = (.ok (), { self with
                symbol_table_ := d.assign_identifier self.symbol_table_ ident symbol }))) ∧
      (∀ (self : SymbolGenerator σ) (atoms_size : Nat), self.scope_.in_create = true →
        (SymbolGenerator.PreVisit_Pattern atoms_size self).scope_
          = { self.scope_ with
              in_pattern := true,
              in_create_node := decide (atoms_size = 1) || self.scope_.in_create_node }) ∧
      (SymbolGenerator.run d tree
          [.PreVisit_Create, .PreVisit_Pattern 1, .PreVisit_NodeAtom ⟨ident, 0, []⟩]
          ⟨table, { symbols := symbols }⟩).1
        = .error (.Thrown (.RedeclareVariableError ident.name_)) ∧
      (∀ (edge : Identifier) (direction : Direction),
        symbols.lookup edge.name_ = none → direction ≠ Direction.BOTH →
        symbol.type_ = SymbolType.Vertex ∨ symbol.type_ = SymbolType.Any →
        SymbolGenerator.run d tree
            [.PreVisit_Create, .PreVisit_Pattern 3, .PreVisit_NodeAtom ⟨ident, 0, []⟩,
              .PostVisit_NodeAtom,
              .PreVisit_EdgeAtom ⟨edge, direction, 1, [], false, none, none⟩,
              .PostVisit_EdgeAtom, .PreVisit_NodeAtom ⟨ident, 0, []⟩, .PostVisit_NodeAtom,
              .PostVisit_Pattern, .PostVisit_Create]
            ⟨table, { symbols := symbols }⟩
          = (.ok (),
             ⟨d.assign_identifier
                (d.assign_identifier
                  (d.CreateSymbol (d.assign_identifier table ident symbol) edge.name_
                    edge.user_declared_ SymbolType.Edge).2
                  edge
                  (d.CreateSymbol (d.assign_identifier table ident symbol) edge.name_
                    edge.user_declared_ SymbolType.Edge).1)
                ident symbol,
              { symbols := symbols ++
                  [(edge.name_,
                    (d.CreateSymbol (d.assign_identifier table ident symbol) edge.name_
                      edge.user_declared_ SymbolType.Edge).1)] }⟩)) := by
  have hcompat : symbol.type_ = SymbolType.Vertex ∨ symbol.type_ = SymbolType.Any →
      ¬ (¬ symbol.type_ = SymbolType.Any ∧ ¬ SymbolType.Vertex = symbol.type_) := by
    rintro (h | h) <;> simp [h]
  refine ⟨?_, ?_, ?_, ?_⟩
  · intro self hsym hskip hlimit hpat hid
    rw [← hsym] at hbound
    constructor
    · intro hnode
      simp [SymbolGenerator.Visit, SymbolGenerator.HasSymbol, hskip, hlimit, hpat, hid, hnode,
        hbound]
    · intro hnode hedge hvisit htype
      simp [SymbolGenerator.Visit, SymbolGenerator.HasSymbol, hskip, hlimit, hpat, hid, hnode,
        hedge, hvisit, hbound, SymbolGenerator.GetOrCreateSymbol, hcompat htype]
  · intro self atoms_size hcreate
    by_cases h1 : atoms_size = 1
    · simp [SymbolGenerator.PreVisit_Pattern, hcreate, h1]
    · simp [SymbolGenerator.PreVisit_Pattern, hcreate, h1]
  · simp [SymbolGenerator.run, SymbolGenerator.PreVisit_Create, SymbolGenerator.PreVisit_Pattern,
      SymbolGenerator.PreVisit_NodeAtom, SymbolGenerator.accept_all, SymbolGenerator.Visit,
      SymbolGenerator.HasSymbol, hbound]
  · intro edge direction hedge hdir htype
    have hbound1 : (symbols ++ [(edge.name_,
        (d.CreateSymbol (d.assign_identifier table ident symbol) edge.name_
          edge.user_declared_ SymbolType.Edge).1)]).lookup ident.name_ = some symbol :=
      Symbols.lookup_append_of_some _ _ _ _ hbound
    have hassign : symbols.assign edge.name_
        (d.CreateSymbol (d.assign_identifier table ident symbol) edge.name_
          edge.user_declared_ SymbolType.Edge).1
        = symbols ++ [(edge.name_,
            (d.CreateSymbol (d.assign_identifier table ident symbol) edge.name_
              edge.user_declared_ SymbolType.Edge).1)] := by
      unfold Symbols.assign
      rw [hedge]
    simp [SymbolGenerator.run, SymbolGenerator.PreVisit_Create,
      SymbolGenerator.PreVisit_Pattern, SymbolGenerator.PreVisit_NodeAtom,
      SymbolGenerator.PostVisit_NodeAtom, SymbolGenerator.PreVisit_EdgeAtom,
      SymbolGenerator.PostVisit_EdgeAtom, SymbolGenerator.PostVisit_Pattern,
      SymbolGenerator.PostVisit_Create, SymbolGenerator.visit_edge_atom,
      SymbolGenerator.accept_all, SymbolGenerator.Visit, SymbolGenerator.HasSymbol,
      SymbolGenerator.GetOrCreateSymbol, SymbolGenerator.CreateSymbol, hbound, hedge, hdir,
      hcompat htype, hbound1, hassign]

end query

namespace query

theorem SymbolGenerator.Visit_in_create_pattern_witness :
    (SymbolGenerator.run (recording_declared Identifier) identifier_tree
        [.PreVisit_Match, .PreVisit_Pattern 1, .PreVisit_NodeAtom ⟨⟨"n", true⟩, 0, []⟩,
          .PostVisit_NodeAtom, .PostVisit_Pattern, .PostVisit_Match]
        ⟨⟨0, [], []⟩, { }⟩).2.scope_
        = { symbols := [("n", ⟨"n", 0, true, SymbolType.Vertex⟩)] } ∧
      (SymbolGenerator.run (recording_declared Identifier) identifier_tree
          [.PreVisit_Create, .PreVisit_Pattern 1, .PreVisit_NodeAtom ⟨⟨"n", true⟩, 0, []⟩]
          ⟨⟨1, [(⟨"n", true⟩, ⟨"n", 0, true, SymbolType.Vertex⟩)], []⟩,
            { symbols := [("n", ⟨"n", 0, true, SymbolType.Vertex⟩)] }⟩).1
        = .error (.Thrown (.RedeclareVariableError "n")) :=
  ⟨rfl,
   (SymbolGenerator.Visit_in_create_pattern (recording_declared Identifier) identifier_tree
      ⟨"n", true⟩ ⟨"n", 0, true, SymbolType.Vertex⟩
      [("n", ⟨"n", 0, true, SymbolType.Vertex⟩)]
      ⟨1, [(⟨"n", true⟩, ⟨"n", 0, true, SymbolType.Vertex⟩)], []⟩ rfl).2.2.1⟩

end query

/-! ## Lemmas on ranges and on the steps of `DoAllocate` that keep the state sound -/

namespace utils

theorem ranges_disjoint_symm (a b : Nat × Nat) (h : ranges_disjoint a b) :
    ranges_disjoint b a := Or.symm h

theorem ranges_disjoint_of_inside (a b c d : Nat × Nat) (h : ranges_disjoint c d)
    (ha : range_inside a c) (hb : range_inside b d) : ranges_disjoint a b := by
  unfold ranges_disjoint range_inside at *
  omega

theorem range_inside_trans (a b c : Nat × Nat) (hab : range_inside a b)
    (hbc : range_inside b c) : range_inside a c := by
  unfold range_inside at *
  omega

theorem live_blocks_alloc (log : List UpEvent) (bytes alignment p : Nat) :
    live_blocks (log ++ [UpEvent.alloc bytes alignment (some p)])
      = live_blocks log ++ [(p, bytes)] := by
  unfold live_blocks
  rw [List.foldl_append]
  rfl

theorem std_align_fits (alignment size ptr space aligned space1 : Nat)
    (h : std_align alignment size ptr space = some (aligned, space1))
    (hsane : ptr + space < 2 ^ 64) : ptr ≤ aligned ∧ aligned + size ≤ ptr + space := by
  unfold std_align at h
  simp only at h
  split_ifs at h with hs hd
  simp only [Option.some.injEq, Prod.mk.injEq] at h
  obtain ⟨h1, _⟩ := h
  have hr2 : wrap (ptr + alignment + (2 ^ 64 - 1)) % alignment
      ≤ wrap (ptr + alignment + (2 ^ 64 - 1)) := Nat.mod_le _ _
  have hx : wrap (ptr + alignment + (2 ^ 64 - 1)) < 2 ^ 64 := Nat.mod_lt _ (Nat.pow_pos (by decide))
  rw [h1] at hd
  generalize wrap (ptr + alignment + (2 ^ 64 - 1)) % alignment = r at h1 hr2
  generalize wrap (ptr + alignment + (2 ^ 64 - 1)) = x at h1 hr2 hx
  unfold sub64 at hd
  omega

end utils

namespace utils

namespace MonotonicBufferResource

theorem data_region_eq_head (env : Env) (self : MonotonicBufferResource) :
    data_region env self = (owned_regions env self).head? := by
  unfold data_region owned_regions
  cases self.current_buffer_ with
  | cons b rest => rfl
  | nil =>
    cases self.initial_buffer_ with
    | some buffer => rfl
    | none => rfl

theorem owned_regions_of_data_region (env : Env) (self : MonotonicBufferResource)
    (region : Nat × Nat) (h : data_region env self = some region) :
    ∃ older, owned_regions env self = region :: older := by
  rw [data_region_eq_head] at h
  cases ho : owned_regions env self with
  | nil => rw [ho] at h; cases h
  | cons first older =>
    rw [ho] at h
    simp only [List.head?_cons, Option.some.injEq] at h
    exact ⟨older, by rw [h]⟩

theorem owned_regions_congr (env : Env) (self self1 : MonotonicBufferResource)
    (hchain : self1.current_buffer_ = self.current_buffer_)
    (hinit : self1.initial_buffer_ = self.initial_buffer_)
    (hsize : self1.initial_size_ = self.initial_size_) :
    owned_regions env self1 = owned_regions env self := by
  unfold owned_regions
  rw [hchain, hinit, hsize]

theorem used_ranges_inside_owned (env : Env) (self : MonotonicBufferResource)
    (hcap : ∀ data capacity, data_region env self = some (data, capacity) →
      self.allocated_ ≤ capacity)
    (u : Nat × Nat) (hu : u ∈ used_ranges env self) :
    ∃ region ∈ owned_regions env self, range_inside u region := by
  unfold used_ranges at hu
  cases ho : owned_regions env self with
  | nil => rw [ho] at hu; cases hu
  | cons first older =>
    rw [ho] at hu
    simp only [List.mem_cons] at hu
    have hreg : data_region env self = some (first.1, first.2) := by
      rw [data_region_eq_head, ho]
      rfl
    have hle := hcap _ _ hreg
    rcases hu with hu | hu
    · refine ⟨first, List.mem_cons_self _ _, ?_⟩
      rw [hu]
      unfold range_inside
      simp only
      omega
    · exact ⟨u, List.mem_cons_of_mem _ hu, Nat.le_refl _, Nat.le_refl _⟩

theorem sound_region_bound (env : Env) (self : MonotonicBufferResource) (m : Machine)
    (returned : List (Nat × Nat)) (hsound : sound env self m returned) (data capacity : Nat)
    (hregion : data_region env self = some (data, capacity)) : data + capacity < 2 ^ 64 := by
  obtain ⟨hlive, hinit, _, _, _, _⟩ := hsound
  unfold data_region at hregion
  cases hc : self.current_buffer_ with
  | cons b rest =>
    rw [hc] at hregion
    simp only [Option.some.injEq, Prod.mk.injEq] at hregion
    have hb := (hlive b (by rw [hc]; exact List.mem_cons_self _ _)).2
    rw [← hregion.1, ← hregion.2]
    unfold Buffer.data wrap
    omega
  | nil =>
    rw [hc] at hregion
    cases hi : self.initial_buffer_ with
    | some buffer =>
      rw [hi] at hregion
      simp only [Option.some.injEq, Prod.mk.injEq] at hregion
      have := hinit buffer hi
      omega
    | none =>
      rw [hi] at hregion
      cases hregion

theorem sound_fill (env : Env) (self self1 : MonotonicBufferResource) (m : Machine)
    (returned : List (Nat × Nat)) (data capacity p bytes : Nat)
    (hsound : sound env self m returned)
    (hregion : data_region env self = some (data, capacity))
    (hhead : data + self.allocated_ ≤ p) (hend : p + bytes ≤ data + capacity)
    (hchain : self1.current_buffer_ = self.current_buffer_)
    (hinit : self1.initial_buffer_ = self.initial_buffer_)
    (hsize : self1.initial_size_ = self.initial_size_)
    (halloc : self1.allocated_ = p - data + bytes) :
    sound env self1 m ((p, bytes) :: returned) := by
  obtain ⟨h1, h2, h3, h4, h5, h6⟩ := hsound
  have howned := owned_regions_congr env self self1 hchain hinit hsize
  obtain ⟨older, hold⟩ := owned_regions_of_data_region env self _ hregion
  have hregion1 : data_region env self1 = some (data, capacity) := by
    rw [data_region_eq_head, howned, ← data_region_eq_head]
    exact hregion
  have hused : used_ranges env self = (data, self.allocated_) :: older := by
    unfold used_ranges
    rw [hold]
  have hused1 : used_ranges env self1 = (data, p - data + bytes) :: older := by
    unfold used_ranges
    rw [howned, hold, halloc]
  rw [hold, List.pairwise_cons] at h3
  refine ⟨?_, ?_, ?_, ?_, ?_, ?_⟩
  · rw [hchain]
    exact h1
  · rw [hinit, hsize]
    exact h2
  · rw [howned, hold, List.pairwise_cons]
    exact h3
  · intro data1 capacity1 hr
    rw [hregion1] at hr
    simp only [Option.some.injEq, Prod.mk.injEq] at hr
    rw [halloc, ← hr.2]
    omega
  · rw [List.pairwise_cons]
    refine ⟨?_, h5⟩
    intro r hr
    obtain ⟨u, hu, hin⟩ := h6 r hr
    rw [hused, List.mem_cons] at hu
    rcases hu with hu | hu
    · rw [hu] at hin
      unfold range_inside at hin
      unfold ranges_disjoint
      simp only at hin ⊢
      omega
    · exact ranges_disjoint_of_inside _ _ _ _ (h3.1 u hu)
        (by unfold range_inside; simp only; omega) hin
  · intro r hr
    rw [hused1]
    rw [List.mem_cons] at hr
    rcases hr with hr | hr
    · refine ⟨_, List.mem_cons_self _ _, ?_⟩
      rw [hr]
      unfold range_inside
      simp only
      omega
    · obtain ⟨u, hu, hin⟩ := h6 r hr
      rw [hused, List.mem_cons] at hu
      rcases hu with hu | hu
      · refine ⟨_, List.mem_cons_self _ _, ?_⟩
        rw [hu] at hin
        unfold range_inside at hin ⊢
        simp only at hin ⊢
        omega
      · exact ⟨u, List.mem_cons_of_mem _ hu, hin⟩

end MonotonicBufferResource

end utils

namespace utils

namespace MonotonicBufferResource

theorem push_current_buffer_fits (env : Env) (hsizeof : env.sizeof_Buffer < 2 ^ 64)
    (bytes next_size : Nat) (self self1 : MonotonicBufferResource) (m m1 : Machine) (b : Buffer)
    (h : push_current_buffer env bytes next_size self m = (.ok b, self1, m1)) :
    bytes ≤ b.capacity ∧ wrap (env.sizeof_Buffer + b.capacity) = env.sizeof_Buffer + b.capacity := by
  have hcap := (push_current_buffer_ok env bytes next_size self self1 m m1 b h).1
  unfold push_current_buffer at h
  rw [← hcap] at h
  simp only at h
  by_cases hc : wrap (env.sizeof_Buffer + b.capacity) ≤ b.capacity
  · rw [if_pos hc] at h
    simp at h
  · constructor
    · rw [hcap]
      split_ifs <;> omega
    · unfold wrap at hc ⊢
      omega

theorem sound_push (env : Env) (hsizeof : env.sizeof_Buffer < 2 ^ 64)
    (self self1 : MonotonicBufferResource) (m m1 : Machine) (returned : List (Nat × Nat))
    (b : Buffer) (bytes next_size : Nat)
    (hup : ∀ log size p, env.upstream log size env.max_align = some p →
      p + size < 2 ^ 64 ∧ (∀ block ∈ live_blocks log, ranges_disjoint (p, size) block) ∧
        (∀ buffer, self.initial_buffer_ = some buffer →
          ranges_disjoint (p, size) (buffer, self.initial_size_)))
    (hsound : sound env self m returned)
    (hpush : push_current_buffer env bytes next_size self m = (.ok b, self1, m1)) :
    sound env self1 m1 returned ∧ data_region env self1 = some (b.data env, b.capacity) ∧
      self1.allocated_ = 0 ∧ bytes ≤ b.capacity ∧
      self1.initial_buffer_ = self.initial_buffer_ ∧
      self1.initial_size_ = self.initial_size_ ∧
      self1.next_buffer_size_ = self.next_buffer_size_ := by
  obtain ⟨hbytes, hnowrap⟩ := push_current_buffer_fits env hsizeof _ _ _ _ _ _ _ hpush
  obtain ⟨_, hupstream, hself1, hm1⟩ := push_current_buffer_ok env _ _ _ _ _ _ _ hpush
  rw [hnowrap] at hupstream hm1
  obtain ⟨hspace, hfresh, hfresh_init⟩ := hup _ _ _ hupstream
  obtain ⟨h1, h2, h3, h4, h5, h6⟩ := hsound
  have hdata : b.data env = b.addr + env.sizeof_Buffer := by
    unfold Buffer.data wrap
    omega
  have howned : owned_regions env self1 = (b.data env, b.capacity) :: owned_regions env self := by
    rw [hself1]
    rfl
  have hregion1 : data_region env self1 = some (b.data env, b.capacity) := by
    rw [hself1]
    rfl
  have hused1 : used_ranges env self1 = (b.data env, 0) :: owned_regions env self := by
    unfold used_ranges
    rw [howned, hself1]
  have hlog : live_blocks m1.log
      = live_blocks m.log ++ [(b.addr, env.sizeof_Buffer + b.capacity)] := by
    rw [hm1]
    exact live_blocks_alloc _ _ _ _
  have hinside_new : range_inside (b.data env, b.capacity)
      (b.addr, env.sizeof_Buffer + b.capacity) := by
    unfold range_inside
    simp only
    omega
  refine ⟨⟨?_, ?_, ?_, ?_, h5, ?_⟩, hregion1, by rw [hself1], hbytes, by rw [hself1],
    by rw [hself1], by rw [hself1]⟩
  · intro b1 hb1
    rw [hlog]
    have hb1 : b1 ∈ b :: self.current_buffer_ := by rw [hself1] at hb1; exact hb1
    rcases List.mem_cons.mp hb1 with hb1 | hb1
    · rw [hb1]
      exact ⟨List.mem_append_right _ (List.mem_singleton_self _), by omega⟩
    · exact ⟨List.mem_append_left _ (h1 b1 hb1).1, (h1 b1 hb1).2⟩
  · rw [hself1]
    exact h2
  · rw [howned, List.pairwise_cons]
    refine ⟨?_, h3⟩
    intro region hregion
    unfold owned_regions at hregion
    rcases List.mem_append.mp hregion with hr | hr
    · obtain ⟨b1, hb1, hb1r⟩ := List.mem_map.mp hr
      have hlive := h1 b1 hb1
      have hinside_old : range_inside region (b1.addr, env.sizeof_Buffer + b1.capacity) := by
        rw [← hb1r]
        unfold range_inside Buffer.data wrap
        simp only
        omega
      exact ranges_disjoint_of_inside _ _ _ _ (hfresh _ hlive.1) hinside_new hinside_old
    · cases hi : self.initial_buffer_ with
      | none =>
        rw [hi] at hr
        cases hr
      | some buffer =>
        rw [hi] at hr
        simp only [List.mem_singleton] at hr
        rw [hr]
        exact ranges_disjoint_of_inside _ _ _ _ (hfresh_init buffer hi) hinside_new
          ⟨Nat.le_refl _, Nat.le_refl _⟩
  · intro data capacity hr
    rw [hself1]
    exact Nat.zero_le _
  · intro r hr
    obtain ⟨u, hu, hin⟩ := h6 r hr
    obtain ⟨region, hregion, hin2⟩ := used_ranges_inside_owned env self h4 u hu
    rw [hused1]
    exact ⟨region, List.mem_cons_of_mem _ hregion, range_inside_trans _ _ _ hin hin2⟩

theorem finish_allocation_ok (bytes data buffer_head aligned_ptr p : Nat)
    (self self1 : MonotonicBufferResource) (m m1 : Machine)
    (h : finish_allocation bytes data buffer_head aligned_ptr self m = (.ok p, self1, m1)) :
    p = aligned_ptr ∧ m1 = m ∧
      self1 = { self with allocated_ := wrap (sub64 aligned_ptr data + bytes) } := by
  unfold finish_allocation at h
  split_ifs at h
  · simp at h
  · simp at h
  · simp only [Prod.mk.injEq, Except.ok.injEq] at h
    exact ⟨h.1.symm, h.2.2.symm, h.2.1.symm⟩

theorem sound_allocate_in (env : Env) (hsizeof : env.sizeof_Buffer < 2 ^ 64)
    (self self1 : MonotonicBufferResource) (m m1 : Machine) (returned : List (Nat × Nat))
    (data capacity bytes alignment p : Nat)
    (hup : ∀ log size p, env.upstream log size env.max_align = some p →
      p + size < 2 ^ 64 ∧ (∀ block ∈ live_blocks log, ranges_disjoint (p, size) block) ∧
        (∀ buffer, self.initial_buffer_ = some buffer →
          ranges_disjoint (p, size) (buffer, self.initial_size_)))
    (hsound : sound env self m returned)
    (hregion : data_region env self = some (data, capacity))
    (h : allocate_in env bytes alignment data capacity self m = (.ok p, self1, m1)) :
    sound env self1 m1 ((p, bytes) :: returned) ∧
      self1.initial_buffer_ = self.initial_buffer_ ∧
      self1.initial_size_ = self.initial_size_ := by
  have hbound := sound_region_bound env self m returned hsound data capacity hregion
  have hle := hsound.2.2.2.1 data capacity hregion
  have hhead : wrap (data + self.allocated_) = data + self.allocated_ := by
    unfold wrap
    omega
  have havail : sub64 capacity self.allocated_ = capacity - self.allocated_ :=
    sub64_of_le _ _ hle (by omega)
  unfold allocate_in at h
  simp only [hhead, havail] at h
  cases ha : std_align alignment bytes (data + self.allocated_) (capacity - self.allocated_) with
  | some found =>
    obtain ⟨aligned_ptr, space1⟩ := found
    rw [ha] at h
    simp only at h
    obtain ⟨hp, hm, hs⟩ := finish_allocation_ok _ _ _ _ _ _ _ _ _ h
    obtain ⟨hge, hfit⟩ := std_align_fits _ _ _ _ _ _ ha (by omega)
    have hsub : sub64 aligned_ptr data = aligned_ptr - data := sub64_of_le _ _ (by omega) (by omega)
    have hw : wrap (aligned_ptr - data + bytes) = aligned_ptr - data + bytes := by
      unfold wrap
      omega
    rw [hsub, hw] at hs
    rw [hm, hp]
    refine ⟨sound_fill env self self1 m returned data capacity aligned_ptr bytes hsound hregion
      hge (by omega) (by rw [hs]) (by rw [hs]) (by rw [hs]) (by rw [hs]), by rw [hs], by rw [hs]⟩
  | none =>
    rw [ha] at h
    simp only at h
    rcases hpush : push_current_buffer env bytes self.next_buffer_size_ self m with ⟨r, self2, m2⟩
    rw [hpush] at h
    cases r with
    | error e => simp at h
    | ok b =>
      simp only at h
      obtain ⟨hsound2, hregion2, halloc2, hbytes, hinit2, hsize2, _⟩ :=
        sound_push env hsizeof self self2 m m2 returned b bytes _ hup hsound hpush
      obtain ⟨hp, hm, hs⟩ := finish_allocation_ok _ _ _ _ _ _ _ _ _ h
      have hbound2 := sound_region_bound env self2 m2 returned hsound2 _ _ hregion2
      have hsub : sub64 (b.data env) (b.data env) = 0 := by
        rw [sub64_of_le _ _ (Nat.le_refl _) (by omega)]
        exact Nat.sub_self _
      have hw : wrap (0 + bytes) = bytes := by
        unfold wrap
        omega
      rw [hsub, hw] at hs
      rw [hm, hp]
      refine ⟨sound_fill env self2 self1 m2 returned (b.data env) b.capacity (b.data env) bytes
        hsound2 hregion2 (by omega) (by omega) (by rw [hs]) (by rw [hs]) (by rw [hs])
        (by rw [hs]; simp), by rw [hs]; exact hinit2, by rw [hs]; exact hsize2⟩

end MonotonicBufferResource

end utils

namespace utils

namespace MonotonicBufferResource

theorem sound_DoAllocate (env : Env) (hsizeof : env.sizeof_Buffer < 2 ^ 64)
    (self self1 : MonotonicBufferResource) (m m1 : Machine) (returned : List (Nat × Nat))
    (bytes alignment p : Nat)
    (hup : ∀ log size p, env.upstream log size env.max_align = some p →
      p + size < 2 ^ 64 ∧ (∀ block ∈ live_blocks log, ranges_disjoint (p, size) block) ∧
        (∀ buffer, self.initial_buffer_ = some buffer →
          ranges_disjoint (p, size) (buffer, self.initial_size_)))
    (hsound : sound env self m returned)
    (h : DoAllocate env bytes alignment self m = (.ok p, self1, m1)) :
    sound env self1 m1 ((p, bytes) :: returned) ∧
      self1.initial_buffer_ = self.initial_buffer_ ∧
      self1.initial_size_ = self.initial_size_ := by
  unfold DoAllocate at h
  by_cases ha : alignment > env.max_align
  · rw [if_pos ha] at h
    simp at h
  · rw [if_neg ha] at h
    cases hc : self.current_buffer_ with
    | cons b rest =>
      rw [hc] at h
      simp only at h
      have hregion : data_region env self = some (b.data env, b.capacity) := by
        unfold data_region
        rw [hc]
      exact sound_allocate_in env hsizeof self self1 m m1 returned _ _ bytes alignment p hup
        hsound hregion h
    | nil =>
      rw [hc] at h
      simp only at h
      cases hi : self.initial_buffer_ with
      | some buffer =>
        rw [hi] at h
        simp only at h
        have hregion : data_region env self = some (buffer, self.initial_size_) := by
          unfold data_region
          rw [hc, hi]
        have hres := sound_allocate_in env hsizeof self self1 m m1 returned _ _ bytes alignment p
          hup hsound hregion h
        rw [hi] at hres
        exact hres
      | none =>
        rw [hi] at h
        simp only at h
        rcases hpush : push_current_buffer env bytes self.initial_size_ self m with ⟨r, self2, m2⟩
        rw [hpush] at h
        cases r with
        | error e => simp at h
        | ok b =>
          simp only at h
          obtain ⟨hsound2, hregion2, _, _, hinit2, hsize2, _⟩ :=
            sound_push env hsizeof self self2 m m2 returned b bytes _ hup hsound hpush
          have hup2 : ∀ log size p, env.upstream log size env.max_align = some p →
              p + size < 2 ^ 64 ∧ (∀ block ∈ live_blocks log, ranges_disjoint (p, size) block) ∧
                (∀ buffer, self2.initial_buffer_ = some buffer →
                  ranges_disjoint (p, size) (buffer, self2.initial_size_)) := by
            rw [hinit2, hsize2]
            exact hup
          obtain ⟨g1, g2, g3⟩ := sound_allocate_in env hsizeof self2 self1 m2 m1 returned _ _
            bytes alignment p hup2 hsound2 hregion2 h
          exact ⟨g1, g2.trans (hinit2.trans hi), g3.trans hsize2⟩

theorem sound_allocate_all (env : Env) (hsizeof : env.sizeof_Buffer < 2 ^ 64)
    (initial_buffer : Option Nat) (initial_size : Nat)
    (hup : ∀ log size p, env.upstream log size env.max_align = some p →
      p + size < 2 ^ 64 ∧ (∀ block ∈ live_blocks log, ranges_disjoint (p, size) block) ∧
        (∀ buffer, initial_buffer = some buffer →
          ranges_disjoint (p, size) (buffer, initial_size)))
    (requests : List (Nat × Nat)) :
    ∀ (self self1 : MonotonicBufferResource) (m m1 : Machine) (returned : List (Nat × Nat))
      (ps : List Nat),
      self.initial_buffer_ = initial_buffer → self.initial_size_ = initial_size →
      sound env self m returned →
      allocate_all env requests self m = (.ok ps, self1, m1) →
      ps.length = requests.length ∧
        sound env self1 m1 ((List.zip ps (requests.map Prod.fst)).reverse ++ returned) ∧
        (∀ k data capacity,
          data_region env (allocate_all env (requests.take k) self m).2.1
              = some (data, capacity) →
            (allocate_all env (requests.take k) self m).2.1.allocated_ ≤ capacity) := by
  induction requests with
  | nil =>
    intro self self1 m m1 returned ps hi hs hsound h
    simp only [allocate_all, Prod.mk.injEq, Except.ok.injEq] at h
    obtain ⟨h1, h2, h3⟩ := h
    subst h1 h2 h3
    refine ⟨rfl, hsound, ?_⟩
    intro k data capacity hr
    rw [List.take_nil] at hr ⊢
    exact hsound.2.2.2.1 data capacity hr
  | cons request rest ih =>
    intro self self1 m m1 returned ps hi hs hsound h
    rw [allocate_all] at h
    rcases hd : DoAllocate env request.1 request.2 self m with ⟨r, self2, m2⟩
    rw [hd] at h
    cases r with
    | error e => simp at h
    | ok p =>
      simp only at h
      have hup1 : ∀ log size p, env.upstream log size env.max_align = some p →
          p + size < 2 ^ 64 ∧ (∀ block ∈ live_blocks log, ranges_disjoint (p, size) block) ∧
            (∀ buffer, self.initial_buffer_ = some buffer →
              ranges_disjoint (p, size) (buffer, self.initial_size_)) := by
        rw [hi, hs]
        exact hup
      obtain ⟨hsound2, hi2, hs2⟩ := sound_DoAllocate env hsizeof self self2 m m2 returned
        request.1 request.2 p hup1 hsound hd
      rcases hrest : allocate_all env rest self2 m2 with ⟨r2, self3, m3⟩
      rw [hrest] at h
      cases r2 with
      | error e => simp at h
      | ok ps2 =>
        simp only [Prod.mk.injEq, Except.ok.injEq] at h
        obtain ⟨h1, h2, h3⟩ := h
        subst h1 h2 h3
        obtain ⟨g1, g2, g3⟩ := ih self2 self3 m2 m3 _ ps2 (hi2.trans hi) (hs2.trans hs) hsound2
          hrest
        refine ⟨by simp [g1], ?_, ?_⟩
        · have hlist : (List.zip (p :: ps2) ((request :: rest).map Prod.fst)).reverse ++ returned
              = (List.zip ps2 (rest.map Prod.fst)).reverse ++ (p, request.1) :: returned := by
            simp
          rw [hlist]
          exact g2
        · intro k data capacity hr
          cases k with
          | zero =>
            rw [List.take_zero] at hr ⊢
            exact hsound.2.2.2.1 data capacity hr
          | succ k =>
            have hstate : (allocate_all env ((request :: rest).take (k + 1)) self m).2.1
                = (allocate_all env (rest.take k) self2 m2).2.1 := by
              rw [List.take_succ_cons, allocate_all, hd]
              simp only
              rcases allocate_all env (rest.take k) self2 m2 with ⟨r3, self4, m4⟩
              cases r3 <;> rfl
            rw [hstate] at hr ⊢
            exact g3 k data capacity hr

end MonotonicBufferResource

theorem live_blocks_below_top (log : List UpEvent) :
    ∀ (live : List (Nat × Nat)) (block : Nat × Nat),
      block ∈ log.foldl
          (fun live event =>
            match event with
            | UpEvent.alloc bytes _ (some p) => live ++ [(p, bytes)]
            | UpEvent.alloc _ _ none => live
            | UpEvent.dealloc p bytes _ => live.erase (p, bytes))
          live →
        block ∈ live ∨ block.1 + block.2 ≤ bump_top log := by
  induction log with
  | nil =>
    intro live block h
    exact Or.inl h
  | cons event rest ih =>
    intro live block h
    rw [List.foldl_cons] at h
    cases event with
    | alloc bytes alignment result =>
      cases result with
      | some p =>
        rcases ih _ block h with h1 | h1
        · rcases List.mem_append.mp h1 with h2 | h2
          · exact Or.inl h2
          · right
            rw [List.mem_singleton] at h2
            rw [h2]
            unfold bump_top
            exact Nat.le_max_left _ _
        · right
          unfold bump_top
          exact Nat.le_trans h1 (Nat.le_max_right _ _)
      | none =>
        rcases ih _ block h with h1 | h1
        · exact Or.inl h1
        · right
          unfold bump_top
          exact h1
    | dealloc p bytes alignment =>
      rcases ih _ block h with h1 | h1
      · exact Or.inl (List.mem_of_mem_erase h1)
      · right
        unfold bump_top
        exact h1

theorem bounded_bump_upstream_fresh (log : List UpEvent) (size p : Nat)
    (h : bounded_bump_upstream log size 16 = some p) :
    p + size < 2 ^ 64 ∧ ∀ block ∈ live_blocks log, ranges_disjoint (p, size) block := by
  unfold bounded_bump_upstream at h
  simp only at h
  split_ifs at h with hlt
  simp only [Option.some.injEq] at h
  refine ⟨by omega, ?_⟩
  intro block hblock
  unfold live_blocks at hblock
  rcases live_blocks_below_top log [] block hblock with h1 | h1
  · cases h1
  · right
    simp only
    omega

end utils

/-! ## C26: the ranges that `DoAllocate` returns between two calls of `Release` -/

namespace utils

/-- C26: let a resource be as a constructor or `Release` leaves it (no buffer in the chain,
`allocated_` zero), with its initial buffer, if any, inside the address space; let upstream
return blocks that end inside the address space and overlap neither a block it has handed
out and not been given back nor the initial buffer; and let a sequence of calls of
`DoAllocate`, with alignments that are powers of two, all return. Then after every number
of these calls `allocated_` does not exceed the capacity of the region being filled; every
returned range `[p, p + bytes)` lies inside one of the owned regions, which are the data of
the buffers of the chain, each a live block of upstream, and the initial buffer; and the
returned ranges are pairwise disjoint. -/
theorem MonotonicBufferResource.DoAllocate_ranges_disjoint (env : Env)
    (hsizeof : env.sizeof_Buffer < 2 ^ 64)
    (self : MonotonicBufferResource) (m : Machine)
    (hchain : self.current_buffer_ = []) (hzero : self.allocated_ = 0)
    (hinit : ∀ buffer, self.initial_buffer_ = some buffer →
      buffer + self.initial_size_ < 2 ^ 64)
    (hup : ∀ log size p, env.upstream log size env.max_align = some p →
      p + size < 2 ^ 64 ∧ (∀ block ∈ live_blocks log, ranges_disjoint (p, size) block) ∧
        (∀ buffer, self.initial_buffer_ = some buffer →
          ranges_disjoint (p, size) (buffer, self.initial_size_)))
    (requests : List (Nat × Nat)) (_hpow : ∀ request ∈ requests, ∃ k, request.2 = 2 ^ k)
    (ps : List Nat) (self1 : MonotonicBufferResource) (m1 : Machine)
    (hreturn : MonotonicBufferResource.allocate_all env requests self m = (.ok ps, self1, m1)) :
    ps.length = requests.length ∧
      (∀ k data capacity,
        MonotonicBufferResource.data_region env
            (MonotonicBufferResource.allocate_all env (requests.take k) self m).2.1
          = some (data, capacity) →
        (MonotonicBufferResource.allocate_all env (requests.take k) self m).2.1.allocated_
          ≤ capacity) ∧
      (∀ r ∈ List.zip ps (requests.map Prod.fst),
        ∃ region ∈ MonotonicBufferResource.owned_regions env self1, range_inside r region) ∧
      (∀ b ∈ self1.current_buffer_,
        (b.addr, env.sizeof_Buffer + b.capacity) ∈ live_blocks m1.log ∧
          b.data env = b.addr + env.sizeof_Buffer) ∧
      (MonotonicBufferResource.owned_regions env self1).Pairwise ranges_disjoint ∧
      (List.zip ps (requests.map Prod.fst)).Pairwise ranges_disjoint := by
  have hstart : MonotonicBufferResource.sound env self m [] := by
    refine ⟨?_, hinit, ?_, ?_, List.Pairwise.nil, ?_⟩
    · intro b hb
      rw [hchain] at hb
      cases hb
    · unfold MonotonicBufferResource.owned_regions
      rw [hchain]
      cases self.initial_buffer_ with
      | some buffer => exact List.pairwise_singleton _ _
      | none => exact List.Pairwise.nil
    · intro data capacity _
      rw [hzero]
      exact Nat.zero_le _
    · intro r hr
      cases hr
  obtain ⟨hlen, hsound, hprefix⟩ := MonotonicBufferResource.sound_allocate_all env hsizeof
    self.initial_buffer_ self.initial_size_ hup requests self self1 m m1 [] ps rfl rfl hstart
    hreturn
  rw [List.append_nil] at hsound
  obtain ⟨h1, _, h3, h4, h5, h6⟩ := hsound
  refine ⟨hlen, hprefix, ?_, ?_, h3, ?_⟩
  · intro r hr
    obtain ⟨u, hu, hin⟩ := h6 r (List.mem_reverse.mpr hr)
    obtain ⟨region, hregion, hin2⟩ :=
      MonotonicBufferResource.used_ranges_inside_owned env self1 h4 u hu
    exact ⟨region, hregion, range_inside_trans _ _ _ hin hin2⟩
  · intro b hb
    refine ⟨(h1 b hb).1, ?_⟩
    have := (h1 b hb).2
    unfold Buffer.data wrap
    omega
  · rw [List.pairwise_reverse] at h5
    exact h5.imp (fun h => ranges_disjoint_symm _ _ h)

/-- Witness of C26: three allocations from a resource with an initial size of 64 over the
bounded bump allocator; the second does not fit the first buffer and opens another. -/
theorem MonotonicBufferResource.DoAllocate_ranges_disjoint_witness :
    (MonotonicBufferResource.allocate_all bounded_bump_env [(40, 8), (40, 8), (8, 16)]
        (MonotonicBufferResource.of_initial_size 64) Machine.initial).1
        = .ok [4112, 4192, 4240] ∧
      [((4112 : Nat), (40 : Nat)), (4192, 40), (4240, 8)].Pairwise ranges_disjoint :=
  ⟨rfl,
   (MonotonicBufferResource.DoAllocate_ranges_disjoint bounded_bump_env (by decide)
      (MonotonicBufferResource.of_initial_size 64) Machine.initial rfl rfl
      (fun buffer h => by cases h)
      (fun log size p h =>
        ⟨(bounded_bump_upstream_fresh log size p h).1,
          (bounded_bump_upstream_fresh log size p h).2, fun buffer hb => by cases hb⟩)
      [(40, 8), (40, 8), (8, 16)]
      (fun request h => by
        simp only [List.mem_cons, List.mem_singleton, List.not_mem_nil, or_false] at h
        rcases h with h | h | h
        · exact ⟨3, by rw [h]; rfl⟩
        · exact ⟨3, by rw [h]; rfl⟩
        · exact ⟨4, by rw [h]; rfl⟩)
      [4112, 4192, 4240] _ _ rfl).2.2.2.2.2⟩

end utils

/-! ## Lemmas on matrices, loops and paths -/

namespace bfs_common

theorem assign_shape (n : Nat) (dist : Matrix) (i j : Nat) (value : Int)
    (h : shape n dist) : shape n (assign dist i j value) := by
  obtain ⟨hlen, hrows⟩ := h
  unfold assign
  refine ⟨by rw [List.length_set]; exact hlen, ?_⟩
  intro row hrow
  rcases List.mem_or_eq_of_mem_set hrow with h1 | h1
  · exact hrows row h1
  · by_cases hi : i < dist.length
    · rw [h1, List.length_set, List.getD_eq_getElem _ _ hi]
      exact hrows _ (List.getElem_mem _)
    · rw [List.set_eq_of_length_le (Nat.le_of_not_lt hi)] at hrow
      exact hrows row hrow

theorem entry_assign (n : Nat) (dist : Matrix) (i j a b : Nat) (value : Int)
    (h : shape n dist) (hi : i < n) (hj : j < n) :
    entry (assign dist i j value) a b
      = if a = i ∧ b = j then value else entry dist a b := by
  obtain ⟨hlen, hrows⟩ := h
  have hil : i < dist.length := by omega
  have hrow : (dist.getD i []).length = n := by
    rw [List.getD_eq_getElem _ _ hil]
    exact hrows _ (List.getElem_mem _)
  unfold entry assign
  simp only [List.getD_eq_getElem?_getD] at hrow ⊢
  by_cases ha : a = i
  · subst ha
    rw [List.getElem?_set_self hil]
    simp only [Option.getD_some, true_and]
    by_cases hb : b = j
    · subst hb
      rw [List.getElem?_set_self (by omega)]
      simp
    · rw [List.getElem?_set_ne (fun h => hb h.symm)]
      simp [hb]
  · rw [List.getElem?_set_ne (fun h => ha h.symm)]
    simp [ha]

theorem foldl_keep {σ ι : Type} (f : σ → ι → σ) (P : σ → Prop) (l : List ι)
    (hP : ∀ s x, x ∈ l → P s → P (f s x)) : ∀ s, P s → P (l.foldl f s) := by
  induction l with
  | nil => exact fun s h => h
  | cons x rest ih =>
    intro s h
    rw [List.foldl_cons]
    exact ih (fun s y hy => hP s y (List.mem_cons_of_mem _ hy)) _
      (hP s x (List.mem_cons_self _ _) h)

theorem foldl_invariant {σ ι : Type} (f : σ → ι → σ) (P : σ → Prop) (Q : ι → σ → Prop)
    (l : List ι)
    (hP : ∀ s x, x ∈ l → P s → P (f s x))
    (hQ : ∀ s x, x ∈ l → P s → Q x (f s x))
    (hkeep : ∀ s x y, x ∈ l → P s → Q y s → Q y (f s x)) :
    ∀ s, P s → P (l.foldl f s) ∧ ∀ x ∈ l, Q x (l.foldl f s) := by
  induction l with
  | nil =>
    intro s h
    exact ⟨h, fun x hx => by cases hx⟩
  | cons x rest ih =>
    intro s h
    rw [List.foldl_cons]
    have hx := List.mem_cons_self x rest
    obtain ⟨h1, h2⟩ := ih (fun s y hy => hP s y (List.mem_cons_of_mem _ hy))
      (fun s y hy => hQ s y (List.mem_cons_of_mem _ hy))
      (fun s y z hy => hkeep s y z (List.mem_cons_of_mem _ hy)) (f s x) (hP s x hx h)
    refine ⟨h1, ?_⟩
    intro y hy
    rcases List.mem_cons.mp hy with hy | hy
    · rw [hy]
      have hboth : P (rest.foldl f (f s x)) ∧ Q x (rest.foldl f (f s x)) :=
        foldl_keep f (fun t => P t ∧ Q x t) rest
          (fun t z hz ht => ⟨hP t z (List.mem_cons_of_mem _ hz) ht.1,
            hkeep t z x (List.mem_cons_of_mem _ hz) ht.1 ht.2⟩)
          (f s x) ⟨hP s x hx h, hQ s x hx h⟩
      exact hboth.2
    · exact h2 y hy

end bfs_common

namespace bfs_common

theorem is_path_split (edges : List (Nat × Nat)) (a b k : Nat) (m1 m2 : List Nat) :
    is_path edges a b (m1 ++ k :: m2) ↔ is_path edges a k m1 ∧ is_path edges k b m2 := by
  unfold is_path
  rw [List.append_assoc, List.cons_append]
  exact List.chain_split

theorem chain_vertices_lt (n : Nat) (edges : List (Nat × Nat))
    (hedges : ∀ e ∈ edges, e.1 < n ∧ e.2 < n) (l : List Nat) :
    ∀ a, List.Chain (fun a b => (a, b) ∈ edges) a l → ∀ v ∈ l, v < n := by
  induction l with
  | nil => exact fun a _ v hv => by cases hv
  | cons c rest ih =>
    intro a h v hv
    rw [List.chain_cons] at h
    rcases List.mem_cons.mp hv with hv | hv
    · rw [hv]
      exact (hedges _ h.1).2
    · exact ih c h.2 v hv

theorem is_path_vertices_lt (n : Nat) (edges : List (Nat × Nat))
    (hedges : ∀ e ∈ edges, e.1 < n ∧ e.2 < n) (a b : Nat) (mids : List Nat)
    (h : is_path edges a b mids) : ∀ v ∈ mids, v < n :=
  fun v hv => chain_vertices_lt n edges hedges _ a h v (List.mem_append_left _ hv)

theorem complete_at_column (edges : List (Nat × Nat)) (k : Nat) (dist : Matrix) (a : Nat)
    (h : complete_at edges k dist a k) : complete_at edges (k + 1) dist a k := by
  have key : ∀ len, ∀ mids : List Nat, mids.length = len → is_path edges a k mids →
      (∀ v ∈ mids, v < k + 1) →
      entry dist a k ≠ INT_MAX ∧ entry dist a k ≤ (mids.length : Int) + 1 := by
    intro len
    induction len using Nat.strong_induction_on with
    | _ len ih =>
    intro mids hlen hpath hbelow
    by_cases hall : ∀ v ∈ mids, v < k
    · exact h mids hpath hall
    · have hex : ∃ v ∈ mids, ¬ v < k := by
        by_contra hcon
        exact hall (fun v hv => by_contra (fun hv2 => hcon ⟨v, hv, hv2⟩))
      obtain ⟨v, hv, hvk⟩ := hex
      have hvk1 : v = k := by
        have := hbelow v hv
        omega
      subst hvk1
      obtain ⟨m1, m2, hm⟩ := List.append_of_mem hv
      subst hm
      have hp1 := ((is_path_split edges a v v m1 m2).mp hpath).1
      have hshort : m1.length < len := by
        rw [← hlen, List.length_append, List.length_cons]
        omega
      obtain ⟨g1, g2⟩ := ih m1.length hshort m1 rfl hp1
        (fun u hu => hbelow u (List.mem_append_left _ hu))
      refine ⟨g1, ?_⟩
      rw [List.length_append, List.length_cons]
      push_cast
      omega
  exact fun mids => key mids.length mids rfl

theorem complete_at_row (edges : List (Nat × Nat)) (k : Nat) (dist : Matrix) (b : Nat)
    (h : complete_at edges k dist k b) : complete_at edges (k + 1) dist k b := by
  have key : ∀ len, ∀ mids : List Nat, mids.length = len → is_path edges k b mids →
      (∀ v ∈ mids, v < k + 1) →
      entry dist k b ≠ INT_MAX ∧ entry dist k b ≤ (mids.length : Int) + 1 := by
    intro len
    induction len using Nat.strong_induction_on with
    | _ len ih =>
    intro mids hlen hpath hbelow
    by_cases hall : ∀ v ∈ mids, v < k
    · exact h mids hpath hall
    · have hex : ∃ v ∈ mids, ¬ v < k := by
        by_contra hcon
        exact hall (fun v hv => by_contra (fun hv2 => hcon ⟨v, hv, hv2⟩))
      obtain ⟨v, hv, hvk⟩ := hex
      have hvk1 : v = k := by
        have := hbelow v hv
        omega
      subst hvk1
      obtain ⟨m1, m2, hm⟩ := List.append_of_mem hv
      subst hm
      have hp2 := ((is_path_split edges v b v m1 m2).mp hpath).2
      have hshort : m2.length < len := by
        rw [← hlen, List.length_append, List.length_cons]
        omega
      obtain ⟨g1, g2⟩ := ih m2.length hshort m2 rfl hp2
        (fun u hu => hbelow u (List.mem_append_right _ (List.mem_cons_of_mem _ hu)))
      refine ⟨g1, ?_⟩
      rw [List.length_append, List.length_cons]
      push_cast
      omega
  exact fun mids => key mids.length mids rfl

theorem is_path_nodup (edges : List (Nat × Nat)) (b : Nat) (mids : List Nat) :
    ∀ a, a ≠ b → is_path edges a b mids →
      ∃ short, is_path edges a b short ∧ (a :: short).Nodup ∧ b ∉ short ∧
        ∀ v ∈ short, v ∈ mids := by
  induction mids with
  | nil =>
    intro a hab h
    exact ⟨[], h, List.nodup_singleton a, List.not_mem_nil b, fun v hv => by cases hv⟩
  | cons c rest ih =>
    intro a hab h
    have hstep : (a, c) ∈ edges ∧ is_path edges c b rest := by
      unfold is_path at h ⊢
      rw [List.cons_append, List.chain_cons] at h
      exact h
    by_cases hcb : c = b
    · refine ⟨[], ?_, List.nodup_singleton a, List.not_mem_nil b, fun v hv => by cases hv⟩
      unfold is_path
      rw [List.nil_append, List.chain_cons]
      rw [hcb] at hstep
      exact ⟨hstep.1, List.Chain.nil⟩
    · obtain ⟨short, hs1, hs2, hs3, hs4⟩ := ih c hcb hstep.2
      by_cases hac : a = c
      · subst hac
        exact ⟨short, hs1, hs2, hs3, fun v hv => List.mem_cons_of_mem _ (hs4 v hv)⟩
      · by_cases hmem : a ∈ short
        · obtain ⟨p, q, hpq⟩ := List.append_of_mem hmem
          subst hpq
          have hq := ((is_path_split edges c b a p q).mp hs1).2
          refine ⟨q, hq, ?_, ?_, ?_⟩
          · have hnd : (p ++ a :: q).Nodup := (List.nodup_cons.mp hs2).2
            exact (List.nodup_append.mp hnd).2.1
          · exact fun hb => hs3 (List.mem_append_right _ (List.mem_cons_of_mem _ hb))
          · exact fun v hv => List.mem_cons_of_mem _
              (hs4 v (List.mem_append_right _ (List.mem_cons_of_mem _ hv)))
        · refine ⟨c :: short, ?_, ?_, ?_, ?_⟩
          · unfold is_path at hs1 ⊢
            rw [List.cons_append, List.chain_cons]
            exact ⟨hstep.1, hs1⟩
          · rw [List.nodup_cons]
            refine ⟨?_, hs2⟩
            intro h1
            rcases List.mem_cons.mp h1 with h2 | h2
            · exact hac h2
            · exact hmem h2
          · intro h1
            rcases List.mem_cons.mp h1 with h2 | h2
            · exact hcb h2.symm
            · exact hs3 h2
          · intro v hv
            rcases List.mem_cons.mp hv with h2 | h2
            · rw [h2]
              exact List.mem_cons_self _ _
            · exact List.mem_cons_of_mem _ (hs4 v h2)

theorem nodup_length_le (n : Nat) (l : List Nat) (hnodup : l.Nodup) (hlt : ∀ v ∈ l, v < n) :
    l.length ≤ n := by
  have hsub : l.toFinset ⊆ Finset.range n := by
    intro v hv
    rw [List.mem_toFinset] at hv
    exact Finset.mem_range.mpr (hlt v hv)
  have hcard := Finset.card_le_card hsub
  rw [List.toFinset_card_of_nodup hnodup, Finset.card_range] at hcard
  exact hcard

theorem is_path_short (n : Nat) (edges : List (Nat × Nat))
    (hedges : ∀ e ∈ edges, e.1 < n ∧ e.2 < n) (a b : Nat) (ha : a < n) (hb : b < n)
    (hab : a ≠ b) (mids : List Nat) (h : is_path edges a b mids) :
    ∃ short, is_path edges a b short ∧ (∀ v ∈ short, v ∈ mids) ∧ short.length + 2 ≤ n := by
  obtain ⟨short, h1, h2, h3, h4⟩ := is_path_nodup edges b mids a hab h
  refine ⟨short, h1, h4, ?_⟩
  have hnd : (b :: a :: short).Nodup := by
    rw [List.nodup_cons]
    refine ⟨?_, h2⟩
    intro hmem
    rcases List.mem_cons.mp hmem with h5 | h5
    · exact hab h5.symm
    · exact h3 h5
  have hlt : ∀ v ∈ b :: a :: short, v < n := by
    intro v hv
    rcases List.mem_cons.mp hv with h5 | h5
    · rw [h5]; exact hb
    · rcases List.mem_cons.mp h5 with h6 | h6
      · rw [h6]; exact ha
      · exact is_path_vertices_lt n edges hedges a b short h1 v h6
  have := nodup_length_le n _ hnd hlt
  simp only [List.length_cons] at this
  omega

end bfs_common

namespace bfs_common

theorem relax_step (n : Nat) (edges : List (Nat × Nat)) (hn : n ≤ 2 ^ 30)
    (hedges : ∀ e ∈ edges, e.1 < n ∧ e.2 < n) (k i j : Nat) (hk : k < n) (hi : i < n)
    (hj : j < n) (dist : Matrix) (h : invariant n edges (k + 1) k dist) :
    invariant n edges (k + 1) k (relax k i j dist) ∧
      complete_at edges (k + 1) (relax k i j dist) i j ∧
      (∀ a b, complete_at edges (k + 1) dist a b →
        complete_at edges (k + 1) (relax k i j dist) a b) := by
  obtain ⟨hshape, hS, hC, hD, hR⟩ := h
  have hinf : INT_MAX = 2147483647 := by
    unfold INT_MAX
    norm_num
  have hCik := complete_at_column edges k dist i (hC i k hi hk)
  have hCkj := complete_at_row edges k dist j (hC k j hk hj)
  -- what a path from `i` to `j` below `k + 1` gives before the step
  have hvia : ∀ mids, is_path edges i j mids → (∀ v ∈ mids, v < k + 1) →
      (entry dist i j ≠ INT_MAX ∧ entry dist i j ≤ (mids.length : Int) + 1) ∨
      (entry dist i k ≠ INT_MAX ∧ entry dist k j ≠ INT_MAX ∧
        entry dist i k + entry dist k j ≤ (mids.length : Int) + 1) := by
    intro mids hpath hbelow
    by_cases hmem : k ∈ mids
    · right
      obtain ⟨m1, m2, hm⟩ := List.append_of_mem hmem
      subst hm
      obtain ⟨hp1, hp2⟩ := (is_path_split edges i j k m1 m2).mp hpath
      obtain ⟨g1, g2⟩ := hCik m1 hp1 (fun v hv => hbelow v (List.mem_append_left _ hv))
      obtain ⟨g3, g4⟩ := hCkj m2 hp2
        (fun v hv => hbelow v (List.mem_append_right _ (List.mem_cons_of_mem _ hv)))
      refine ⟨g1, g3, ?_⟩
      rw [List.length_append, List.length_cons]
      push_cast
      omega
    · left
      refine hC i j hi hj mids hpath ?_
      intro v hv
      have h1 := hbelow v hv
      have h2 : v ≠ k := fun h3 => hmem (h3 ▸ hv)
      omega
  by_cases hcont : entry dist i k = INT_MAX ∨ entry dist k j = INT_MAX
  · have hsame : relax k i j dist = dist := by
      unfold relax
      rw [if_pos hcont]
    rw [hsame]
    refine ⟨⟨hshape, hS, hC, hD, hR⟩, ?_, fun _ _ h1 => h1⟩
    intro mids hpath hbelow
    rcases hvia mids hpath hbelow with h1 | h1
    · exact h1
    · rcases hcont with h2 | h2
      · exact absurd h2 h1.1
      · exact absurd h2 h1.2.1
  · have hx : entry dist i k ≠ INT_MAX := fun h1 => hcont (Or.inl h1)
    have hy : entry dist k j ≠ INT_MAX := fun h1 => hcont (Or.inr h1)
    have hxr : 0 ≤ entry dist i k ∧ entry dist i k ≤ (n : Int) - 1 :=
      (hR i k hi hk).resolve_left hx
    have hyr : 0 ≤ entry dist k j ∧ entry dist k j ≤ (n : Int) - 1 :=
      (hR k j hk hj).resolve_left hy
    have hzr := hR i j hi hj
    have hn1 : (n : Int) ≤ 2 ^ 30 := by exact_mod_cast hn
    have hsum : communication.to_int (entry dist i k + entry dist k j)
        = entry dist i k + entry dist k j :=
      communication.to_int_of_range _ (by omega) (by omega)
    have hnew : relax k i j dist
        = assign dist i j (min (entry dist i j) (entry dist i k + entry dist k j)) := by
      unfold relax
      rw [if_neg hcont, hsum]
    rw [hnew]
    generalize hv : min (entry dist i j) (entry dist i k + entry dist k j) = value
    have hv1 : value ≤ entry dist i j := by rw [← hv]; exact min_le_left _ _
    have hv2 : value ≤ entry dist i k + entry dist k j := by rw [← hv]; exact min_le_right _ _
    have hv3 : value = entry dist i j ∨ value = entry dist i k + entry dist k j := by
      rw [← hv]
      exact min_choice _ _
    have hv4 : 0 ≤ value := by
      rcases hv3 with h1 | h1
      · rcases hzr with h2 | h2 <;> omega
      · omega
    have hv5 : value ≠ INT_MAX := by omega
    have hentry : ∀ a b, entry (assign dist i j value) a b
        = if a = i ∧ b = j then value else entry dist a b :=
      fun a b => entry_assign n dist i j a b value hshape hi hj
    have hmono : ∀ bound a b, complete_at edges bound dist a b →
        complete_at edges bound (assign dist i j value) a b := by
      intro bound a b hold mids hpath hbelow
      obtain ⟨g1, g2⟩ := hold mids hpath hbelow
      rw [hentry]
      by_cases hab : a = i ∧ b = j
      · rw [if_pos hab]
        obtain ⟨ha, hb⟩ := hab
        subst ha hb
        exact ⟨hv5, Int.le_trans hv1 g2⟩
      · rw [if_neg hab]
        exact ⟨g1, g2⟩
    have hcomplete : complete_at edges (k + 1) (assign dist i j value) i j := by
      intro mids hpath hbelow
      rw [hentry, if_pos ⟨rfl, rfl⟩]
      refine ⟨hv5, ?_⟩
      rcases hvia mids hpath hbelow with h1 | h1
      · exact Int.le_trans hv1 h1.2
      · exact Int.le_trans hv2 h1.2.2
    have hsound : ∀ a b, a < n → b < n → a ≠ b → entry (assign dist i j value) a b ≠ INT_MAX →
        ∃ mids, is_path edges a b mids ∧ (∀ v ∈ mids, v < k + 1) ∧
          entry (assign dist i j value) a b = (mids.length : Int) + 1 := by
      intro a b ha hb hab hfin
      rw [hentry] at hfin ⊢
      by_cases hij : a = i ∧ b = j
      · rw [if_pos hij]
        obtain ⟨h1, h2⟩ := hij
        subst h1 h2
        by_cases hold : value = entry dist a b
        · rw [hold]
          exact hS a b ha hb hab (by rw [← hold]; exact hv5)
        · have hval : value = entry dist a k + entry dist k b := hv3.resolve_left hold
          have hak : a ≠ k := by
            intro h3
            subst h3
            rw [hD a ha] at hval
            omega
          have hkb : k ≠ b := by
            intro h3
            subst h3
            rw [hD k hk] at hval
            omega
          obtain ⟨m1, p1, q1, r1⟩ := hS a k ha hk hak hx
          obtain ⟨m2, p2, q2, r2⟩ := hS k b hk hb hkb hy
          refine ⟨m1 ++ k :: m2, (is_path_split edges a b k m1 m2).mpr ⟨p1, p2⟩, ?_, ?_⟩
          · intro v hv
            rcases List.mem_append.mp hv with h3 | h3
            · exact q1 v h3
            · rcases List.mem_cons.mp h3 with h4 | h4
              · omega
              · exact q2 v h4
          · rw [hval, r1, r2, List.length_append, List.length_cons]
            push_cast
            omega
      · rw [if_neg hij] at hfin ⊢
        exact hS a b ha hb hab hfin
    refine ⟨⟨assign_shape n dist i j value hshape, hsound,
      fun a b ha hb => hmono k a b (hC a b ha hb), ?_, ?_⟩, hcomplete,
      fun a b hold => hmono (k + 1) a b hold⟩
    · intro a ha
      rw [hentry]
      by_cases hij : a = i ∧ a = j
      · rw [if_pos hij]
        obtain ⟨h1, h2⟩ := hij
        subst h1
        subst h2
        have := hD a ha
        omega
      · rw [if_neg hij]
        exact hD a ha
    · intro a b ha hb
      by_cases hij : a = i ∧ b = j
      · obtain ⟨h1, h2⟩ := hij
        subst h1 h2
        by_cases hab : a = b
        · subst hab
          have h3 := hD a ha
          have h4 : entry (assign dist a a value) a a = value := by
            rw [hentry, if_pos ⟨rfl, rfl⟩]
          rw [h4]
          right
          omega
        · have hfin : entry (assign dist a b value) a b ≠ INT_MAX := by
            rw [hentry, if_pos ⟨rfl, rfl⟩]
            exact hv5
          obtain ⟨mids, p1, q1, r1⟩ := hsound a b ha hb hab hfin
          obtain ⟨short, p2, q2, r2⟩ := is_path_short n edges hedges a b ha hb hab mids p1
          obtain ⟨g1, g2⟩ := hcomplete short p2 (fun v hv => q1 v (q2 v hv))
          right
          have h5 : (short.length : Int) + 2 ≤ n := by exact_mod_cast r2
          rw [r1] at g2 ⊢
          omega
      · rw [hentry, if_neg hij]
        exact hR a b ha hb

end bfs_common

namespace bfs_common

theorem relax_row (n : Nat) (edges : List (Nat × Nat)) (hn : n ≤ 2 ^ 30)
    (hedges : ∀ e ∈ edges, e.1 < n ∧ e.2 < n) (k i : Nat) (hk : k < n) (hi : i < n)
    (dist : Matrix) (h : invariant n edges (k + 1) k dist) :
    invariant n edges (k + 1) k
        ((List.range n).foldl (fun dist j => relax k i j dist) dist) ∧
      (∀ j, j < n → complete_at edges (k + 1)
        ((List.range n).foldl (fun dist j => relax k i j dist) dist) i j) ∧
      (∀ a b, complete_at edges (k + 1) dist a b → complete_at edges (k + 1)
        ((List.range n).foldl (fun dist j => relax k i j dist) dist) a b) := by
  obtain ⟨h1, h2⟩ := foldl_invariant (fun dist j => relax k i j dist)
    (invariant n edges (k + 1) k) (fun j dist => complete_at edges (k + 1) dist i j)
    (List.range n)
    (fun s x hx hs => (relax_step n edges hn hedges k i x hk hi (List.mem_range.mp hx) s hs).1)
    (fun s x hx hs =>
      (relax_step n edges hn hedges k i x hk hi (List.mem_range.mp hx) s hs).2.1)
    (fun s x y hx hs hq =>
      (relax_step n edges hn hedges k i x hk hi (List.mem_range.mp hx) s hs).2.2 i y hq)
    dist h
  refine ⟨h1, fun j hj => h2 j (List.mem_range.mpr hj), ?_⟩
  intro a b hab
  exact (foldl_keep (fun dist j => relax k i j dist)
    (fun s => invariant n edges (k + 1) k s ∧ complete_at edges (k + 1) s a b) (List.range n)
    (fun s x hx hs =>
      ⟨(relax_step n edges hn hedges k i x hk hi (List.mem_range.mp hx) s hs.1).1,
        (relax_step n edges hn hedges k i x hk hi (List.mem_range.mp hx) s hs.1).2.2 a b
          hs.2⟩)
    dist ⟨h, hab⟩).2

theorem relax_round (n : Nat) (edges : List (Nat × Nat)) (hn : n ≤ 2 ^ 30)
    (hedges : ∀ e ∈ edges, e.1 < n ∧ e.2 < n) (k : Nat) (hk : k < n)
    (dist : Matrix) (h : invariant n edges k k dist) :
    invariant n edges (k + 1) (k + 1)
      ((List.range n).foldl
        (fun dist i => (List.range n).foldl (fun dist j => relax k i j dist) dist) dist) := by
  have hstart : invariant n edges (k + 1) k dist := by
    obtain ⟨hshape, hS, hC, hD, hR⟩ := h
    refine ⟨hshape, ?_, hC, hD, hR⟩
    intro a b ha hb hab hfin
    obtain ⟨mids, p, q, r⟩ := hS a b ha hb hab hfin
    exact ⟨mids, p, fun v hv => Nat.lt_succ_of_lt (q v hv), r⟩
  obtain ⟨h1, h2⟩ := foldl_invariant
    (fun dist i => (List.range n).foldl (fun dist j => relax k i j dist) dist)
    (invariant n edges (k + 1) k)
    (fun i dist => ∀ j, j < n → complete_at edges (k + 1) dist i j)
    (List.range n)
    (fun s x hx hs => (relax_row n edges hn hedges k x hk (List.mem_range.mp hx) s hs).1)
    (fun s x hx hs => (relax_row n edges hn hedges k x hk (List.mem_range.mp hx) s hs).2.1)
    (fun s x y hx hs hq j hj =>
      (relax_row n edges hn hedges k x hk (List.mem_range.mp hx) s hs).2.2 y j (hq j hj))
    dist hstart
  obtain ⟨hshape, hS, _, hD, hR⟩ := h1
  exact ⟨hshape, hS, fun a b ha hb => h2 a (List.mem_range.mpr ha) b hb, hD, hR⟩

theorem relax_rounds (n : Nat) (edges : List (Nat × Nat)) (hn : n ≤ 2 ^ 30)
    (hedges : ∀ e ∈ edges, e.1 < n ∧ e.2 < n) (dist : Matrix)
    (h : invariant n edges 0 0 dist) (K : Nat) (hK : K ≤ n) :
    invariant n edges K K
      ((List.range K).foldl
        (fun dist k =>
          (List.range n).foldl
            (fun dist i => (List.range n).foldl (fun dist j => relax k i j dist) dist) dist)
        dist) := by
  induction K with
  | zero => exact h
  | succ K ih =>
    rw [List.range_succ, List.foldl_append]
    exact relax_round n edges hn hedges K (by omega) _ (ih (by omega))

theorem relax_all_invariant (n : Nat) (edges : List (Nat × Nat)) (hn : n ≤ 2 ^ 30)
    (hedges : ∀ e ∈ edges, e.1 < n ∧ e.2 < n) (dist : Matrix)
    (h : invariant n edges 0 0 dist) : invariant n edges n n (relax_all n dist) :=
  relax_rounds n edges hn hedges dist h n (Nat.le_refl n)

end bfs_common

namespace bfs_common

theorem replicate_shape (n : Nat) (value : Int) :
    shape n (List.replicate n (List.replicate n value)) ∧
      ∀ a b, a < n → b < n →
        entry (List.replicate n (List.replicate n value)) a b = value := by
  refine ⟨⟨List.length_replicate _ _, ?_⟩, ?_⟩
  · intro row hrow
    rw [List.eq_of_mem_replicate hrow]
    exact List.length_replicate _ _
  · intro a b ha hb
    unfold entry
    simp [List.getD_eq_getElem?_getD, List.getElem?_replicate, ha, hb]

theorem assign_edges (n : Nat) (edges : List (Nat × Nat))
    (hedges : ∀ e ∈ edges, e.1 < n ∧ e.2 < n) :
    ∀ dist : Matrix, shape n dist →
      shape n (edges.foldl (fun dist e => assign dist e.1 e.2 1) dist) ∧
        ∀ a b, entry (edges.foldl (fun dist e => assign dist e.1 e.2 1) dist) a b
          = if (a, b) ∈ edges then 1 else entry dist a b := by
  induction edges with
  | nil =>
    intro dist h
    exact ⟨h, fun a b => by simp⟩
  | cons e rest ih =>
    intro dist h
    rw [List.foldl_cons]
    obtain ⟨he1, he2⟩ := hedges e (List.mem_cons_self _ _)
    obtain ⟨h1, h2⟩ := ih (fun e1 h3 => hedges e1 (List.mem_cons_of_mem _ h3))
      (assign dist e.1 e.2 1) (assign_shape n dist e.1 e.2 1 h)
    refine ⟨h1, ?_⟩
    intro a b
    rw [h2 a b, entry_assign n dist e.1 e.2 a b 1 h he1 he2]
    by_cases hrest : (a, b) ∈ rest
    · simp [hrest]
    · by_cases hab : a = e.1 ∧ b = e.2
      · have hmem : (a, b) = e := by
          obtain ⟨h3, h4⟩ := hab
          exact Prod.ext h3 h4
        simp [hab, hmem]
      · have hne : ¬ (a, b) = e := by
          intro h3
          apply hab
          rw [← h3]
          exact ⟨rfl, rfl⟩
        simp [hrest, hab, hne]

theorem assign_diagonal (n : Nat) (l : List Nat) (hl : ∀ i ∈ l, i < n) :
    ∀ dist : Matrix, shape n dist →
      shape n (l.foldl (fun dist i => assign dist i i 0) dist) ∧
        ∀ a b, entry (l.foldl (fun dist i => assign dist i i 0) dist) a b
          = if a = b ∧ a ∈ l then 0 else entry dist a b := by
  induction l with
  | nil =>
    intro dist h
    exact ⟨h, fun a b => by simp⟩
  | cons i rest ih =>
    intro dist h
    rw [List.foldl_cons]
    have hi := hl i (List.mem_cons_self _ _)
    obtain ⟨h1, h2⟩ := ih (fun x h3 => hl x (List.mem_cons_of_mem _ h3))
      (assign dist i i 0) (assign_shape n dist i i 0 h)
    refine ⟨h1, ?_⟩
    intro a b
    rw [h2 a b, entry_assign n dist i i a b 0 h hi hi]
    by_cases hab : a = b
    · subst hab
      by_cases hrest : a ∈ rest
      · simp [hrest]
      · by_cases hai : a = i
        · simp [hai]
        · simp [hrest, hai]
    · have hne : ¬ (a = i ∧ b = i) := fun h3 => hab (h3.1.trans h3.2.symm)
      simp [hab, hne]

theorem initial_invariant (n : Nat) (edges : List (Nat × Nat))
    (hedges : ∀ e ∈ edges, e.1 < n ∧ e.2 < n) :
    invariant n edges 0 0
      ((List.range n).foldl (fun dist i => assign dist i i 0)
        (edges.foldl (fun dist e => assign dist e.1 e.2 1)
          (List.replicate n (List.replicate n INT_MAX)))) := by
  obtain ⟨hshape0, hentry0⟩ := replicate_shape n INT_MAX
  obtain ⟨hshape1, hentry1⟩ := assign_edges n edges hedges _ hshape0
  obtain ⟨hshape2, hentry2⟩ := assign_diagonal n (List.range n)
    (fun i hi => List.mem_range.mp hi) _ hshape1
  have hinf : INT_MAX = 2147483647 := by
    unfold INT_MAX
    norm_num
  have hvalue : ∀ a b, a < n → b < n →
      entry ((List.range n).foldl (fun dist i => assign dist i i 0)
        (edges.foldl (fun dist e => assign dist e.1 e.2 1)
          (List.replicate n (List.replicate n INT_MAX)))) a b
        = if a = b then 0 else if (a, b) ∈ edges then 1 else INT_MAX := by
    intro a b ha hb
    rw [hentry2 a b, hentry1 a b, hentry0 a b ha hb]
    by_cases hab : a = b
    · simp [hab, List.mem_range.mpr hb]
    · simp [hab]
  refine ⟨hshape2, ?_, ?_, ?_, ?_⟩
  · intro a b ha hb hab hfin
    rw [hvalue a b ha hb, if_neg hab] at hfin ⊢
    by_cases hedge : (a, b) ∈ edges
    · rw [if_pos hedge]
      refine ⟨[], ?_, (fun v hv => by cases hv), by simp⟩
      unfold is_path
      rw [List.nil_append, List.chain_cons]
      exact ⟨hedge, List.Chain.nil⟩
    · rw [if_neg hedge] at hfin
      exact absurd rfl hfin
  · intro a b ha hb mids hpath hbelow
    have hnil : mids = [] := by
      cases mids with
      | nil => rfl
      | cons c rest => exact absurd (hbelow c (List.mem_cons_self _ _)) (Nat.not_lt_zero c)
    subst hnil
    have hedge : (a, b) ∈ edges := by
      unfold is_path at hpath
      rw [List.nil_append, List.chain_cons] at hpath
      exact hpath.1
    rw [hvalue a b ha hb]
    by_cases hab : a = b
    · rw [if_pos hab]
      simp [hinf]
    · rw [if_neg hab, if_pos hedge]
      simp [hinf]
  · intro a ha
    rw [hvalue a a ha ha, if_pos rfl]
  · intro a b ha hb
    rw [hvalue a b ha hb]
    by_cases hab : a = b
    · rw [if_pos hab]
      right
      omega
    · rw [if_neg hab]
      by_cases hedge : (a, b) ∈ edges
      · rw [if_pos hedge]
        right
        omega
      · rw [if_neg hedge]
        exact Or.inl rfl

theorem mark_entry (n : Nat) (dist : Matrix) (i j a b : Nat) (hshape : shape n dist)
    (hi : i < n) (hj : j < n) :
    shape n (if entry dist i j = INT_MAX then assign dist i j (-1) else dist) ∧
      entry (if entry dist i j = INT_MAX then assign dist i j (-1) else dist) a b
        = if (a = i ∧ b = j) ∧ entry dist i j = INT_MAX then -1 else entry dist a b := by
  by_cases h : entry dist i j = INT_MAX
  · rw [if_pos h]
    refine ⟨assign_shape n dist i j (-1) hshape, ?_⟩
    rw [entry_assign n dist i j a b (-1) hshape hi hj]
    simp [h]
  · rw [if_neg h]
    exact ⟨hshape, by simp [h]⟩

theorem mark_unreachable_entry (n : Nat) (dist : Matrix) (hshape : shape n dist) :
    shape n (mark_unreachable n dist) ∧
      ∀ a b, a < n → b < n →
        entry (mark_unreachable n dist) a b
          = if entry dist a b = INT_MAX then -1 else entry dist a b := by
  have hinf : INT_MAX = 2147483647 := by
    unfold INT_MAX
    norm_num
  have hstep : ∀ (i j : Nat) (s : Matrix), i < n → j < n →
      (shape n s ∧ ∀ a b, entry s a b = entry dist a b ∨
        entry s a b = (if entry dist a b = INT_MAX then -1 else entry dist a b)) →
      (shape n (if entry s i j = INT_MAX then assign s i j (-1) else s) ∧
        ∀ a b, entry (if entry s i j = INT_MAX then assign s i j (-1) else s) a b
            = entry dist a b ∨
          entry (if entry s i j = INT_MAX then assign s i j (-1) else s) a b
            = (if entry dist a b = INT_MAX then -1 else entry dist a b)) ∧
      entry (if entry s i j = INT_MAX then assign s i j (-1) else s) i j
        = (if entry dist i j = INT_MAX then -1 else entry dist i j) ∧
      ∀ a b, entry s a b = (if entry dist a b = INT_MAX then -1 else entry dist a b) →
        entry (if entry s i j = INT_MAX then assign s i j (-1) else s) a b
          = (if entry dist a b = INT_MAX then -1 else entry dist a b) := by
    intro i j s hi hj hs
    obtain ⟨hsh, hval⟩ := hs
    have hm := fun a b => (mark_entry n s i j a b hsh hi hj).2
    refine ⟨⟨(mark_entry n s i j 0 0 hsh hi hj).1, ?_⟩, ?_, ?_⟩
    · intro a b
      rw [hm a b]
      by_cases hc : (a = i ∧ b = j) ∧ entry s i j = INT_MAX
      · rw [if_pos hc]
        obtain ⟨⟨h1, h2⟩, h3⟩ := hc
        subst h1 h2
        right
        rcases hval a b with h4 | h4
        · rw [← h4, if_pos h3]
        · rw [h3] at h4
          split_ifs at h4 with h5
          · omega
          · exact absurd h4.symm h5
      · rw [if_neg hc]
        exact hval a b
    · rw [hm i j]
      by_cases hc : entry s i j = INT_MAX
      · rw [if_pos ⟨⟨rfl, rfl⟩, hc⟩]
        rcases hval i j with h4 | h4
        · rw [← h4, if_pos hc]
        · rw [hc] at h4
          split_ifs at h4 with h5
          · omega
          · exact absurd h4.symm h5
      · rw [if_neg (fun h => hc h.2)]
        rcases hval i j with h4 | h4
        · rw [← h4, if_neg hc]
        · exact h4
    · intro a b hab
      rw [hm a b]
      by_cases hc : (a = i ∧ b = j) ∧ entry s i j = INT_MAX
      · rw [if_pos hc]
        obtain ⟨⟨h1, h2⟩, h3⟩ := hc
        subst h1 h2
        rw [h3] at hab
        split_ifs at hab with h5
        · omega
        · exact absurd hab.symm h5
      · rw [if_neg hc]
        exact hab
  have hrow : ∀ (i : Nat) (s : Matrix), i < n →
      (shape n s ∧ ∀ a b, entry s a b = entry dist a b ∨
        entry s a b = (if entry dist a b = INT_MAX then -1 else entry dist a b)) →
      (shape n ((List.range n).foldl
          (fun dist j => if entry dist i j = INT_MAX then assign dist i j (-1) else dist) s) ∧
        ∀ a b, entry ((List.range n).foldl
            (fun dist j => if entry dist i j = INT_MAX then assign dist i j (-1) else dist) s)
            a b = entry dist a b ∨
          entry ((List.range n).foldl
            (fun dist j => if entry dist i j = INT_MAX then assign dist i j (-1) else dist) s)
            a b = (if entry dist a b = INT_MAX then -1 else entry dist a b)) ∧
      (∀ j, j < n → entry ((List.range n).foldl
          (fun dist j => if entry dist i j = INT_MAX then assign dist i j (-1) else dist) s)
          i j = (if entry dist i j = INT_MAX then -1 else entry dist i j)) ∧
      ∀ a b, entry s a b = (if entry dist a b = INT_MAX then -1 else entry dist a b) →
        entry ((List.range n).foldl
          (fun dist j => if entry dist i j = INT_MAX then assign dist i j (-1) else dist) s)
          a b = (if entry dist a b = INT_MAX then -1 else entry dist a b) := by
    intro i s hi hs
    obtain ⟨h1, h2⟩ := foldl_invariant
      (fun dist j => if entry dist i j = INT_MAX then assign dist i j (-1) else dist)
      (fun s => shape n s ∧ ∀ a b, entry s a b = entry dist a b ∨
        entry s a b = (if entry dist a b = INT_MAX then -1 else entry dist a b))
      (fun j s => entry s i j = (if entry dist i j = INT_MAX then -1 else entry dist i j))
      (List.range n)
      (fun t x hx ht => (hstep i x t hi (List.mem_range.mp hx) ht).1)
      (fun t x hx ht => (hstep i x t hi (List.mem_range.mp hx) ht).2.1)
      (fun t x y hx ht hq => (hstep i x t hi (List.mem_range.mp hx) ht).2.2 i y hq)
      s hs
    refine ⟨h1, fun j hj => h2 j (List.mem_range.mpr hj), ?_⟩
    intro a b hab
    exact (foldl_keep
      (fun dist j => if entry dist i j = INT_MAX then assign dist i j (-1) else dist)
      (fun t => (shape n t ∧ ∀ a b, entry t a b = entry dist a b ∨
          entry t a b = (if entry dist a b = INT_MAX then -1 else entry dist a b)) ∧
        entry t a b = (if entry dist a b = INT_MAX then -1 else entry dist a b))
      (List.range n)
      (fun t x hx ht => ⟨(hstep i x t hi (List.mem_range.mp hx) ht.1).1,
        (hstep i x t hi (List.mem_range.mp hx) ht.1).2.2 a b ht.2⟩)
      s ⟨hs, hab⟩).2
  obtain ⟨h1, h2⟩ := foldl_invariant
    (fun dist i => (List.range n).foldl
      (fun dist j => if entry dist i j = INT_MAX then assign dist i j (-1) else dist) dist)
    (fun s => shape n s ∧ ∀ a b, entry s a b = entry dist a b ∨
      entry s a b = (if entry dist a b = INT_MAX then -1 else entry dist a b))
    (fun i s => ∀ j, j < n →
      entry s i j = (if entry dist i j = INT_MAX then -1 else entry dist i j))
    (List.range n)
    (fun t x hx ht => (hrow x t (List.mem_range.mp hx) ht).1)
    (fun t x hx ht => (hrow x t (List.mem_range.mp hx) ht).2.1)
    (fun t x y hx ht hq j hj => (hrow x t (List.mem_range.mp hx) ht).2.2 y j (hq j hj))
    dist ⟨hshape, fun a b => Or.inl rfl⟩
  exact ⟨h1.1, fun a b ha hb => h2 a (List.mem_range.mpr ha) b hb⟩

end bfs_common

/-! ## C24: the distance matrix of `FloydWarshall` -/

namespace bfs_common

/-- C24: for `n` vertices, `n ≤ 2 ^ 30`, and edges between vertices below `n`,
`FloydWarshall(n, edges)` returns a matrix of `n` rows of `n` entries in which, for all
`i` and `j` below `n`: the entry `[i][i]` is `0`, whether or not there is an edge from `i`
to itself; for `i ≠ j` with a path from `i` to `j`, the entry `[i][j]` is the number of
edges of a path from `i` to `j` that no path from `i` to `j` has fewer edges than; and the
entry `[i][j]` is `-1` exactly when `i ≠ j` and there is no path from `i` to `j`. -/
theorem FloydWarshall_distances (n : Nat) (edges : List (Nat × Nat)) (hn : n ≤ 2 ^ 30)
    (hedges : ∀ e ∈ edges, e.1 < n ∧ e.2 < n) :
    (FloydWarshall n edges).length = n ∧
      (∀ row ∈ FloydWarshall n edges, row.length = n) ∧
      ∀ i j, i < n → j < n →
        (i = j → entry (FloydWarshall n edges) i j = 0) ∧
        (i ≠ j → (∃ mids, is_path edges i j mids) →
          ∃ shortest, is_path edges i j shortest ∧
            entry (FloydWarshall n edges) i j = (shortest.length : Int) + 1 ∧
            ∀ other, is_path edges i j other → shortest.length ≤ other.length) ∧
        (entry (FloydWarshall n edges) i j = -1 ↔
          i ≠ j ∧ ¬ ∃ mids, is_path edges i j mids) := by
  have hinf : INT_MAX = 2147483647 := by
    unfold INT_MAX
    norm_num
  have hinv := relax_all_invariant n edges hn hedges _ (initial_invariant n edges hedges)
  obtain ⟨hshape, hS, hC, hD, hR⟩ := hinv
  obtain ⟨hshape1, hentry⟩ := mark_unreachable_entry n _ hshape
  have hfw : FloydWarshall n edges
      = mark_unreachable n (relax_all n
          ((List.range n).foldl (fun dist i => assign dist i i 0)
            (edges.foldl (fun dist e => assign dist e.1 e.2 1)
              (List.replicate n (List.replicate n INT_MAX))))) := rfl
  rw [hfw]
  refine ⟨hshape1.1, hshape1.2, ?_⟩
  intro i j hi hj
  rw [hentry i j hi hj]
  generalize relax_all n
    ((List.range n).foldl (fun dist i => assign dist i i 0)
      (edges.foldl (fun dist e => assign dist e.1 e.2 1)
        (List.replicate n (List.replicate n INT_MAX)))) = dist at hS hC hD hR ⊢
  have hcomplete : ∀ mids, is_path edges i j mids →
      entry dist i j ≠ INT_MAX ∧ entry dist i j ≤ (mids.length : Int) + 1 :=
    fun mids hpath => hC i j hi hj mids hpath (is_path_vertices_lt n edges hedges i j mids hpath)
  refine ⟨?_, ?_, ?_⟩
  · intro hij
    subst hij
    rw [hD i hi]
    simp [hinf]
  · intro hij hex
    obtain ⟨mids, hpath⟩ := hex
    obtain ⟨hfin, _⟩ := hcomplete mids hpath
    obtain ⟨shortest, p, _, r⟩ := hS i j hi hj hij hfin
    rw [if_neg hfin]
    refine ⟨shortest, p, r, ?_⟩
    intro other hother
    have := (hcomplete other hother).2
    rw [r] at this
    omega
  · constructor
    · intro hval
      have hisinf : entry dist i j = INT_MAX := by
        by_contra hfin
        rw [if_neg hfin] at hval
        rcases hR i j hi hj with h1 | h1
        · exact hfin h1
        · omega
      constructor
      · intro hij
        subst hij
        rw [hD i hi] at hisinf
        omega
      · rintro ⟨mids, hpath⟩
        exact (hcomplete mids hpath).1 hisinf
    · rintro ⟨hij, hno⟩
      have hisinf : entry dist i j = INT_MAX := by
        by_contra hfin
        obtain ⟨mids, p, _, _⟩ := hS i j hi hj hij hfin
        exact hno ⟨mids, p⟩
      rw [if_pos hisinf]

/-- Witness of C24: three vertices with the edges `0 → 1`, `1 → 2` and `0 → 0`. -/
theorem FloydWarshall_distances_witness :
    FloydWarshall 3 [(0, 1), (1, 2), (0, 0)] = [[0, 1, 2], [-1, 0, 1], [-1, -1, 0]] ∧
      (FloydWarshall 3 [(0, 1), (1, 2), (0, 0)]).length = 3 :=
  ⟨by decide!,
    (FloydWarshall_distances 3 [(0, 1), (1, 2), (0, 0)] (by norm_num) (by decide)).1⟩

end bfs_common

/-! ## Lemmas on the free lists of the chunks -/

namespace utils

theorem Machine.read_write (m : Machine) (a v b : Nat) :
    (m.write a v).read b = if b = a then to_uchar v else m.read b := by
  unfold Machine.read Machine.write
  simp only [List.lookup_cons]
  by_cases h : b = a
  · simp [h]
  · have hb : (b == a) = false := by simpa using h
    simp [h, hb]

theorem block_offset_lt (block_size i j : Nat) (h : i < j) :
    i * block_size + block_size ≤ j * block_size := by
  have := Nat.mul_le_mul_right block_size (Nat.succ_le_of_lt h)
  rw [Nat.succ_mul] at this
  exact this

theorem block_offset_inj (block_size i j : Nat) (hbs : 0 < block_size)
    (h : i * block_size = j * block_size) : i = j := by
  rcases Nat.lt_trichotomy i j with h1 | h1 | h1
  · have := block_offset_lt block_size i j h1
    omega
  · exact h1
  · have := block_offset_lt block_size j i h1
    omega

theorem form_free_list_spec (data block_size : Nat) (n : Nat) (m : Machine)
    (hfit : data + n * block_size < 2 ^ 64) (hbs : 0 < block_size) (hn : n ≤ 255) :
    (impl.Pool.form_free_list data block_size n m).log = m.log ∧
      (∀ a, (∀ i, i < n → a ≠ data + i * block_size) →
        (impl.Pool.form_free_list data block_size n m).read a = m.read a) ∧
      (∀ i, i < n →
        (impl.Pool.form_free_list data block_size n m).read (data + i * block_size) = i + 1) := by
  induction n with
  | zero =>
    exact ⟨rfl, fun a _ => rfl, fun i hi => absurd hi (Nat.not_lt_zero i)⟩
  | succ n ih =>
    have hle : n * block_size + block_size = (n + 1) * block_size := (Nat.succ_mul n block_size).symm
    obtain ⟨h1, h2, h3⟩ := ih (by omega) (by omega)
    have haddr : wrap (data + wrap (n * block_size)) = data + n * block_size := by
      unfold wrap
      omega
    unfold impl.Pool.form_free_list
    rw [haddr]
    refine ⟨?_, ?_, ?_⟩
    · exact h1
    · intro a ha
      rw [Machine.read_write, if_neg (ha n (Nat.lt_succ_self n))]
      exact h2 a (fun i hi => ha i (Nat.lt_succ_of_lt hi))
    · intro i hi
      rw [Machine.read_write]
      by_cases hin : i = n
      · subst hin
        rw [if_pos rfl]
        unfold to_uchar
        omega
      · have hlt : i < n := by omega
        have hne : data + i * block_size ≠ data + n * block_size := by
          intro heq
          exact hin (block_offset_inj block_size i n hbs (by omega))
        rw [if_neg hne]
        exact h3 i hlt

namespace impl

namespace Pool

theorem links_frame (m m1 : Machine) (data block_size n : Nat) (free : List Nat) :
    ∀ ix, (∀ x ∈ free, m1.read (data + x * block_size) = m.read (data + x * block_size)) →
      links m data block_size n ix free → links m1 data block_size n ix free := by
  induction free with
  | nil => exact fun ix _ h => h
  | cons x rest ih =>
    intro ix hread h
    obtain ⟨h1, h2, h3⟩ := h
    refine ⟨h1, h2, ?_⟩
    have hx := hread x (List.mem_cons_self _ _)
    rw [h1] at hx
    rw [hx]
    exact ih _ (fun y hy => hread y (List.mem_cons_of_mem _ hy)) h3

theorem links_lt (m : Machine) (data block_size n : Nat) (free : List Nat) :
    ∀ ix, links m data block_size n ix free → ∀ x ∈ free, x < n := by
  induction free with
  | nil => exact fun ix _ x hx => by cases hx
  | cons y rest ih =>
    intro ix h x hx
    obtain ⟨h1, h2, h3⟩ := h
    rcases List.mem_cons.mp hx with hx | hx
    · rw [hx, h1]
      exact h2
    · exact ih _ h3 x hx

theorem links_first_lt (m : Machine) (data block_size n : Nat) (free : List Nat) (ix : Nat)
    (hn : n ≤ 255) (h : links m data block_size n ix free) : ix < 256 := by
  cases free with
  | nil => exact h.2
  | cons x rest =>
    have := h.2.1
    omega

theorem links_range (m : Machine) (data block_size n : Nat) (hn : n ≤ 255)
    (hread : ∀ i, i < n → m.read (data + i * block_size) = i + 1) :
    ∀ d i, i + d = n → links m data block_size n i (List.range' i d) := by
  intro d
  induction d with
  | zero =>
    intro i hi
    exact ⟨by omega, by omega⟩
  | succ d ih =>
    intro i hi
    rw [List.range'_succ]
    refine ⟨rfl, by omega, ?_⟩
    rw [hread i (by omega)]
    exact ih (i + 1) (by omega)

theorem block_in_chunk (data block_size n x : Nat) (hx : x < n) :
    data ≤ data + x * block_size ∧
      data + x * block_size + block_size ≤ data + n * block_size := by
  have := block_offset_lt block_size x n hx
  omega

theorem chunk_ok_frame (block_size n : Nat) (m m1 : Machine) (live live1 : List Nat)
    (chunk : Chunk) (hbs : 0 < block_size) (h : chunk_ok block_size n m live chunk)
    (hread : ∀ a, chunk.data ≤ a → a < chunk.data + n * block_size → m1.read a = m.read a)
    (hlive : ∀ a ∈ live1, a ∈ live ∨ a < chunk.data ∨ chunk.data + n * block_size ≤ a) :
    chunk_ok block_size n m1 live1 chunk := by
  obtain ⟨h1, free, h3, h4, h5, h6⟩ := h
  have hlt := links_lt m chunk.data block_size n free _ h3
  refine ⟨h1, free, ?_, h4, h5, ?_⟩
  · refine links_frame m m1 chunk.data block_size n free _ ?_ h3
    intro x hx
    have := block_in_chunk chunk.data block_size n x (hlt x hx)
    exact hread _ (by omega) (by omega)
  · intro x hx hmem
    have := block_in_chunk chunk.data block_size n x (hlt x hx)
    rcases hlive _ hmem with h7 | h7 | h7
    · exact h6 x hx h7
    · omega
    · omega

end Pool

end impl

end utils

namespace utils

namespace impl

namespace Pool

theorem free_length_le (m : Machine) (data block_size n : Nat) (free : List Nat) (ix : Nat)
    (h : links m data block_size n ix free) (hnodup : free.Nodup) : free.length ≤ n :=
  bfs_common.nodup_length_le n free hnodup (links_lt m data block_size n free ix h)

theorem allocate_block_ok (self : Pool) (i : Nat) (chunk : Chunk) (m : Machine)
    (live : List Nat) (hbs : 0 < self.block_size_) (hn : self.blocks_per_chunk_ ≤ 255)
    (hok : chunk_ok self.block_size_ self.blocks_per_chunk_ m live chunk)
    (havail : 0 < chunk.blocks_available) :
    chunk.first_available_block_ix < self.blocks_per_chunk_ ∧
      chunk.data + chunk.first_available_block_ix * self.block_size_ ∉ live ∧
      ∃ chunk1 : Chunk,
        allocate_block_from_chunk self i chunk m
          = (chunk.data + chunk.first_available_block_ix * self.block_size_,
            { self with chunks_ := self.chunks_.set i chunk1 }) ∧
        chunk1.data = chunk.data ∧
        chunk_ok self.block_size_ self.blocks_per_chunk_ m
          ((chunk.data + chunk.first_available_block_ix * self.block_size_) :: live)
          chunk1 := by
  obtain ⟨h1, free, h3, h4, h5, h6⟩ := hok
  have hlen := free_length_le m _ _ _ free _ h3 h4
  cases free with
  | nil =>
    simp only [List.length_nil] at h5
    omega
  | cons x rest =>
    obtain ⟨hx, hlt, hrest⟩ := h3
    subst hx
    have hin := block_in_chunk chunk.data self.block_size_ self.blocks_per_chunk_ _ hlt
    have haddr : wrap (chunk.data + wrap (chunk.first_available_block_ix * self.block_size_))
        = chunk.data + chunk.first_available_block_ix * self.block_size_ := by
      unfold wrap
      omega
    rw [List.nodup_cons] at h4
    simp only [List.length_cons] at h5 hlen
    refine ⟨hlt, h6 _ (List.mem_cons_self _ _),
      { chunk with
        first_available_block_ix :=
          m.read (chunk.data + chunk.first_available_block_ix * self.block_size_),
        blocks_available := to_uchar (chunk.blocks_available + 255) },
      ?_, rfl, h1, rest, ?_, h4.2, ?_, ?_⟩
    · unfold allocate_block_from_chunk
      simp only [haddr]
    · exact hrest
    · show to_uchar (chunk.blocks_available + 255) ≤ rest.length
      unfold to_uchar
      omega
    · intro y hy hmem
      have hmem1 : chunk.data + y * self.block_size_ ∈
          (chunk.data + chunk.first_available_block_ix * self.block_size_) :: live := hmem
      rcases List.mem_cons.mp hmem1 with h7 | h7
      · have hyx : y = chunk.first_available_block_ix :=
          block_offset_inj self.block_size_ _ _ hbs (by omega)
        rw [hyx] at hy
        exact h4.1 hy
      · exact h6 y (List.mem_cons_of_mem _ hy) h7

theorem deallocate_block_ok (self : Pool) (p i : Nat) (chunk : Chunk) (m : Machine)
    (live live1 : List Nat) (x : Nat) (hbs : 0 < self.block_size_)
    (hn : self.blocks_per_chunk_ ≤ 255)
    (hok : chunk_ok self.block_size_ self.blocks_per_chunk_ m live chunk)
    (hx : x < self.blocks_per_chunk_) (hp : p = chunk.data + x * self.block_size_)
    (hlive : p ∈ live) (hgone : p ∉ live1) (hsub : ∀ a ∈ live1, a ∈ live) :
    ∃ chunk1 : Chunk,
      deallocate_block_from_chunk self p i chunk m
        = ({ self with chunks_ := self.chunks_.set i chunk1 },
          m.write p chunk.first_available_block_ix) ∧
      chunk1.data = chunk.data ∧
      chunk_ok self.block_size_ self.blocks_per_chunk_
        (m.write p chunk.first_available_block_ix) live1 chunk1 := by
  obtain ⟨h1, free, h3, h4, h5, h6⟩ := hok
  have hin := block_in_chunk chunk.data self.block_size_ self.blocks_per_chunk_ x hx
  have hfirst := links_first_lt m _ _ _ free _ hn h3
  have hsub64 : sub64 p chunk.data = x * self.block_size_ := by
    rw [sub64_of_le _ _ (by omega) (by omega), hp]
    omega
  have hix : to_uchar (sub64 p chunk.data / self.block_size_) = x := by
    rw [hsub64, Nat.mul_div_cancel _ hbs]
    unfold to_uchar
    omega
  have hxfree : x ∉ free := by
    intro hmem
    apply h6 x hmem
    rw [← hp]
    exact hlive
  refine ⟨{ chunk with first_available_block_ix := x }, ?_, rfl, h1, x :: free, ?_,
    List.nodup_cons.mpr ⟨hxfree, h4⟩, ?_, ?_⟩
  · unfold deallocate_block_from_chunk
    simp only [hix]
  · refine ⟨rfl, hx, ?_⟩
    show links (m.write p chunk.first_available_block_ix) chunk.data self.block_size_
      self.blocks_per_chunk_
      ((m.write p chunk.first_available_block_ix).read (chunk.data + x * self.block_size_)) free
    rw [← hp, Machine.read_write, if_pos rfl]
    have hu : to_uchar chunk.first_available_block_ix = chunk.first_available_block_ix := by
      unfold to_uchar
      omega
    rw [hu]
    refine links_frame m _ chunk.data self.block_size_ self.blocks_per_chunk_ free _ ?_ h3
    intro y hy
    rw [Machine.read_write]
    have hne : chunk.data + y * self.block_size_ ≠ p := by
      intro heq
      have hyx : y = x := block_offset_inj self.block_size_ _ _ hbs (by omega)
      rw [hyx] at hy
      exact hxfree hy
    rw [if_neg hne]
  · show chunk.blocks_available ≤ (x :: free).length
    simp only [List.length_cons]
    omega
  · intro y hy hmem
    rcases List.mem_cons.mp hy with h7 | h7
    · rw [h7, ← hp] at hmem
      exact hgone hmem
    · exact h6 y h7 (hsub _ hmem)

end Pool

end impl

end utils

namespace utils

theorem mem_set_of_nodup_key {α κ : Type} (f : α → κ) (l : List α) (i : Nat) (a new : α)
    (hget : l[i]? = some a) (hnodup : (l.map f).Nodup) (b : α) (hb : b ∈ l.set i new) :
    b = new ∨ (b ∈ l ∧ f b ≠ f a) := by
  obtain ⟨j, hj⟩ := List.mem_iff_getElem?.mp hb
  rw [List.getElem?_set] at hj
  by_cases hij : i = j
  · rw [if_pos hij] at hj
    split_ifs at hj
    left
    exact (Option.some.inj hj).symm
  · rw [if_neg hij] at hj
    right
    refine ⟨List.mem_iff_getElem?.mpr ⟨j, hj⟩, ?_⟩
    intro hkey
    obtain ⟨hi1, hi2⟩ := List.getElem?_eq_some_iff.mp hget
    obtain ⟨hj1, hj2⟩ := List.getElem?_eq_some_iff.mp hj
    have hi3 : i < (l.map f).length := by rw [List.length_map]; exact hi1
    have hj3 : j < (l.map f).length := by rw [List.length_map]; exact hj1
    have heq : (l.map f)[i] = (l.map f)[j] := by
      rw [List.getElem_map, List.getElem_map, hi2, hj2]
      exact hkey.symm
    exact hij ((List.Nodup.getElem_inj_iff hnodup).mp heq)

theorem map_set_key {α κ : Type} (f : α → κ) (l : List α) (i : Nat) (a new : α)
    (hget : l[i]? = some a) (hkey : f new = f a) : (l.set i new).map f = l.map f := by
  apply List.ext_getElem?
  intro n
  rw [List.getElem?_map, List.getElem?_map, List.getElem?_set]
  by_cases h : i = n
  · subst h
    have hlt : i < l.length := (List.getElem?_eq_some_iff.mp hget).1
    simp [hlt, hget, hkey]
  · simp [h]

theorem mem_set_new {α : Type} (l : List α) (i : Nat) (a new : α) (hget : l[i]? = some a) :
    new ∈ l.set i new := by
  have hlt : i < l.length := (List.getElem?_eq_some_iff.mp hget).1
  exact List.mem_iff_getElem?.mpr ⟨i, by rw [List.getElem?_set]; simp [hlt]⟩

theorem mem_set_of_key_ne {α κ : Type} (f : α → κ) (l : List α) (i : Nat) (a new b : α)
    (hget : l[i]? = some a) (hb : b ∈ l) (hkey : f b ≠ f a) : b ∈ l.set i new := by
  obtain ⟨j, hj⟩ := List.mem_iff_getElem?.mp hb
  have hij : i ≠ j := by
    intro h
    subst h
    rw [hget] at hj
    exact hkey (by rw [Option.some.inj hj])
  exact List.mem_iff_getElem?.mpr ⟨j, by rw [List.getElem?_set, if_neg hij]; exact hj⟩

theorem find_first_some {α : Type} (p : α → Bool) (xs : List α) :
    ∀ (k i : Nat) (x : α), find_first p xs k = some (i, x) →
      k ≤ i ∧ xs[i - k]? = some x ∧ p x = true := by
  induction xs with
  | nil =>
    intro k i x h
    simp [find_first] at h
  | cons y rest ih =>
    intro k i x h
    unfold find_first at h
    by_cases hy : p y = true
    · rw [if_pos hy] at h
      simp only [Option.some.injEq, Prod.mk.injEq] at h
      obtain ⟨h1, h2⟩ := h
      subst h1 h2
      simp [hy]
    · rw [if_neg hy] at h
      obtain ⟨h1, h2, h3⟩ := ih (k + 1) i x h
      refine ⟨by omega, ?_, h3⟩
      have : i - k = (i - (k + 1)) + 1 := by omega
      rw [this, List.getElem?_cons_succ]
      exact h2

end utils

namespace utils

namespace impl

namespace Pool

theorem allocate_from_chunk_ok (self : Pool) (i : Nat) (chunk : Chunk) (m : Machine)
    (live : List Nat) (hok : self.ok m live) (hget : self.chunks_[i]? = some chunk)
    (havail : 0 < chunk.blocks_available) :
    ∃ (p : Nat) (self1 : Pool),
      allocate_block_from_chunk self i chunk m = (p, self1) ∧
      self1.block_size_ = self.block_size_ ∧
      self1.blocks_per_chunk_ = self.blocks_per_chunk_ ∧
      self1.chunks_.map (fun c => c.data) = self.chunks_.map (fun c => c.data) ∧
      p ∉ live ∧ self1.ok m (p :: live) ∧
      ∃ c ∈ self1.chunks_, ∃ x, x < self.blocks_per_chunk_ ∧
        p = c.data + x * self.block_size_ := by
  obtain ⟨hbs, hn0, hn, hnodup, hdisj, hchunks⟩ := hok
  have hmem : chunk ∈ self.chunks_ := List.mem_iff_getElem?.mpr ⟨i, hget⟩
  obtain ⟨hlt, hnot, chunk1, hres, hdata, hok1⟩ :=
    allocate_block_ok self i chunk m live hbs hn (hchunks chunk hmem) havail
  have hmap : (self.chunks_.set i chunk1).map (fun c => c.data)
      = self.chunks_.map (fun c => c.data) :=
    map_set_key (fun c : Chunk => c.data) self.chunks_ i chunk chunk1 hget hdata
  have hold : ∀ c ∈ self.chunks_.set i chunk1, ∃ c0 ∈ self.chunks_, c0.data = c.data := by
    intro c hc
    rcases mem_set_of_nodup_key (fun c : Chunk => c.data) self.chunks_ i chunk chunk1 hget
      hnodup c hc with h1 | h1
    · exact ⟨chunk, hmem, by rw [h1, hdata]⟩
    · exact ⟨c, h1.1, rfl⟩
  have hin := block_in_chunk chunk.data self.block_size_ self.blocks_per_chunk_ _ hlt
  refine ⟨_, _, hres, rfl, rfl, hmap, hnot, ⟨hbs, hn0, hn, ?_, ?_, ?_⟩,
    chunk1, mem_set_new self.chunks_ i chunk chunk1 hget, chunk.first_available_block_ix, hlt,
    by rw [hdata]⟩
  · show ((self.chunks_.set i chunk1).map (fun c => c.data)).Nodup
    rw [hmap]
    exact hnodup
  · intro c1 hc1 c2 hc2
    obtain ⟨d1, hd1, e1⟩ := hold c1 hc1
    obtain ⟨d2, hd2, e2⟩ := hold c2 hc2
    rw [← e1, ← e2]
    exact hdisj d1 hd1 d2 hd2
  · intro c hc
    rcases mem_set_of_nodup_key (fun c : Chunk => c.data) self.chunks_ i chunk chunk1 hget
      hnodup c hc with h1 | h1
    · rw [h1]
      exact hok1
    · obtain ⟨h2, h3⟩ := h1
      refine chunk_ok_frame self.block_size_ self.blocks_per_chunk_ m m live _ c hbs
        (hchunks c h2) (fun _ _ _ => rfl) ?_
      intro a ha
      rcases List.mem_cons.mp ha with h4 | h4
      · right
        rcases hdisj c h2 chunk hmem with h5 | h5
        · exact absurd h5 h3
        · unfold ranges_disjoint at h5
          simp only at h5
          omega
      · exact Or.inl h4

theorem allocate_new_chunk_ok (env : Env) (self self1 : Pool) (m m1 : Machine)
    (live : List Nat) (p : Nat) (hok : self.ok m live)
    (hfresh : ∀ data, self.block_size_ ≤ env.Ceil2 self.block_size_ →
      env.upstream m.log (self.blocks_per_chunk_ * self.block_size_)
          (env.Ceil2 self.block_size_) = some data →
        data + self.blocks_per_chunk_ * self.block_size_ < 2 ^ 64 ∧
        (∀ c ∈ self.chunks_,
          ranges_disjoint (data, self.blocks_per_chunk_ * self.block_size_)
            (c.data, self.blocks_per_chunk_ * self.block_size_)) ∧
        ∀ a ∈ live, a < data ∨ data + self.blocks_per_chunk_ * self.block_size_ ≤ a)
    (h : allocate_new_chunk env self m = (.ok p, self1, m1)) :
    self1.block_size_ = self.block_size_ ∧
      self1.blocks_per_chunk_ = self.blocks_per_chunk_ ∧
      p ∉ live ∧ self1.ok m1 (p :: live) ∧
      (∃ c ∈ self1.chunks_, ∃ x, x < self.blocks_per_chunk_ ∧
        p = c.data + x * self.block_size_) ∧
      ∃ data, self.block_size_ ≤ env.Ceil2 self.block_size_ ∧
        env.upstream m.log (self.blocks_per_chunk_ * self.block_size_)
          (env.Ceil2 self.block_size_) = some data ∧
        m1.log = m.log ++
          [UpEvent.alloc (self.blocks_per_chunk_ * self.block_size_)
            (env.Ceil2 self.block_size_) (some data)] ∧
        self1.chunks_.map (fun c => c.data) = self.chunks_.map (fun c => c.data) ++ [data] ∧
        ∀ a, a < data ∨ data + self.blocks_per_chunk_ * self.block_size_ ≤ a →
          m1.read a = m.read a := by
  obtain ⟨hbs, hn0, hn, hnodup, hdisj, hchunks⟩ := hok
  unfold allocate_new_chunk at h
  rw [if_neg (by omega)] at h
  by_cases hover : self.block_size_ > SIZE_MAX / self.blocks_per_chunk_
  · rw [if_pos hover] at h
    simp at h
  · rw [if_neg hover] at h
    have hsize : self.blocks_per_chunk_ * self.block_size_ ≤ SIZE_MAX := by
      have h1 : self.block_size_ ≤ SIZE_MAX / self.blocks_per_chunk_ := Nat.le_of_not_lt hover
      have h2 := (Nat.le_div_iff_mul_le hn0).mp h1
      rw [Nat.mul_comm] at h2
      exact h2
    have hwrap : wrap (self.blocks_per_chunk_ * self.block_size_)
        = self.blocks_per_chunk_ * self.block_size_ := by
      unfold wrap
      unfold SIZE_MAX at hsize
      omega
    simp only [hwrap] at h
    by_cases halign : env.Ceil2 self.block_size_ < self.block_size_
    · rw [if_pos halign] at h
      simp at h
    · rw [if_neg halign] at h
      unfold Upstream.Allocate at h
      cases hu : env.upstream m.log (self.blocks_per_chunk_ * self.block_size_)
          (env.Ceil2 self.block_size_) with
      | none =>
        rw [hu] at h
        simp at h
      | some data =>
        rw [hu] at h
        simp only at h
        obtain ⟨hspace, hfresh1, hfresh2⟩ := hfresh data (Nat.le_of_not_lt halign) hu
        generalize hm0 : ({ m with log := m.log ++
            [UpEvent.alloc (self.blocks_per_chunk_ * self.block_size_)
              (env.Ceil2 self.block_size_) (some data)] } : Machine) = m0 at h
        have hm0read : ∀ a, m0.read a = m.read a := by
          intro a
          rw [← hm0]
          rfl
        obtain ⟨f1, f2, f3⟩ := form_free_list_spec data self.block_size_
          self.blocks_per_chunk_ m0 hspace hbs hn
        generalize hm2 : form_free_list data self.block_size_ self.blocks_per_chunk_ m0 = m2
          at h f1 f2 f3
        have hframe : ∀ a, a < data ∨ data + self.blocks_per_chunk_ * self.block_size_ ≤ a →
            m2.read a = m.read a := by
          intro a ha
          rw [f2 a, hm0read]
          intro i hi heq
          have := block_in_chunk data self.block_size_ self.blocks_per_chunk_ i hi
          omega
        have hnpos : 0 < self.blocks_per_chunk_ * self.block_size_ := Nat.mul_pos hn0 hbs
        -- the pool with the new chunk, before the block is taken from it
        have hok2 : Pool.ok
            { self with
              chunks_ := self.chunks_ ++ [⟨data, 0, self.blocks_per_chunk_⟩],
              last_alloc_chunk_ := some self.chunks_.length,
              last_dealloc_chunk_ := some self.chunks_.length } m2 live := by
          refine ⟨hbs, hn0, hn, ?_, ?_, ?_⟩
          · show ((self.chunks_ ++ [(⟨data, 0, self.blocks_per_chunk_⟩ : Chunk)]).map
              (fun c : Chunk => c.data)).Nodup
            rw [List.map_append, List.map_singleton]
            refine List.Nodup.append hnodup (List.nodup_singleton _) ?_
            intro d hd1 hd2
            rw [List.mem_singleton] at hd2
            obtain ⟨c, hc, hcd⟩ := List.mem_map.mp hd1
            have hcd1 : c.data = d := hcd
            have hd3 : d = data := hd2
            have := hfresh1 c hc
            unfold ranges_disjoint at this
            simp only at this
            omega
          · intro c1 hc1 c2 hc2
            have hc1' : c1 ∈ self.chunks_ ++ [⟨data, 0, self.blocks_per_chunk_⟩] := hc1
            have hc2' : c2 ∈ self.chunks_ ++ [⟨data, 0, self.blocks_per_chunk_⟩] := hc2
            rcases List.mem_append.mp hc1' with g1 | g1
            · rcases List.mem_append.mp hc2' with g2 | g2
              · exact hdisj c1 g1 c2 g2
              · rw [List.mem_singleton] at g2
                rw [g2]
                exact Or.inr (ranges_disjoint_symm _ _ (hfresh1 c1 g1))
            · rw [List.mem_singleton] at g1
              rcases List.mem_append.mp hc2' with g2 | g2
              · rw [g1]
                exact Or.inr (hfresh1 c2 g2)
              · rw [List.mem_singleton] at g2
                rw [g1, g2]
                exact Or.inl rfl
          · intro c hc
            have hc' : c ∈ self.chunks_ ++ [⟨data, 0, self.blocks_per_chunk_⟩] := hc
            rcases List.mem_append.mp hc' with g1 | g1
            · refine chunk_ok_frame self.block_size_ self.blocks_per_chunk_ m m2 live live c hbs
                (hchunks c g1) ?_ (fun a ha => Or.inl ha)
              intro a ha1 ha2
              apply hframe
              have := hfresh1 c g1
              unfold ranges_disjoint at this
              simp only at this
              omega
            · rw [List.mem_singleton] at g1
              rw [g1]
              refine ⟨hspace, List.range' 0 self.blocks_per_chunk_, ?_, List.nodup_range' _ _,
                ?_, ?_⟩
              · exact links_range m2 data self.block_size_ self.blocks_per_chunk_ hn f3
                  self.blocks_per_chunk_ 0 (by omega)
              · show self.blocks_per_chunk_ ≤ (List.range' 0 self.blocks_per_chunk_).length
                rw [List.length_range']
              · intro x hx hmem
                have hxlt : x < self.blocks_per_chunk_ := by
                  have := List.mem_range'_1.mp hx
                  omega
                have hin := block_in_chunk data self.block_size_ self.blocks_per_chunk_ x hxlt
                have hmem1 : data + x * self.block_size_ ∈ live := hmem
                have := hfresh2 _ hmem1
                omega
        have hget2 : (self.chunks_ ++ [(⟨data, 0, self.blocks_per_chunk_⟩ : Chunk)])[
            self.chunks_.length]? = some ⟨data, 0, self.blocks_per_chunk_⟩ := by
          rw [List.getElem?_append_right (Nat.le_refl _)]
          simp
        obtain ⟨q, pool2, hres, g1, g2, g3, g4, g5, g6⟩ := allocate_from_chunk_ok
          { self with
            chunks_ := self.chunks_ ++ [⟨data, 0, self.blocks_per_chunk_⟩],
            last_alloc_chunk_ := some self.chunks_.length,
            last_dealloc_chunk_ := some self.chunks_.length }
          self.chunks_.length ⟨data, 0, self.blocks_per_chunk_⟩ m2 live hok2 hget2 hn0
        rw [hres] at h
        simp only [Prod.mk.injEq, Except.ok.injEq] at h
        obtain ⟨h1, h2, h3⟩ := h
        subst h1 h2 h3
        refine ⟨g1, g2, g4, g5, g6, data, Nat.le_of_not_lt halign, rfl, ?_, ?_, hframe⟩
        · rw [f1, ← hm0]
        · rw [g3]
          show (self.chunks_ ++ [(⟨data, 0, self.blocks_per_chunk_⟩ : Chunk)]).map
            (fun c => c.data) = _
          rw [List.map_append, List.map_singleton]

end Pool

end impl

end utils

namespace utils

namespace impl

namespace Pool

theorem allocate_search_ok (env : Env) (self self1 : Pool) (m m1 : Machine)
    (live : List Nat) (p : Nat) (hok : self.ok m live)
    (hfresh : ∀ data, self.block_size_ ≤ env.Ceil2 self.block_size_ →
      env.upstream m.log (self.blocks_per_chunk_ * self.block_size_)
          (env.Ceil2 self.block_size_) = some data →
        data + self.blocks_per_chunk_ * self.block_size_ < 2 ^ 64 ∧
        (∀ c ∈ self.chunks_,
          ranges_disjoint (data, self.blocks_per_chunk_ * self.block_size_)
            (c.data, self.blocks_per_chunk_ * self.block_size_)) ∧
        ∀ a ∈ live, a < data ∨ data + self.blocks_per_chunk_ * self.block_size_ ≤ a)
    (h : allocate_search env self m = (.ok p, self1, m1)) :
    self1.block_size_ = self.block_size_ ∧
      self1.blocks_per_chunk_ = self.blocks_per_chunk_ ∧
      p ∉ live ∧ self1.ok m1 (p :: live) ∧
      (∃ c ∈ self1.chunks_, ∃ x, x < self.blocks_per_chunk_ ∧
        p = c.data + x * self.block_size_) ∧
      ((m1 = m ∧ self1.chunks_.map (fun c => c.data) = self.chunks_.map (fun c => c.data)) ∨
        ∃ data, self.block_size_ ≤ env.Ceil2 self.block_size_ ∧
          env.upstream m.log (self.blocks_per_chunk_ * self.block_size_)
            (env.Ceil2 self.block_size_) = some data ∧
          m1.log = m.log ++
            [UpEvent.alloc (self.blocks_per_chunk_ * self.block_size_)
              (env.Ceil2 self.block_size_) (some data)] ∧
          self1.chunks_.map (fun c => c.data)
            = self.chunks_.map (fun c => c.data) ++ [data] ∧
          ∀ a, a < data ∨ data + self.blocks_per_chunk_ * self.block_size_ ≤ a →
            m1.read a = m.read a) := by
  unfold allocate_search at h
  cases hf : find_first (fun c => decide (c.blocks_available > 0)) self.chunks_ 0 with
  | none =>
    rw [hf] at h
    obtain ⟨g1, g2, g3, g4, g5, g6⟩ := allocate_new_chunk_ok env self self1 m m1 live p hok
      hfresh h
    exact ⟨g1, g2, g3, g4, g5, Or.inr g6⟩
  | some found =>
    obtain ⟨i, c⟩ := found
    rw [hf] at h
    simp only at h
    obtain ⟨_, hget, havail⟩ := find_first_some _ _ 0 i c hf
    have havail1 : 0 < c.blocks_available := by simpa using havail
    have hok1 : Pool.ok { self with last_alloc_chunk_ := some i } m live := hok
    obtain ⟨q, pool2, hres, g1, g2, g3, g4, g5, g6⟩ := allocate_from_chunk_ok
      { self with last_alloc_chunk_ := some i } i c m live hok1 hget havail1
    rw [hres] at h
    simp only [Prod.mk.injEq, Except.ok.injEq] at h
    obtain ⟨h1, h2, h3⟩ := h
    subst h1 h2 h3
    exact ⟨g1, g2, g4, g5, g6, Or.inl ⟨rfl, g3⟩⟩

theorem pool_allocate_ok (env : Env) (self self1 : Pool) (m m1 : Machine)
    (live : List Nat) (p : Nat) (hok : self.ok m live)
    (hfresh : ∀ data, self.block_size_ ≤ env.Ceil2 self.block_size_ →
      env.upstream m.log (self.blocks_per_chunk_ * self.block_size_)
          (env.Ceil2 self.block_size_) = some data →
        data + self.blocks_per_chunk_ * self.block_size_ < 2 ^ 64 ∧
        (∀ c ∈ self.chunks_,
          ranges_disjoint (data, self.blocks_per_chunk_ * self.block_size_)
            (c.data, self.blocks_per_chunk_ * self.block_size_)) ∧
        ∀ a ∈ live, a < data ∨ data + self.blocks_per_chunk_ * self.block_size_ ≤ a)
    (h : Allocate env self m = (.ok p, self1, m1)) :
    self1.block_size_ = self.block_size_ ∧
      self1.blocks_per_chunk_ = self.blocks_per_chunk_ ∧
      p ∉ live ∧ self1.ok m1 (p :: live) ∧
      (∃ c ∈ self1.chunks_, ∃ x, x < self.blocks_per_chunk_ ∧
        p = c.data + x * self.block_size_) ∧
      ((m1 = m ∧ self1.chunks_.map (fun c => c.data) = self.chunks_.map (fun c => c.data)) ∨
        ∃ data, self.block_size_ ≤ env.Ceil2 self.block_size_ ∧
          env.upstream m.log (self.blocks_per_chunk_ * self.block_size_)
            (env.Ceil2 self.block_size_) = some data ∧
          m1.log = m.log ++
            [UpEvent.alloc (self.blocks_per_chunk_ * self.block_size_)
              (env.Ceil2 self.block_size_) (some data)] ∧
          self1.chunks_.map (fun c => c.data)
            = self.chunks_.map (fun c => c.data) ++ [data] ∧
          ∀ a, a < data ∨ data + self.blocks_per_chunk_ * self.block_size_ ≤ a →
            m1.read a = m.read a) := by
  unfold Allocate at h
  cases hd : deref self.chunks_ self.last_alloc_chunk_ with
  | error e =>
    rw [hd] at h
    simp at h
  | ok found =>
    rw [hd] at h
    cases found with
    | none =>
      simp only at h
      exact allocate_search_ok env self self1 m m1 live p hok hfresh h
    | some pair =>
      obtain ⟨i, c⟩ := pair
      simp only at h
      by_cases havail : c.blocks_available > 0
      · rw [if_pos havail] at h
        obtain ⟨_, hget⟩ := deref_ok_some _ _ i c hd
        obtain ⟨q, pool2, hres, g1, g2, g3, g4, g5, g6⟩ :=
          allocate_from_chunk_ok self i c m live hok hget havail
        rw [hres] at h
        simp only [Prod.mk.injEq, Except.ok.injEq] at h
        obtain ⟨h1, h2, h3⟩ := h
        subst h1 h2 h3
        exact ⟨g1, g2, g4, g5, g6, Or.inl ⟨rfl, g3⟩⟩
      · rw [if_neg havail] at h
        exact allocate_search_ok env self self1 m m1 live p hok hfresh h

theorem deallocate_to_chunk_ok (self : Pool) (p i : Nat) (chunk : Chunk) (m : Machine)
    (live live1 : List Nat) (hok : self.ok m live) (hget : self.chunks_[i]? = some chunk)
    (hin : is_in_chunk self p chunk = true)
    (hblock : ∃ c ∈ self.chunks_, ∃ x, x < self.blocks_per_chunk_ ∧
      p = c.data + x * self.block_size_)
    (hlive : p ∈ live) (hgone : p ∉ live1) (hsub : ∀ a ∈ live1, a ∈ live) :
    ∃ (self1 : Pool) (m1 : Machine),
      deallocate_block_from_chunk self p i chunk m = (self1, m1) ∧
      self1.block_size_ = self.block_size_ ∧
      self1.blocks_per_chunk_ = self.blocks_per_chunk_ ∧
      self1.chunks_.map (fun c => c.data) = self.chunks_.map (fun c => c.data) ∧
      m1.log = m.log ∧ (∀ a, a ≠ p → m1.read a = m.read a) ∧
      chunk.data ≤ p ∧ p < chunk.data + self.blocks_per_chunk_ * self.block_size_ ∧
      self1.ok m1 live1 := by
  obtain ⟨hbs, hn0, hn, hnodup, hdisj, hchunks⟩ := hok
  have hmem : chunk ∈ self.chunks_ := List.mem_iff_getElem?.mpr ⟨i, hget⟩
  have hspace := (hchunks chunk hmem).1
  have hsize : wrap (self.blocks_per_chunk_ * self.block_size_)
      = self.blocks_per_chunk_ * self.block_size_ := by
    unfold wrap
    omega
  have hend : wrap (chunk.data + self.blocks_per_chunk_ * self.block_size_)
      = chunk.data + self.blocks_per_chunk_ * self.block_size_ := by
    unfold wrap
    omega
  have hrange : chunk.data ≤ p ∧ p < chunk.data + self.blocks_per_chunk_ * self.block_size_ := by
    unfold is_in_chunk at hin
    simp only [hsize, hend, decide_eq_true_eq] at hin
    exact hin
  -- the block is a block of this chunk
  obtain ⟨c, hc, x, hx, hp⟩ := hblock
  have hcx := block_in_chunk c.data self.block_size_ self.blocks_per_chunk_ x hx
  have hsame : c.data = chunk.data := by
    rcases hdisj c hc chunk hmem with h1 | h1
    · exact h1
    · unfold ranges_disjoint at h1
      simp only at h1
      omega
  rw [hsame] at hp
  obtain ⟨chunk1, hres, hdata, hok1⟩ := deallocate_block_ok self p i chunk m live live1 x hbs hn
    (hchunks chunk hmem) hx hp hlive hgone hsub
  have hmap : (self.chunks_.set i chunk1).map (fun c => c.data)
      = self.chunks_.map (fun c => c.data) :=
    map_set_key (fun c : Chunk => c.data) self.chunks_ i chunk chunk1 hget hdata
  have hold : ∀ c ∈ self.chunks_.set i chunk1, ∃ c0 ∈ self.chunks_, c0.data = c.data := by
    intro c hc
    rcases mem_set_of_nodup_key (fun c : Chunk => c.data) self.chunks_ i chunk chunk1 hget
      hnodup c hc with h1 | h1
    · exact ⟨chunk, hmem, by rw [h1, hdata]⟩
    · exact ⟨c, h1.1, rfl⟩
  have hread : ∀ a, a ≠ p → (m.write p chunk.first_available_block_ix).read a = m.read a := by
    intro a ha
    rw [Machine.read_write, if_neg ha]
  refine ⟨_, _, hres, rfl, rfl, hmap, rfl, hread, hrange.1, hrange.2, hbs, hn0, hn, ?_, ?_, ?_⟩
  · show ((self.chunks_.set i chunk1).map (fun c => c.data)).Nodup
    rw [hmap]
    exact hnodup
  · intro c1 hc1 c2 hc2
    obtain ⟨d1, hd1, e1⟩ := hold c1 hc1
    obtain ⟨d2, hd2, e2⟩ := hold c2 hc2
    rw [← e1, ← e2]
    exact hdisj d1 hd1 d2 hd2
  · intro c2 hc2
    rcases mem_set_of_nodup_key (fun c : Chunk => c.data) self.chunks_ i chunk chunk1 hget
      hnodup c2 hc2 with h1 | h1
    · rw [h1]
      exact hok1
    · obtain ⟨h2, h3⟩ := h1
      refine chunk_ok_frame self.block_size_ self.blocks_per_chunk_ m _ live live1 c2 hbs
        (hchunks c2 h2) ?_ (fun a ha => Or.inl (hsub a ha))
      intro a ha1 ha2
      apply hread
      rcases hdisj c2 h2 chunk hmem with h5 | h5
      · exact absurd h5 h3
      · unfold ranges_disjoint at h5
        simp only at h5
        omega

end Pool

end impl

end utils

namespace utils

namespace impl

namespace Pool

theorem ok_frame (self : Pool) (m m1 : Machine) (live live1 : List Nat) (hok : self.ok m live)
    (hread : ∀ c ∈ self.chunks_, ∀ a, c.data ≤ a →
      a < c.data + self.blocks_per_chunk_ * self.block_size_ → m1.read a = m.read a)
    (hlive : ∀ c ∈ self.chunks_, ∀ a ∈ live1,
      a ∈ live ∨ a < c.data ∨ c.data + self.blocks_per_chunk_ * self.block_size_ ≤ a) :
    self.ok m1 live1 := by
  obtain ⟨hbs, hn0, hn, hnodup, hdisj, hchunks⟩ := hok
  exact ⟨hbs, hn0, hn, hnodup, hdisj, fun c hc =>
    chunk_ok_frame self.block_size_ self.blocks_per_chunk_ m m1 live live1 c hbs (hchunks c hc)
      (hread c hc) (hlive c hc)⟩

theorem pool_deallocate_ok (self self1 : Pool) (p : Nat) (m m1 : Machine)
    (live live1 : List Nat) (hok : self.ok m live)
    (hblock : ∃ c ∈ self.chunks_, ∃ x, x < self.blocks_per_chunk_ ∧
      p = c.data + x * self.block_size_)
    (hlive : p ∈ live) (hgone : p ∉ live1) (hsub : ∀ a ∈ live1, a ∈ live)
    (h : Deallocate self p m = (.ok (), self1, m1)) :
    self1.block_size_ = self.block_size_ ∧
      self1.blocks_per_chunk_ = self.blocks_per_chunk_ ∧
      self1.chunks_.map (fun c => c.data) = self.chunks_.map (fun c => c.data) ∧
      m1.log = m.log ∧ (∀ a, a ≠ p → m1.read a = m.read a) ∧ self1.ok m1 live1 := by
  unfold Deallocate at h
  cases hl : self.last_dealloc_chunk_ with
  | none =>
    rw [hl] at h
    simp at h
  | some i =>
    rw [hl] at h
    simp only at h
    by_cases hempty : self.chunks_ = []
    · rw [if_pos hempty] at h
      simp at h
    · rw [if_neg hempty] at h
      cases hget : self.chunks_[i]? with
      | none =>
        rw [hget] at h
        simp at h
      | some c =>
        rw [hget] at h
        simp only at h
        by_cases hin : is_in_chunk self p c = true
        · rw [if_pos hin] at h
          obtain ⟨pool2, m2, hres, g1, g2, g3, g4, g5, _, _, g8⟩ :=
            deallocate_to_chunk_ok self p i c m live live1 hok hget hin hblock hlive hgone hsub
          rw [hres] at h
          simp only [Prod.mk.injEq, true_and] at h
          obtain ⟨h1, h2⟩ := h
          subst h1 h2
          exact ⟨g1, g2, g3, g4, g5, g8⟩
        · rw [if_neg hin] at h
          cases hf : find_first (is_in_chunk self p) self.chunks_ 0 with
          | none =>
            rw [hf] at h
            simp only [Prod.mk.injEq, true_and] at h
            obtain ⟨h1, h2⟩ := h
            subst h1 h2
            exact ⟨rfl, rfl, rfl, rfl, fun _ _ => rfl,
              ok_frame self m m live live1 hok (fun _ _ _ _ _ => rfl)
                (fun _ _ a ha => Or.inl (hsub a ha))⟩
          | some found =>
            obtain ⟨j, cj⟩ := found
            rw [hf] at h
            simp only at h
            obtain ⟨_, hgetj, hinj⟩ := find_first_some _ _ 0 j cj hf
            have hok1 : Pool.ok
                { self with last_alloc_chunk_ := some j, last_dealloc_chunk_ := some j } m live :=
              hok
            obtain ⟨pool2, m2, hres, g1, g2, g3, g4, g5, _, _, g8⟩ :=
              deallocate_to_chunk_ok
                { self with last_alloc_chunk_ := some j, last_dealloc_chunk_ := some j }
                p j cj m live live1 hok1 hgetj hinj hblock hlive hgone hsub
            rw [hres] at h
            simp only [Prod.mk.injEq, true_and] at h
            obtain ⟨h1, h2⟩ := h
            subst h1 h2
            exact ⟨g1, g2, g3, g4, g5, g8⟩

end Pool

end impl

end utils

namespace utils

namespace PoolResource

theorem pooled_addresses_cons_pooled (max_block_size : Nat) (block : Block) (live : List Block)
    (h : block_size block ≤ max_block_size) :
    pooled_addresses max_block_size (block :: live)
      = block.1 :: pooled_addresses max_block_size live := by
  unfold pooled_addresses
  rw [List.filter_cons_of_pos (by simpa using h), List.map_cons]

theorem pooled_addresses_cons_big (max_block_size : Nat) (block : Block) (live : List Block)
    (h : ¬ block_size block ≤ max_block_size) :
    pooled_addresses max_block_size (block :: live) = pooled_addresses max_block_size live := by
  unfold pooled_addresses
  rw [List.filter_cons_of_neg (by simpa using h)]

theorem mem_pooled_addresses (max_block_size : Nat) (live : List Block) (a : Nat) :
    a ∈ pooled_addresses max_block_size live ↔
      ∃ block ∈ live, block_size block ≤ max_block_size ∧ block.1 = a := by
  unfold pooled_addresses
  constructor
  · intro h
    obtain ⟨block, hb, hba⟩ := List.mem_map.mp h
    obtain ⟨hb1, hb2⟩ := List.mem_filter.mp hb
    exact ⟨block, hb1, by simpa using hb2, hba⟩
  · rintro ⟨block, hb1, hb2, hba⟩
    exact List.mem_map.mpr ⟨block, List.mem_filter.mpr ⟨hb1, by simpa using hb2⟩, hba⟩

theorem pools_keys_nodup (pools : List impl.Pool)
    (h : pools.Pairwise (fun a b => a.block_size_ < b.block_size_)) :
    (pools.map (fun a => a.block_size_)).Nodup := by
  rw [List.Nodup, List.pairwise_map]
  exact h.imp (fun hlt => Nat.ne_of_lt hlt)

theorem pool_eq_of_block_size (pools : List impl.Pool)
    (h : pools.Pairwise (fun a b => a.block_size_ < b.block_size_)) (a b : impl.Pool)
    (ha : a ∈ pools) (hb : b ∈ pools) (hab : a.block_size_ = b.block_size_) : a = b :=
  List.inj_on_of_nodup_map (pools_keys_nodup pools h) ha hb hab

/-- Where the blocks of the pools lie: every live block of a pool is inside a chunk. -/
theorem pooled_address_in_chunk (pools : List impl.Pool) (max_block_size : Nat) (m : Machine)
    (live : List Block) (hsafe : safe_pools pools max_block_size m live) (a : Nat)
    (ha : a ∈ pooled_addresses max_block_size live) :
    ∃ pool ∈ pools, ∃ chunk ∈ pool.chunks_, chunk.data ≤ a ∧
      a + pool.block_size_ ≤ chunk.data + pool.blocks_per_chunk_ * pool.block_size_ ∧
      ∃ block ∈ live, block_size block ≤ max_block_size ∧ block.1 = a ∧
        pool.block_size_ = block_size block ∧
        ∃ x, x < pool.blocks_per_chunk_ ∧ a = chunk.data + x * pool.block_size_ := by
  obtain ⟨_, _, I4, _, _⟩ := hsafe
  obtain ⟨block, hb1, hb2, hba⟩ := (mem_pooled_addresses max_block_size live a).mp ha
  obtain ⟨pool, hpool, hbs, chunk, hchunk, x, hx, hp⟩ := I4 block hb1 hb2
  have hin := impl.Pool.block_in_chunk chunk.data pool.block_size_ pool.blocks_per_chunk_ x hx
  rw [hba] at hp
  exact ⟨pool, hpool, chunk, hchunk, by omega, by omega, block, hb1, hb2, hba, hbs, x, hx, hp⟩

end PoolResource

end utils

namespace utils

namespace PoolResource

theorem safe_pools_allocate (env : Env)
    (hup : ∀ log size alignment p, 0 < alignment →
      env.upstream log size alignment = some p →
      p + size < 2 ^ 64 ∧ ∀ block ∈ live_blocks log, ranges_disjoint (p, size) block)
    (pools : List impl.Pool) (max_block_size : Nat) (m m1 : Machine) (live : List Block)
    (i : Nat) (pool pool1 : impl.Pool) (p bytes alignment : Nat)
    (hsorted : pools.Pairwise (fun a b => a.block_size_ < b.block_size_))
    (hsafe : safe_pools pools max_block_size m live)
    (hget : pools[i]? = some pool)
    (hbs : pool.block_size_ = max bytes alignment)
    (hpooled : max bytes alignment ≤ max_block_size)
    (h : pool.Allocate env m = (.ok p, pool1, m1)) :
    safe_pools (pools.set i pool1) max_block_size m1 ((p, bytes, alignment) :: live) := by
  have hinchunk := pooled_address_in_chunk pools max_block_size m live hsafe
  obtain ⟨I1, I3, I4, I5, I6⟩ := hsafe
  have hpool : pool ∈ pools := List.mem_iff_getElem?.mpr ⟨i, hget⟩
  obtain ⟨hok, _, hchunks_live⟩ := I1 pool hpool
  have hbspos : 0 < pool.block_size_ := hok.1
  have hkeys := pools_keys_nodup pools hsorted
  have hbsize : block_size (p, bytes, alignment) = max bytes alignment := rfl
  have hPA : pooled_addresses max_block_size ((p, bytes, alignment) :: live)
      = p :: pooled_addresses max_block_size live :=
    pooled_addresses_cons_pooled max_block_size _ live hpooled
  -- a block of upstream that is new is apart from the chunks and the live blocks
  have hfresh : ∀ data, pool.block_size_ ≤ env.Ceil2 pool.block_size_ →
      env.upstream m.log (pool.blocks_per_chunk_ * pool.block_size_)
          (env.Ceil2 pool.block_size_) = some data →
        data + pool.blocks_per_chunk_ * pool.block_size_ < 2 ^ 64 ∧
        (∀ c ∈ pool.chunks_,
          ranges_disjoint (data, pool.blocks_per_chunk_ * pool.block_size_)
            (c.data, pool.blocks_per_chunk_ * pool.block_size_)) ∧
        ∀ a ∈ pooled_addresses max_block_size live,
          a < data ∨ data + pool.blocks_per_chunk_ * pool.block_size_ ≤ a := by
    intro data halign hdata
    obtain ⟨hspace, hapart⟩ := hup _ _ _ _ (Nat.lt_of_lt_of_le hbspos halign) hdata
    refine ⟨hspace, fun c hc => hapart _ (hchunks_live c hc), ?_⟩
    intro a ha
    obtain ⟨pool2, hpool2, c2, hc2, h1, h2, _⟩ := hinchunk a ha
    have h3 := hapart _ ((I1 pool2 hpool2).2.2 c2 hc2)
    have h4 : 0 < pool2.block_size_ := (I1 pool2 hpool2).1.1
    unfold ranges_disjoint at h3
    simp only at h3
    omega
  obtain ⟨g1, g2, g3, g4, g5, g6⟩ := impl.Pool.pool_allocate_ok env pool pool1 m m1
    (pooled_addresses max_block_size live) p hok hfresh h
  -- the chunks that are new: none or one
  have hnews : ∃ news : List Nat,
      pool1.chunks_.map (fun c => c.data) = pool.chunks_.map (fun c => c.data) ++ news ∧
      (∀ block ∈ live_blocks m.log, block ∈ live_blocks m1.log) ∧
      (∀ d ∈ news, (d, pool.blocks_per_chunk_ * pool.block_size_) ∈ live_blocks m1.log ∧
        ∀ block ∈ live_blocks m.log,
          ranges_disjoint (d, pool.blocks_per_chunk_ * pool.block_size_) block) ∧
      ∀ a, (∀ d ∈ news, a < d ∨ d + pool.blocks_per_chunk_ * pool.block_size_ ≤ a) →
        m1.read a = m.read a := by
    rcases g6 with ⟨h1, h2⟩ | ⟨data, halign, h1, h2, h3, h4⟩
    · refine ⟨[], by rw [h2, List.append_nil], (fun block hb => by rw [h1]; exact hb),
        (fun d hd => by cases hd), (fun a _ => by rw [h1])⟩
    · have hlb : live_blocks m1.log = live_blocks m.log ++
          [(data, pool.blocks_per_chunk_ * pool.block_size_)] := by
        rw [h2]
        exact live_blocks_alloc _ _ _ _
      refine ⟨[data], h3, ?_, ?_, ?_⟩
      · intro block hb
        rw [hlb]
        exact List.mem_append_left _ hb
      · intro d hd
        rw [List.mem_singleton] at hd
        subst hd
        refine ⟨?_, (hup _ _ _ _ (Nat.lt_of_lt_of_le hbspos halign) h1).2⟩
        rw [hlb]
        exact List.mem_append_right _ (List.mem_singleton_self _)
      · intro a ha
        exact h4 a (ha data (List.mem_singleton_self _))
  obtain ⟨news, hmap, hlog, hnew, hframe⟩ := hnews
  -- every chunk after the call is a chunk from before or a new one
  have hdesc1 : ∀ c ∈ pool1.chunks_,
      (∃ c0 ∈ pool.chunks_, c0.data = c.data) ∨ c.data ∈ news := by
    intro c hc
    have hmem : c.data ∈ pool1.chunks_.map (fun c => c.data) :=
      List.mem_map.mpr ⟨c, hc, rfl⟩
    rw [hmap] at hmem
    rcases List.mem_append.mp hmem with h1 | h1
    · obtain ⟨c0, hc0, hc0d⟩ := List.mem_map.mp h1
      exact Or.inl ⟨c0, hc0, hc0d⟩
    · exact Or.inr h1
  have hdesc : ∀ pool2 ∈ pools.set i pool1, ∀ c ∈ pool2.chunks_,
      (∃ pool0 ∈ pools, pool0.block_size_ = pool2.block_size_ ∧
        pool0.blocks_per_chunk_ = pool2.blocks_per_chunk_ ∧
        ∃ c0 ∈ pool0.chunks_, c0.data = c.data) ∨
      (pool2.block_size_ = pool.block_size_ ∧
        pool2.blocks_per_chunk_ = pool.blocks_per_chunk_ ∧ c.data ∈ news) := by
    intro pool2 hpool2 c hc
    rcases mem_set_of_nodup_key (fun a : impl.Pool => a.block_size_) pools i pool pool1 hget
      hkeys pool2 hpool2 with h1 | h1
    · subst h1
      rcases hdesc1 c hc with h2 | h2
      · exact Or.inl ⟨pool, hpool, g1.symm, g2.symm, h2⟩
      · exact Or.inr ⟨g1, g2, h2⟩
    · exact Or.inl ⟨pool2, h1.1, rfl, rfl, c, hc, rfl⟩
  -- the chunks of the pools from before are apart from the new ones
  have hold_new : ∀ pool0 ∈ pools, ∀ c0 ∈ pool0.chunks_, ∀ d ∈ news,
      ranges_disjoint (d, pool.blocks_per_chunk_ * pool.block_size_)
        (c0.data, pool0.blocks_per_chunk_ * pool0.block_size_) :=
    fun pool0 hpool0 c0 hc0 d hd => (hnew d hd).2 _ ((I1 pool0 hpool0).2.2 c0 hc0)
  have hregions : ∀ pool2 ∈ pools.set i pool1, ∀ pool3 ∈ pools.set i pool1,
      ∀ c2 ∈ pool2.chunks_, ∀ c3 ∈ pool3.chunks_,
      (pool2.block_size_ = pool3.block_size_ ∧ c2.data = c3.data) ∨
        ranges_disjoint (c2.data, pool2.blocks_per_chunk_ * pool2.block_size_)
          (c3.data, pool3.blocks_per_chunk_ * pool3.block_size_) := by
    intro pool2 hpool2 pool3 hpool3 c2 hc2 c3 hc3
    rcases hdesc pool2 hpool2 c2 hc2 with ⟨p2, hp2, e1, e2, d2, hd2, e3⟩ | ⟨e1, e2, e3⟩
    · rcases hdesc pool3 hpool3 c3 hc3 with ⟨p3, hp3, f1, f2, d3, hd3, f3⟩ | ⟨f1, f2, f3⟩
      · rw [← e1, ← e2, ← e3, ← f1, ← f2, ← f3]
        exact I3 p2 hp2 p3 hp3 d2 hd2 d3 hd3
      · right
        rw [← e1, ← e2, ← e3, f1, f2]
        exact ranges_disjoint_symm _ _ (hold_new p2 hp2 d2 hd2 _ f3)
    · rcases hdesc pool3 hpool3 c3 hc3 with ⟨p3, hp3, f1, f2, d3, hd3, f3⟩ | ⟨f1, f2, f3⟩
      · right
        rw [e1, e2, ← f1, ← f2, ← f3]
        exact hold_new p3 hp3 d3 hd3 _ e3
      · left
        refine ⟨e1.trans f1.symm, ?_⟩
        -- at most one chunk is new
        have hone : ∀ d1 ∈ news, ∀ d2 ∈ news, d1 = d2 := by
          rcases g6 with ⟨_, h2⟩ | ⟨data, _, _, _, h3, _⟩
          · intro d1 hd1
            rw [h2] at hmap
            have : news = [] := by
              have := congrArg List.length hmap
              simp only [List.length_append, List.length_map] at this
              exact List.eq_nil_of_length_eq_zero (by omega)
            rw [this] at hd1
            cases hd1
          · intro d1 hd1 d2 hd2
            rw [h3] at hmap
            have : news = [data] := (List.append_cancel_left hmap).symm
            rw [this] at hd1 hd2
            rw [List.mem_singleton] at hd1 hd2
            rw [hd1, hd2]
        exact hone _ e3 _ f3
  -- the new block lies in a chunk of its pool
  obtain ⟨cp, hcp, xp, hxp, hpeq⟩ := g5
  have hpin := impl.Pool.block_in_chunk cp.data pool.block_size_ pool.blocks_per_chunk_ xp hxp
  have hpool1 : pool1 ∈ pools.set i pool1 := mem_set_new pools i pool pool1 hget
  -- the new block is apart from every chunk of another pool
  have hp_apart : ∀ pool2 ∈ pools.set i pool1, ∀ c2 ∈ pool2.chunks_,
      (pool2.block_size_ = pool.block_size_ ∧ c2.data = cp.data) ∨
        p + pool.block_size_ ≤ c2.data ∨
        c2.data + pool2.blocks_per_chunk_ * pool2.block_size_ ≤ p := by
    intro pool2 hpool2 c2 hc2
    rcases hregions pool1 hpool1 pool2 hpool2 cp hcp c2 hc2 with h1 | h1
    · exact Or.inl ⟨h1.1.symm.trans g1, h1.2.symm⟩
    · right
      unfold ranges_disjoint at h1
      simp only at h1
      rw [g1, g2] at h1
      omega
  refine ⟨?_, hregions, ?_, ?_, ?_⟩
  · -- the pools are in order
    intro pool2 hpool2
    rcases mem_set_of_nodup_key (fun a : impl.Pool => a.block_size_) pools i pool pool1 hget
      hkeys pool2 hpool2 with h1 | h1
    · subst h1
      refine ⟨by rw [hPA]; exact g4, by rw [g1, hbs]; exact hpooled, ?_⟩
      intro c hc
      rw [g1, g2]
      rcases hdesc1 c hc with ⟨c0, hc0, e⟩ | e
      · rw [← e]
        exact hlog _ (hchunks_live c0 hc0)
      · exact (hnew _ e).1
    · obtain ⟨h2, h3⟩ := h1
      have h3 : pool2.block_size_ ≠ pool.block_size_ := h3
      obtain ⟨hok2, hle2, hlive2⟩ := I1 pool2 h2
      refine ⟨?_, hle2, fun c hc => hlog _ (hlive2 c hc)⟩
      rw [hPA]
      refine impl.Pool.ok_frame pool2 m m1 _ _ hok2 ?_ ?_
      · intro c hc a ha1 ha2
        apply hframe
        intro d hd
        have := hold_new pool2 h2 c hc d hd
        unfold ranges_disjoint at this
        simp only at this
        omega
      · intro c hc a ha
        rcases List.mem_cons.mp ha with h4 | h4
        · right
          rcases hp_apart pool2 hpool2 c hc with h5 | h5
          · exact absurd h5.1 h3
          · omega
        · exact Or.inl h4
  · -- every live block of a pool is a block of a chunk
    intro block hblock hsize
    rcases List.mem_cons.mp hblock with h1 | h1
    · subst h1
      exact ⟨pool1, hpool1, by rw [g1, hbs]; rfl, cp, hcp, xp, by rw [g2]; exact hxp,
        by rw [g1]; exact hpeq⟩
    · obtain ⟨pool0, hpool0, e1, c0, hc0, x, hx, e2⟩ := I4 block h1 hsize
      by_cases hkey : pool0.block_size_ = pool.block_size_
      · have hsame : pool0 = pool := pool_eq_of_block_size pools hsorted _ _ hpool0 hpool hkey
        subst hsame
        have hmem : c0.data ∈ pool1.chunks_.map (fun c => c.data) := by
          rw [hmap]
          exact List.mem_append_left _ (List.mem_map.mpr ⟨c0, hc0, rfl⟩)
        obtain ⟨c1, hc1, hc1d⟩ := List.mem_map.mp hmem
        have hc1d1 : c1.data = c0.data := hc1d
        exact ⟨pool1, hpool1, by rw [g1]; exact e1, c1, hc1, x, by rw [g2]; exact hx,
          by rw [g1, hc1d1]; exact e2⟩
      · exact ⟨pool0, mem_set_of_key_ne (fun a : impl.Pool => a.block_size_) pools i pool pool1
          pool0 hget hpool0 hkey, e1, c0, hc0, x, hx, e2⟩
  · -- no two live blocks share an address
    rw [List.pairwise_cons]
    refine ⟨?_, I5⟩
    intro block hblock
    have hocc : occupied max_block_size (p, bytes, alignment) = (p, pool.block_size_) := by
      unfold occupied
      rw [hbsize, if_pos hpooled, hbs]
    rw [hocc]
    by_cases hsize : block_size block ≤ max_block_size
    · -- a block of a pool
      have hmemPA : block.1 ∈ pooled_addresses max_block_size live :=
        (mem_pooled_addresses max_block_size live block.1).mpr ⟨block, hblock, hsize, rfl⟩
      obtain ⟨pool0, hpool0, e1, c0, hc0, x, hx, e2⟩ := I4 block hblock hsize
      have hin0 := impl.Pool.block_in_chunk c0.data pool0.block_size_ pool0.blocks_per_chunk_
        x hx
      have hocc2 : occupied max_block_size block = (block.1, pool0.block_size_) := by
        unfold occupied
        rw [if_pos hsize, e1]
      rw [hocc2]
      right; right
      unfold ranges_disjoint
      simp only
      have hne : p ≠ block.1 := fun heq => g3 (heq ▸ hmemPA)
      -- the chunk of the new block
      rcases hdesc1 cp hcp with ⟨c1, hc1, e3⟩ | e3
      · rcases I3 pool hpool pool0 hpool0 c1 hc1 c0 hc0 with h5 | h5
        · obtain ⟨h6, h7⟩ := h5
          rw [← h6] at e2 hin0 ⊢
          rw [← h7, e3] at e2
          rcases Nat.lt_trichotomy xp x with h8 | h8 | h8
          · have := block_offset_lt pool.block_size_ xp x h8
            omega
          · subst h8
            omega
          · have := block_offset_lt pool.block_size_ x xp h8
            omega
        · unfold ranges_disjoint at h5
          simp only at h5
          rw [e3] at h5
          omega
      · have := hold_new pool0 hpool0 c0 hc0 _ e3
        unfold ranges_disjoint at this
        simp only at this
        omega
    · -- a big block
      have hocc2 : occupied max_block_size block = (block.1, block.2.1) := by
        unfold occupied
        rw [if_neg hsize]
      rw [hocc2]
      by_cases hzero : block.2.1 = 0
      · exact Or.inr (Or.inl hzero)
      · right; right
        obtain ⟨h5, h6⟩ := I6 block hblock hsize (Nat.pos_of_ne_zero hzero)
        unfold ranges_disjoint
        simp only
        rcases hdesc1 cp hcp with ⟨c1, hc1, e3⟩ | e3
        · have := h6 pool hpool c1 hc1
          unfold ranges_disjoint at this
          simp only at this
          rw [e3] at this
          omega
        · have := (hnew _ e3).2 _ h5
          unfold ranges_disjoint at this
          simp only at this
          omega
  · -- the big blocks
    intro block hblock hsize hpos
    rcases List.mem_cons.mp hblock with h1 | h1
    · subst h1
      exact absurd hpooled hsize
    · obtain ⟨h5, h6⟩ := I6 block h1 hsize hpos
      refine ⟨hlog _ h5, ?_⟩
      intro pool2 hpool2 c hc
      rcases hdesc pool2 hpool2 c hc with ⟨p2, hp2, e1, e2, d2, hd2, e3⟩ | ⟨e1, e2, e3⟩
      · rw [← e1, ← e2, ← e3]
        exact h6 p2 hp2 d2 hd2
      · rw [e1, e2]
        exact ranges_disjoint_symm _ _ ((hnew _ e3).2 _ h5)

end PoolResource

end utils

namespace utils

theorem live_blocks_failed (log : List UpEvent) (bytes alignment : Nat) :
    live_blocks (log ++ [UpEvent.alloc bytes alignment none]) = live_blocks log := by
  unfold live_blocks
  rw [List.foldl_append]
  rfl

theorem live_blocks_dealloc (log : List UpEvent) (p bytes alignment : Nat) :
    live_blocks (log ++ [UpEvent.dealloc p bytes alignment])
      = (live_blocks log).erase (p, bytes) := by
  unfold live_blocks
  rw [List.foldl_append]
  rfl

theorem mem_insert_at {α : Type} (xs : List α) (it : Nat) (x a : α) :
    a ∈ insert_at xs it x ↔ a = x ∨ a ∈ xs := by
  unfold insert_at
  rw [List.mem_append, List.mem_cons]
  constructor
  · rintro (h | h | h)
    · exact Or.inr (List.mem_of_mem_take h)
    · exact Or.inl h
    · exact Or.inr (List.mem_of_mem_drop h)
  · rintro (h | h)
    · exact Or.inr (Or.inl h)
    · have := List.take_append_drop it xs
      rw [← this] at h
      rcases List.mem_append.mp h with h1 | h1
      · exact Or.inl h1
      · exact Or.inr (Or.inr h1)

theorem set_same {α : Type} (l : List α) (i : Nat) (a : α) (h : l[i]? = some a) :
    l.set i a = l := by
  apply List.ext_getElem?
  intro j
  by_cases hij : i = j
  · subst hij
    rw [List.getElem?_set_self (List.getElem?_eq_some_iff.mp h).1, h]
  · rw [List.getElem?_set_ne hij]

namespace impl

namespace Pool

theorem allocate_new_chunk_error (env : Env) (self self1 : Pool) (m m1 : Machine) (e : Exn)
    (h : allocate_new_chunk env self m = (.error e, self1, m1)) :
    self1 = self ∧ m1.mem = m.mem ∧ live_blocks m1.log = live_blocks m.log := by
  unfold allocate_new_chunk at h
  by_cases h1 : self.blocks_per_chunk_ = 0
  · rw [if_pos h1] at h
    simp only [Prod.mk.injEq] at h
    obtain ⟨_, h2, h3⟩ := h
    subst h2 h3
    exact ⟨rfl, rfl, rfl⟩
  · rw [if_neg h1] at h
    by_cases h2 : self.block_size_ > SIZE_MAX / self.blocks_per_chunk_
    · rw [if_pos h2] at h
      simp only [Prod.mk.injEq] at h
      obtain ⟨_, h2, h3⟩ := h
      subst h2 h3
      exact ⟨rfl, rfl, rfl⟩
    · rw [if_neg h2] at h
      simp only at h
      by_cases h3 : env.Ceil2 self.block_size_ < self.block_size_
      · rw [if_pos h3] at h
        simp only [Prod.mk.injEq] at h
        obtain ⟨_, h2, h3⟩ := h
        subst h2 h3
        exact ⟨rfl, rfl, rfl⟩
      · rw [if_neg h3] at h
        unfold Upstream.Allocate at h
        cases hu : env.upstream m.log (wrap (self.blocks_per_chunk_ * self.block_size_))
            (env.Ceil2 self.block_size_) with
        | none =>
          rw [hu] at h
          simp only [Prod.mk.injEq] at h
          obtain ⟨_, h2, h3⟩ := h
          subst h2 h3
          exact ⟨rfl, rfl, live_blocks_failed _ _ _⟩
        | some data =>
          rw [hu] at h
          simp only [Prod.mk.injEq] at h
          exact absurd h.1 (by simp)

theorem allocate_search_error (env : Env) (self self1 : Pool) (m m1 : Machine) (e : Exn)
    (h : allocate_search env self m = (.error e, self1, m1)) :
    self1 = self ∧ m1.mem = m.mem ∧ live_blocks m1.log = live_blocks m.log := by
  unfold allocate_search at h
  cases hf : find_first (fun c => decide (c.blocks_available > 0)) self.chunks_ 0 with
  | none =>
    rw [hf] at h
    exact allocate_new_chunk_error env self self1 m m1 e h
  | some found =>
    rw [hf] at h
    simp only [Prod.mk.injEq] at h
    exact absurd h.1 (by simp)

theorem pool_allocate_error (env : Env) (self self1 : Pool) (m m1 : Machine) (e : Exn)
    (h : Allocate env self m = (.error e, self1, m1)) :
    self1 = self ∧ m1.mem = m.mem ∧ live_blocks m1.log = live_blocks m.log := by
  unfold Allocate at h
  cases hd : deref self.chunks_ self.last_alloc_chunk_ with
  | error e1 =>
    rw [hd] at h
    simp only [Prod.mk.injEq] at h
    obtain ⟨_, h2, h3⟩ := h
    subst h2 h3
    exact ⟨rfl, rfl, rfl⟩
  | ok found =>
    rw [hd] at h
    cases found with
    | none => exact allocate_search_error env self self1 m m1 e h
    | some ic =>
      obtain ⟨i, c⟩ := ic
      simp only at h
      by_cases hc : c.blocks_available > 0
      · rw [if_pos hc] at h
        simp only [Prod.mk.injEq] at h
        exact absurd h.1 (by simp)
      · rw [if_neg hc] at h
        exact allocate_search_error env self self1 m m1 e h

end Pool

end impl

namespace PoolResource

theorem safe_pools_frame (pools : List impl.Pool) (max_block_size : Nat) (m m1 : Machine)
    (live : List Block) (h : safe_pools pools max_block_size m live)
    (hmem : m1.mem = m.mem) (hlog : live_blocks m1.log = live_blocks m.log) :
    safe_pools pools max_block_size m1 live := by
  obtain ⟨I1, I3, I4, I5, I6⟩ := h
  have hread : ∀ a, m1.read a = m.read a := fun a => by
    unfold Machine.read
    rw [hmem]
  refine ⟨?_, I3, I4, I5, ?_⟩
  · intro pool hpool
    obtain ⟨h1, h2, h3⟩ := I1 pool hpool
    refine ⟨impl.Pool.ok_frame pool m m1 _ _ h1 (fun c _ a _ _ => hread a)
      (fun c _ a ha => Or.inl ha), h2, ?_⟩
    rw [hlog]
    exact h3
  · rw [hlog]
    exact I6

theorem safe_pools_insert (pools : List impl.Pool) (max_block_size : Nat) (m : Machine)
    (live : List Block) (it block_size n : Nat)
    (h : safe_pools pools max_block_size m live) (hbs : 0 < block_size)
    (hle : block_size ≤ max_block_size) (hn0 : 0 < n) (hn : n ≤ 255) :
    safe_pools (insert_at pools it (impl.Pool.create block_size n)) max_block_size m live := by
  obtain ⟨I1, I3, I4, I5, I6⟩ := h
  have hmem := mem_insert_at pools it (impl.Pool.create block_size n)
  have hempty : ∀ c, c ∉ (impl.Pool.create block_size n).chunks_ := fun c hc => by cases hc
  have hblocks : (impl.Pool.create block_size n).blocks_per_chunk_ = n := by
    show to_uchar n = n
    unfold to_uchar
    omega
  refine ⟨?_, ?_, ?_, I5, ?_⟩
  · intro pool hpool
    rcases (hmem pool).mp hpool with h1 | h1
    · subst h1
      refine ⟨⟨hbs, by rw [hblocks]; exact hn0, by rw [hblocks]; exact hn, List.nodup_nil,
        (fun c1 hc1 => absurd hc1 (hempty c1)), (fun c hc => absurd hc (hempty c))⟩, hle,
        (fun c hc => absurd hc (hempty c))⟩
    · exact I1 pool h1
  · intro pool1 hpool1 pool2 hpool2 c1 hc1 c2 hc2
    rcases (hmem pool1).mp hpool1 with h1 | h1
    · subst h1
      exact absurd hc1 (hempty c1)
    · rcases (hmem pool2).mp hpool2 with h2 | h2
      · subst h2
        exact absurd hc2 (hempty c2)
      · exact I3 pool1 h1 pool2 h2 c1 hc1 c2 hc2
  · intro block hblock hsize
    obtain ⟨pool, hpool, rest⟩ := I4 block hblock hsize
    exact ⟨pool, (hmem pool).mpr (Or.inr hpool), rest⟩
  · intro block hblock hsize hpos
    obtain ⟨h1, h2⟩ := I6 block hblock hsize hpos
    refine ⟨h1, ?_⟩
    intro pool hpool c hc
    rcases (hmem pool).mp hpool with h3 | h3
    · subst h3
      exact absurd hc (hempty c)
    · exact h2 pool h3 c hc

theorem safe_pools_allocate_from (env : Env)
    (hup : ∀ log size alignment p, 0 < alignment →
      env.upstream log size alignment = some p →
      p + size < 2 ^ 64 ∧ ∀ block ∈ live_blocks log, ranges_disjoint (p, size) block)
    (pools : List impl.Pool) (max_block_size : Nat) (m : Machine) (live : List Block)
    (i : Nat) (pool : impl.Pool) (bytes alignment : Nat)
    (hsorted : pools.Pairwise (fun a b => a.block_size_ < b.block_size_))
    (hsafe : safe_pools pools max_block_size m live)
    (hget : pools[i]? = some pool)
    (hbs : pool.block_size_ = max bytes alignment)
    (hpooled : max bytes alignment ≤ max_block_size) :
    safe_pools (pools.set i (pool.Allocate env m).2.1) max_block_size (pool.Allocate env m).2.2
      (allocated live bytes alignment (pool.Allocate env m).1) := by
  rcases hr : pool.Allocate env m with ⟨r, pool1, m1⟩
  cases r with
  | ok p =>
    exact safe_pools_allocate env hup pools max_block_size m m1 live i pool pool1 p bytes
      alignment hsorted hsafe hget hbs hpooled hr
  | error e =>
    obtain ⟨h1, h2, h3⟩ := impl.Pool.pool_allocate_error env pool pool1 m m1 e hr
    subst h1
    show safe_pools (pools.set i pool1) max_block_size m1 live
    rw [set_same pools i pool1 hget]
    exact safe_pools_frame pools max_block_size m m1 live hsafe h2 h3

theorem allocate_find_pool_limits (env : Env) (block_size : Nat) (self : PoolResource)
    (m : Machine) :
    (allocate_find_pool env block_size self m).2.1.max_block_size_ = self.max_block_size_ ∧
      (allocate_find_pool env block_size self m).2.1.max_blocks_per_chunk_
        = self.max_blocks_per_chunk_ := by
  unfold allocate_find_pool
  simp only []
  split
  · split_ifs
    · exact ⟨rfl, rfl⟩
    · exact ⟨rfl, rfl⟩
  · exact ⟨rfl, rfl⟩

theorem safe_allocate_find_pool (env : Env)
    (hup : ∀ log size alignment p, 0 < alignment →
      env.upstream log size alignment = some p →
      p + size < 2 ^ 64 ∧ ∀ block ∈ live_blocks log, ranges_disjoint (p, size) block)
    (self : PoolResource) (m : Machine) (live : List Block) (bytes alignment : Nat)
    (hsafe : safe self m live) (hpos : 0 < max bytes alignment)
    (hpooled : max bytes alignment ≤ self.max_block_size_) :
    safe_pools (allocate_find_pool env (max bytes alignment) self m).2.1.pools_
      self.max_block_size_ (allocate_find_pool env (max bytes alignment) self m).2.2
      (allocated live bytes alignment
        (allocate_find_pool env (max bytes alignment) self m).1) := by
  obtain ⟨hinv, hn0, hn, hpools⟩ := hsafe
  obtain ⟨i, pool, self1, h1, h2, _, _, h5, h6, h7⟩ :=
    allocate_find_pool_served env (max bytes alignment) self m hinv
  rw [h7]
  have hsafe1 : safe_pools self1.pools_ self.max_block_size_ m live := by
    rcases h5 with h5 | ⟨_, h5⟩
    · rw [h5]
      exact hpools
    · rw [h5]
      exact safe_pools_insert self.pools_ self.max_block_size_ m live i _ _ hpools hpos hpooled
        hn0 hn
  exact safe_pools_allocate_from env hup self1.pools_ self.max_block_size_ m live i pool bytes
    alignment h6.1 hsafe1 h2 h1 hpooled

end PoolResource

end utils

namespace utils

namespace PoolResource

theorem safe_pools_big_allocate (env : Env)
    (hup : ∀ log size alignment p, 0 < alignment →
      env.upstream log size alignment = some p →
      p + size < 2 ^ 64 ∧ ∀ block ∈ live_blocks log, ranges_disjoint (p, size) block)
    (self : PoolResource) (max_block_size : Nat) (m : Machine) (live : List Block)
    (bytes alignment : Nat)
    (hsafe : safe_pools self.pools_ max_block_size m live)
    (hbig : ¬ max bytes alignment ≤ max_block_size) (halign : 0 < alignment) :
    safe_pools (allocate_big_block env bytes alignment self m).2.1.pools_ max_block_size
      (allocate_big_block env bytes alignment self m).2.2
      (allocated live bytes alignment (allocate_big_block env bytes alignment self m).1) := by
  unfold allocate_big_block Upstream.Allocate
  cases hu : env.upstream m.log bytes alignment with
  | none =>
    simp only []
    exact safe_pools_frame self.pools_ max_block_size m _ live hsafe rfl
      (live_blocks_failed _ _ _)
  | some data =>
    simp only []
    show safe_pools self.pools_ max_block_size
      { m with log := m.log ++ [UpEvent.alloc bytes alignment (some data)] }
      ((data, bytes, alignment) :: live)
    obtain ⟨I1, I3, I4, I5, I6⟩ := hsafe
    obtain ⟨_, hapart⟩ := hup _ _ _ _ halign hu
    have hbsize : ¬ block_size (data, bytes, alignment) ≤ max_block_size := hbig
    have hPA : pooled_addresses max_block_size ((data, bytes, alignment) :: live)
        = pooled_addresses max_block_size live :=
      pooled_addresses_cons_big max_block_size _ live hbsize
    have hlb : live_blocks (m.log ++ [UpEvent.alloc bytes alignment (some data)])
        = live_blocks m.log ++ [(data, bytes)] := live_blocks_alloc _ _ _ _
    refine ⟨?_, I3, ?_, ?_, ?_⟩
    · intro pool hpool
      obtain ⟨h1, h2, h3⟩ := I1 pool hpool
      rw [hPA]
      refine ⟨impl.Pool.ok_frame pool m _ _ _ h1 (fun c _ a _ _ => rfl)
        (fun c _ a ha => Or.inl ha), h2, ?_⟩
      intro c hc
      show _ ∈ live_blocks (m.log ++ [UpEvent.alloc bytes alignment (some data)])
      rw [hlb]
      exact List.mem_append_left _ (h3 c hc)
    · intro block hblock hsize
      rcases List.mem_cons.mp hblock with h1 | h1
      · subst h1
        exact absurd hsize hbsize
      · exact I4 block h1 hsize
    · rw [List.pairwise_cons]
      refine ⟨?_, I5⟩
      intro block hblock
      have hocc : occupied max_block_size (data, bytes, alignment) = (data, bytes) := by
        unfold occupied
        rw [if_neg hbsize]
      rw [hocc]
      by_cases hzero : bytes = 0
      · exact Or.inl hzero
      · right
        by_cases hsize : block_size block ≤ max_block_size
        · obtain ⟨pool, hpool, g3, c, hc, x, hx, g4⟩ := I4 block hblock hsize
          have hin := impl.Pool.block_in_chunk c.data pool.block_size_ pool.blocks_per_chunk_
            x hx
          have hocc2 : occupied max_block_size block = (block.1, pool.block_size_) := by
            unfold occupied
            rw [if_pos hsize, g3]
          rw [hocc2]
          right
          have := hapart _ ((I1 pool hpool).2.2 c hc)
          unfold ranges_disjoint at this ⊢
          simp only at this ⊢
          omega
        · have hocc2 : occupied max_block_size block = (block.1, block.2.1) := by
            unfold occupied
            rw [if_neg hsize]
          rw [hocc2]
          by_cases hzero2 : block.2.1 = 0
          · exact Or.inl hzero2
          · exact Or.inr (hapart _ (I6 block hblock hsize (Nat.pos_of_ne_zero hzero2)).1)
    · intro block hblock hsize hpos
      show _ ∈ live_blocks (m.log ++ [UpEvent.alloc bytes alignment (some data)]) ∧ _
      rw [hlb]
      rcases List.mem_cons.mp hblock with h1 | h1
      · subst h1
        refine ⟨List.mem_append_right _ (List.mem_singleton_self _), ?_⟩
        intro pool hpool c hc
        exact hapart _ ((I1 pool hpool).2.2 c hc)
      · obtain ⟨h2, h3⟩ := I6 block h1 hsize hpos
        exact ⟨List.mem_append_left _ h2, h3⟩

theorem allocate_big_block_limits (env : Env) (bytes alignment : Nat) (self : PoolResource)
    (m : Machine) :
    (allocate_big_block env bytes alignment self m).2.1.pools_ = self.pools_ ∧
    (allocate_big_block env bytes alignment self m).2.1.max_block_size_
        = self.max_block_size_ ∧
      (allocate_big_block env bytes alignment self m).2.1.max_blocks_per_chunk_
        = self.max_blocks_per_chunk_ := by
  unfold allocate_big_block
  split
  · exact ⟨rfl, rfl, rfl⟩
  · exact ⟨rfl, rfl, rfl⟩

theorem DoAllocate_limits (env : Env) (bytes alignment : Nat) (self : PoolResource)
    (m : Machine) :
    (DoAllocate env bytes alignment self m).2.1.max_block_size_ = self.max_block_size_ ∧
      (DoAllocate env bytes alignment self m).2.1.max_blocks_per_chunk_
        = self.max_blocks_per_chunk_ := by
  unfold DoAllocate
  simp only []
  split_ifs
  · exact ⟨rfl, rfl⟩
  · exact ⟨rfl, rfl⟩
  · exact (allocate_big_block_limits env bytes alignment self m).2
  · split
    · exact ⟨rfl, rfl⟩
    · exact allocate_find_pool_limits env _ self m
    · split_ifs
      · exact ⟨rfl, rfl⟩
      · exact allocate_find_pool_limits env _ self m

theorem safe_DoAllocate (env : Env)
    (hup : ∀ log size alignment p, 0 < alignment →
      env.upstream log size alignment = some p →
      p + size < 2 ^ 64 ∧ ∀ block ∈ live_blocks log, ranges_disjoint (p, size) block)
    (bytes alignment : Nat) (self : PoolResource) (m : Machine) (live : List Block)
    (hsafe : safe self m live) :
    safe (DoAllocate env bytes alignment self m).2.1 (DoAllocate env bytes alignment self m).2.2
      (allocated live bytes alignment (DoAllocate env bytes alignment self m).1) := by
  have hlim := DoAllocate_limits env bytes alignment self m
  refine ⟨PoolResource.DoAllocate_invariant env bytes alignment self m hsafe.1,
    by rw [hlim.2]; exact hsafe.2.1, by rw [hlim.2]; exact hsafe.2.2.1, ?_⟩
  rw [hlim.1]
  have hpools := hsafe.2.2.2
  unfold DoAllocate
  simp only []
  by_cases h0 : alignment = 0
  · rw [if_pos h0]
    exact hpools
  · rw [if_neg h0]
    by_cases h1 : max bytes alignment % alignment ≠ 0
    · rw [if_pos h1]
      exact hpools
    · rw [if_neg h1]
      by_cases h2 : max bytes alignment > self.max_block_size_
      · rw [if_pos h2]
        exact safe_pools_big_allocate env hup self self.max_block_size_ m live bytes alignment
          hpools (by omega) (Nat.pos_of_ne_zero h0)
      · rw [if_neg h2]
        have hpos : 0 < max bytes alignment :=
          Nat.lt_of_lt_of_le (Nat.pos_of_ne_zero h0) (le_max_right _ _)
        have hfind := safe_allocate_find_pool env hup self m live bytes alignment hsafe hpos
          (Nat.le_of_not_lt h2)
        cases hd : deref self.pools_ self.last_alloc_pool_ with
        | error e =>
          simp only []
          exact hpools
        | ok found =>
          cases found with
          | none =>
            simp only []
            exact hfind
          | some ip =>
            obtain ⟨i, pool⟩ := ip
            simp only []
            by_cases h3 : pool.block_size_ = max bytes alignment
            · rw [if_pos h3]
              exact safe_pools_allocate_from env hup self.pools_ self.max_block_size_ m live i
                pool bytes alignment hsafe.1.1 hpools (deref_ok_some _ _ _ _ hd).2 h3
                (Nat.le_of_not_lt h2)
            · rw [if_neg h3]
              exact hfind

end PoolResource

end utils

namespace utils

theorem pairwise_erase_rel {α : Type} [BEq α] [LawfulBEq α] (R : α → α → Prop)
    (hsymm : ∀ a b, R a b → R b a) (l : List α) (r b : α)
    (h : l.Pairwise R) (hr : r ∈ l) (hb : b ∈ l.erase r) : R r b := by
  induction l with
  | nil => cases hr
  | cons x xs ih =>
    rw [List.pairwise_cons] at h
    by_cases hx : x = r
    · subst hx
      rw [List.erase_cons_head] at hb
      exact h.1 b hb
    · rw [List.erase_cons_tail (by simpa using hx)] at hb
      have hr1 : r ∈ xs := by
        rcases List.mem_cons.mp hr with h2 | h2
        · exact absurd h2.symm hx
        · exact h2
      rcases List.mem_cons.mp hb with h1 | h1
      · subst h1
        exact hsymm _ _ (h.1 r hr1)
      · exact ih h.2 hr1 h1

theorem no_overlap_symm (a b : Nat × Nat) (h : no_overlap a b) : no_overlap b a := by
  rcases h with h | h | h
  · exact Or.inr (Or.inl h)
  · exact Or.inl h
  · exact Or.inr (Or.inr (ranges_disjoint_symm _ _ h))

namespace PoolResource

theorem pooled_block_size_pos (pools : List impl.Pool) (max_block_size : Nat) (m : Machine)
    (live : List Block) (hsafe : safe_pools pools max_block_size m live) (block : Block)
    (hblock : block ∈ live) (hsize : block_size block ≤ max_block_size) :
    0 < block_size block := by
  obtain ⟨pool, hpool, h1, _⟩ := hsafe.2.2.1 block hblock hsize
  rw [← h1]
  exact (hsafe.1 pool hpool).1.1

theorem pooled_addresses_erase (max_block_size : Nat) (live : List Block) (r : Block) :
    ∀ a ∈ pooled_addresses max_block_size (live.erase r),
      a ∈ pooled_addresses max_block_size live := by
  intro a ha
  obtain ⟨block, h1, h2, h3⟩ := (mem_pooled_addresses max_block_size _ a).mp ha
  exact (mem_pooled_addresses max_block_size live a).mpr
    ⟨block, List.mem_of_mem_erase h1, h2, h3⟩

theorem safe_pools_deallocate (pools : List impl.Pool) (max_block_size : Nat)
    (m m1 : Machine) (live : List Block) (i : Nat) (pool pool1 : impl.Pool)
    (p bytes alignment : Nat)
    (hsorted : pools.Pairwise (fun a b => a.block_size_ < b.block_size_))
    (hsafe : safe_pools pools max_block_size m live)
    (hget : pools[i]? = some pool)
    (hbs : pool.block_size_ = max bytes alignment)
    (hpooled : max bytes alignment ≤ max_block_size)
    (hlive : (p, bytes, alignment) ∈ live)
    (h : pool.Deallocate p m = (.ok (), pool1, m1)) :
    safe_pools (pools.set i pool1) max_block_size m1 (live.erase (p, bytes, alignment)) := by
  have hpos := pooled_block_size_pos pools max_block_size m live hsafe
  obtain ⟨I1, I3, I4, I5, I6⟩ := hsafe
  have hpool : pool ∈ pools := List.mem_iff_getElem?.mpr ⟨i, hget⟩
  obtain ⟨hok, _, hchunks_live⟩ := I1 pool hpool
  have hkeys := pools_keys_nodup pools hsorted
  have hrsize : block_size (p, bytes, alignment) ≤ max_block_size := hpooled
  have hrbs : block_size (p, bytes, alignment) = pool.block_size_ := hbs.symm
  -- the block is a block of a chunk of the pool
  have hblock : ∃ c ∈ pool.chunks_, ∃ x, x < pool.blocks_per_chunk_ ∧
      p = c.data + x * pool.block_size_ := by
    obtain ⟨pool0, hpool0, e1, c0, hc0, x, hx, e2⟩ := I4 _ hlive hrsize
    have hsame : pool0 = pool :=
      pool_eq_of_block_size pools hsorted _ _ hpool0 hpool (e1.trans hrbs)
    subst hsame
    exact ⟨c0, hc0, x, hx, e2⟩
  have hlivePA : p ∈ pooled_addresses max_block_size live :=
    (mem_pooled_addresses max_block_size live p).mpr ⟨_, hlive, hrsize, rfl⟩
  have hgone : p ∉ pooled_addresses max_block_size (live.erase (p, bytes, alignment)) := by
    intro hmem
    obtain ⟨block, hb, hsize, hp⟩ := (mem_pooled_addresses max_block_size _ p).mp hmem
    have hrel := pairwise_erase_rel
      (fun a b => no_overlap (occupied max_block_size a) (occupied max_block_size b))
      (fun a b hab => no_overlap_symm _ _ hab) live _ block I5 hlive hb
    have h1 := hpos block (List.mem_of_mem_erase hb) hsize
    have h2 := hpos _ hlive hrsize
    have hocc1 : occupied max_block_size (p, bytes, alignment)
        = (p, block_size (p, bytes, alignment)) := by
      unfold occupied
      rw [if_pos hrsize]
    have hocc2 : occupied max_block_size block = (p, block_size block) := by
      unfold occupied
      rw [if_pos hsize, hp]
    have hrel1 : no_overlap (p, block_size (p, bytes, alignment)) (p, block_size block) := by
      rw [← hocc1, ← hocc2]
      exact hrel
    unfold no_overlap ranges_disjoint at hrel1
    simp only at hrel1
    omega
  have hsub := pooled_addresses_erase max_block_size live (p, bytes, alignment)
  obtain ⟨g1, g2, g3, g4, g5, g6⟩ := impl.Pool.pool_deallocate_ok pool pool1 p m m1
    (pooled_addresses max_block_size live) _ hok hblock hlivePA hgone hsub h
  obtain ⟨cp, hcp, xp, hxp, hpeq⟩ := hblock
  have hpin := impl.Pool.block_in_chunk cp.data pool.block_size_ pool.blocks_per_chunk_ xp hxp
  have hbspos : 0 < pool.block_size_ := hok.1
  -- every chunk after the call is a chunk from before
  have hdesc1 : ∀ c ∈ pool1.chunks_, ∃ c0 ∈ pool.chunks_, c0.data = c.data := by
    intro c hc
    have hmem : c.data ∈ pool1.chunks_.map (fun c => c.data) :=
      List.mem_map.mpr ⟨c, hc, rfl⟩
    rw [g3] at hmem
    obtain ⟨c0, hc0, hc0d⟩ := List.mem_map.mp hmem
    exact ⟨c0, hc0, hc0d⟩
  have hdesc : ∀ pool2 ∈ pools.set i pool1, ∀ c ∈ pool2.chunks_,
      ∃ pool0 ∈ pools, pool0.block_size_ = pool2.block_size_ ∧
        pool0.blocks_per_chunk_ = pool2.blocks_per_chunk_ ∧
        ∃ c0 ∈ pool0.chunks_, c0.data = c.data := by
    intro pool2 hpool2 c hc
    rcases mem_set_of_nodup_key (fun a : impl.Pool => a.block_size_) pools i pool pool1 hget
      hkeys pool2 hpool2 with h1 | h1
    · subst h1
      exact ⟨pool, hpool, g1.symm, g2.symm, hdesc1 c hc⟩
    · exact ⟨pool2, h1.1, rfl, rfl, c, hc, rfl⟩
  have hpool1 : pool1 ∈ pools.set i pool1 := mem_set_new pools i pool pool1 hget
  refine ⟨?_, ?_, ?_, I5.sublist (List.erase_sublist _ _), ?_⟩
  · intro pool2 hpool2
    rcases mem_set_of_nodup_key (fun a : impl.Pool => a.block_size_) pools i pool pool1 hget
      hkeys pool2 hpool2 with h1 | h1
    · subst h1
      refine ⟨g6, by rw [g1, hbs]; exact hpooled, ?_⟩
      intro c hc
      obtain ⟨c0, hc0, e⟩ := hdesc1 c hc
      rw [g1, g2, g4, ← e]
      exact hchunks_live c0 hc0
    · obtain ⟨h2, h3⟩ := h1
      have h3 : pool2.block_size_ ≠ pool.block_size_ := h3
      obtain ⟨hok2, hle2, hlive2⟩ := I1 pool2 h2
      refine ⟨?_, hle2, fun c hc => by rw [g4]; exact hlive2 c hc⟩
      refine impl.Pool.ok_frame pool2 m m1 _ _ hok2 ?_ (fun c _ a ha => Or.inl (hsub a ha))
      intro c hc a ha1 ha2
      apply g5
      rcases I3 pool2 h2 pool hpool c hc cp hcp with h4 | h4
      · exact absurd h4.1 h3
      · unfold ranges_disjoint at h4
        simp only at h4
        omega
  · intro pool2 hpool2 pool3 hpool3 c2 hc2 c3 hc3
    obtain ⟨p2, hp2, e1, e2, d2, hd2, e3⟩ := hdesc pool2 hpool2 c2 hc2
    obtain ⟨p3, hp3, f1, f2, d3, hd3, f3⟩ := hdesc pool3 hpool3 c3 hc3
    rw [← e1, ← e2, ← e3, ← f1, ← f2, ← f3]
    exact I3 p2 hp2 p3 hp3 d2 hd2 d3 hd3
  · intro block hblock hsize
    obtain ⟨pool0, hpool0, e1, c0, hc0, x, hx, e2⟩ := I4 block (List.mem_of_mem_erase hblock)
      hsize
    by_cases hkey : pool0.block_size_ = pool.block_size_
    · have hsame : pool0 = pool := pool_eq_of_block_size pools hsorted _ _ hpool0 hpool hkey
      subst hsame
      have hmem : c0.data ∈ pool1.chunks_.map (fun c => c.data) := by
        rw [g3]
        exact List.mem_map.mpr ⟨c0, hc0, rfl⟩
      obtain ⟨c1, hc1, hc1d⟩ := List.mem_map.mp hmem
      have hc1d1 : c1.data = c0.data := hc1d
      exact ⟨pool1, hpool1, by rw [g1]; exact e1, c1, hc1, x, by rw [g2]; exact hx,
        by rw [g1, hc1d1]; exact e2⟩
    · exact ⟨pool0, mem_set_of_key_ne (fun a : impl.Pool => a.block_size_) pools i pool pool1
        pool0 hget hpool0 hkey, e1, c0, hc0, x, hx, e2⟩
  · intro block hblock hsize hpos1
    obtain ⟨h5, h6⟩ := I6 block (List.mem_of_mem_erase hblock) hsize hpos1
    refine ⟨by rw [g4]; exact h5, ?_⟩
    intro pool2 hpool2 c hc
    obtain ⟨p2, hp2, e1, e2, d2, hd2, e3⟩ := hdesc pool2 hpool2 c hc
    rw [← e1, ← e2, ← e3]
    exact h6 p2 hp2 d2 hd2

theorem safe_pools_big_deallocate (pools : List impl.Pool) (max_block_size : Nat)
    (m : Machine) (live : List Block) (p bytes alignment : Nat)
    (hsafe : safe_pools pools max_block_size m live)
    (hbig : ¬ max bytes alignment ≤ max_block_size)
    (hlive : (p, bytes, alignment) ∈ live) :
    safe_pools pools max_block_size (Upstream.Deallocate p bytes alignment m)
      (live.erase (p, bytes, alignment)) := by
  obtain ⟨I1, I3, I4, I5, I6⟩ := hsafe
  have hrsize : ¬ block_size (p, bytes, alignment) ≤ max_block_size := hbig
  have hlb : live_blocks (Upstream.Deallocate p bytes alignment m).log
      = (live_blocks m.log).erase (p, bytes) := live_blocks_dealloc _ _ _ _
  have hsub := pooled_addresses_erase max_block_size live (p, bytes, alignment)
  refine ⟨?_, I3, fun block hblock hsize => I4 block (List.mem_of_mem_erase hblock) hsize,
    I5.sublist (List.erase_sublist _ _), ?_⟩
  · intro pool hpool
    obtain ⟨h1, h2, h3⟩ := I1 pool hpool
    refine ⟨impl.Pool.ok_frame pool m _ _ _ h1 (fun c _ a _ _ => rfl)
      (fun c _ a ha => Or.inl (hsub a ha)), h2, ?_⟩
    intro c hc
    rw [hlb]
    refine (List.mem_erase_of_ne ?_).mpr (h3 c hc)
    intro heq
    have hsizepos : 0 < pool.blocks_per_chunk_ * pool.block_size_ :=
      Nat.mul_pos h1.2.1 h1.1
    simp only [Prod.mk.injEq] at heq
    obtain ⟨e1, e2⟩ := heq
    have := (I6 _ hlive hrsize (by show 0 < bytes; omega)).2 pool hpool c hc
    unfold ranges_disjoint at this
    simp only at this
    omega
  · intro block hblock hsize hpos
    obtain ⟨h5, h6⟩ := I6 block (List.mem_of_mem_erase hblock) hsize hpos
    refine ⟨?_, h6⟩
    rw [hlb]
    refine (List.mem_erase_of_ne ?_).mpr h5
    intro heq
    simp only [Prod.mk.injEq] at heq
    obtain ⟨e1, e2⟩ := heq
    have hrel := pairwise_erase_rel
      (fun a b => no_overlap (occupied max_block_size a) (occupied max_block_size b))
      (fun a b hab => no_overlap_symm _ _ hab) live _ block I5 hlive hblock
    have hocc1 : occupied max_block_size (p, bytes, alignment) = (p, bytes) := by
      unfold occupied
      rw [if_neg hrsize]
    have hocc2 : occupied max_block_size block = (p, bytes) := by
      unfold occupied
      rw [if_neg hsize, e1, e2]
    have hrel1 : no_overlap (p, bytes) (p, bytes) := by
      have hrel2 : no_overlap (occupied max_block_size (p, bytes, alignment))
          (occupied max_block_size block) := hrel
      rw [hocc1, hocc2] at hrel2
      exact hrel2
    unfold no_overlap ranges_disjoint at hrel1
    simp only at hrel1
    omega

end PoolResource

end utils

namespace utils

theorem bounded_bump_upstream_apart (log : List UpEvent) (size alignment p : Nat)
    (halign : 0 < alignment) (h : bounded_bump_upstream log size alignment = some p) :
    p + size < 2 ^ 64 ∧ ∀ block ∈ live_blocks log, ranges_disjoint (p, size) block := by
  unfold bounded_bump_upstream at h
  simp only at h
  split_ifs at h with hlt
  simp only [Option.some.injEq] at h
  have h1 := Nat.div_add_mod (bump_top log + alignment - 1) alignment
  have h2 := Nat.mod_lt (bump_top log + alignment - 1) halign
  rw [Nat.mul_comm] at h1
  refine ⟨by omega, ?_⟩
  intro block hblock
  unfold live_blocks at hblock
  rcases live_blocks_below_top log [] block hblock with h3 | h3
  · cases h3
  · right
    simp only
    omega

namespace PoolResource

theorem deallocate_to_pool_ok (self self1 : PoolResource) (p i : Nat) (pool : impl.Pool)
    (m m1 : Machine) (h : deallocate_to_pool self p i pool m = (.ok (), self1, m1)) :
    ∃ pool1, pool.Deallocate p m = (.ok (), pool1, m1) ∧
      self1.pools_ = self.pools_.set i pool1 ∧
      self1.max_block_size_ = self.max_block_size_ ∧
      self1.max_blocks_per_chunk_ = self.max_blocks_per_chunk_ := by
  unfold deallocate_to_pool at h
  rcases hr : pool.Deallocate p m with ⟨r, pool1, m2⟩
  simp only [hr, Prod.mk.injEq] at h
  obtain ⟨h1, h2, h3⟩ := h
  subst h1 h2 h3
  exact ⟨pool1, rfl, rfl, rfl, rfl⟩

theorem safe_pools_DoDeallocate (p bytes alignment : Nat) (self self1 : PoolResource)
    (m m1 : Machine) (live : List Block) (hsafe : safe self m live)
    (hlive : (p, bytes, alignment) ∈ live)
    (h : DoDeallocate p bytes alignment self m = (.ok (), self1, m1)) :
    safe_pools self1.pools_ self.max_block_size_ m1 (live.erase (p, bytes, alignment)) ∧
      self1.max_block_size_ = self.max_block_size_ ∧
      self1.max_blocks_per_chunk_ = self.max_blocks_per_chunk_ := by
  obtain ⟨hinv, _, _, hpools⟩ := hsafe
  have hsorted : self.pools_.Pairwise (fun a b => a.block_size_ < b.block_size_) := hinv.1
  unfold DoDeallocate at h
  simp only [] at h
  by_cases h0 : alignment = 0
  · rw [if_pos h0] at h
    exact absurd (congrArg Prod.fst h) (by simp)
  · rw [if_neg h0] at h
    by_cases h1 : max bytes alignment % alignment ≠ 0
    · rw [if_pos h1] at h
      exact absurd (congrArg Prod.fst h) (by simp)
    · rw [if_neg h1] at h
      by_cases h2 : max bytes alignment > self.max_block_size_
      · rw [if_pos h2] at h
        unfold deallocate_big_block at h
        simp only [] at h
        split at h
        · exact absurd (congrArg Prod.fst h) (by simp)
        · split at h
          · simp only [Prod.mk.injEq] at h
            obtain ⟨_, h3, h4⟩ := h
            subst h3 h4
            exact ⟨safe_pools_big_deallocate self.pools_ self.max_block_size_ m live p bytes
              alignment hpools (by omega) hlive, rfl, rfl⟩
          · exact absurd (congrArg Prod.fst h) (by simp)
      · rw [if_neg h2] at h
        have hpooled : max bytes alignment ≤ self.max_block_size_ := Nat.le_of_not_lt h2
        cases hl : self.last_dealloc_pool_ with
        | none =>
          rw [hl] at h
          exact absurd (congrArg Prod.fst h) (by simp)
        | some i =>
          rw [hl] at h
          simp only [] at h
          cases hget : self.pools_[i]? with
          | none =>
            rw [hget] at h
            exact absurd (congrArg Prod.fst h) (by simp)
          | some pool =>
            rw [hget] at h
            simp only [] at h
            by_cases h3 : pool.block_size_ = max bytes alignment
            · rw [if_pos h3] at h
              obtain ⟨pool1, g1, g2, g3, g4⟩ := deallocate_to_pool_ok self self1 p i pool m m1 h
              rw [g2]
              exact ⟨safe_pools_deallocate self.pools_ self.max_block_size_ m m1 live i pool
                pool1 p bytes alignment hsorted hpools hget h3 hpooled hlive g1, g3, g4⟩
            · rw [if_neg h3] at h
              cases hget2 : self.pools_[lower_bound
                  (fun a : impl.Pool => decide (a.block_size_ < max bytes alignment))
                  self.pools_]? with
              | none =>
                rw [hget2] at h
                exact absurd (congrArg Prod.fst h) (by simp)
              | some found =>
                rw [hget2] at h
                simp only [] at h
                by_cases h4 : found.block_size_ = max bytes alignment
                · rw [if_pos h4] at h
                  obtain ⟨pool1, g1, g2, g3, g4⟩ := deallocate_to_pool_ok _ self1 p _ found m
                    m1 h
                  rw [g2]
                  exact ⟨safe_pools_deallocate self.pools_ self.max_block_size_ m m1 live _
                    found pool1 p bytes alignment hsorted hpools hget2 h4 hpooled hlive g1,
                    g3, g4⟩
                · rw [if_neg h4] at h
                  exact absurd (congrArg Prod.fst h) (by simp)

theorem safe_DoDeallocate (p bytes alignment : Nat) (self self1 : PoolResource)
    (m m1 : Machine) (live : List Block) (hsafe : safe self m live)
    (hlive : (p, bytes, alignment) ∈ live)
    (h : DoDeallocate p bytes alignment self m = (.ok (), self1, m1)) :
    safe self1 m1 (live.erase (p, bytes, alignment)) ∧
      self1.max_block_size_ = self.max_block_size_ := by
  obtain ⟨g1, g2, g3⟩ := safe_pools_DoDeallocate p bytes alignment self self1 m m1 live hsafe
    hlive h
  have hinv := PoolResource.DoDeallocate_invariant p bytes alignment self m hsafe.1
  rw [h] at hinv
  exact ⟨⟨hinv, by rw [g3]; exact hsafe.2.1, by rw [g3]; exact hsafe.2.2.1,
    by rw [g2]; exact g1⟩, g2⟩

theorem safe_create (env : Env) (hmax : env.MaxBlocksInChunk ≤ 255)
    (max_blocks_per_chunk max_block_size : Nat) (self : PoolResource) (m : Machine)
    (h : create env max_blocks_per_chunk max_block_size = .ok self) :
    safe self m [] ∧ self.max_block_size_ = max_block_size := by
  have hinv := create_invariant env max_blocks_per_chunk max_block_size self h
  unfold create at h
  simp only [] at h
  split_ifs at h with h1 h2
  simp only [Except.ok.injEq] at h
  subst h
  refine ⟨⟨hinv, Nat.pos_of_ne_zero h1,
    Nat.le_trans (Nat.min_le_right _ _) hmax,
    (fun pool hp => by cases hp), (fun pool1 hp => by cases hp), (fun b hb => by cases hb),
    List.Pairwise.nil, (fun b hb => by cases hb)⟩, rfl⟩

theorem run_safe (env : Env)
    (hup : ∀ log size alignment p, 0 < alignment →
      env.upstream log size alignment = some p →
      p + size < 2 ^ 64 ∧ ∀ block ∈ live_blocks log, ranges_disjoint (p, size) block)
    (calls : List Call) :
    ∀ (self : PoolResource) (m : Machine) (live : List Block) (self1 : PoolResource)
      (m1 : Machine) (live1 : List Block), safe self m live →
      run env calls self m live = some (self1, m1, live1) →
      safe self1 m1 live1 ∧ self1.max_block_size_ = self.max_block_size_ := by
  induction calls with
  | nil =>
    intro self m live self1 m1 live1 hsafe h
    unfold run at h
    simp only [Option.some.injEq, Prod.mk.injEq] at h
    obtain ⟨h1, h2, h3⟩ := h
    subst h1 h2 h3
    exact ⟨hsafe, rfl⟩
  | cons call rest ih =>
    intro self m live self1 m1 live1 hsafe h
    cases call with
    | Allocate bytes alignment =>
      unfold run at h
      have hstep := safe_DoAllocate env hup bytes alignment self m live hsafe
      have hlim := (DoAllocate_limits env bytes alignment self m).1
      rcases hr : DoAllocate env bytes alignment self m with ⟨r, self2, m2⟩
      rw [hr] at h hstep hlim
      cases r with
      | ok p =>
        obtain ⟨g1, g2⟩ := ih self2 m2 _ self1 m1 live1 hstep h
        exact ⟨g1, g2.trans hlim⟩
      | error e =>
        cases e with
        | BadAlloc why =>
          obtain ⟨g1, g2⟩ := ih self2 m2 _ self1 m1 live1 hstep h
          exact ⟨g1, g2.trans hlim⟩
        | CheckFailed => cases h
        | Undefined => cases h
    | Deallocate p bytes alignment =>
      unfold run at h
      by_cases hlive : (p, bytes, alignment) ∈ live
      · rw [if_pos hlive] at h
        rcases hr : DoDeallocate p bytes alignment self m with ⟨r, self2, m2⟩
        rw [hr] at h
        cases r with
        | ok u =>
          obtain ⟨g1, g2⟩ := safe_DoDeallocate p bytes alignment self self2 m m2 live hsafe
            hlive hr
          obtain ⟨g3, g4⟩ := ih self2 m2 _ self1 m1 live1 g1 h
          exact ⟨g3, g4.trans g2⟩
        | error e => cases h
      · rw [if_neg hlive] at h
        cases h

theorem pooled_addresses_nodup (pools : List impl.Pool) (max_block_size : Nat) (m : Machine)
    (live : List Block) (hsafe : safe_pools pools max_block_size m live) :
    (pooled_addresses max_block_size live).Nodup := by
  have hpos := pooled_block_size_pos pools max_block_size m live hsafe
  obtain ⟨_, _, _, I5, _⟩ := hsafe
  unfold pooled_addresses
  rw [List.Nodup, List.pairwise_map]
  refine List.Pairwise.imp_of_mem ?_
    (I5.filter (fun block => decide (block_size block ≤ max_block_size)))
  intro a b ha hb hab heq
  rw [List.mem_filter, decide_eq_true_eq] at ha hb
  have hocc1 : occupied max_block_size a = (a.1, block_size a) := by
    unfold occupied
    rw [if_pos ha.2]
  have hocc2 : occupied max_block_size b = (a.1, block_size b) := by
    unfold occupied
    rw [if_pos hb.2, heq]
  have h1 := hpos a ha.1 ha.2
  have h2 := hpos b hb.1 hb.2
  rw [hocc1, hocc2] at hab
  unfold no_overlap ranges_disjoint at hab
  simp only at hab
  omega

end PoolResource

end utils

/-! ## C25: the live blocks of a `PoolResource` never overlap -/

namespace utils

namespace PoolResource

/-- C25: let upstream return, for every request with a non-zero alignment, a block that ends
inside the address space and overlaps no block that it has handed out and not been given
back, and let a chunk hold at most 255 blocks. Take a resource as its constructor leaves it
and any sequence of calls of `Allocate` and `Deallocate` in which every `Deallocate` returns
a block that is live, with the `bytes` and `alignment` it was allocated with, and in which
no `CHECK` fails and no behaviour is undefined. Then no two of the blocks that are live
after the calls overlap, no two live blocks of the pools share an address, and a further
call of `Allocate` that returns a block returns one that overlaps no live block and, when it
comes from a pool, is at the address of no live block of the pools. -/
theorem live_blocks_never_overlap (env : Env)
    (hup : ∀ log size alignment p, 0 < alignment →
      env.upstream log size alignment = some p →
      p + size < 2 ^ 64 ∧ ∀ block ∈ live_blocks log, ranges_disjoint (p, size) block)
    (hmax : env.MaxBlocksInChunk ≤ 255)
    (max_blocks_per_chunk max_block_size : Nat) (self0 : PoolResource) (m0 : Machine)
    (hcreate : create env max_blocks_per_chunk max_block_size = .ok self0)
    (calls : List Call) (self : PoolResource) (m : Machine) (live : List Block)
    (hrun : run env calls self0 m0 [] = some (self, m, live)) :
    live.Pairwise
        (fun a b => no_overlap (occupied max_block_size a) (occupied max_block_size b)) ∧
      (pooled_addresses max_block_size live).Nodup ∧
      ∀ bytes alignment p self1 m1,
        DoAllocate env bytes alignment self m = (.ok p, self1, m1) →
        (∀ block ∈ live,
          no_overlap (occupied max_block_size (p, bytes, alignment))
            (occupied max_block_size block)) ∧
        (max bytes alignment ≤ max_block_size → p ∉ pooled_addresses max_block_size live) := by
  obtain ⟨hsafe0, hsize0⟩ := safe_create env hmax max_blocks_per_chunk max_block_size self0 m0
    hcreate
  obtain ⟨hsafe, hsize⟩ := run_safe env hup calls self0 m0 [] self m live hsafe0 hrun
  have hmbs : self.max_block_size_ = max_block_size := hsize.trans hsize0
  rw [← hmbs]
  refine ⟨hsafe.2.2.2.2.2.2.1, pooled_addresses_nodup _ _ m live hsafe.2.2.2, ?_⟩
  intro bytes alignment p self1 m1 hcall
  have hstep := safe_DoAllocate env hup bytes alignment self m live hsafe
  have hlim := (DoAllocate_limits env bytes alignment self m).1
  rw [hcall] at hstep hlim
  have hsafe1 : safe self1 m1 ((p, bytes, alignment) :: live) := hstep
  have hlim1 : self1.max_block_size_ = self.max_block_size_ := hlim
  have hpair := hsafe1.2.2.2.2.2.2.1
  rw [hlim1, List.pairwise_cons] at hpair
  refine ⟨hpair.1, ?_⟩
  intro hpooled
  have hnodup := pooled_addresses_nodup _ _ m1 _ hsafe1.2.2.2
  rw [hlim1, pooled_addresses_cons_pooled _ _ _ hpooled, List.nodup_cons] at hnodup
  exact hnodup.1

theorem live_blocks_never_overlap_witness :
    create bounded_bump_env 2 64 = .ok ⟨[], [], none, none, 2, 64⟩ ∧
      (run bounded_bump_env
          [.Allocate 8 8, .Allocate 8 8, .Allocate 8 8, .Allocate 100 4, .Deallocate 4096 8 8,
            .Allocate 8 8]
          ⟨[], [], none, none, 2, 64⟩ Machine.initial []).map (fun state => state.2.2)
        = some [(4120, 8, 8), (4128, 100, 4), (4112, 8, 8), (4104, 8, 8)] ∧
      [((4120 : Nat), (8 : Nat), (8 : Nat)), (4128, 100, 4), (4112, 8, 8),
          (4104, 8, 8)].Pairwise
        (fun a b => no_overlap (occupied 64 a) (occupied 64 b)) ∧
      (pooled_addresses 64
        [((4120 : Nat), (8 : Nat), (8 : Nat)), (4128, 100, 4), (4112, 8, 8),
          (4104, 8, 8)]).Nodup :=
  have h := live_blocks_never_overlap bounded_bump_env
    (fun log size alignment p halign hp =>
      bounded_bump_upstream_apart log size alignment p halign hp)
    (by decide) 2 64 ⟨[], [], none, none, 2, 64⟩ Machine.initial rfl
    [.Allocate 8 8, .Allocate 8 8, .Allocate 8 8, .Allocate 100 4, .Deallocate 4096 8 8,
      .Allocate 8 8]
    _ _ [(4120, 8, 8), (4128, 100, 4), (4112, 8, 8), (4104, 8, 8)] rfl
  ⟨rfl, rfl, h.1, h.2.1⟩

end PoolResource

end utils
